import Mathlib

/-!
WAD archive engine (libWad): shallow embedding and verified properties

The development follows `src/libWad/Wad.cpp` and `src/libWad/Wad.h`.

Modelling conventions.

* A `char` and every byte of the archive image is a natural number; a
  `std::string` is a `List Nat` of its bytes (it may hold NUL bytes).
* `uint32_t` fields are natural numbers, reduced modulo `2 ^ 32` wherever the
  source performs arithmetic on them; `int` arguments are integers.
* A `Node*` is the address of the node inside the tree: the list of child
  positions leading from the root to it.  The `parent` back pointer of the
  source is the address without its last element and is not stored.
* Every function whose source can run into undefined behaviour (an access
  outside a vector, a null dereference, `top` or `pop` on an empty stack,
  signed overflow) returns an `Option`; `none` stands for such a run.
-/

namespace Project3

/-! ## Bytes and strings -/

/-- The byte of the character `/`. -/
def SLASH : Nat := 47

/-- Bytes of a string literal, for writing paths and names readably. -/
def ofString (s : String) : List Nat := s.toList.map Char.toNat

/-- The string `"_START"`. -/
def sSTART : List Nat := [95, 83, 84, 65, 82, 84]

/-- The string `"_END"`. -/
def sEND : List Nat := [95, 69, 78, 68]

/-- Source: `endsWith(str, suffix)`. -/
def endsWith (str suffix : List Nat) : Bool :=
  decide (suffix.length ≤ str.length) && (str.drop (str.length - suffix.length) == suffix)

/-- The loop of `norm`, run on the reversed string: while `s.size() > 1` and
`s.back() == '/'`, `pop_back`. -/
def popSlashes : List Nat → List Nat
  | c :: d :: rest => if c = SLASH then popSlashes (d :: rest) else c :: d :: rest
  | s => s

/-- Source: `norm(p)`. -/
def norm (p : List Nat) : List Nat :=
  if p = [] then p else (popSlashes p.reverse).reverse

/-- Source: `std::isdigit` on a byte. -/
def isDigit (c : Nat) : Bool := decide (48 ≤ c) && decide (c ≤ 57)

/-- The map-marker test written out four times in the source:
`size() == 4 && s[0] == 'E' && isdigit(s[1]) && s[2] == 'M' && isdigit(s[3])`. -/
def isMapMarker : List Nat → Bool
  | [a, b, c, d] => (a == 69) && isDigit b && (c == 77) && isDigit d
  | _ => false

/-- Little-endian bytes of a `uint32_t`. -/
def le32 (n : Nat) : List Nat :=
  [n % 256, n / 256 % 256, n / 65536 % 256, n / 16777216 % 256]

/-- The `uint32_t` read from the first four bytes of `bs` (little endian). -/
def ofLe32 (bs : List Nat) : Nat :=
  bs.getD 0 0 + 256 * bs.getD 1 0 + 65536 * bs.getD 2 0 + 16777216 * bs.getD 3 0

/-- Conversion of a `uint32_t` or `size_t` value below `2 ^ 32` to `int`. -/
def toInt32 (n : Nat) : Int :=
  if n % 4294967296 < 2147483648 then ((n % 4294967296 : Nat) : Int)
  else ((n % 4294967296 : Nat) : Int) - 4294967296

/-- Conversion of an `int` to `uint32_t`. -/
def toU32 (z : Int) : Nat := (z % 4294967296).toNat

/-- Source: `std::vector::insert(begin() + pos, xs.begin(), xs.end())`. -/
def spliceAt {α : Type} (l : List α) (pos : Nat) (xs : List α) : List α :=
  l.take pos ++ xs ++ l.drop pos

/-- Source: `memcpy(v.data() + pos, bs, bs.size())` into a vector. -/
def overwriteAt {α : Type} (l : List α) (pos : Nat) (bs : List α) : List α :=
  l.take pos ++ bs ++ l.drop (pos + bs.length)

/-! ## Data model (`Wad.h`) -/

/-- Source: `struct Header`. -/
structure Header where
  magic : List Nat
  count : Nat
  offset : Nat
deriving DecidableEq, Repr

/-- Source: `struct Descriptor`; `name` holds the eight bytes of `char name[8]`. -/
structure Descriptor where
  offset : Nat
  length : Nat
  name : List Nat
deriving DecidableEq, Repr

/-- Source: `struct Node`, without the `parent` back pointer. -/
structure Node where
  name : List Nat
  isDir : Bool
  offset : Nat
  length : Nat
  children : List Node
  descIndex : Nat
deriving Repr

/-- Source: the data members of `class Wad`. -/
structure Wad where
  header : Header
  fileData : List Nat
  descriptors : List Descriptor
  root : Node
deriving Repr

/-- Decidable equality of trees. -/
def Node.decEq : (a b : Node) → Decidable (a = b)
  | ⟨n1, d1, o1, l1, c1, i1⟩, ⟨n2, d2, o2, l2, c2, i2⟩ =>
    if h : n1 = n2 ∧ d1 = d2 ∧ o1 = o2 ∧ l1 = l2 ∧ i1 = i2 then
      match decEqList c1 c2 with
      | isTrue hc => isTrue (by obtain ⟨h1, h2, h3, h4, h5⟩ := h; subst h1 h2 h3 h4 h5 hc; rfl)
      | isFalse hc => isFalse (by intro e; injection e with _ _ _ _ e5 _; exact hc e5)
    else isFalse (by intro e; injection e with e1 e2 e3 e4 _ e6; exact h ⟨e1, e2, e3, e4, e6⟩)
where
  /-- Decidable equality of vectors of children. -/
  decEqList : (a b : List Node) → Decidable (a = b)
    | [], [] => isTrue rfl
    | [], _ :: _ => isFalse (by intro e; cases e)
    | _ :: _, [] => isFalse (by intro e; cases e)
    | x :: xs, y :: ys =>
      match Node.decEq x y, decEqList xs ys with
      | isTrue h1, isTrue h2 => isTrue (by subst h1 h2; rfl)
      | isFalse h1, _ => isFalse (by intro e; injection e with e1 _; exact h1 e1)
      | _, isFalse h2 => isFalse (by intro e; injection e with _ e2; exact h2 e2)

instance : DecidableEq Node := Node.decEq

deriving instance DecidableEq for Wad

/-- Source: `std::string name(d.name, strnlen(d.name, 8))`. -/
def descName (d : Descriptor) : List Nat :=
  (d.name.take 8).takeWhile (fun c => c != 0)

/-- Source: `memset(name, 0, 8); strncpy(name, s.c_str(), 8)`. -/
def encodeName (s : List Nat) : List Nat :=
  let c := (s.takeWhile (fun c => c != 0)).take 8
  c ++ List.replicate (8 - c.length) 0

/-- The sixteen bytes of a `Descriptor` in memory. -/
def serialize (d : Descriptor) : List Nat :=
  le32 d.offset ++ le32 d.length ++ d.name

/-- The `Descriptor` stored in the first sixteen bytes of `bs`. -/
def parseDescriptor (bs : List Nat) : Descriptor :=
  { offset := ofLe32 bs, length := ofLe32 (bs.drop 4), name := (bs.drop 8).take 8 }

/-! ## Tree addressing -/

/-- The node at an address. -/
def Node.get? : Node → List Nat → Option Node
  | n, [] => some n
  | n, k :: ks =>
    match n.children.get? k with
    | none => none
    | some c => c.get? ks

/-- Apply `f` to the node at an address. -/
def Node.modifyAt (f : Node → Node) : List Nat → Node → Node
  | [], n => f n
  | k :: ks, n => { n with children := n.children.modify (Node.modifyAt f ks) k }

/-- Source: `children.push_back(c)`. -/
def Node.pushChild (c : Node) (n : Node) : Node :=
  { n with children := n.children ++ [c] }

/-! ## Loader (`Wad::loadWad`) -/

/-- Source: `Wad::loadWad`, the local variables of the tree-building loop:
the tree under construction, `dirStack` (top first) and `mapCounter`. -/
structure LoadState where
  root : Node
  dirStack : List (List Nat)
  mapCounter : Nat
deriving DecidableEq, Repr

/-- Source: `dirStack.top()->children.push_back(c)`; yields the new tree and
the address of `c`.  Undefined on an empty stack. -/
def attachToTop (st : LoadState) (c : Node) : Option (Node × List Nat) :=
  match st.dirStack with
  | [] => none
  | top :: _ =>
    match st.root.get? top with
    | none => none
    | some p => some (st.root.modifyAt (Node.pushChild c) top, top ++ [p.children.length])

/-- Source: `dirStack.pop()`.  Undefined on an empty stack. -/
def popDir (st : LoadState) : Option LoadState :=
  match st.dirStack with
  | [] => none
  | _ :: rest => some { st with dirStack := rest }

/-- Source: `Wad::loadWad`, one iteration of the loop over the descriptors,
for the descriptor `d` at index `i`. -/
def loadStep (i : Nat) (d : Descriptor) (st : LoadState) : Option LoadState :=
  let name := descName d
  if isMapMarker name then
    match attachToTop st
        { name := name, isDir := true, offset := d.offset, length := d.length,
          children := [], descIndex := i } with
    | none => none
    | some (root, addr) =>
      some { root := root, dirStack := addr :: st.dirStack, mapCounter := 10 }
  else if endsWith name sSTART then
    match attachToTop st
        { name := name.take (name.length - 6), isDir := true, offset := d.offset,
          length := d.length, children := [], descIndex := i } with
    | none => none
    | some (root, addr) =>
      some { root := root, dirStack := addr :: st.dirStack, mapCounter := st.mapCounter }
  else if endsWith name sEND then
    popDir st
  else
    match attachToTop st
        { name := name, isDir := false, offset := d.offset, length := d.length,
          children := [], descIndex := i } with
    | none => none
    | some (root, _) =>
      if 0 < st.mapCounter then
        if st.mapCounter - 1 = 0 then
          popDir { root := root, dirStack := st.dirStack, mapCounter := 0 }
        else
          some { root := root, dirStack := st.dirStack, mapCounter := st.mapCounter - 1 }
      else
        some { root := root, dirStack := st.dirStack, mapCounter := st.mapCounter }

/-- Source: `Wad::loadWad`, the loop `for (i = 0; i < descriptors.size(); ++i)`,
from index `i` on. -/
def loadLoop : List Descriptor → Nat → LoadState → Option LoadState
  | [], _, st => some st
  | d :: ds, i, st =>
    match loadStep i d st with
    | none => none
    | some st1 => loadLoop ds (i + 1) st1

/-- Source: `new Node { "/", true, 0, 0, nullptr, {}, 0 }`. -/
def rootNode : Node :=
  { name := [SLASH], isDir := true, offset := 0, length := 0, children := [], descIndex := 0 }

/-- The tree the loader builds from a descriptor vector. -/
def buildTree (descriptors : List Descriptor) : Option Node :=
  match loadLoop descriptors 0 { root := rootNode, dirStack := [[]], mapCounter := 0 } with
  | none => none
  | some st => some st.root

/-- Source: the `memcpy` of `header.count` descriptors from
`fileData.data() + header.offset`. -/
def readDescriptors (data : List Nat) (offset count : Nat) : List Descriptor :=
  (List.range count).map (fun i => parseDescriptor (data.drop (offset + 16 * i)))

/-- Source: `Wad::loadWad`.  The argument is the content of the file, or
`none` when it cannot be opened.  The value `some none` is the `nullptr`
result; `none` is a run that reads outside `fileData`. -/
def loadWad (file : Option (List Nat)) : Option (Option Wad) :=
  match file with
  | none => some none
  | some data =>
    if data.length < 12 then none
    else
      let header : Header :=
        { magic := data.take 4, count := ofLe32 (data.drop 4), offset := ofLe32 (data.drop 8) }
      if data.length < header.offset + header.count * 16 then none
      else
        let descriptors := readDescriptors data header.offset header.count
        match buildTree descriptors with
        | none => none
        | some root =>
          some (some { header := header, fileData := data, descriptors := descriptors,
                       root := root })

/-! ## Path resolver (`Wad::resolve`) -/

/-- Source: the `for (Node* ch : cur->children)` search of `Wad::resolve`: the
first child named `part`, with its position (counted from `k`). -/
def findChild (part : List Nat) : List Node → Nat → Option (Nat × Node)
  | [], _ => none
  | c :: cs, k => if c.name = part then some (k, c) else findChild part cs (k + 1)

/-- Source: the `while (pos < path.size())` loop of `Wad::resolve`.  `rest` is
the part of the path from `pos` on, `cur` the current node with its address.
Every iteration consumes at least one byte of `rest`, so `rest.length`
iterations are enough. -/
def resolveLoop : Nat → List Nat × Node → List Nat → Option (List Nat × Node)
  | 0, cur, _ => some cur
  | fuel + 1, cur, rest =>
    if rest = [] then some cur
    else
      let part := rest.takeWhile (fun c => c != SLASH)
      let after := rest.dropWhile (fun c => c != SLASH)
      if part = [] then resolveLoop fuel cur (after.drop 1)
      else
        match findChild part cur.2.children 0 with
        | none => none
        | some (k, ch) =>
          if after = [] then some (cur.1 ++ [k], ch)
          else resolveLoop fuel (cur.1 ++ [k], ch) (after.drop 1)

/-- Source: `Wad::resolve`; `none` is the `nullptr` result.  A found node is
returned with its address. -/
def resolve (root : Node) (path : List Nat) : Option (List Nat × Node) :=
  if path = [] ∨ path.head? ≠ some SLASH then none
  else if path = [SLASH] then some ([], root)
  else resolveLoop path.length ([], root) (path.drop 1)

/-! ## Queries -/

/-- Source: `Wad::getMagic`. -/
def getMagic (w : Wad) : List Nat := w.header.magic.take 4

/-- Source: `Wad::isContent`. -/
def isContent (w : Wad) (path : List Nat) : Bool :=
  let clean := norm path
  if clean = [] then false
  else
    match resolve w.root clean with
    | none => false
    | some (_, n) => !n.isDir

/-- Source: `Wad::isDirectory`. -/
def isDirectory (w : Wad) (path : List Nat) : Bool :=
  let clean := norm path
  if clean = [] then false
  else
    match resolve w.root clean with
    | none => false
    | some (_, n) => n.isDir

/-- Source: `Wad::getSize`. -/
def getSize (w : Wad) (path : List Nat) : Int :=
  let clean := norm path
  if clean = [] then 0
  else
    match resolve w.root clean with
    | none => -1
    | some (_, n) => if n.isDir then -1 else toInt32 n.length

/-- Source: `Wad::getContents`.  `buffer` is the caller's array (`none` for a
null pointer); the result is the returned `int` and the array afterwards.
`none` is a run whose `memcpy` leaves `fileData` or the buffer. -/
def getContents (w : Wad) (path : List Nat) (buffer : Option (List Nat))
    (length offset : Int) : Option (Int × Option (List Nat)) :=
  let clean := norm path
  if clean = [] then some (0, buffer)
  else
    match resolve w.root clean, buffer with
    | none, _ => some (-1, buffer)
    | some _, none => some (-1, buffer)
    | some (_, node), some buf =>
      if node.isDir ∨ length ≤ 0 then some (-1, buffer)
      else if node.length ≤ toU32 offset then some (0, buffer)
      else
        let available : Nat := node.length - toU32 offset
        let nbytes : Nat := if length < (available : Int) then length.toNat else available
        let start : Int := (node.offset : Int) + offset
        if start < 0 ∨ (w.fileData.length : Int) < start + nbytes ∨ buf.length < nbytes then none
        else
          some (toInt32 nbytes,
                some ((w.fileData.drop start.toNat).take nbytes ++ buf.drop nbytes))

/-- Source: `Wad::getDirectory`.  `directory` is the caller's vector (`none`
for a null pointer); the result is the returned `int` and the vector
afterwards. -/
def getDirectory (w : Wad) (path : List Nat) (directory : Option (List (List Nat))) :
    Int × Option (List (List Nat)) :=
  match directory with
  | none => (-1, none)
  | some _ =>
    let clean := norm path
    if clean = [] then (-1, some [])
    else
      match resolve w.root clean with
      | none => (-1, some [])
      | some (_, node) =>
        if !node.isDir then (-1, some [])
        else
          let names := node.children.map (fun c => c.name)
          ((names.length : Int), some names)

/-! ## Mutations -/

/-- Source: `cleaned.find_last_of('/')`; `none` is `npos`. -/
def findLastSlash (s : List Nat) : Option Nat :=
  let k := (s.reverse.takeWhile (fun c => c != SLASH)).length
  if k = s.length then none else some (s.length - 1 - k)

/-- Source: the split of `createDirectory` and `createFile`:
`slash = cleaned.find_last_of('/')`,
`parentPath = (slash == 0) ? "/" : cleaned.substr(0, slash)` and
`cleaned.substr(slash + 1)`.  With `npos` the `int slash` is `-1`, so both
substrings are the whole string. -/
def splitPath (cleaned : List Nat) : List Nat × List Nat :=
  match findLastSlash cleaned with
  | none => (cleaned, cleaned)
  | some slash => (if slash = 0 then [SLASH] else cleaned.take slash, cleaned.drop (slash + 1))

/-- Source: the `while (insertPos < descriptors.size())` scan for the
descriptor named `endTag`; `ds` are the descriptors from `pos` on.  The result
is the index of the first match, or `descriptors.size()`. -/
def scanEnd (endTag : List Nat) : List Descriptor → Nat → Nat
  | [], pos => pos
  | d :: ds, pos => if descName d = endTag then pos else scanEnd endTag ds (pos + 1)

/-- Source: "Calculate where to insert descriptors" of `createDirectory` and
`createFile`, for the parent at address `addr`.  `none` is the early `return`
taken when no `<PARENT>_END` follows the parent. -/
def findInsertPos (descriptors : List Descriptor) (addr : List Nat) (parent : Node) :
    Option Nat :=
  if addr = [] then some descriptors.length
  else
    let start := parent.descIndex + 1
    let insertPos := scanEnd (parent.name ++ sEND) (descriptors.drop start) start
    if insertPos = descriptors.length then none else some insertPos

/-- Source: the "Adjust descIndex" traversal: every node of the tree (the root
included) whose `descIndex >= insertPos` gets `descIndex += k`. -/
def Node.shift (insertPos k : Nat) : Node → Node
  | ⟨name, isDir, offset, length, children, descIndex⟩ =>
    ⟨name, isDir, offset, length, shiftList insertPos k children,
      if insertPos ≤ descIndex then descIndex + k else descIndex⟩
where
  /-- The traversal over a vector of children. -/
  shiftList (insertPos k : Nat) : List Node → List Node
    | [] => []
    | c :: cs => Node.shift insertPos k c :: shiftList insertPos k cs

/-- Source: "Keep children in descriptor order": skip the children whose
`descIndex` is smaller than that of `c`, insert `c` there. -/
def insertByIndex (c : Node) : List Node → List Node
  | [] => [c]
  | x :: xs => if x.descIndex < c.descIndex then x :: insertByIndex c xs else c :: x :: xs

/-- Source: `vec.insert(pos, dir)` on `parent->children`, at the position
found by `insertByIndex`. -/
def addChild (new : Node) (p : Node) : Node :=
  { p with children := insertByIndex new p.children }

/-- Source: the common tail of `createDirectory` and `createFile`: insert the
new descriptors `ds` at `insertPos`, add their number to `header.count`, shift
the `descIndex` of the nodes, insert the new node under the parent, splice the
raw bytes into `fileData` and copy `header.count` to bytes 4..8.  `none` is an
insertion outside a vector. -/
def insertEntries (w : Wad) (addr : List Nat) (insertPos : Nat) (ds : List Descriptor)
    (newNode : Node) : Option Wad :=
  if w.descriptors.length < insertPos then none
  else
    let descriptors := spliceAt w.descriptors insertPos ds
    let count := (w.header.count + ds.length) % 4294967296
    let root := (w.root.shift insertPos ds.length).modifyAt (addChild newNode) addr
    let bytePos := w.header.offset + insertPos * 16
    if w.fileData.length < bytePos then none
    else
      let data := spliceAt w.fileData bytePos (ds.map serialize).flatten
      if data.length < 8 then none
      else
        some { header := { w.header with count := count },
               fileData := overwriteAt data 4 (le32 count),
               descriptors := descriptors,
               root := root }

/-- Source: `Wad::createDirectory`.  `none` is a run with undefined behaviour
(the parent is dereferenced without a null check). -/
def createDirectory (w : Wad) (path : List Nat) : Option Wad :=
  let cleaned := norm path
  if cleaned = [] ∨ cleaned = [SLASH] then some w
  else
    let parentPath := (splitPath cleaned).1
    let dirName := (splitPath cleaned).2
    if dirName = [] ∨ 2 < dirName.length then some w
    else
      let cleanParent := norm parentPath
      if cleanParent = [] then some w
      else
        match resolve w.root cleanParent with
        | none => none
        | some (addr, parent) =>
          if isMapMarker parent.name then some w
          else if parent.children.any (fun c => c.name == dirName) then some w
          else
            match findInsertPos w.descriptors addr parent with
            | none => some w
            | some insertPos =>
              insertEntries w addr insertPos
                [{ offset := 0, length := 0, name := encodeName (dirName ++ sSTART) },
                 { offset := 0, length := 0, name := encodeName (dirName ++ sEND) }]
                { name := dirName, isDir := true, offset := 0, length := 0, children := [],
                  descIndex := insertPos }

/-- Source: `Wad::createFile`. -/
def createFile (w : Wad) (path : List Nat) : Option Wad :=
  let cleaned := norm path
  if cleaned = [] ∨ cleaned = [SLASH] then some w
  else
    let parentPath := (splitPath cleaned).1
    let fileName := (splitPath cleaned).2
    if fileName = [] ∨ 8 < fileName.length then some w
    else if isMapMarker fileName then some w
    else
      match resolve w.root parentPath with
      | none => some w
      | some (addr, parent) =>
        if !parent.isDir then some w
        else if isMapMarker parentPath then some w
        else if parent.children.any (fun c => c.name == fileName) then some w
        else
          match findInsertPos w.descriptors addr parent with
          | none => some w
          | some insertPos =>
            insertEntries w addr insertPos
              [{ offset := 0, length := 0, name := encodeName fileName }]
              { name := fileName, isDir := false, offset := 0, length := 0, children := [],
                descIndex := insertPos }

/-- Source: `Wad::writeToFile`.  `buffer` is the caller's array (`none` for a
null pointer); the result is the returned `int` and the engine afterwards.
`none` is a run with undefined behaviour: `offset + length` overflows `int`,
the buffer holds fewer than `length` bytes, or an access leaves a vector. -/
def writeToFile (w : Wad) (path : List Nat) (buffer : Option (List Nat))
    (length offset : Int) : Option (Int × Wad) :=
  match buffer with
  | none => some (-1, w)
  | some buf =>
    if length ≤ 0 ∨ offset < 0 then some (-1, w)
    else
      match resolve w.root path with
      | none => some (-1, w)
      | some (addr, node) =>
        if node.isDir then some (-1, w)
        else if node.length ≠ 0 then some (-1, w)
        else if 2147483648 ≤ offset + length then none
        else
          let lumpSize : Nat := toU32 (offset + length)
          if buf.length < length.toNat then none
          else
            let lumpData := List.replicate offset.toNat 0 ++ buf.take length.toNat
            let insertPos := w.header.offset
            if w.fileData.length < insertPos then none
            else
              let data1 := spliceAt w.fileData insertPos lumpData
              let hoff := (w.header.offset + lumpSize) % 4294967296
              if data1.length < 12 then none
              else
                let data2 := overwriteAt data1 8 (le32 hoff)
                match w.descriptors.get? node.descIndex with
                | none => none
                | some d0 =>
                  let d : Descriptor := { d0 with offset := insertPos % 4294967296,
                                                  length := lumpSize }
                  let descByte := hoff + node.descIndex * 16
                  if data2.length < descByte + 16 then none
                  else
                    some (length,
                      { header := { w.header with offset := hoff },
                        fileData := overwriteAt data2 descByte (serialize d),
                        descriptors := w.descriptors.set node.descIndex d,
                        root := w.root.modifyAt
                          (fun n => { n with offset := d.offset, length := d.length }) addr })

/-! ## Calls in sequence -/

/-- A call of one of the three mutating operations. -/
inductive Op where
  | mkdir (path : List Nat)
  | mkfile (path : List Nat)
  | write (path : List Nat) (buffer : Option (List Nat)) (length offset : Int)
deriving DecidableEq, Repr

/-- The engine after one call; `none` when the call has undefined behaviour. -/
def step (w : Wad) : Op → Option Wad
  | .mkdir path => createDirectory w path
  | .mkfile path => createFile w path
  | .write path buffer length offset => (writeToFile w path buffer length offset).map (·.2)

/-- The engine after a sequence of calls. -/
def run (w : Wad) : List Op → Option Wad
  | [] => some w
  | op :: ops =>
    match step w op with
    | none => none
    | some w1 => run w1 ops

/-! ## Specification vocabulary -/

/-- The non-empty components of a path, split at `/`; `acc` is the component
being read. -/
def comps : List Nat → List Nat → List (List Nat)
  | acc, [] => if acc = [] then [] else [acc]
  | acc, c :: cs =>
    if c = SLASH then (if acc = [] then comps [] cs else acc :: comps [] cs)
    else comps (acc ++ [c]) cs

/-- Descend from a node (given with its address) along a list of component
names, taking at each step the first child of that name. -/
def walk : List Nat × Node → List (List Nat) → Option (List Nat × Node)
  | cur, [] => some cur
  | cur, c :: cs =>
    match findChild c cur.2.children 0 with
    | none => none
    | some (k, ch) => walk (cur.1 ++ [k], ch) cs

/-! ## Example archives -/

/-- An archive image with one lump `DATA` holding the five bytes `HELLO`. -/
def exImage : List Nat :=
  ofString "PWAD" ++ le32 1 ++ le32 17 ++ ofString "HELLO" ++
    le32 12 ++ le32 5 ++ ofString "DATA" ++ [0, 0, 0, 0]

/-- The lump node of `exImage`. -/
def exLump : Node :=
  { name := ofString "DATA", isDir := false, offset := 12, length := 5, children := [],
    descIndex := 0 }

/-- The engine state loaded from `exImage`. -/
def exWad : Wad :=
  { header := { magic := ofString "PWAD", count := 1, offset := 17 },
    fileData := exImage,
    descriptors := [{ offset := 12, length := 5, name := ofString "DATA" ++ [0, 0, 0, 0] }],
    root := { rootNode with children := [exLump] } }

/-- The engine state with an empty archive: no descriptors, twelve header bytes. -/
def emptyWad : Wad :=
  { header := { magic := ofString "PWAD", count := 0, offset := 12 },
    fileData := ofString "PWAD" ++ le32 0 ++ le32 12,
    descriptors := [],
    root := rootNode }

/-- The engine `loadWad` returns for an image, `emptyWad` when it returns none. -/
def loaded (image : List Nat) : Wad :=
  match loadWad (some image) with
  | some (some w) => w
  | _ => emptyWad

/-- The sixteen descriptor bytes of an entry with the given offset, length and name. -/
def entryBytes (offset length : Nat) (name : String) : List Nat :=
  le32 offset ++ le32 length ++ encodeName (ofString name)

/-- Scenario S1: the archive with the two descriptors `F1_START`, `F1_END`. -/
def s1Image : List Nat :=
  ofString "PWAD" ++ le32 2 ++ le32 12 ++ entryBytes 0 0 "F1_START" ++ entryBytes 0 0 "F1_END"

/-- Scenario S4: the archive with the marker `E1M1` followed by the ten lumps
`L0` .. `L9`, each of length 0. -/
def s4Image : List Nat :=
  ofString "PWAD" ++ le32 11 ++ le32 12 ++ entryBytes 0 0 "E1M1" ++
    entryBytes 0 0 "L0" ++ entryBytes 0 0 "L1" ++ entryBytes 0 0 "L2" ++
    entryBytes 0 0 "L3" ++ entryBytes 0 0 "L4" ++ entryBytes 0 0 "L5" ++
    entryBytes 0 0 "L6" ++ entryBytes 0 0 "L7" ++ entryBytes 0 0 "L8" ++
    entryBytes 0 0 "L9"

/-- Every node strictly below `n` satisfies `P`. -/
def Node.allBelow (P : Node → Bool) : Node → Bool
  | ⟨_, _, _, _, children, _⟩ => allList P children
where
  /-- Every node of a vector of subtrees satisfies `P`. -/
  allList (P : Node → Bool) : List Node → Bool
    | [] => true
    | c :: cs => P c && Node.allBelow P c && allList P cs

/-- The bytes `image[a .. a + k)`. -/
def slice (image : List Nat) (a k : Nat) : List Nat := (image.drop a).take k

/-- The descriptor table is mirrored in the image: for every `i`, the sixteen
bytes at `offset + 16 * i` are the serialization of `descriptors[i]`. -/
def TableMirrored (image : List Nat) (offset : Nat) (descriptors : List Descriptor) : Prop :=
  ∀ i, i < descriptors.length →
    some (slice image (offset + 16 * i) 16) = descriptors[i]?.map serialize

instance (image : List Nat) (offset : Nat) (descriptors : List Descriptor) :
    Decidable (TableMirrored image offset descriptors) := by
  unfold TableMirrored; infer_instance

/-- Image/mirror coherence of an engine state: `header.count` is the length of
the descriptor vector, bytes 4..8 and 8..12 of the image are the little-endian
`header.count` and `header.offset`, the descriptor table lies inside the image
at `header.offset` and is mirrored there, and every name field has its eight
bytes. -/
def Coherent (w : Wad) : Prop :=
  w.header.count = w.descriptors.length ∧
  w.header.offset + 16 * w.descriptors.length ≤ w.fileData.length ∧
  slice w.fileData 4 4 = le32 w.header.count ∧
  slice w.fileData 8 4 = le32 w.header.offset ∧
  (∀ d ∈ w.descriptors, d.name.length = 8) ∧
  TableMirrored w.fileData w.header.offset w.descriptors

instance (w : Wad) : Decidable (Coherent w) := by
  unfold Coherent; infer_instance

/-- Every non-root node refers to an entry of the descriptor vector. -/
def IndicesValid (w : Wad) : Prop :=
  w.root.allBelow (fun n => decide (n.descIndex < w.descriptors.length)) = true

instance (w : Wad) : Decidable (IndicesValid w) := by
  unfold IndicesValid; infer_instance

/-- An archive whose header says the descriptor table starts at byte 8, inside
the header: bytes 8..12 are at once `header.offset` and the offset field of
the only descriptor, the empty lump `a`. -/
def ovImage : List Nat :=
  ofString "PWAD" ++ le32 1 ++ le32 8 ++ le32 0 ++ encodeName (ofString "a")

/-- An archive with one empty lump `a` and no payload. -/
def e1Image : List Nat :=
  ofString "PWAD" ++ le32 1 ++ le32 12 ++ entryBytes 0 0 "a"

/-- The node of the empty lump of `e1Image` and of `ovImage`, stored at `offset`. -/
def emptyLump (offset : Nat) : Node :=
  { name := ofString "a", isDir := false, offset := offset, length := 0, children := [],
    descIndex := 0 }

/-- The tree `root1` is `root` after the tree part of a successful
`createDirectory` or `createFile`: indices shifted, one new child, whose name
no sibling carries, inserted under the node at `addr`. -/
def InsertedChild (root root1 : Node) : Prop :=
  ∃ addr parent pos k new, root.get? addr = some parent ∧
    (∀ c ∈ parent.children, c.name ≠ new.name) ∧
    root1 = (root.shift pos k).modifyAt (addChild new) addr

/-- The path resolves to a lump that has been written: a non-directory node of
length different from 0. -/
def Written (w : Wad) (path : List Nat) : Prop :=
  ∃ addr node, resolve w.root path = some (addr, node) ∧ node.isDir = false ∧ node.length ≠ 0

/-- The engine of `e1Image` after `writeToFile("/a", "AB", 2, 0)`. -/
def e1Written : Wad :=
  match writeToFile (loaded e1Image) (ofString "/a") (some (ofString "AB")) 2 0 with
  | some (_, w) => w
  | none => emptyWad

/-- The engine `e1Written` after `createFile("/b")` and `createDirectory("/d")`. -/
def e1Later : Wad :=
  match run e1Written [Op.mkfile (ofString "/b"), Op.mkdir (ofString "/d")] with
  | some w => w
  | none => emptyWad

/-- The directory node `F1` of scenario S1. -/
def s1Dir : Node :=
  { name := ofString "F1", isDir := true, offset := 0, length := 0, children := [],
    descIndex := 0 }

/-- The path `/a\0b`: a final component of three bytes, the second one NUL. -/
def nulPath : List Nat := [SLASH, 97, 0, 98]

/-- An archive with two empty lumps `a` and `b` and no payload. -/
def wrapImage : List Nat :=
  ofString "PWAD" ++ le32 2 ++ le32 12 ++ entryBytes 0 0 "a" ++ entryBytes 0 0 "b"

/-- The node of the empty lump `b` of `wrapImage`. -/
def wrapLumpB : Node :=
  { name := ofString "b", isDir := false, offset := 0, length := 0, children := [],
    descIndex := 1 }

/-- Two writes of one byte at offset `2 ^ 31 - 2`, one to each lump of
`wrapImage`: each makes a lump of `2 ^ 31 - 1` bytes. -/
def wrapOps : List Op :=
  [Op.write (ofString "/a") (some [1]) 1 2147483646,
   Op.write (ofString "/b") (some [1]) 1 2147483646]

/-- The marker rules of the spec (4.1), as an interpretation of one descriptor
name: a map-marker name gives a directory of that name, a name ending in
`_START` a directory named by the part before `_START`, a name ending in
`_END` no node, any other name a file of that name.  The result is the name
and the directory flag of the node. -/
def interpretName (name : List Nat) : Option (List Nat × Bool) :=
  if isMapMarker name then some (name, true)
  else if endsWith name sSTART then some (name.take (name.length - 6), true)
  else if endsWith name sEND then none
  else some (name, false)

/-- The node agrees with the descriptor its `descIndex` refers to: the marker
rules applied to the descriptor name give the name and kind of the node, the
descriptor is not an `_END` descriptor, and offset and length are equal. -/
def agreesWith (descriptors : List Descriptor) (n : Node) : Bool :=
  match descriptors[n.descIndex]? with
  | none => false
  | some d =>
    (interpretName (descName d) == some (n.name, n.isDir)) &&
      !(endsWith (descName d) sEND) && (n.offset == d.offset) && (n.length == d.length)

/-- A plain lump name: neither a map marker nor a name ending in `_START` or
`_END`. -/
def isPlain (name : List Nat) : Bool :=
  !isMapMarker name && !endsWith name sSTART && !endsWith name sEND

/-- Source: `new Node { name, false, d.offset, d.length }` with `descIndex = i`,
the node of a lump. -/
def fileNode (i : Nat) (d : Descriptor) : Node :=
  { name := descName d, isDir := false, offset := d.offset, length := d.length,
    children := [], descIndex := i }

/-- The nodes of consecutive lump descriptors, the first one at index `i`. -/
def fileNodes : Nat → List Descriptor → List Node
  | _, [] => []
  | i, d :: ds => fileNode i d :: fileNodes (i + 1) ds

/-- Source: `new Node { name, true, d.offset, d.length }` with `descIndex = i`,
the node of a map marker, here with its children. -/
def mapNode (i : Nat) (d : Descriptor) (children : List Node) : Node :=
  { name := descName d, isDir := true, offset := d.offset, length := d.length,
    children := children, descIndex := i }

/-- The loader state before the first descriptor. -/
def initState : LoadState := { root := rootNode, dirStack := [[]], mapCounter := 0 }

/-- Append a vector of nodes to the children of a node. -/
def appendChildren (cs : List Node) (p : Node) : Node :=
  { p with children := p.children ++ cs }

/-- The marker descriptor `E1M1` of scenario S4. -/
def s4Marker : Descriptor := { offset := 0, length := 0, name := encodeName (ofString "E1M1") }

/-- The ten lump descriptors `L0` .. `L9` of scenario S4. -/
def s4Lumps : List Descriptor :=
  (List.range 10).map
    (fun j => { offset := 0, length := 0, name := encodeName [76, 48 + j] })

/-! ## The marker-reconstructed view -/

/-- One entry of the marker serialization of a tree: the descriptor name, and
the offset and length recorded in the node (`none` for an `_END` entry, whose
offset and length no node records). -/
structure Item where
  name : List Nat
  info : Option (Nat × Nat)
deriving DecidableEq, Repr

/-- The descriptor sequence a tree stands for under the marker rules: a lump is
one entry; a map directory is its marker followed by its lumps; a namespace
directory is `<name>_START`, its content, `<name>_END`. -/
def flatNode : Node → List Item
  | ⟨name, isDir, offset, length, children, _⟩ =>
    if !isDir then [⟨name, some (offset, length)⟩]
    else if isMapMarker name then ⟨name, some (offset, length)⟩ :: flatList children
    else ⟨name ++ sSTART, some (offset, length)⟩ :: (flatList children ++ [⟨name ++ sEND, none⟩])
where
  /-- The descriptor sequence of a vector of subtrees. -/
  flatList : List Node → List Item
    | [] => []
    | c :: cs => flatNode c ++ flatList cs

/-- The node is a lump with a plain name of at most 8 bytes without NUL. -/
def isLump (n : Node) : Bool :=
  !n.isDir && n.children.isEmpty && isPlain n.name && decide (n.name.length ≤ 8) &&
    !n.name.contains 0

/-- Well-formedness of a subtree for the marker rules: a lump has a plain name
of at most 8 bytes without NUL and no children; a map directory has exactly
ten children, all lumps; a namespace directory has a name of at most 2 bytes
without NUL, a well-formed content, and no entry of its content is named
`<name>_END`. -/
def wfNode : Node → Bool
  | ⟨name, isDir, _, _, children, _⟩ =>
    if !isDir then
      children.isEmpty && isPlain name && decide (name.length ≤ 8) && !name.contains 0
    else if isMapMarker name then
      decide (children.length = 10) && children.all isLump
    else
      decide (name.length ≤ 2) && !name.contains 0 && wfList children &&
        !((flatNode.flatList children).map (fun it => it.name)).contains (name ++ sEND)
where
  /-- Well-formedness of a vector of subtrees. -/
  wfList : List Node → Bool
    | [] => true
    | c :: cs => wfNode c && wfList cs

/-- The `descIndex` values of a subtree are the positions of its entries in
the serialization, the subtree being serialized from position `i` on. -/
def idxNode (i : Nat) : Node → Bool
  | ⟨_, _, _, _, children, descIndex⟩ =>
    (descIndex == i) && idxList (i + 1) children
where
  /-- The same for a vector of subtrees serialized from position `i` on. -/
  idxList (i : Nat) : List Node → Bool
    | [] => true
    | c :: cs => idxNode i c && idxList (i + (flatNode c).length) cs

/-- The descriptor carries the name of the entry and, for an entry that makes a
node, the node's offset and length. -/
def itemMatches (it : Item) (d : Descriptor) : Bool :=
  (descName d == it.name) &&
    (match it.info with
     | none => true
     | some (offset, length) => (d.offset == offset) && (d.length == length))

/-- The descriptor vector is, entry by entry, the given serialization. -/
def matchItems : List Item → List Descriptor → Bool
  | [], [] => true
  | it :: its, d :: ds => itemMatches it d && matchItems its ds
  | _, _ => false

/-- The engine's tree and descriptor vector agree under the marker rules: the
tree below the root is well formed, its `descIndex` values are the positions
in its serialization, and the descriptor vector is that serialization. -/
def Good (w : Wad) : Prop :=
  wfNode.wfList w.root.children = true ∧ idxNode.idxList 0 w.root.children = true ∧
    matchItems (flatNode.flatList w.root.children) w.descriptors = true

instance (w : Wad) : Decidable (Good w) := by
  unfold Good; infer_instance

/-- The names of the nodes passed on the way from `n` down to the address
`addr`: the node at `addr` included, `n` itself not. -/
def namesBelow : Node → List Nat → List (List Nat)
  | _, [] => []
  | n, k :: ks =>
    match n.children.get? k with
    | none => []
    | some c => c.name :: namesBelow c ks

/-- The calls covered by the agreement of tree and descriptor vector, judged in
the state `w` in which the call is made.  `createFile`: the file name (the
part of the normalized path after its last `/`) has no NUL byte and does not
end in `_START` or `_END`.  `createDirectory`: the directory name has no NUL
byte, the parent path does not name a lump, and the directory name differs
from every component of the parent path.  `writeToFile` is not covered. -/
def admissibleCall (w : Wad) : Op → Bool
  | .mkfile path =>
    let fileName := (splitPath (norm path)).2
    !fileName.contains 0 && !endsWith fileName sSTART && !endsWith fileName sEND
  | .mkdir path =>
    let parentPath := (splitPath (norm path)).1
    let dirName := (splitPath (norm path)).2
    !dirName.contains 0 && !isContent w parentPath &&
      !(comps [] ((norm parentPath).drop 1)).contains dirName
  | .write _ _ _ _ => false

/-- Every call of the sequence is covered in the state in which it is made. -/
def admissibleRun : Wad → List Op → Bool
  | _, [] => true
  | w, op :: ops =>
    admissibleCall w op &&
      (match step w op with
       | none => true
       | some w1 => admissibleRun w1 ops)

/-- Calls on the archive of scenario S1: files and directories created in the
namespace `F1`, in a new namespace below it, and in the root. -/
def nestOps : List Op :=
  [Op.mkfile (ofString "/F1/a"), Op.mkdir (ofString "/F1/ab"), Op.mkfile (ofString "/F1/ab/x"),
   Op.mkdir (ofString "/cd"), Op.mkfile (ofString "/top"), Op.mkfile (ofString "/F1/z")]

/-- The engine of scenario S1 after the calls `nestOps`. -/
def nestFinal : Wad :=
  match run (loaded s1Image) nestOps with
  | some w => w
  | none => emptyWad

/-- An archive with the single descriptor `a_START`: a namespace that is never
closed. -/
def openImage : List Nat :=
  ofString "PWAD" ++ le32 1 ++ le32 12 ++ entryBytes 0 0 "a_START"

/-- The names and kinds of the children of a node. -/
def childKinds (n : Node) : List (List Nat × Bool) :=
  n.children.map (fun c => (c.name, c.isDir))

/-- The path obtained from `p` by replacing each slash by a run of slashes:
the slash met first becomes `1 + counts[0]` slashes, the next one
`1 + counts[1]`, and so on (a slash stays single once `counts` is used up). -/
def widenSlashes : List Nat → List Nat → List Nat
  | _, [] => []
  | counts, c :: cs =>
    if c = SLASH then List.replicate (1 + counts.headD 0) SLASH ++ widenSlashes counts.tail cs
    else c :: widenSlashes counts cs

/-- The empty archive after `createDirectory("/ab")`. -/
def abWad : Wad :=
  match createDirectory emptyWad (ofString "/ab") with
  | some w => w
  | none => emptyWad

/-- The descriptor indices stored in the nodes below `n` (the node `n` itself
not included), in preorder. -/
def Node.indices : Node → List Nat
  | ⟨_, _, _, _, children, _⟩ => indicesList children
where
  /-- The descriptor indices stored in a vector of subtrees. -/
  indicesList : List Node → List Nat
    | [] => []
    | c :: cs => c.descIndex :: (Node.indices c ++ indicesList cs)

/-- The children of `n` and of every node below `n` are in strictly ascending
order of descriptor index. -/
def Node.sorted : Node → Bool
  | ⟨_, _, _, _, children, _⟩ =>
    decide ((children.map (fun c => c.descIndex)).Pairwise (fun a b => a < b)) &&
      sortedList children
where
  /-- The same for every subtree of a vector. -/
  sortedList : List Node → Bool
    | [] => true
    | c :: cs => Node.sorted c && sortedList cs

/-- The change of a descriptor index made by the "Adjust descIndex" traversal. -/
def shiftIndex (insertPos k x : Nat) : Nat := if insertPos ≤ x then x + k else x

/-- The descriptor-index invariant of a tree with respect to a descriptor
vector of length `len`: the descriptor indices of the non-root nodes are
pairwise distinct, each is smaller than `len`, and the children of every node
are in strictly ascending order of descriptor index. -/
def IndexInvariant (root : Node) (len : Nat) : Prop :=
  root.indices.Nodup ∧ (∀ i ∈ root.indices, i < len) ∧ root.sorted = true

instance (root : Node) (len : Nat) : Decidable (IndexInvariant root len) := by
  unfold IndexInvariant; infer_instance

/-- The node is a directory, or a lump of length 0, or a lump whose byte range
lies inside `[12, hoff)`. -/
def lumpInside (hoff : Nat) (n : Node) : Bool :=
  n.isDir || (n.length == 0) ||
    (decide (12 ≤ n.offset) && decide (n.offset + n.length ≤ hoff))

/-- Well-formedness of the payload region: the descriptor table starts at byte
12 or later and the byte range of every lump lies inside
`[12, header.offset)`. -/
def LumpsInside (w : Wad) : Prop :=
  12 ≤ w.header.offset ∧ lumpInside w.header.offset w.root = true ∧
    w.root.allBelow (lumpInside w.header.offset) = true

instance (w : Wad) : Decidable (LumpsInside w) := by
  unfold LumpsInside; infer_instance

/-- The call is a `writeToFile` whose path resolves to the node at `addr`. -/
def writesTo (w : Wad) (op : Op) (addr : List Nat) : Bool :=
  match op with
  | .write path _ _ _ =>
    match resolve w.root path with
    | some (a, _) => a == addr
    | none => false
  | _ => false

/-- An empty archive whose header gives 0 as the offset of the descriptor
table: twelve header bytes, no descriptor. -/
def zeroImage : List Nat := ofString "PWAD" ++ le32 0 ++ le32 0

/-- On `zeroImage`: `createFile("/f")`, then sixteen bytes written to `/f`. -/
def zeroOps : List Op :=
  [Op.mkfile (ofString "/f"),
   Op.write (ofString "/f") (some (ofString "ABCDEFGHIJKLMNOP")) 16 0]

/-- The engine `exWad` after `createFile("/n")`. -/
def exGrown : Wad :=
  match run exWad [Op.mkfile (ofString "/n")] with
  | some w => w
  | none => emptyWad

/-- The engine `exGrown` after `writeToFile("/n", "AB", 2, 0)`. -/
def exGrownWritten : Wad :=
  match step exGrown (Op.write (ofString "/n") (some (ofString "AB")) 2 0) with
  | some w => w
  | none => emptyWad

/-- The empty archive after `createDirectory("/b")` and `createFile("/b/b")`:
the descriptors `b_START`, `b`, `b_END`, the lump `b` inside the directory `b`. -/
def lumpDirWad : Wad :=
  match run emptyWad [Op.mkdir (ofString "/b"), Op.mkfile (ofString "/b/b")] with
  | some w => w
  | none => emptyWad

/-- The node of the lump `/b/b` of `lumpDirWad`. -/
def lumpDirNode : Node :=
  { name := ofString "b", isDir := false, offset := 0, length := 0, children := [],
    descIndex := 1 }

/-- An archive of 28 bytes whose only descriptor, the lump `a`, has the offset
12 and the length field `0xFFFFFFFF`. -/
def hugeImage : List Nat :=
  ofString "PWAD" ++ le32 1 ++ le32 12 ++ entryBytes 12 4294967295 "a"

/-- The node of the lump `a` of `hugeImage`. -/
def hugeLump : Node :=
  { name := ofString "a", isDir := false, offset := 12, length := 4294967295, children := [],
    descIndex := 0 }

/-! ## Properties -/

/-! ### Paths and resolution -/

theorem comps_split (acc rest : List Nat) :
    comps acc rest =
      (if acc ++ rest.takeWhile (fun c => c != SLASH) = [] then []
        else [acc ++ rest.takeWhile (fun c => c != SLASH)]) ++
      comps [] ((rest.dropWhile (fun c => c != SLASH)).drop 1) := by
  induction rest generalizing acc with
  | nil => simp [comps]
  | cons c cs ih =>
    by_cases hc : c = SLASH
    · subst hc
      by_cases ha : acc = [] <;> simp [comps, ha]
    · rw [comps, if_neg hc, ih]
      simp [List.takeWhile_cons, List.dropWhile_cons, hc]

theorem dropWhile_drop_length_lt (rest : List Nat) (h : rest ≠ []) :
    ((rest.dropWhile (fun c => c != SLASH)).drop 1).length < rest.length := by
  have h1 : (rest.dropWhile (fun c => c != SLASH)).length ≤ rest.length :=
    (List.dropWhile_sublist _).length_le
  have h2 : 0 < rest.length := List.length_pos.mpr h
  simp only [List.length_drop]
  omega

theorem resolveLoop_eq_walk (fuel : Nat) (cur : List Nat × Node) (rest : List Nat)
    (h : rest.length ≤ fuel) : resolveLoop fuel cur rest = walk cur (comps [] rest) := by
  induction fuel generalizing cur rest with
  | zero =>
    have : rest = [] := List.length_eq_zero.mp (Nat.le_zero.mp h)
    subst this
    simp [resolveLoop, comps, walk]
  | succ fuel ih =>
    by_cases hr : rest = []
    · subst hr
      simp [resolveLoop, comps, walk]
    · have hlt := dropWhile_drop_length_lt rest hr
      have hfuel : ((rest.dropWhile (fun c => c != SLASH)).drop 1).length ≤ fuel := by omega
      rw [resolveLoop, if_neg hr, comps_split]
      simp only [List.nil_append]
      by_cases hp : rest.takeWhile (fun c => c != SLASH) = []
      · simp only [hp, if_true, List.nil_append]
        exact ih _ _ hfuel
      · simp only [hp, if_false, List.singleton_append, walk]
        cases hf : findChild (rest.takeWhile (fun c => c != SLASH)) cur.2.children 0 with
        | none => rfl
        | some r =>
          obtain ⟨k, ch⟩ := r
          simp only
          by_cases ha : rest.dropWhile (fun c => c != SLASH) = []
          · simp [ha, comps, walk]
          · simp only [ha, if_false]
            exact ih _ _ hfuel

theorem resolve_eq_walk (root : Node) (path : List Nat) :
    resolve root path =
      if path.head? = some SLASH then walk ([], root) (comps [] (path.drop 1)) else none := by
  unfold resolve
  cases path with
  | nil => simp
  | cons c cs =>
    by_cases hc : c = SLASH
    · subst hc
      by_cases hcs : cs = []
      · subst hcs
        simp [comps, walk]
      · simp only [List.head?_cons, ne_eq, not_true_eq_false, or_false, reduceCtorEq,
          List.cons.injEq, true_and, hcs, if_false, if_true, List.drop_succ_cons, List.drop_zero]
        exact resolveLoop_eq_walk _ _ _ (by simp)
    · simp [hc]

theorem popSlashes_spec (r : List Nat) :
    ∃ k, r = List.replicate k SLASH ++ popSlashes r ∧ (r ≠ [] → popSlashes r ≠ []) := by
  induction r with
  | nil => exact ⟨0, by simp [popSlashes]⟩
  | cons c r ih =>
    cases r with
    | nil => exact ⟨0, by simp [popSlashes]⟩
    | cons d rest =>
      by_cases hc : c = SLASH
      · obtain ⟨k, hk, hne⟩ := ih
        refine ⟨k + 1, ?_, ?_⟩
        · rw [popSlashes, if_pos hc, List.replicate_succ, List.cons_append, ← hk, hc]
        · intro _
          rw [popSlashes, if_pos hc]
          exact hne (by simp)
      · exact ⟨0, by simp [popSlashes, hc]⟩

theorem norm_spec (p : List Nat) :
    ∃ k, p = norm p ++ List.replicate k SLASH ∧ (p ≠ [] → norm p ≠ []) := by
  by_cases hp : p = []
  · subst hp
    exact ⟨0, by simp [norm]⟩
  · obtain ⟨k, hk, hne⟩ := popSlashes_spec p.reverse
    refine ⟨k, ?_, ?_⟩
    · have := congrArg List.reverse hk
      simpa [norm, hp] using this
    · intro _
      simp only [norm, hp, if_false, ne_eq, List.reverse_eq_nil_iff]
      exact hne (by simpa using hp)

theorem norm_eq_nil_iff (p : List Nat) : norm p = [] ↔ p = [] := by
  constructor
  · intro h
    by_contra hp
    exact (norm_spec p).choose_spec.2 hp h
  · intro h
    subst h
    simp [norm]

theorem comps_append_slash (acc s : List Nat) : comps acc (s ++ [SLASH]) = comps acc s := by
  induction s generalizing acc with
  | nil => by_cases ha : acc = [] <;> simp [comps, ha]
  | cons c cs ih =>
    by_cases hc : c = SLASH
    · by_cases ha : acc = [] <;> simp [comps, hc, ha, ih]
    · simp [comps, hc, ih]

theorem comps_append_slashes (acc s : List Nat) (k : Nat) :
    comps acc (s ++ List.replicate k SLASH) = comps acc s := by
  induction k with
  | zero => simp
  | succ k ih =>
    rw [List.replicate_succ', ← List.append_assoc, comps_append_slash, ih]

/-- Resolution ignores the normalisation done by the callers: the trailing
slashes `norm` strips are skipped by `resolve` as empty components. -/
theorem resolve_norm (root : Node) (p : List Nat) : resolve root (norm p) = resolve root p := by
  obtain ⟨k, hk, hne⟩ := norm_spec p
  by_cases hp : p = []
  · subst hp
    simp [norm]
  · have hn := hne hp
    rw [resolve_eq_walk, resolve_eq_walk]
    obtain ⟨c, cs, hcs⟩ := List.exists_cons_of_ne_nil hn
    have hp2 : p = c :: (cs ++ List.replicate k SLASH) := by
      rw [hk, hcs]; rfl
    rw [hcs]
    conv_rhs => rw [hp2]
    simp only [List.head?_cons, List.drop_succ_cons, List.drop_zero, comps_append_slashes]

/-! ### Reading (`getContents`) -/

theorem toU32_natCast (m : Nat) (h : m < 4294967296) : toU32 (m : Int) = m := by
  unfold toU32
  omega

theorem toInt32_of_lt (n : Nat) (h : n < 2147483648) : toInt32 n = (n : Int) := by
  unfold toInt32
  have : n % 4294967296 = n := Nat.mod_eq_of_lt (by omega)
  rw [this, if_pos h]

/-- The result of `getContents` on a path that resolves to a lump, for a present
buffer, a positive `length` and a non-negative `offset`. -/
theorem getContents_lump (w : Wad) (path addr : List Nat) (node : Node) (buf : List Nat)
    (n m : Nat) (hres : resolve w.root path = some (addr, node)) (hfile : node.isDir = false)
    (hn : 0 < n) (hn32 : n < 2147483648) (hm32 : m < 2147483648) :
    getContents w path (some buf) (n : Int) (m : Int) =
      if node.length ≤ m then some (0, some buf)
      else if w.fileData.length < node.offset + m + min n (node.length - m) ∨
          buf.length < min n (node.length - m) then none
      else some (((min n (node.length - m) : Nat) : Int),
        some ((w.fileData.drop (node.offset + m)).take (min n (node.length - m)) ++
          buf.drop (min n (node.length - m)))) := by
  have hp : norm path ≠ [] := by
    rw [Ne, norm_eq_nil_iff]
    rintro rfl
    simp [resolve] at hres
  have hnb : (if (n : Int) < ((node.length - m : Nat) : Int) then (n : Int).toNat
      else node.length - m) = min n (node.length - m) := by
    split <;> omega
  simp only [getContents, hp, if_false, resolve_norm, hres, hfile, toU32_natCast m (by omega)]
  have hn0 : ¬ ((n : Int) ≤ 0) := by omega
  simp only [Bool.false_eq_true, false_or, hn0, if_false, hnb]
  by_cases hL : node.length ≤ m
  · simp [hL]
  · simp only [hL, if_false]
    have hs : ¬ ((node.offset : Int) + (m : Int) < 0) := by omega
    have hst : ((node.offset : Int) + (m : Int)).toNat = node.offset + m := by omega
    have hk32 : min n (node.length - m) < 2147483648 := by omega
    simp only [hs, false_or, hst, toInt32_of_lt _ hk32]
    have hiff : ((w.fileData.length : Int) < (node.offset : Int) + (m : Int) +
        ((min n (node.length - m) : Nat) : Int)) ↔
        (w.fileData.length < node.offset + m + min n (node.length - m)) := by omega
    simp only [hiff]

/-- C3. Byte-range read: on a path resolving to a lump of length `L` stored at
image offset `o` (inside the image), with a present buffer, `length > 0` and
`offset >= 0`: if `offset >= L` the call returns 0 and leaves the buffer as it
was; otherwise it returns `k = min(length, L - offset)`, the first `k` buffer
bytes are `image[o + offset .. o + offset + k)` and the bytes from `k` on are
unchanged. -/
theorem getContents_byte_range (w : Wad) (path addr : List Nat) (node : Node)
    (buf : List Nat) (n m : Nat)
    (hres : resolve w.root path = some (addr, node)) (hfile : node.isDir = false)
    (hn : 0 < n) (hn32 : n < 2147483648) (hm32 : m < 2147483648)
    (himg : node.offset + node.length ≤ w.fileData.length)
    (hcap : min n (node.length - m) ≤ buf.length) :
    (node.length ≤ m → getContents w path (some buf) (n : Int) (m : Int) = some (0, some buf)) ∧
    (m < node.length → ∃ out,
      getContents w path (some buf) (n : Int) (m : Int) =
        some (((min n (node.length - m) : Nat) : Int), some out) ∧
      out.length = buf.length ∧
      out.take (min n (node.length - m)) =
        (w.fileData.drop (node.offset + m)).take (min n (node.length - m)) ∧
      ((w.fileData.drop (node.offset + m)).take (min n (node.length - m))).length =
        min n (node.length - m) ∧
      out.drop (min n (node.length - m)) = buf.drop (min n (node.length - m))) := by
  have hgc := getContents_lump w path addr node buf n m hres hfile hn hn32 hm32
  constructor
  · intro hL
    rw [hgc, if_pos hL]
  · intro hL
    have hlen : ((w.fileData.drop (node.offset + m)).take (min n (node.length - m))).length =
        min n (node.length - m) := by
      rw [List.length_take, List.length_drop]
      omega
    refine ⟨(w.fileData.drop (node.offset + m)).take (min n (node.length - m)) ++
      buf.drop (min n (node.length - m)), ?_, ?_, ?_, hlen, ?_⟩
    · rw [hgc, if_neg (by omega), if_neg (by omega)]
    · rw [List.length_append, hlen, List.length_drop]
      omega
    · rw [List.take_append_of_le_length (by omega), List.take_of_length_le (by omega)]
    · rw [List.drop_append_of_le_length (by omega), List.drop_of_length_le (by omega)]
      rfl

theorem getContents_byte_range_witness :
    (exLump.length ≤ 7 →
      getContents exWad (ofString "/DATA") (some [1, 2, 3, 4]) (3 : Nat) (7 : Nat) =
        some (0, some [1, 2, 3, 4])) ∧
    (1 < exLump.length → ∃ out,
      getContents exWad (ofString "/DATA") (some [1, 2, 3, 4]) (3 : Nat) (1 : Nat) =
        some (((min 3 (exLump.length - 1) : Nat) : Int), some out) ∧
      out.length = [1, 2, 3, 4].length ∧
      out.take (min 3 (exLump.length - 1)) =
        (exWad.fileData.drop (exLump.offset + 1)).take (min 3 (exLump.length - 1)) ∧
      ((exWad.fileData.drop (exLump.offset + 1)).take (min 3 (exLump.length - 1))).length =
        min 3 (exLump.length - 1) ∧
      out.drop (min 3 (exLump.length - 1)) = [1, 2, 3, 4].drop (min 3 (exLump.length - 1))) :=
  ⟨(getContents_byte_range exWad (ofString "/DATA") [0] exLump [1, 2, 3, 4] 3 7
      (by decide) (by decide) (by decide) (by decide) (by decide) (by decide) (by decide)).1,
   (getContents_byte_range exWad (ofString "/DATA") [0] exLump [1, 2, 3, 4] 3 1
      (by decide) (by decide) (by decide) (by decide) (by decide) (by decide) (by decide)).2⟩

/-! ### The example archives load -/

theorem loadWad_exImage : loadWad (some exImage) = some (some exWad) := by decide

theorem loadWad_emptyWad : loadWad (some emptyWad.fileData) = some (some emptyWad) := by decide

theorem loadWad_s1Image : loadWad (some s1Image) = some (some (loaded s1Image)) := by decide

theorem loadWad_s4Image : loadWad (some s4Image) = some (some (loaded s4Image)) := by
  decide!

/-! ### Names found by the resolver -/

theorem findChild_name (part : List Nat) (l : List Node) (k0 k : Nat) (ch : Node)
    (h : findChild part l k0 = some (k, ch)) : ch.name = part := by
  induction l generalizing k0 with
  | nil => simp [findChild] at h
  | cons c cs ih =>
    rw [findChild] at h
    by_cases hc : c.name = part
    · rw [if_pos hc] at h
      simp only [Option.some.injEq, Prod.mk.injEq] at h
      rw [← h.2]; exact hc
    · rw [if_neg hc] at h
      exact ih _ h

theorem walk_name (cur : List Nat × Node) (cs : List (List Nat)) (r : List Nat × Node)
    (h : walk cur cs = some r) (hne : cs ≠ []) : some r.2.name = cs.getLast? := by
  induction cs generalizing cur with
  | nil => exact absurd rfl hne
  | cons c cs ih =>
    rw [walk] at h
    cases hf : findChild c cur.2.children 0 with
    | none => simp [hf] at h
    | some kc =>
      obtain ⟨k, ch⟩ := kc
      simp only [hf] at h
      by_cases hcs : cs = []
      · subst hcs
        simp only [walk, Option.some.injEq] at h
        subst h
        simp [findChild_name _ _ _ _ _ hf]
      · rw [ih _ h hcs]
        obtain ⟨d, ds, rfl⟩ := List.exists_cons_of_ne_nil hcs
        rw [List.getLast?_cons_cons]

/-! ### Splitting a path into parent and final component -/

theorem takeWhile_ne_append_cons (name rest : List Nat) (hname : SLASH ∉ name) :
    (name ++ SLASH :: rest).takeWhile (fun c => c != SLASH) = name := by
  induction name with
  | nil => simp
  | cons c cs ih =>
    have hc : c ≠ SLASH := fun h => hname (by simp [h])
    have hcs : SLASH ∉ cs := fun h => hname (by simp [h])
    simp [List.takeWhile_cons, hc, ih hcs]

theorem findLastSlash_append (pre name : List Nat) (hname : SLASH ∉ name) :
    findLastSlash (pre ++ SLASH :: name) = some pre.length := by
  unfold findLastSlash
  have hrev : (pre ++ SLASH :: name).reverse = name.reverse ++ SLASH :: pre.reverse := by simp
  have hn : SLASH ∉ name.reverse := by simpa using hname
  rw [hrev, takeWhile_ne_append_cons _ _ hn]
  simp only [List.length_reverse, List.length_append, List.length_cons]
  rw [if_neg (by omega)]
  congr 1
  omega

/-- The split the two creating operations perform on a normalised path
`pre/name` whose final component `name` holds no slash. -/
theorem splitPath_append (pre name : List Nat) (hname : SLASH ∉ name) :
    splitPath (pre ++ SLASH :: name) = (if pre = [] then [SLASH] else pre, name) := by
  unfold splitPath
  rw [findLastSlash_append pre name hname]
  simp only [List.take_left', List.length_eq_zero]
  congr 1
  rw [show pre.length + 1 = (pre ++ [SLASH]).length by simp,
    show pre ++ SLASH :: name = (pre ++ [SLASH]) ++ name by simp, List.drop_left']
  rfl

theorem parentPath_ne_nil (pre : List Nat) : (if pre = [] then [SLASH] else pre) ≠ [] := by
  split <;> simp_all

theorem any_name_eq (l : List Node) (name : List Nat) :
    (l.any (fun c => c.name == name)) = true ↔ ∃ c ∈ l, c.name = name := by
  simp [List.any_eq_true]

/-! ### `createDirectory`: the validation exits -/

theorem createDirectory_of_split (w : Wad) (path pre name : List Nat)
    (hsplit : norm path = pre ++ SLASH :: name) (hname : SLASH ∉ name) :
    createDirectory w path =
      if norm path = [SLASH] then some w
      else if name = [] ∨ 2 < name.length then some w
      else
        match resolve w.root (if pre = [] then [SLASH] else pre) with
        | none => none
        | some (addr, parent) =>
          if isMapMarker parent.name then some w
          else if parent.children.any (fun c => c.name == name) then some w
          else
            match findInsertPos w.descriptors addr parent with
            | none => some w
            | some insertPos =>
              insertEntries w addr insertPos
                [{ offset := 0, length := 0, name := encodeName (name ++ sSTART) },
                 { offset := 0, length := 0, name := encodeName (name ++ sEND) }]
                { name := name, isDir := true, offset := 0, length := 0, children := [],
                  descIndex := insertPos } := by
  have hne : norm path ≠ [] := by rw [hsplit]; simp
  have hsp := splitPath_append pre name hname
  have hpn : norm (if pre = [] then [SLASH] else pre) ≠ [] := by
    rw [Ne, norm_eq_nil_iff]; exact parentPath_ne_nil pre
  unfold createDirectory
  simp only [hne, false_or]
  by_cases hroot : norm path = [SLASH]
  · simp [hroot]
  · rw [if_neg hroot, if_neg hroot]
    simp only [hsplit, hsp, hpn, if_false, resolve_norm]

/-- C10. `createDirectory` validation no-ops: the call leaves image, header,
descriptor vector and tree unchanged when the path is empty or normalises to
the root, when its final component has length 0 or more than 2 bytes, and,
for a path whose parent resolves, when the parent is a map-marker directory
or already has a child of that name; in particular `createDirectory("/ABC")`
changes nothing and `createDirectory("/E1M1/X")` changes nothing when
`/E1M1` resolves. -/
theorem createDirectory_validation_noop (w : Wad) (path : List Nat) :
    (path = [] ∨ norm path = [SLASH] → createDirectory w path = some w) ∧
    (∀ pre name, norm path = pre ++ SLASH :: name → SLASH ∉ name →
      (name = [] ∨ 2 < name.length) → createDirectory w path = some w) ∧
    (∀ pre name addr parent, norm path = pre ++ SLASH :: name → SLASH ∉ name →
      resolve w.root (if pre = [] then [SLASH] else pre) = some (addr, parent) →
      (isMapMarker parent.name = true ∨ ∃ c ∈ parent.children, c.name = name) →
      createDirectory w path = some w) ∧
    createDirectory w (ofString "/ABC") = some w ∧
    (∀ addr parent, resolve w.root (ofString "/E1M1") = some (addr, parent) →
      createDirectory w (ofString "/E1M1/X") = some w) := by
  have h3 : ∀ (p pre name addr : List Nat) (parent : Node), norm p = pre ++ SLASH :: name →
      SLASH ∉ name →
      resolve w.root (if pre = [] then [SLASH] else pre) = some (addr, parent) →
      (isMapMarker parent.name = true ∨ ∃ c ∈ parent.children, c.name = name) →
      createDirectory w p = some w := by
    intro p pre name addr parent hsplit hname hres hcase
    rw [createDirectory_of_split w p pre name hsplit hname, hres]
    simp only
    by_cases hroot : norm p = [SLASH]
    · rw [if_pos hroot]
    · rw [if_neg hroot]
      by_cases hnm : name = [] ∨ 2 < name.length
      · rw [if_pos hnm]
      · rw [if_neg hnm]
        rcases hcase with hm | hd
        · rw [if_pos hm]
        · by_cases hm : isMapMarker parent.name = true
          · rw [if_pos hm]
          · rw [if_neg hm, if_pos ((any_name_eq _ _).mpr hd)]
  have h2 : ∀ (p pre name : List Nat), norm p = pre ++ SLASH :: name → SLASH ∉ name →
      (name = [] ∨ 2 < name.length) → createDirectory w p = some w := by
    intro p pre name hsplit hname hcase
    rw [createDirectory_of_split w p pre name hsplit hname]
    by_cases hroot : norm p = [SLASH]
    · rw [if_pos hroot]
    · rw [if_neg hroot, if_pos hcase]
  refine ⟨?_, h2 path, fun pre name addr parent => h3 path pre name addr parent, ?_, ?_⟩
  · rintro (h | h)
    · subst h
      simp [createDirectory, norm]
    · simp [createDirectory, h]
  · exact h2 (ofString "/ABC") [] (ofString "ABC") (by decide) (by decide) (by decide)
  · intro addr parent hres
    refine h3 (ofString "/E1M1/X") (ofString "/E1M1") (ofString "X") addr parent (by decide)
      (by decide) hres (Or.inl ?_)
    rw [resolve_eq_walk] at hres
    have hw : walk ([], w.root) [ofString "E1M1"] = some (addr, parent) := by
      have hc : comps [] ((ofString "/E1M1").drop 1) = [ofString "E1M1"] := by decide
      have hh : (ofString "/E1M1").head? = some SLASH := by decide
      rw [hh, if_pos rfl, hc] at hres
      exact hres
    have hn := walk_name _ _ _ hw (by simp)
    simp only [List.getLast?_singleton, Option.some.injEq] at hn
    rw [hn]
    decide

theorem createDirectory_validation_noop_witness :
    createDirectory (loaded s1Image) (ofString "///") = some (loaded s1Image) ∧
    createDirectory (loaded s1Image) (ofString "/F1/ABC/") = some (loaded s1Image) ∧
    createDirectory (loaded s4Image) (ofString "/E1M1/ab") = some (loaded s4Image) ∧
    createDirectory (loaded s1Image) (ofString "/F1") = some (loaded s1Image) ∧
    createDirectory (loaded s4Image) (ofString "/E1M1/X") = some (loaded s4Image) :=
  ⟨(createDirectory_validation_noop (loaded s1Image) (ofString "///")).1
      (Or.inr (by decide)),
   (createDirectory_validation_noop (loaded s1Image) (ofString "/F1/ABC/")).2.1
      (ofString "/F1") (ofString "ABC") (by decide) (by decide) (Or.inr (by decide)),
   (createDirectory_validation_noop (loaded s4Image) (ofString "/E1M1/ab")).2.2.1
      (ofString "/E1M1") (ofString "ab") [0] ((loaded s4Image).root.children.getD 0 rootNode)
      (by decide) (by decide) (by decide!) (Or.inl (by decide!)),
   (createDirectory_validation_noop (loaded s1Image) (ofString "/F1")).2.2.1
      [] (ofString "F1") [] (loaded s1Image).root
      (by decide) (by decide) (by decide) (Or.inr (by decide)),
   (createDirectory_validation_noop (loaded s4Image) (ofString "/E1M1/X")).2.2.2.2
      [0] ((loaded s4Image).root.children.getD 0 rootNode) (by decide!)⟩

/-! ### Splicing and overwriting byte vectors -/

theorem length_spliceAt {α : Type} (l : List α) (pos : Nat) (xs : List α) :
    (spliceAt l pos xs).length = l.length + xs.length := by
  simp only [spliceAt, List.length_append, List.length_take, List.length_drop]
  omega

theorem length_overwriteAt {α : Type} (l : List α) (pos : Nat) (bs : List α)
    (h : pos + bs.length ≤ l.length) : (overwriteAt l pos bs).length = l.length := by
  simp only [overwriteAt, List.length_append, List.length_take, List.length_drop]
  omega

theorem getElem?_spliceAt {α : Type} (l : List α) (pos : Nat) (xs : List α) (i : Nat)
    (h : pos ≤ l.length) :
    (spliceAt l pos xs)[i]? =
      if i < pos then l[i]? else if i < pos + xs.length then xs[i - pos]?
      else l[i - xs.length]? := by
  simp only [spliceAt, List.append_assoc]
  rw [List.getElem?_append, List.length_take, Nat.min_eq_left h]
  by_cases h1 : i < pos
  · simp only [h1, if_true]
    rw [List.getElem?_take_of_lt h1]
  · simp only [h1, if_false]
    rw [List.getElem?_append]
    by_cases h2 : i < pos + xs.length
    · have : i - pos < xs.length := by omega
      simp only [this, h2, if_true]
    · have : ¬ (i - pos < xs.length) := by omega
      simp only [this, h2, if_false]
      rw [List.getElem?_drop]
      congr 1
      omega

theorem getElem?_overwriteAt {α : Type} (l : List α) (pos : Nat) (bs : List α) (i : Nat)
    (h : pos + bs.length ≤ l.length) :
    (overwriteAt l pos bs)[i]? =
      if pos ≤ i ∧ i < pos + bs.length then bs[i - pos]? else l[i]? := by
  simp only [overwriteAt, List.append_assoc]
  rw [List.getElem?_append, List.length_take, Nat.min_eq_left (by omega)]
  by_cases h1 : i < pos
  · have : ¬ (pos ≤ i ∧ i < pos + bs.length) := by omega
    simp only [h1, this, if_true, if_false]
    rw [List.getElem?_take_of_lt h1]
  · simp only [h1, if_false]
    rw [List.getElem?_append]
    by_cases h2 : i < pos + bs.length
    · have h3 : i - pos < bs.length := by omega
      have h4 : pos ≤ i ∧ i < pos + bs.length := by omega
      simp only [h3, h4, and_self, if_true]
    · have h3 : ¬ (i - pos < bs.length) := by omega
      have h4 : ¬ (pos ≤ i ∧ i < pos + bs.length) := by omega
      simp only [h3, h4, if_false]
      rw [List.getElem?_drop]
      congr 1
      omega

theorem getElem?_drop_take {α : Type} (l : List α) (a k i : Nat) :
    ((l.drop a).take k)[i]? = if i < k then l[a + i]? else none := by
  by_cases h : i < k
  · rw [if_pos h, List.getElem?_take_of_lt h, List.getElem?_drop]
  · rw [if_neg h, List.getElem?_take_eq_none (by omega)]

/-! ### Walking down the tree -/

theorem walk_append (cur : List Nat × Node) (xs ys : List (List Nat)) :
    walk cur (xs ++ ys) = (walk cur xs).bind (fun r => walk r ys) := by
  induction xs generalizing cur with
  | nil => simp [walk]
  | cons c cs ih =>
    simp only [List.cons_append, walk]
    cases findChild c cur.2.children 0 with
    | none => rfl
    | some kc => exact ih _

theorem walk_addr (a : List Nat) (n : Node) (cs : List (List Nat)) :
    walk (a, n) cs = (walk ([], n) cs).map (fun r => (a ++ r.1, r.2)) := by
  induction cs generalizing a n with
  | nil => simp [walk]
  | cons c cs ih =>
    simp only [walk]
    cases findChild c n.children 0 with
    | none => rfl
    | some kc =>
      obtain ⟨k, ch⟩ := kc
      simp only [List.nil_append]
      rw [ih (a ++ [k]) ch, ih [k] ch]
      cases walk ([], ch) cs with
      | none => rfl
      | some r => simp

theorem findChild_shift_start (part : List Nat) (l : List Node) (k0 : Nat) :
    findChild part l k0 = (findChild part l 0).map (fun r => (k0 + r.1, r.2)) := by
  induction l generalizing k0 with
  | nil => simp [findChild]
  | cons c cs ih =>
    simp only [findChild]
    by_cases hc : c.name = part
    · simp [hc]
    · simp only [hc, if_false]
      rw [ih (k0 + 1), ih (0 + 1)]
      cases findChild part cs 0 with
      | none => rfl
      | some r => simp; omega

theorem findChild_lt (part : List Nat) (l : List Node) (k : Nat) (ch : Node)
    (h : findChild part l 0 = some (k, ch)) : l[k]? = some ch := by
  induction l generalizing k with
  | nil => simp [findChild] at h
  | cons c cs ih =>
    rw [findChild] at h
    by_cases hc : c.name = part
    · rw [if_pos hc] at h
      simp only [Option.some.injEq, Prod.mk.injEq] at h
      obtain ⟨rfl, rfl⟩ := h
      simp
    · rw [if_neg hc, findChild_shift_start] at h
      cases hf : findChild part cs 0 with
      | none => simp [hf] at h
      | some r =>
        obtain ⟨j, c2⟩ := r
        simp only [hf, Option.map_some', Option.some.injEq, Prod.mk.injEq] at h
        obtain ⟨rfl, rfl⟩ := h
        have := ih j hf
        simpa [Nat.add_comm] using this

theorem findChild_eq_none (part : List Nat) (l : List Node) (k0 : Nat) :
    findChild part l k0 = none ↔ ∀ c ∈ l, c.name ≠ part := by
  induction l generalizing k0 with
  | nil => simp [findChild]
  | cons c cs ih =>
    rw [findChild]
    by_cases hc : c.name = part
    · simp [hc]
    · simp [hc, ih]

/-- Modifying the child at position `k` by a name-preserving function does not
change which child a name selects. -/
theorem findChild_modify (part : List Nat) (l : List Node) (g : Node → Node) (k : Nat)
    (hg : ∀ x, (g x).name = x.name) :
    findChild part (l.modify g k) 0 =
      (findChild part l 0).map (fun r => (r.1, if r.1 = k then g r.2 else r.2)) := by
  induction l generalizing k with
  | nil => simp [findChild]
  | cons c cs ih =>
    cases k with
    | zero =>
      simp only [List.modify_zero_cons, findChild, hg]
      by_cases hc : c.name = part
      · simp [hc]
      · simp only [hc, if_false]
        rw [findChild_shift_start part cs (0 + 1)]
        cases findChild part cs 0 with
        | none => rfl
        | some r => simp
    | succ k =>
      rw [List.modify_succ_cons]
      simp only [findChild]
      by_cases hc : c.name = part
      · simp [hc]
      · simp only [hc, if_false]
        rw [findChild_shift_start part _ (0 + 1), findChild_shift_start part cs (0 + 1), ih k]
        cases findChild part cs 0 with
        | none => rfl
        | some r =>
          simp only [Option.map_some', Option.some.injEq, Prod.mk.injEq, true_and]
          by_cases hr : r.1 = k
          · simp [hr, Nat.add_comm]
          · have : ¬ (0 + 1 + r.1 = k + 1) := by omega
            simp [hr, this]

theorem modifyAt_name (f : Node → Node) (hf : ∀ x, (f x).name = x.name) (addr : List Nat)
    (n : Node) : (n.modifyAt f addr).name = n.name := by
  cases addr with
  | nil => exact hf n
  | cons k ks => rfl

/-- Resolution reaches the modified node: modifying the node a walk ends in by
a name-preserving function does not change the walk. -/
theorem walk_modifyAt (f : Node → Node) (hf : ∀ x, (f x).name = x.name)
    (cs : List (List Nat)) (n : Node) (rel : List Nat) (m : Node)
    (h : walk ([], n) cs = some (rel, m)) :
    walk ([], n.modifyAt f rel) cs = some (rel, f m) := by
  induction cs generalizing n rel with
  | nil =>
    simp only [walk, Option.some.injEq, Prod.mk.injEq] at h
    obtain ⟨rfl, rfl⟩ := h
    simp [walk, Node.modifyAt]
  | cons c cs ih =>
    simp only [walk] at h
    cases hfc : findChild c n.children 0 with
    | none => simp [hfc] at h
    | some kc =>
      obtain ⟨k, ch⟩ := kc
      simp only [hfc, List.nil_append] at h
      rw [walk_addr] at h
      cases hw : walk ([], ch) cs with
      | none => simp [hw] at h
      | some r =>
        obtain ⟨rel2, m2⟩ := r
        simp only [hw, Option.map_some', Option.some.injEq, Prod.mk.injEq,
          List.singleton_append] at h
        obtain ⟨h1, h2⟩ := h
        subst h2
        rw [← h1]
        have ih2 := ih ch rel2 hw
        simp only [Node.modifyAt, walk, List.nil_append]
        rw [findChild_modify c n.children _ k (modifyAt_name f hf rel2), hfc]
        simp only [Option.map_some', if_true, List.nil_append]
        rw [walk_addr, ih2]
        simp

/-! ### `writeToFile` on an empty lump -/

/-- The engine after a successful `writeToFile` of `n` bytes at `offset = m` to
the empty lump at address `addr`, whose descriptor is `d0` at index `idx`. -/
theorem writeToFile_success (w : Wad) (path addr : List Nat) (node : Node) (buf : List Nat)
    (n m : Nat) (d0 : Descriptor)
    (hres : resolve w.root path = some (addr, node)) (hfile : node.isDir = false)
    (hlen0 : node.length = 0) (hn : 0 < n) (hsum : m + n < 2147483648)
    (hbuf : n ≤ buf.length) (hoff : w.header.offset ≤ w.fileData.length)
    (h12 : 12 ≤ w.fileData.length + (m + n))
    (hd : w.descriptors[node.descIndex]? = some d0)
    (hdesc : (w.header.offset + (m + n)) % 4294967296 + node.descIndex * 16 + 16 ≤
      w.fileData.length + (m + n)) :
    writeToFile w path (some buf) (n : Int) (m : Int) =
      some ((n : Int),
        { header := { w.header with offset := (w.header.offset + (m + n)) % 4294967296 },
          fileData :=
            overwriteAt
              (overwriteAt (spliceAt w.fileData w.header.offset
                (List.replicate m 0 ++ buf.take n)) 8
                (le32 ((w.header.offset + (m + n)) % 4294967296)))
              ((w.header.offset + (m + n)) % 4294967296 + node.descIndex * 16)
              (serialize { d0 with offset := w.header.offset % 4294967296, length := m + n }),
          descriptors := w.descriptors.set node.descIndex
            { d0 with offset := w.header.offset % 4294967296, length := m + n },
          root := w.root.modifyAt
            (fun x => { x with offset := w.header.offset % 4294967296, length := m + n })
            addr }) := by
  have h1 : ¬ ((n : Int) ≤ 0 ∨ (m : Int) < 0) := by omega
  have h2 : ¬ ((2147483648 : Int) ≤ (m : Int) + (n : Int)) := by omega
  have h3 : toU32 ((m : Int) + (n : Int)) = m + n := by
    have := toU32_natCast (m + n) (by omega)
    simpa using this
  have h4 : ¬ (buf.length < n) := by omega
  have h5 : ¬ (w.fileData.length < w.header.offset) := by omega
  have hl1 : (spliceAt w.fileData w.header.offset
      (List.replicate m 0 ++ buf.take n)).length = w.fileData.length + (m + n) := by
    rw [length_spliceAt]
    simp only [List.length_append, List.length_replicate, List.length_take]
    omega
  have h6 : ¬ ((spliceAt w.fileData w.header.offset
      (List.replicate m 0 ++ buf.take n)).length < 12) := by rw [hl1]; omega
  have hl2 : (overwriteAt (spliceAt w.fileData w.header.offset
      (List.replicate m 0 ++ buf.take n)) 8
      (le32 ((w.header.offset + (m + n)) % 4294967296))).length =
      w.fileData.length + (m + n) := by
    rw [length_overwriteAt _ _ _ (by rw [hl1]; simp [le32]; omega), hl1]
  have h7 : ¬ ((overwriteAt (spliceAt w.fileData w.header.offset
      (List.replicate m 0 ++ buf.take n)) 8
      (le32 ((w.header.offset + (m + n)) % 4294967296))).length <
      (w.header.offset + (m + n)) % 4294967296 + node.descIndex * 16 + 16) := by
    rw [hl2]; omega
  simp only [writeToFile, h1, if_false, hres, hfile, hlen0, ne_eq, not_true_eq_false,
    Bool.false_eq_true, h2, h3, Int.toNat_ofNat, h4, h5, h6, List.get?_eq_getElem?, hd, h7]

theorem resolve_modifyAt (f : Node → Node) (hf : ∀ x, (f x).name = x.name) (root : Node)
    (path addr : List Nat) (m : Node) (h : resolve root path = some (addr, m)) :
    resolve (root.modifyAt f addr) path = some (addr, f m) := by
  rw [resolve_eq_walk] at h ⊢
  by_cases hh : path.head? = some SLASH
  · rw [if_pos hh] at h ⊢
    exact walk_modifyAt f hf _ _ _ _ h
  · rw [if_neg hh] at h
    exact absurd h (by simp)

theorem le32_length (x : Nat) : (le32 x).length = 4 := rfl

theorem serialize_length (d : Descriptor) (h : d.name.length = 8) :
    (serialize d).length = 16 := by
  simp [serialize, le32, h]

/-- The image after the three edits of `writeToFile`: its length. -/
theorem writtenImage_length (img lump b4 sd : List Nat) (off db : Nat)
    (hb4 : b4.length = 4) (hsd : sd.length = 16) (h12 : 12 ≤ img.length + lump.length)
    (hdb : db + 16 ≤ img.length + lump.length) :
    (overwriteAt (overwriteAt (spliceAt img off lump) 8 b4) db sd).length =
      img.length + lump.length := by
  rw [length_overwriteAt, length_overwriteAt, length_spliceAt]
  · rw [length_spliceAt, hb4]; omega
  · rw [length_overwriteAt, length_spliceAt, hsd]
    · omega
    · rw [length_spliceAt, hb4]; omega

/-- The image after the three edits of `writeToFile`: its bytes. -/
theorem writtenImage_getElem? (img lump b4 sd : List Nat) (off db i : Nat)
    (hb4 : b4.length = 4) (hsd : sd.length = 16) (hoff : off ≤ img.length)
    (h12 : 12 ≤ img.length + lump.length) (hdb : db + 16 ≤ img.length + lump.length) :
    (overwriteAt (overwriteAt (spliceAt img off lump) 8 b4) db sd)[i]? =
      if db ≤ i ∧ i < db + 16 then sd[i - db]?
      else if 8 ≤ i ∧ i < 12 then b4[i - 8]?
      else if i < off then img[i]?
      else if i < off + lump.length then lump[i - off]?
      else img[i - lump.length]? := by
  rw [getElem?_overwriteAt, getElem?_overwriteAt, getElem?_spliceAt _ _ _ _ hoff, hsd, hb4]
  · rw [length_spliceAt, hb4]; omega
  · rw [length_overwriteAt, length_spliceAt, hsd]
    · omega
    · rw [length_spliceAt, hb4]; omega

/-- C1 (amended). Write-then-read round trip: in a coherent engine state whose
descriptor table starts at or after byte 12 and with `header.offset + n` below
`2 ^ 32`, for a path resolving to a lump of length 0 whose descriptor index
lies in the descriptor vector and a buffer `buf` of `n > 0` bytes,
`writeToFile(p, buf, n, 0)` returns `n`, and a following
`getContents(p, out, n, 0)` into an array of at least `n` bytes returns `n`,
leaves `out[0..n)` equal to `buf` and the rest of `out` as it was. -/
theorem write_then_read_roundtrip (w : Wad) (path addr : List Nat) (node : Node)
    (buf out : List Nat) (n : Nat)
    (hcoh : Coherent w) (h12 : 12 ≤ w.header.offset)
    (hfit : w.header.offset + n < 4294967296)
    (hres : resolve w.root path = some (addr, node)) (hfile : node.isDir = false)
    (hlen0 : node.length = 0) (hidx : node.descIndex < w.descriptors.length)
    (hn : 0 < n) (hn32 : n < 2147483648) (hbuf : buf.length = n) (hout : n ≤ out.length) :
    ∃ w1 out1, writeToFile w path (some buf) (n : Int) 0 = some ((n : Int), w1) ∧
      getContents w1 path (some out) (n : Int) 0 = some ((n : Int), some out1) ∧
      out1.take n = buf ∧ out1.drop n = out.drop n := by
  obtain ⟨hcount, htab, -, -, hnames, -⟩ := hcoh
  obtain ⟨d0, hd0⟩ : ∃ d0, w.descriptors[node.descIndex]? = some d0 :=
    ⟨w.descriptors[node.descIndex], List.getElem?_eq_getElem hidx⟩
  have hd0name : d0.name.length = 8 := hnames d0 (List.getElem?_mem hd0)
  have hmod : (w.header.offset + n) % 4294967296 = w.header.offset + n :=
    Nat.mod_eq_of_lt hfit
  have hmod2 : w.header.offset % 4294967296 = w.header.offset := Nat.mod_eq_of_lt (by omega)
  have hw := writeToFile_success w path addr node buf n 0 d0 hres hfile hlen0 hn (by omega)
    (by omega) (by omega) (by omega) hd0 (by rw [Nat.zero_add, hmod]; omega)
  simp only [Nat.cast_zero, List.replicate_zero, List.nil_append, Nat.zero_add] at hw
  simp only [hmod, hmod2] at hw
  have hres2 := resolve_modifyAt
    (fun x => { x with offset := w.header.offset, length := n })
    (fun _ => rfl) w.root path addr node hres
  have hlump : (buf.take n).length = n := by rw [List.length_take]; omega
  have hser : (serialize { d0 with offset := w.header.offset, length := n }).length = 16 :=
    serialize_length _ hd0name
  have hilen := writtenImage_length w.fileData (buf.take n) (le32 (w.header.offset + n))
    (serialize { d0 with offset := w.header.offset, length := n }) w.header.offset
    (w.header.offset + n + node.descIndex * 16) (le32_length _) hser (by omega)
    (by rw [hlump]; omega)
  rw [hlump] at hilen
  obtain ⟨w1, hw1, hroot1, himg1⟩ : ∃ w1, writeToFile w path (some buf) (n : Int) 0 =
      some ((n : Int), w1) ∧
      w1.root = w.root.modifyAt (fun x => { x with offset := w.header.offset, length := n })
        addr ∧
      w1.fileData = overwriteAt (overwriteAt (spliceAt w.fileData w.header.offset (buf.take n))
        8 (le32 (w.header.offset + n))) (w.header.offset + n + node.descIndex * 16)
        (serialize { d0 with offset := w.header.offset, length := n }) := ⟨_, hw, rfl, rfl⟩
  rw [← hroot1] at hres2
  rw [← himg1] at hilen
  have hg := getContents_lump w1 path addr _ out n 0 hres2 hfile hn hn32 (by omega)
  simp only [Nat.cast_zero, Nat.sub_zero, Nat.min_self, Nat.add_zero] at hg
  rw [if_neg (by omega), hilen, if_neg (by omega)] at hg
  refine ⟨w1, _, hw1, hg, ?_, ?_⟩
  all_goals rw [himg1] at hilen ⊢
  · rw [List.take_append_of_le_length (by rw [List.length_take, List.length_drop]; omega),
      List.take_take, Nat.min_self]
    apply List.ext_getElem?
    intro i
    rw [getElem?_drop_take]
    by_cases hi : i < n
    · rw [if_pos hi, writtenImage_getElem? _ _ _ _ _ _ _ (le32_length _) hser (by omega)
        (by rw [hlump]; omega) (by rw [hlump]; omega), hlump]
      rw [if_neg (by omega), if_neg (by omega), if_neg (by omega), if_pos (by omega),
        List.getElem?_take_of_lt (by omega)]
      congr 1
      omega
    · rw [if_neg hi, List.getElem?_eq_none (by omega)]
  · rw [List.drop_append_of_le_length (by rw [List.length_take, List.length_drop]; omega),
      List.drop_of_length_le (by rw [List.length_take, List.length_drop]; omega),
      List.nil_append]

theorem write_then_read_roundtrip_witness :
    ∃ w1 out1,
      writeToFile (loaded e1Image) (ofString "/a") (some (ofString "ABCDE")) ((5 : Nat) : Int) 0 =
        some (((5 : Nat) : Int), w1) ∧
      getContents w1 (ofString "/a") (some [1, 2, 3, 4, 5, 6, 7]) ((5 : Nat) : Int) 0 =
        some (((5 : Nat) : Int), some out1) ∧
      out1.take 5 = ofString "ABCDE" ∧ out1.drop 5 = [1, 2, 3, 4, 5, 6, 7].drop 5 :=
  write_then_read_roundtrip (loaded e1Image) (ofString "/a") [0] (emptyLump 0)
    (ofString "ABCDE") [1, 2, 3, 4, 5, 6, 7] 5 (by decide) (by decide) (by decide) (by decide)
    (by decide) (by decide) (by decide) (by decide) (by decide) (by decide) (by decide)

/-- C1 (counterexample). The archive `ovImage` loads into a state that is
coherent in the sense of the claim (`header.offset = 8` is at most the image
size 24, and the descriptor table is mirrored in the image), its path `/a`
resolves to a lump of length 0, `writeToFile("/a", "A", 1, 0)` returns 1, and
the following `getContents("/a", out, 1, 0)` returns 1 but delivers the byte 9
instead of `A` (65): the lump was placed at byte 8 and then overwritten by the
copy of `header.offset` into bytes 8..12. -/
theorem write_then_read_counterexample :
    loadWad (some ovImage) = some (some (loaded ovImage)) ∧
    Coherent (loaded ovImage) ∧
    (loaded ovImage).header.offset ≤ (loaded ovImage).fileData.length ∧
    resolve (loaded ovImage).root (ofString "/a") = some ([0], emptyLump 8) ∧
    (writeToFile (loaded ovImage) (ofString "/a") (some [65]) 1 0).map (fun r => r.1) =
      some 1 ∧
    (writeToFile (loaded ovImage) (ofString "/a") (some [65]) 1 0).bind
      (fun r => getContents r.2 (ofString "/a") (some [0]) 1 0) = some (1, some [9]) := by
  decide

/-! ### Resolution in a modified tree -/

/-- A relation between nodes that is kept when both sides step to the child
selected by the same name transports successful walks. -/
theorem walk_sim (R : Node → Node → Prop)
    (hR : ∀ n n1, R n n1 → ∀ c k ch, findChild c n.children 0 = some (k, ch) →
      ∃ k1 ch1, findChild c n1.children 0 = some (k1, ch1) ∧ R ch ch1)
    (cs : List (List Nat)) (n n1 : Node) (a a1 b : List Nat) (m : Node) (h : R n n1)
    (hw : walk (a, n) cs = some (b, m)) :
    ∃ b1 m1, walk (a1, n1) cs = some (b1, m1) ∧ R m m1 := by
  induction cs generalizing n n1 a a1 with
  | nil =>
    simp only [walk, Option.some.injEq, Prod.mk.injEq] at hw
    obtain ⟨-, rfl⟩ := hw
    exact ⟨a1, n1, rfl, h⟩
  | cons c cs ih =>
    simp only [walk] at hw ⊢
    cases hfc : findChild c n.children 0 with
    | none => simp [hfc] at hw
    | some kc =>
      obtain ⟨k, ch⟩ := kc
      simp only [hfc] at hw
      obtain ⟨k1, ch1, hf1, hr1⟩ := hR n n1 h c k ch hfc
      simp only [hf1]
      exact ih ch ch1 _ _ hr1 hw

theorem resolve_sim (R : Node → Node → Prop)
    (hR : ∀ n n1, R n n1 → ∀ c k ch, findChild c n.children 0 = some (k, ch) →
      ∃ k1 ch1, findChild c n1.children 0 = some (k1, ch1) ∧ R ch ch1)
    (root root1 : Node) (h : R root root1) (path b : List Nat) (m : Node)
    (hres : resolve root path = some (b, m)) :
    ∃ b1 m1, resolve root1 path = some (b1, m1) ∧ R m m1 := by
  rw [resolve_eq_walk] at hres ⊢
  by_cases hh : path.head? = some SLASH
  · rw [if_pos hh] at hres ⊢
    exact walk_sim R hR _ _ _ _ _ _ _ h hres
  · rw [if_neg hh] at hres
    exact absurd hres (by simp)

theorem walk_get? (cs : List (List Nat)) (n : Node) (b : List Nat) (m : Node)
    (hw : walk ([], n) cs = some (b, m)) : n.get? b = some m := by
  induction cs generalizing n b with
  | nil =>
    simp only [walk, Option.some.injEq, Prod.mk.injEq] at hw
    obtain ⟨rfl, rfl⟩ := hw
    rfl
  | cons c cs ih =>
    simp only [walk, List.nil_append] at hw
    cases hfc : findChild c n.children 0 with
    | none => simp [hfc] at hw
    | some kc =>
      obtain ⟨k, ch⟩ := kc
      simp only [hfc] at hw
      rw [walk_addr] at hw
      cases hw2 : walk ([], ch) cs with
      | none => simp [hw2] at hw
      | some r =>
        obtain ⟨b2, m2⟩ := r
        simp only [hw2, Option.map_some', Option.some.injEq, Prod.mk.injEq,
          List.singleton_append] at hw
        obtain ⟨rfl, rfl⟩ := hw
        simp only [Node.get?, List.get?_eq_getElem?, findChild_lt _ _ _ _ hfc]
        exact ih ch b2 hw2

/-- A resolved address leads to the resolved node. -/
theorem resolve_get? (root : Node) (path b : List Nat) (m : Node)
    (hres : resolve root path = some (b, m)) : root.get? b = some m := by
  rw [resolve_eq_walk] at hres
  by_cases hh : path.head? = some SLASH
  · rw [if_pos hh] at hres
    exact walk_get? _ _ _ _ hres
  · rw [if_neg hh] at hres
    exact absurd hres (by simp)

/-! ### The index shift and the insertion of a child -/

theorem shiftList_eq_map (pos k : Nat) (l : List Node) :
    Node.shift.shiftList pos k l = l.map (Node.shift pos k) := by
  induction l with
  | nil => rfl
  | cons c cs ih => simp [Node.shift.shiftList, ih]

@[simp] theorem shift_name (pos k : Nat) (n : Node) : (n.shift pos k).name = n.name := by
  cases n; rfl

@[simp] theorem shift_isDir (pos k : Nat) (n : Node) : (n.shift pos k).isDir = n.isDir := by
  cases n; rfl

@[simp] theorem shift_offset (pos k : Nat) (n : Node) : (n.shift pos k).offset = n.offset := by
  cases n; rfl

@[simp] theorem shift_length (pos k : Nat) (n : Node) : (n.shift pos k).length = n.length := by
  cases n; rfl

@[simp] theorem shift_descIndex (pos k : Nat) (n : Node) :
    (n.shift pos k).descIndex = if pos ≤ n.descIndex then n.descIndex + k else n.descIndex := by
  cases n; rfl

@[simp] theorem shift_children (pos k : Nat) (n : Node) :
    (n.shift pos k).children = n.children.map (Node.shift pos k) := by
  cases n
  simp [Node.shift, shiftList_eq_map]

theorem findChild_map (g : Node → Node) (hg : ∀ x, (g x).name = x.name) (part : List Nat)
    (l : List Node) (k0 : Nat) :
    findChild part (l.map g) k0 = (findChild part l k0).map (fun r => (r.1, g r.2)) := by
  induction l generalizing k0 with
  | nil => rfl
  | cons c cs ih =>
    simp only [List.map_cons, findChild, hg]
    by_cases hc : c.name = part
    · simp [hc]
    · simp [hc, ih]

theorem findChild_insertByIndex (new : Node) (part : List Nat) (l : List Node) (k0 : Nat)
    (hne : new.name ≠ part) :
    (findChild part (insertByIndex new l) k0).map (fun r => r.2) =
      (findChild part l k0).map (fun r => r.2) := by
  induction l generalizing k0 with
  | nil => simp [insertByIndex, findChild, hne]
  | cons c cs ih =>
    simp only [insertByIndex]
    by_cases hlt : c.descIndex < new.descIndex
    · simp only [hlt, if_true, findChild]
      by_cases hc : c.name = part
      · simp [hc]
      · simp [hc, ih]
    · simp only [hlt, if_false]
      rw [findChild, if_neg hne]
      rw [findChild_shift_start part (c :: cs) (k0 + 1), findChild_shift_start part (c :: cs) k0]
      cases findChild part (c :: cs) 0 <;> simp

theorem findChild_insertByIndex_new (new : Node) (l : List Node) (k0 : Nat)
    (hfresh : ∀ c ∈ l, c.name ≠ new.name) :
    (findChild new.name (insertByIndex new l) k0).map (fun r => r.2) = some new := by
  induction l generalizing k0 with
  | nil => simp [insertByIndex, findChild]
  | cons c cs ih =>
    simp only [insertByIndex]
    by_cases hlt : c.descIndex < new.descIndex
    · simp only [hlt, if_true, findChild]
      rw [if_neg (hfresh c (by simp))]
      exact ih _ (fun x hx => hfresh x (by simp [hx]))
    · simp [hlt, findChild]

theorem insertByIndex_names (new : Node) (l : List Node) :
    ∃ l1 l2, l = l1 ++ l2 ∧ insertByIndex new l = l1 ++ new :: l2 ∧
      (∀ c ∈ l1, c.descIndex < new.descIndex) ∧
      (∀ c, l2.head? = some c → new.descIndex ≤ c.descIndex) := by
  induction l with
  | nil => exact ⟨[], [], rfl, rfl, by simp, by simp⟩
  | cons c cs ih =>
    by_cases hlt : c.descIndex < new.descIndex
    · obtain ⟨l1, l2, h1, h2, h3, h4⟩ := ih
      refine ⟨c :: l1, l2, by simp [h1], by simp [insertByIndex, hlt, h2], ?_, h4⟩
      intro x hx
      rcases List.mem_cons.mp hx with rfl | hx
      · exact hlt
      · exact h3 x hx
    · refine ⟨[], c :: cs, rfl, by simp [insertByIndex, hlt], by simp, ?_⟩
      intro x hx
      simp only [List.head?_cons, Option.some.injEq] at hx
      subst hx
      omega

theorem walk_shift (pos k : Nat) (cs : List (List Nat)) (a : List Nat) (n : Node) :
    walk (a, n.shift pos k) cs = (walk (a, n) cs).map (fun r => (r.1, r.2.shift pos k)) := by
  induction cs generalizing a n with
  | nil => simp [walk]
  | cons c cs ih =>
    simp only [walk, shift_children, findChild_map _ (shift_name pos k)]
    cases findChild c n.children 0 with
    | none => rfl
    | some kc => exact ih _ _

/-- Resolution in the tree with shifted indices finds the same node, shifted,
at the same address. -/
theorem resolve_shift (pos k : Nat) (root : Node) (path : List Nat) :
    resolve (root.shift pos k) path =
      (resolve root path).map (fun r => (r.1, r.2.shift pos k)) := by
  rw [resolve_eq_walk, resolve_eq_walk]
  by_cases hh : path.head? = some SLASH
  · rw [if_pos hh, if_pos hh]
    exact walk_shift _ _ _ _ _
  · rw [if_neg hh, if_neg hh]
    rfl

theorem get?_shift (pos k : Nat) (addr : List Nat) (n : Node) :
    (n.shift pos k).get? addr = (n.get? addr).map (Node.shift pos k) := by
  induction addr generalizing n with
  | nil => rfl
  | cons i ks ih =>
    simp only [Node.get?, shift_children, List.get?_eq_getElem?, List.getElem?_map]
    cases n.children[i]? with
    | none => rfl
    | some c => exact ih c

/-- The relation between a tree and the tree obtained by modifying one node
(an admissible target) with `h`, kept along corresponding children. -/
theorem modifyAt_sim (h : Node → Node) (hname : ∀ x, (h x).name = x.name) (T : Node → Prop)
    (hT : ∀ p, T p → ∀ c j ch, findChild c p.children 0 = some (j, ch) →
      ∃ j1, findChild c (h p).children 0 = some (j1, ch))
    (n n1 : Node)
    (hrel : n1 = n ∨ ∃ rel p, n.get? rel = some p ∧ T p ∧ n1 = n.modifyAt h rel)
    (c : List Nat) (j : Nat) (ch : Node) (hf : findChild c n.children 0 = some (j, ch)) :
    ∃ j1 ch1, findChild c n1.children 0 = some (j1, ch1) ∧
      (ch1 = ch ∨ ∃ rel p, ch.get? rel = some p ∧ T p ∧ ch1 = ch.modifyAt h rel) := by
  rcases hrel with rfl | ⟨rel, p, hget, hTp, rfl⟩
  · exact ⟨j, ch, hf, Or.inl rfl⟩
  · cases rel with
    | nil =>
      simp only [Node.get?, Option.some.injEq] at hget
      subst hget
      obtain ⟨j1, hj1⟩ := hT n hTp c j ch hf
      exact ⟨j1, ch, hj1, Or.inl rfl⟩
    | cons i ks =>
      simp only [Node.modifyAt]
      rw [findChild_modify c n.children _ i (modifyAt_name h hname ks), hf]
      simp only [Option.map_some']
      by_cases hji : j = i
      · subst hji
        refine ⟨j, _, rfl, Or.inr ⟨ks, p, ?_, hTp, by simp⟩⟩
        simp only [Node.get?, List.get?_eq_getElem?, findChild_lt _ _ _ _ hf] at hget
        exact hget
      · exact ⟨j, _, rfl, Or.inl (by simp [hji])⟩

/-- Resolution of any path in a tree with one node modified: the path still
resolves, to the same node or to that node with the modification inside. -/
theorem resolve_modifyAt_other (h : Node → Node) (hname : ∀ x, (h x).name = x.name)
    (T : Node → Prop)
    (hT : ∀ p, T p → ∀ c j ch, findChild c p.children 0 = some (j, ch) →
      ∃ j1, findChild c (h p).children 0 = some (j1, ch))
    (root : Node) (addr : List Nat) (p : Node) (hget : root.get? addr = some p) (hTp : T p)
    (path b : List Nat) (m : Node) (hres : resolve root path = some (b, m)) :
    ∃ b1 m1, resolve (root.modifyAt h addr) path = some (b1, m1) ∧
      (m1 = m ∨ ∃ rel q, m.get? rel = some q ∧ T q ∧ m1 = m.modifyAt h rel) :=
  resolve_sim
    (fun n n1 => n1 = n ∨ ∃ rel p, n.get? rel = some p ∧ T p ∧ n1 = n.modifyAt h rel)
    (fun n n1 hr c j ch hf => modifyAt_sim h hname T hT n n1 hr c j ch hf)
    root _ (Or.inr ⟨addr, p, hget, hTp, rfl⟩) path b m hres

/-! ### Effect of the creating operations -/

/-- The engine after `insertEntries`, when it is defined. -/
theorem insertEntries_eq (w : Wad) (addr : List Nat) (pos : Nat) (ds : List Descriptor)
    (new : Node) (hpos : pos ≤ w.descriptors.length)
    (hbyte : w.header.offset + pos * 16 ≤ w.fileData.length)
    (h8 : 8 ≤ w.fileData.length + (ds.map serialize).flatten.length) :
    insertEntries w addr pos ds new =
      some { header := { w.header with count := (w.header.count + ds.length) % 4294967296 },
             fileData := overwriteAt
               (spliceAt w.fileData (w.header.offset + pos * 16) (ds.map serialize).flatten) 4
               (le32 ((w.header.count + ds.length) % 4294967296)),
             descriptors := spliceAt w.descriptors pos ds,
             root := (w.root.shift pos ds.length).modifyAt (addChild new) addr } := by
  unfold insertEntries
  rw [if_neg (by omega)]
  simp only
  rw [if_neg (by omega), if_neg (by rw [length_spliceAt]; omega)]

theorem insertEntries_some (w w1 : Wad) (addr : List Nat) (pos : Nat) (ds : List Descriptor)
    (new : Node) (h : insertEntries w addr pos ds new = some w1) :
    pos ≤ w.descriptors.length ∧ w.header.offset + pos * 16 ≤ w.fileData.length ∧
    8 ≤ w.fileData.length + (ds.map serialize).flatten.length := by
  unfold insertEntries at h
  by_cases h1 : w.descriptors.length < pos
  · rw [if_pos h1] at h; exact absurd h (by simp)
  · rw [if_neg h1] at h
    simp only at h
    by_cases h2 : w.fileData.length < w.header.offset + pos * 16
    · rw [if_pos h2] at h; exact absurd h (by simp)
    · rw [if_neg h2] at h
      by_cases h3 : (spliceAt w.fileData (w.header.offset + pos * 16)
          (ds.map serialize).flatten).length < 8
      · rw [if_pos h3] at h; exact absurd h (by simp)
      · rw [length_spliceAt] at h3
        omega

theorem insertEntries_root (w w1 : Wad) (addr : List Nat) (pos : Nat) (ds : List Descriptor)
    (new : Node) (h : insertEntries w addr pos ds new = some w1) :
    w1.root = (w.root.shift pos ds.length).modifyAt (addChild new) addr := by
  obtain ⟨h1, h2, h3⟩ := insertEntries_some w w1 addr pos ds new h
  rw [insertEntries_eq w addr pos ds new h1 h2 h3] at h
  simp only [Option.some.injEq] at h
  rw [← h]

theorem not_any_name (l : List Node) (name : List Nat)
    (h : ¬ (l.any (fun c => c.name == name)) = true) : ∀ c ∈ l, c.name ≠ name := by
  intro c hc hn
  exact h ((any_name_eq l name).mpr ⟨c, hc, hn⟩)

/-- The tree after `createDirectory`: unchanged, or one new child inserted. -/
theorem createDirectory_tree (w w1 : Wad) (path : List Nat)
    (h : createDirectory w path = some w1) : w1 = w ∨ InsertedChild w.root w1.root := by
  unfold createDirectory at h
  simp only at h
  split at h
  · left; simpa using h.symm
  · split at h
    · left; simpa using h.symm
    · split at h
      · left; simpa using h.symm
      · split at h
        · exact absurd h (by simp)
        · rename_i addr parent hres
          split at h
          · left; simpa using h.symm
          · split at h
            · left; simpa using h.symm
            · rename_i hdup
              split at h
              · left; simpa using h.symm
              · rename_i pos hpos
                right
                exact ⟨addr, parent, pos, _, _, resolve_get? _ _ _ _ hres,
                  not_any_name _ _ hdup, insertEntries_root _ _ _ _ _ _ h⟩

/-- The tree after `createFile`: unchanged, or one new child inserted. -/
theorem createFile_tree (w w1 : Wad) (path : List Nat)
    (h : createFile w path = some w1) : w1 = w ∨ InsertedChild w.root w1.root := by
  unfold createFile at h
  simp only at h
  split at h
  · left; simpa using h.symm
  · split at h
    · left; simpa using h.symm
    · split at h
      · left; simpa using h.symm
      · split at h
        · left; simpa using h.symm
        · rename_i addr parent hres
          split at h
          · left; simpa using h.symm
          · split at h
            · left; simpa using h.symm
            · split at h
              · left; simpa using h.symm
              · rename_i hdup
                split at h
                · left; simpa using h.symm
                · rename_i pos hpos
                  right
                  exact ⟨addr, parent, pos, _, _, resolve_get? _ _ _ _ hres,
                    not_any_name _ _ hdup, insertEntries_root _ _ _ _ _ _ h⟩

@[simp] theorem addChild_name (new p : Node) : (addChild new p).name = p.name := rfl

theorem modifyAt_addChild_fields (new : Node) (rel : List Nat) (m : Node) :
    (m.modifyAt (addChild new) rel).name = m.name ∧
    (m.modifyAt (addChild new) rel).isDir = m.isDir ∧
    (m.modifyAt (addChild new) rel).offset = m.offset ∧
    (m.modifyAt (addChild new) rel).length = m.length ∧
    (m.modifyAt (addChild new) rel).descIndex = m.descIndex := by
  cases rel <;> simp [Node.modifyAt, addChild]

theorem addChild_findChild (new p : Node) (hfresh : ∀ c ∈ p.children, c.name ≠ new.name)
    (c : List Nat) (j : Nat) (ch : Node) (hf : findChild c p.children 0 = some (j, ch)) :
    ∃ j1, findChild c (addChild new p).children 0 = some (j1, ch) := by
  have hname := findChild_name _ _ _ _ _ hf
  have hmem : ch ∈ p.children := List.getElem?_mem (findChild_lt _ _ _ _ hf)
  have hne : new.name ≠ c := by
    rw [← hname]
    exact fun e => hfresh ch hmem e.symm
  have := findChild_insertByIndex new c p.children 0 hne
  rw [hf] at this
  simp only [addChild]
  cases hfi : findChild c (insertByIndex new p.children) 0 with
  | none => simp [hfi] at this
  | some r =>
    obtain ⟨j1, ch1⟩ := r
    simp only [hfi, Option.map_some', Option.some.injEq] at this
    subst this
    exact ⟨j1, rfl⟩

/-- A path that resolves before a child is inserted resolves afterwards, to a
node with the same name, kind, offset and length. -/
theorem resolve_insertedChild (root root1 : Node) (hins : InsertedChild root root1)
    (path b : List Nat) (m : Node) (hres : resolve root path = some (b, m)) :
    ∃ b1 m1, resolve root1 path = some (b1, m1) ∧ m1.name = m.name ∧ m1.isDir = m.isDir ∧
      m1.offset = m.offset ∧ m1.length = m.length := by
  obtain ⟨addr, parent, pos, k, new, hget, hfresh, rfl⟩ := hins
  have hres1 : resolve (root.shift pos k) path = some (b, m.shift pos k) := by
    rw [resolve_shift, hres]; rfl
  have hget1 : (root.shift pos k).get? addr = some (parent.shift pos k) := by
    rw [get?_shift, hget]; rfl
  obtain ⟨b1, m1, h1, h2⟩ := resolve_modifyAt_other (addChild new) (addChild_name new)
    (fun p => ∀ c ∈ p.children, c.name ≠ new.name)
    (fun p hp c j ch hf => addChild_findChild new p hp c j ch hf)
    (root.shift pos k) addr (parent.shift pos k) hget1
    (by
      intro c hc
      simp only [shift_children, List.mem_map] at hc
      obtain ⟨c0, hc0, rfl⟩ := hc
      simpa using hfresh c0 hc0)
    path b (m.shift pos k) hres1
  refine ⟨b1, m1, h1, ?_⟩
  rcases h2 with rfl | ⟨rel, q, -, -, rfl⟩
  · simp
  · have := modifyAt_addChild_fields new rel (m.shift pos k)
    simp only [shift_name, shift_isDir, shift_offset, shift_length] at this
    exact ⟨this.1, this.2.1, this.2.2.1, this.2.2.2.1⟩

/-- The outcome of `writeToFile`: a rejection (`-1`, nothing changed), or the
data of a successful write. -/
theorem writeToFile_cases (w w1 : Wad) (path : List Nat) (buffer : Option (List Nat))
    (length offset r : Int) (h : writeToFile w path buffer length offset = some (r, w1)) :
    (r = -1 ∧ w1 = w) ∨
    (r = length ∧ 0 < length ∧ 0 ≤ offset ∧ offset + length < 2147483648 ∧
      ∃ addr node, resolve w.root path = some (addr, node) ∧ node.isDir = false ∧
        node.length = 0 ∧
        w1.root = w.root.modifyAt
          (fun x => { x with offset := w.header.offset % 4294967296,
                             length := toU32 (offset + length) }) addr) := by
  unfold writeToFile at h
  split at h
  · left; simpa [eq_comm] using h
  · rename_i buf
    split at h
    · left; simpa [eq_comm] using h
    · rename_i hlo
      split at h
      · left; simpa [eq_comm] using h
      · rename_i addr node hres
        split at h
        · left; simpa [eq_comm] using h
        · rename_i hdir
          split at h
          · left; simpa [eq_comm] using h
          · rename_i hlen
            split at h
            · exact absurd h (by simp)
            · rename_i hsum
              simp only at h
              split at h
              · exact absurd h (by simp)
              · split at h
                · exact absurd h (by simp)
                · split at h
                  · exact absurd h (by simp)
                  · split at h
                    · exact absurd h (by simp)
                    · split at h
                      · exact absurd h (by simp)
                      · simp only [Option.some.injEq, Prod.mk.injEq] at h
                        obtain ⟨h1, h2⟩ := h
                        right
                        refine ⟨h1.symm, by omega, by omega, by omega, addr, node, hres,
                          by simpa using hdir, by simpa using hlen, ?_⟩
                        rw [← h2]

/-! ### The one-shot rule of `writeToFile` -/

theorem writeToFile_reject (w : Wad) (path : List Nat) (buffer : Option (List Nat))
    (length offset : Int)
    (h : buffer = none ∨ length ≤ 0 ∨ offset < 0 ∨ resolve w.root path = none ∨
      ∃ a n, resolve w.root path = some (a, n) ∧ (n.isDir = true ∨ n.length ≠ 0)) :
    writeToFile w path buffer length offset = some (-1, w) := by
  unfold writeToFile
  cases buffer with
  | none => rfl
  | some buf =>
    simp only
    by_cases hlo : length ≤ 0 ∨ offset < 0
    · rw [if_pos hlo]
    · rw [if_neg hlo]
      rcases h with h | h | h | h | ⟨a, n, hres, hn⟩
      · exact absurd h (by simp)
      · exact absurd (Or.inl h) hlo
      · exact absurd (Or.inr h) hlo
      · rw [h]
      · rw [hres]
        simp only
        rcases hn with hd | hl
        · rw [if_pos hd]
        · by_cases hd : n.isDir = true
          · rw [if_pos hd]
          · rw [if_neg hd, if_pos hl]

theorem written_of_success (w w1 : Wad) (path : List Nat) (buffer : Option (List Nat))
    (length offset r : Int) (h : writeToFile w path buffer length offset = some (r, w1))
    (hr : r ≠ -1) : Written w1 path := by
  rcases writeToFile_cases w w1 path buffer length offset r h with ⟨h1, -⟩ |
    ⟨-, hl, ho, hs, addr, node, hres, hfile, -, hroot⟩
  · exact absurd h1 hr
  · have hres1 := resolve_modifyAt
      (fun x => { x with offset := w.header.offset % 4294967296,
                         length := toU32 (offset + length) })
      (fun _ => rfl) w.root path addr node hres
    rw [← hroot] at hres1
    refine ⟨addr, _, hres1, hfile, ?_⟩
    simp only [toU32, ne_eq]
    omega

theorem written_step (w w1 : Wad) (path : List Nat) (op : Op) (hw : Written w path)
    (h : step w op = some w1) : Written w1 path := by
  obtain ⟨a, node, hres, hfile, hlen⟩ := hw
  have hins : ∀ root1, InsertedChild w.root root1 →
      ∃ b1 m1, resolve root1 path = some (b1, m1) ∧ m1.isDir = false ∧ m1.length ≠ 0 := by
    intro root1 hi
    obtain ⟨b1, m1, h1, -, h3, -, h5⟩ := resolve_insertedChild _ _ hi path a node hres
    exact ⟨b1, m1, h1, by rw [h3, hfile], by rw [h5]; exact hlen⟩
  cases op with
  | mkdir p =>
    rcases createDirectory_tree w w1 p h with rfl | hi
    · exact ⟨a, node, hres, hfile, hlen⟩
    · exact hins _ hi
  | mkfile p =>
    rcases createFile_tree w w1 p h with rfl | hi
    · exact ⟨a, node, hres, hfile, hlen⟩
    · exact hins _ hi
  | write p buffer length offset =>
    simp only [step, Option.map_eq_some'] at h
    obtain ⟨⟨r, w2⟩, h1, h2⟩ := h
    simp only at h2
    rw [← h2]
    rcases writeToFile_cases w w2 p buffer length offset r h1 with ⟨-, rfl⟩ |
      ⟨-, hl, ho, hs, addr, target, hresq, -, -, hroot⟩
    · exact ⟨a, node, hres, hfile, hlen⟩
    · obtain ⟨b1, m1, h3, h4⟩ := resolve_modifyAt_other
        (fun x => { x with offset := w.header.offset % 4294967296,
                           length := toU32 (offset + length) })
        (fun _ => rfl) (fun _ => True) (fun p _ c j ch hf => ⟨j, hf⟩)
        w.root addr target (resolve_get? _ _ _ _ hresq) trivial path a node hres
      rw [← hroot] at h3
      refine ⟨b1, m1, h3, ?_⟩
      rcases h4 with rfl | ⟨rel, q, -, -, rfl⟩
      · exact ⟨hfile, hlen⟩
      · cases rel with
        | nil =>
          refine ⟨hfile, ?_⟩
          simp only [Node.modifyAt, toU32, ne_eq]
          omega
        | cons i ks => exact ⟨hfile, hlen⟩

theorem written_run (w w1 : Wad) (path : List Nat) (ops : List Op) (hw : Written w path)
    (h : run w ops = some w1) : Written w1 path := by
  induction ops generalizing w with
  | nil =>
    simp only [run, Option.some.injEq] at h
    subst h
    exact hw
  | cons op ops ih =>
    simp only [run] at h
    cases hs : step w op with
    | none => simp [hs] at h
    | some w2 =>
      simp only [hs] at h
      exact ih w2 (written_step w w2 path op hw hs) h

/-- C9. `writeToFile` rejection and one-shot rule: the call returns -1 and
leaves image, header, descriptors and tree unchanged when the buffer is
absent, `length <= 0`, `offset < 0`, the path does not resolve, it resolves to
a directory, or it resolves to a lump whose length is not 0; and after a
successful `writeToFile` on a path, whatever calls of the three mutating
operations follow, every later `writeToFile` on that path returns -1 and
changes nothing. -/
theorem writeToFile_rejection_one_shot (w : Wad) (path : List Nat) :
    (∀ buffer length offset,
      (buffer = none ∨ length ≤ 0 ∨ offset < 0 ∨ resolve w.root path = none ∨
        ∃ a n, resolve w.root path = some (a, n) ∧ (n.isDir = true ∨ n.length ≠ 0)) →
      writeToFile w path buffer length offset = some (-1, w)) ∧
    (∀ buffer length offset r w1,
      writeToFile w path buffer length offset = some (r, w1) → r ≠ -1 →
      ∀ ops w2, run w1 ops = some w2 →
      ∀ buffer2 length2 offset2,
        writeToFile w2 path buffer2 length2 offset2 = some (-1, w2)) := by
  refine ⟨fun buffer length offset h => writeToFile_reject w path buffer length offset h, ?_⟩
  intro buffer length offset r w1 h hr ops w2 hrun buffer2 length2 offset2
  obtain ⟨a, node, hres, -, hlen⟩ :=
    written_run w1 w2 path ops (written_of_success w w1 path buffer length offset r h hr) hrun
  exact writeToFile_reject w2 path buffer2 length2 offset2
    (Or.inr (Or.inr (Or.inr (Or.inr ⟨a, node, hres, Or.inr hlen⟩))))

theorem writeToFile_rejection_one_shot_witness :
    writeToFile exWad (ofString "/DATA") (some [1]) 1 0 = some (-1, exWad) ∧
    (∀ buffer2 length2 offset2,
      writeToFile e1Later (ofString "/a") buffer2 length2 offset2 = some (-1, e1Later)) :=
  ⟨(writeToFile_rejection_one_shot exWad (ofString "/DATA")).1 (some [1]) 1 0
      (Or.inr (Or.inr (Or.inr (Or.inr ⟨[0], exLump, by decide, Or.inr (by decide)⟩)))),
   (writeToFile_rejection_one_shot (loaded e1Image) (ofString "/a")).2
      (some (ofString "AB")) 2 0 2 e1Written (by decide) (by decide)
      [Op.mkfile (ofString "/b"), Op.mkdir (ofString "/d")] e1Later (by decide)⟩

/-! ### Paths of the form `pre/name` -/

theorem norm_append_cons (pre name : List Nat) (c : Nat) (hc : c ≠ SLASH) :
    norm (pre ++ name ++ [c]) = pre ++ name ++ [c] := by
  unfold norm
  rw [if_neg (by simp)]
  have hrev : (pre ++ name ++ [c]).reverse = c :: (pre ++ name).reverse := by simp
  rw [hrev]
  have key : popSlashes (c :: (pre ++ name).reverse) = c :: (pre ++ name).reverse := by
    cases (pre ++ name).reverse with
    | nil => simp [popSlashes]
    | cons d rest => simp [popSlashes, hc]
  rw [key]
  simp

/-- A path `pre/name` with a non-empty final component free of slashes is
left as it is by `norm`. -/
theorem norm_path_name (pre name : List Nat) (hslash : SLASH ∉ name) (hne : name ≠ []) :
    norm (pre ++ SLASH :: name) = pre ++ SLASH :: name := by
  obtain ⟨init, c, rfl⟩ : ∃ init c, name = init ++ [c] :=
    ⟨name.dropLast, name.getLast hne, (List.dropLast_append_getLast hne).symm⟩
  have hc : c ≠ SLASH := fun h => hslash (by simp [h])
  have := norm_append_cons (pre ++ [SLASH]) init c hc
  simpa using this

theorem comps_no_slash (acc name : List Nat) (hslash : SLASH ∉ name) :
    comps acc name = if acc ++ name = [] then [] else [acc ++ name] := by
  induction name generalizing acc with
  | nil => simp [comps]
  | cons c cs ih =>
    have hc : c ≠ SLASH := fun h => hslash (by simp [h])
    have hcs : SLASH ∉ cs := fun h => hslash (by simp [h])
    rw [comps, if_neg hc, ih _ hcs]
    simp

theorem comps_append_cons (acc xs ys : List Nat) :
    comps acc (xs ++ SLASH :: ys) = comps acc xs ++ comps [] ys := by
  induction xs generalizing acc with
  | nil => by_cases ha : acc = [] <;> simp [comps, ha]
  | cons c cs ih =>
    by_cases hc : c = SLASH
    · by_cases ha : acc = [] <;> simp [comps, hc, ha, ih]
    · simp [comps, hc, ih]

/-- The components of `pre/name` are those of the parent path followed by
`name`, when the parent path `pre` (or `/` for an empty `pre`) starts with a
slash. -/
theorem comps_path_name (pre name : List Nat) (hslash : SLASH ∉ name) (hne : name ≠ [])
    (hhead : (if pre = [] then [SLASH] else pre).head? = some SLASH) :
    (pre ++ SLASH :: name).head? = some SLASH ∧
    comps [] ((pre ++ SLASH :: name).drop 1) =
      comps [] ((if pre = [] then [SLASH] else pre).drop 1) ++ [name] := by
  cases pre with
  | nil =>
    simp only [List.nil_append, List.head?_cons, List.drop_succ_cons, List.drop_zero, if_true,
      comps_no_slash [] name hslash, true_and]
    simp [hne, comps]
  | cons c pre1 =>
    simp only [reduceCtorEq, if_false, List.head?_cons, Option.some.injEq] at hhead
    subst hhead
    simp only [List.cons_append, List.head?_cons, List.drop_succ_cons, List.drop_zero,
      reduceCtorEq, if_false, true_and]
    rw [comps_append_cons, comps_no_slash [] name hslash]
    simp [hne]

theorem resolve_head (root : Node) (path : List Nat) (r : List Nat × Node)
    (h : resolve root path = some r) : path.head? = some SLASH := by
  rw [resolve_eq_walk] at h
  by_contra hh
  rw [if_neg hh] at h
  exact absurd h (by simp)

theorem isMapMarker_of_head (path : List Nat) (h : path.head? = some SLASH) :
    isMapMarker path = false := by
  match path, h with
  | [a, b, c, d], h =>
    simp only [List.head?_cons, Option.some.injEq] at h
    subst h
    simp [isMapMarker, SLASH]
  | [], _ => rfl
  | [_], _ => rfl
  | [_, _], _ => rfl
  | [_, _, _], _ => rfl
  | _ :: _ :: _ :: _ :: _ :: _, _ => rfl

/-! ### The scan for `<PARENT>_END` -/

theorem scanEnd_spec (tag : List Nat) (ds : List Descriptor) (start : Nat) :
    start ≤ scanEnd tag ds start ∧ scanEnd tag ds start ≤ start + ds.length ∧
    (∀ j, j < scanEnd tag ds start - start → ∀ d, ds[j]? = some d → descName d ≠ tag) ∧
    (scanEnd tag ds start < start + ds.length →
      ∃ d, ds[scanEnd tag ds start - start]? = some d ∧ descName d = tag) := by
  induction ds generalizing start with
  | nil => simp [scanEnd]
  | cons d ds ih =>
    rw [scanEnd]
    by_cases hd : descName d = tag
    · simp [hd]
    · rw [if_neg hd]
      obtain ⟨h1, h2, h3, h4⟩ := ih (start + 1)
      refine ⟨by omega, by simp only [List.length_cons]; omega, ?_, ?_⟩
      · intro j hj e he
        cases j with
        | zero =>
          simp only [List.getElem?_cons_zero, Option.some.injEq] at he
          subst he; exact hd
        | succ j =>
          simp only [List.getElem?_cons_succ] at he
          exact h3 j (by omega) e he
      · intro hlt
        obtain ⟨e, he1, he2⟩ := h4 (by simp only [List.length_cons] at hlt; omega)
        refine ⟨e, ?_, he2⟩
        have : scanEnd tag ds (start + 1) - start = (scanEnd tag ds (start + 1) - (start + 1)) + 1 := by
          omega
        rw [this, List.getElem?_cons_succ]
        exact he1

theorem findInsertPos_root (descs : List Descriptor) (parent : Node) :
    findInsertPos descs [] parent = some descs.length := by
  simp [findInsertPos]

/-- The insertion index for a parent other than the root, when a descriptor
named `<parent>_END` follows the parent: the index of the first such one. -/
theorem findInsertPos_end (descs : List Descriptor) (addr : List Nat) (parent : Node)
    (haddr : addr ≠ [])
    (hend : ∃ i d, parent.descIndex < i ∧ descs[i]? = some d ∧
      descName d = parent.name ++ sEND) :
    ∃ pos, findInsertPos descs addr parent = some pos ∧ parent.descIndex < pos ∧
      pos < descs.length ∧
      (∃ d, descs[pos]? = some d ∧ descName d = parent.name ++ sEND) ∧
      ∀ j d, parent.descIndex < j → j < pos → descs[j]? = some d →
        descName d ≠ parent.name ++ sEND := by
  obtain ⟨i, d, hi, hd, hname⟩ := hend
  have hilt : i < descs.length := by
    by_contra hc
    rw [List.getElem?_eq_none (by omega)] at hd
    exact absurd hd (by simp)
  obtain ⟨h1, h2, h3, h4⟩ :=
    scanEnd_spec (parent.name ++ sEND) (descs.drop (parent.descIndex + 1)) (parent.descIndex + 1)
  rw [List.length_drop] at h2 h4
  have hpos : scanEnd (parent.name ++ sEND) (descs.drop (parent.descIndex + 1))
      (parent.descIndex + 1) < descs.length := by
    by_contra hc
    refine h3 (i - (parent.descIndex + 1)) (by omega) d ?_ hname
    rw [List.getElem?_drop, ← hd]
    congr 1
    omega
  refine ⟨_, ?_, by omega, hpos, ?_, ?_⟩
  · simp only [findInsertPos, haddr, if_false]
    rw [if_neg (by omega)]
  · obtain ⟨e, he1, he2⟩ := h4 (by omega)
    refine ⟨e, ?_, he2⟩
    rw [List.getElem?_drop] at he1
    rw [← he1]
    congr 1
    omega
  · intro j e hj1 hj2 he
    refine h3 (j - (parent.descIndex + 1)) (by omega) e ?_
    rw [List.getElem?_drop, ← he]
    congr 1
    omega

theorem takeWhile_ne_zero (name : List Nat) (h : 0 ∉ name) :
    name.takeWhile (fun c => c != 0) = name := by
  rw [List.takeWhile_eq_self_iff]
  intro c hc
  simp only [bne_iff_ne, ne_eq]
  exact fun e => h (e ▸ hc)

/-- The name field written for a name without NUL of at most eight bytes:
the name, padded with NUL to eight bytes. -/
theorem encodeName_of_no_nul (name : List Nat) (h : 0 ∉ name) (hlen : name.length ≤ 8) :
    encodeName name = name ++ List.replicate (8 - name.length) 0 := by
  simp only [encodeName, takeWhile_ne_zero name h]
  rw [List.take_of_length_le hlen]

theorem encodeName_length (s : List Nat) : (encodeName s).length = 8 := by
  simp only [encodeName, List.length_append, List.length_take, List.length_replicate]
  omega

theorem createFile_of_split (w : Wad) (path pre name : List Nat)
    (hsplit : norm path = pre ++ SLASH :: name) (hname : SLASH ∉ name) :
    createFile w path =
      if norm path = [SLASH] then some w
      else if name = [] ∨ 8 < name.length then some w
      else if isMapMarker name then some w
      else
        match resolve w.root (if pre = [] then [SLASH] else pre) with
        | none => some w
        | some (addr, parent) =>
          if !parent.isDir then some w
          else if isMapMarker (if pre = [] then [SLASH] else pre) then some w
          else if parent.children.any (fun c => c.name == name) then some w
          else
            match findInsertPos w.descriptors addr parent with
            | none => some w
            | some insertPos =>
              insertEntries w addr insertPos
                [{ offset := 0, length := 0, name := encodeName name }]
                { name := name, isDir := false, offset := 0, length := 0, children := [],
                  descIndex := insertPos } := by
  have hne : norm path ≠ [] := by rw [hsplit]; simp
  have hsp := splitPath_append pre name hname
  unfold createFile
  simp only [hne, false_or]
  by_cases hroot : norm path = [SLASH]
  · simp [hroot]
  · rw [if_neg hroot, if_neg hroot]
    simp only [hsplit, hsp]

/-! ### Resolution after the insertion of a child -/

/-- After the tree part of a creating operation, the parent path resolves to
the parent with the new child, and the path `pre/name` to the new node. -/
theorem resolve_after_insert (root : Node) (pre name addr : List Nat) (parent new : Node)
    (pos k : Nat) (hslash : SLASH ∉ name) (hne : name ≠ []) (hnew : new.name = name)
    (hres : resolve root (if pre = [] then [SLASH] else pre) = some (addr, parent))
    (hfresh : ∀ c ∈ parent.children, c.name ≠ name) :
    resolve ((root.shift pos k).modifyAt (addChild new) addr)
        (if pre = [] then [SLASH] else pre) =
      some (addr, addChild new (parent.shift pos k)) ∧
    ∃ b, resolve ((root.shift pos k).modifyAt (addChild new) addr) (pre ++ SLASH :: name) =
      some (b, new) := by
  have hres1 : resolve (root.shift pos k) (if pre = [] then [SLASH] else pre) =
      some (addr, parent.shift pos k) := by
    rw [resolve_shift, hres]; rfl
  have hres2 := resolve_modifyAt (addChild new) (addChild_name new) _ _ _ _ hres1
  refine ⟨hres2, ?_⟩
  have hhead := resolve_head _ _ _ hres
  obtain ⟨hh, hc⟩ := comps_path_name pre name hslash hne hhead
  rw [resolve_eq_walk, if_pos hhead] at hres2
  rw [resolve_eq_walk, if_pos hh, hc, walk_append, hres2]
  simp only [Option.some_bind, walk]
  have hfresh1 : ∀ c ∈ (parent.shift pos k).children, c.name ≠ new.name := by
    intro c hcm
    simp only [shift_children, List.mem_map] at hcm
    obtain ⟨c0, hc0, rfl⟩ := hcm
    rw [shift_name, hnew]
    exact hfresh c0 hc0
  have hf := findChild_insertByIndex_new new (parent.shift pos k).children 0 hfresh1
  rw [hnew] at hf
  simp only [addChild]
  generalize (parent.shift pos k).children = L at hf ⊢
  cases hfc : findChild name (insertByIndex new L) 0 with
  | none => rw [hfc] at hf; exact absurd hf (by simp)
  | some r =>
    obtain ⟨j, ch⟩ := r
    rw [hfc] at hf
    simp only [Option.map_some', Option.some.injEq] at hf
    subst hf
    exact ⟨_, rfl⟩

/-- The listing of the parent after the insertion: the old names with the new
one inserted, the old ones in their old order. -/
theorem addChild_listing (new parent : Node) (pos k : Nat) :
    ∃ l1 l2, parent.children.map (fun c => c.name) = l1 ++ l2 ∧
      (addChild new (parent.shift pos k)).children.map (fun c => c.name) =
        l1 ++ new.name :: l2 := by
  obtain ⟨a, b, h1, h2, -, -⟩ := insertByIndex_names new (parent.shift pos k).children
  refine ⟨a.map (fun c => c.name), b.map (fun c => c.name), ?_, ?_⟩
  · rw [← List.map_append, ← h1, shift_children, List.map_map]
    apply List.map_congr_left
    intro c _
    simp
  · simp only [addChild, h2, List.map_append, List.map_cons]

/-! ### `createFile`: success -/

/-- C4 (amended). `createFile` success postcondition: in a coherent state with
`header.count + 1 < 2 ^ 32`, for a path `pre/name` whose parent resolves to a
directory that is the root or is followed by a descriptor named
`<parent>_END`, with `name` of 1 to 8 bytes, none of them NUL, not a
map-marker name and not already a child of the parent: `createFile` succeeds,
`header.count` and the descriptor vector length grow by exactly 1, the new
descriptor (name NUL-padded to 8 bytes, offset 0, length 0) sits at the table
end for a root parent and at the index of the first `<parent>_END` after the
parent otherwise (so immediately before it), `isContent` is true and
`getSize` is 0 for the path, and `getDirectory` of the parent returns the old
listing with `name` inserted, the old entries in their old order. -/
theorem createFile_success (w : Wad) (pre name addr : List Nat) (parent : Node)
    (sink : List (List Nat))
    (hcoh : Coherent w) (hcount : w.header.count + 1 < 4294967296)
    (hslash : SLASH ∉ name) (hnul : 0 ∉ name) (hlen1 : 1 ≤ name.length)
    (hlen8 : name.length ≤ 8) (hmm : isMapMarker name = false)
    (hres : resolve w.root (if pre = [] then [SLASH] else pre) = some (addr, parent))
    (hdir : parent.isDir = true) (hfresh : ∀ c ∈ parent.children, c.name ≠ name)
    (hend : addr = [] ∨ ∃ i d, parent.descIndex < i ∧ w.descriptors[i]? = some d ∧
      descName d = parent.name ++ sEND) :
    ∃ w1 pos l1 l2,
      createFile w (pre ++ SLASH :: name) = some w1 ∧
      w1.header.count = w.header.count + 1 ∧
      w1.descriptors.length = w.descriptors.length + 1 ∧
      w1.descriptors = w.descriptors.take pos ++
        { offset := 0, length := 0, name := name ++ List.replicate (8 - name.length) 0 } ::
          w.descriptors.drop pos ∧
      (addr = [] → pos = w.descriptors.length) ∧
      (addr ≠ [] → parent.descIndex < pos ∧
        (∃ d, w.descriptors[pos]? = some d ∧ descName d = parent.name ++ sEND) ∧
        ∀ j d, parent.descIndex < j → j < pos → w.descriptors[j]? = some d →
          descName d ≠ parent.name ++ sEND) ∧
      isContent w1 (pre ++ SLASH :: name) = true ∧
      getSize w1 (pre ++ SLASH :: name) = 0 ∧
      parent.children.map (fun c => c.name) = l1 ++ l2 ∧
      getDirectory w1 (if pre = [] then [SLASH] else pre) (some sink) =
        (((parent.children.length + 1 : Nat) : Int), some (l1 ++ name :: l2)) := by
  obtain ⟨-, htab, -, -, -, -⟩ := hcoh
  have hne : name ≠ [] := by
    intro h; rw [h] at hlen1; simp at hlen1
  have hnorm := norm_path_name pre name hslash hne
  have hhead := resolve_head _ _ _ hres
  -- the insertion index
  obtain ⟨pos, hfind, hposle, hpos1, hpos2⟩ : ∃ pos,
      findInsertPos w.descriptors addr parent = some pos ∧ pos ≤ w.descriptors.length ∧
      (addr = [] → pos = w.descriptors.length) ∧
      (addr ≠ [] → parent.descIndex < pos ∧
        (∃ d, w.descriptors[pos]? = some d ∧ descName d = parent.name ++ sEND) ∧
        ∀ j d, parent.descIndex < j → j < pos → w.descriptors[j]? = some d →
          descName d ≠ parent.name ++ sEND) := by
    by_cases haddr : addr = []
    · subst haddr
      exact ⟨_, findInsertPos_root _ _, le_refl _, fun _ => rfl, fun h => absurd rfl h⟩
    · rcases hend with h | h
      · exact absurd h haddr
      · obtain ⟨pos, h1, h2, h3, h4, h5⟩ := findInsertPos_end w.descriptors addr parent haddr h
        exact ⟨pos, h1, by omega, fun h => absurd h haddr, fun _ => ⟨h2, h4, h5⟩⟩
  -- the call
  have hcall : createFile w (pre ++ SLASH :: name) =
      some { header := { w.header with count := (w.header.count + 1) % 4294967296 },
             fileData := overwriteAt
               (spliceAt w.fileData (w.header.offset + pos * 16)
                 ([({ offset := 0, length := 0, name := encodeName name } : Descriptor)].map
                   serialize).flatten) 4
               (le32 ((w.header.count + 1) % 4294967296)),
             descriptors := spliceAt w.descriptors pos
               [{ offset := 0, length := 0, name := encodeName name }],
             root := (w.root.shift pos 1).modifyAt
               (addChild { name := name, isDir := false, offset := 0, length := 0,
                           children := [], descIndex := pos }) addr } := by
    rw [createFile_of_split w _ pre name hnorm hslash, hnorm]
    rw [if_neg (by
      intro h
      have := congrArg List.length h
      simp at this
      omega)]
    rw [if_neg (by
      rintro (h | h)
      · exact hne h
      · omega), hmm, hres]
    simp only [Bool.false_eq_true, if_false, hdir, Bool.not_true, isMapMarker_of_head _ hhead]
    rw [if_neg (fun h => by
      obtain ⟨c, hc, hcn⟩ := (any_name_eq _ _).mp h
      exact hfresh c hc hcn), hfind]
    simp only
    rw [insertEntries_eq _ _ _ _ _ hposle (by omega) (by
      simp only [List.map_cons, List.map_nil, List.flatten_cons, List.flatten_nil,
        List.append_nil, serialize_length ⟨0, 0, encodeName name⟩ (encodeName_length name)]
      omega)]
    rfl
  obtain ⟨hparent, b, hnew⟩ := resolve_after_insert w.root pre name addr parent
      { name := name, isDir := false, offset := 0, length := 0, children := [],
        descIndex := pos }
      pos 1 hslash hne rfl hres hfresh
  obtain ⟨l1, l2, hl1, hl2⟩ := addChild_listing
      { name := name, isDir := false, offset := 0, length := 0, children := [],
        descIndex := pos }
      parent pos 1
  have hpne : norm (if pre = [] then [SLASH] else pre) ≠ [] := by
    rw [Ne, norm_eq_nil_iff]; exact parentPath_ne_nil pre
  refine ⟨_, pos, l1, l2, hcall, ?_, ?_, ?_, hpos1, hpos2, ?_, ?_, hl1, ?_⟩
  · exact Nat.mod_eq_of_lt hcount
  · simp only [length_spliceAt, List.length_singleton]
  · simp only [spliceAt, encodeName_of_no_nul name hnul hlen8, List.append_assoc,
      List.singleton_append]
  · simp only [isContent, hnorm, resolve_norm]
    rw [if_neg (by simp), hnew]
    rfl
  · simp only [getSize, hnorm, resolve_norm]
    rw [if_neg (by simp), hnew]
    rfl
  · simp only [getDirectory, hpne, if_false, resolve_norm, hparent]
    have hd : ∀ new : Node, (addChild new (parent.shift pos 1)).isDir = true := by
      intro new
      simp [addChild, hdir]
    rw [hd]
    simp only [Bool.not_true, Bool.false_eq_true, if_false, hl2, Prod.mk.injEq,
      and_true]
    have := congrArg List.length hl1
    simp only [List.length_map, List.length_append] at this
    simp only [List.length_append, List.length_cons, List.length_map]
    omega

theorem createFile_success_witness :
    ∃ w1 pos l1 l2,
      createFile (loaded s1Image) (ofString "/F1" ++ SLASH :: ofString "hello") = some w1 ∧
      w1.header.count = (loaded s1Image).header.count + 1 ∧
      w1.descriptors.length = (loaded s1Image).descriptors.length + 1 ∧
      w1.descriptors = (loaded s1Image).descriptors.take pos ++
        { offset := 0, length := 0,
          name := ofString "hello" ++ List.replicate (8 - (ofString "hello").length) 0 } ::
          (loaded s1Image).descriptors.drop pos ∧
      (([0] : List Nat) = [] → pos = (loaded s1Image).descriptors.length) ∧
      (([0] : List Nat) ≠ [] → s1Dir.descIndex < pos ∧
        (∃ d, (loaded s1Image).descriptors[pos]? = some d ∧ descName d = s1Dir.name ++ sEND) ∧
        ∀ j d, s1Dir.descIndex < j → j < pos → (loaded s1Image).descriptors[j]? = some d →
          descName d ≠ s1Dir.name ++ sEND) ∧
      isContent w1 (ofString "/F1" ++ SLASH :: ofString "hello") = true ∧
      getSize w1 (ofString "/F1" ++ SLASH :: ofString "hello") = 0 ∧
      s1Dir.children.map (fun c => c.name) = l1 ++ l2 ∧
      getDirectory w1 (if ofString "/F1" = [] then [SLASH] else ofString "/F1") (some []) =
        (((s1Dir.children.length + 1 : Nat) : Int), some (l1 ++ ofString "hello" :: l2)) :=
  createFile_success (loaded s1Image) (ofString "/F1") (ofString "hello") [0] s1Dir []
    (by decide) (by decide) (by decide) (by decide) (by decide) (by decide) (by decide)
    (by decide) (by decide) (by decide)
    (Or.inr ⟨1, { offset := 0, length := 0, name := encodeName (ofString "F1_END") },
      by decide, by decide, by decide⟩)

/-- C4 (counterexample). On the empty archive, `createFile` of the path `/a\0b`
(root parent; final component of 3 bytes, not a map marker, not yet a child)
writes a descriptor whose name field is `a` followed by seven NUL bytes, not
the three name bytes `a`, NUL, `b` padded with NUL: `strncpy` stops at the
first NUL of the name. -/
theorem createFile_success_counterexample :
    Coherent emptyWad ∧
    resolve emptyWad.root [SLASH] = some ([], emptyWad.root) ∧
    emptyWad.root.isDir = true ∧ emptyWad.root.children = [] ∧
    nulPath = [] ++ SLASH :: [97, 0, 98] ∧ isMapMarker [97, 0, 98] = false ∧
    (createFile emptyWad nulPath).map (fun w => w.descriptors) =
      some [{ offset := 0, length := 0, name := [97, 0, 0, 0, 0, 0, 0, 0] }] ∧
    ([97, 0, 0, 0, 0, 0, 0, 0] : List Nat) ≠ [97, 0, 98] ++ List.replicate (8 - 3) 0 := by
  decide

/-! ### `createDirectory`: success -/

/-- C5 (amended). `createDirectory` success postcondition: in a coherent state
with `header.count + 2 < 2 ^ 32`, for a path `pre/name` whose parent resolves
to a node that is not named like a map marker and is the root or is followed
by a descriptor named `<parent>_END`, with `name` of 1 or 2 bytes, none of
them NUL, and not already a child of the parent: `createDirectory` succeeds,
the descriptor vector is the old one with `<name>_START` and `<name>_END`
(offset 0, length 0, names NUL-padded to 8 bytes) spliced in at `insertPos`
(the old table length for a root parent, the index of the first
`<parent>_END` after the parent otherwise), `header.count` grows by exactly
2, `header.offset` is unchanged, `isDirectory` is true for the path and
`getDirectory` returns 0 with an empty listing. -/
theorem createDirectory_success (w : Wad) (pre name addr : List Nat) (parent : Node)
    (sink : List (List Nat))
    (hcoh : Coherent w) (hcount : w.header.count + 2 < 4294967296)
    (hslash : SLASH ∉ name) (hnul : 0 ∉ name) (hlen1 : 1 ≤ name.length)
    (hlen2 : name.length ≤ 2)
    (hres : resolve w.root (if pre = [] then [SLASH] else pre) = some (addr, parent))
    (hmm : isMapMarker parent.name = false)
    (hfresh : ∀ c ∈ parent.children, c.name ≠ name)
    (hend : addr = [] ∨ ∃ i d, parent.descIndex < i ∧ w.descriptors[i]? = some d ∧
      descName d = parent.name ++ sEND) :
    ∃ w1 pos,
      createDirectory w (pre ++ SLASH :: name) = some w1 ∧
      w1.descriptors = w.descriptors.take pos ++
        [{ offset := 0, length := 0,
           name := name ++ sSTART ++ List.replicate (8 - (name.length + 6)) 0 },
         { offset := 0, length := 0,
           name := name ++ sEND ++ List.replicate (8 - (name.length + 4)) 0 }] ++
        w.descriptors.drop pos ∧
      (addr = [] → pos = w.descriptors.length) ∧
      (addr ≠ [] → parent.descIndex < pos ∧
        (∃ d, w.descriptors[pos]? = some d ∧ descName d = parent.name ++ sEND) ∧
        ∀ j d, parent.descIndex < j → j < pos → w.descriptors[j]? = some d →
          descName d ≠ parent.name ++ sEND) ∧
      w1.header.count = w.header.count + 2 ∧
      w1.header.offset = w.header.offset ∧
      isDirectory w1 (pre ++ SLASH :: name) = true ∧
      getDirectory w1 (pre ++ SLASH :: name) (some sink) = (0, some []) := by
  obtain ⟨-, htab, -, -, -, -⟩ := hcoh
  have hne : name ≠ [] := by
    intro h; rw [h] at hlen1; simp at hlen1
  have hnorm := norm_path_name pre name hslash hne
  obtain ⟨pos, hfind, hposle, hpos1, hpos2⟩ : ∃ pos,
      findInsertPos w.descriptors addr parent = some pos ∧ pos ≤ w.descriptors.length ∧
      (addr = [] → pos = w.descriptors.length) ∧
      (addr ≠ [] → parent.descIndex < pos ∧
        (∃ d, w.descriptors[pos]? = some d ∧ descName d = parent.name ++ sEND) ∧
        ∀ j d, parent.descIndex < j → j < pos → w.descriptors[j]? = some d →
          descName d ≠ parent.name ++ sEND) := by
    by_cases haddr : addr = []
    · subst haddr
      exact ⟨_, findInsertPos_root _ _, le_refl _, fun _ => rfl, fun h => absurd rfl h⟩
    · rcases hend with h | h
      · exact absurd h haddr
      · obtain ⟨pos, h1, h2, h3, h4, h5⟩ := findInsertPos_end w.descriptors addr parent haddr h
        exact ⟨pos, h1, by omega, fun h => absurd h haddr, fun _ => ⟨h2, h4, h5⟩⟩
  have hcall : createDirectory w (pre ++ SLASH :: name) =
      some { header := { w.header with count := (w.header.count + 2) % 4294967296 },
             fileData := overwriteAt
               (spliceAt w.fileData (w.header.offset + pos * 16)
                 ([({ offset := 0, length := 0, name := encodeName (name ++ sSTART) } :
                      Descriptor),
                   { offset := 0, length := 0, name := encodeName (name ++ sEND) }].map
                   serialize).flatten) 4
               (le32 ((w.header.count + 2) % 4294967296)),
             descriptors := spliceAt w.descriptors pos
               [{ offset := 0, length := 0, name := encodeName (name ++ sSTART) },
                { offset := 0, length := 0, name := encodeName (name ++ sEND) }],
             root := (w.root.shift pos 2).modifyAt
               (addChild { name := name, isDir := true, offset := 0, length := 0,
                           children := [], descIndex := pos }) addr } := by
    rw [createDirectory_of_split w _ pre name hnorm hslash, hnorm]
    rw [if_neg (by
      intro h
      have := congrArg List.length h
      simp at this
      omega)]
    rw [if_neg (by
      rintro (h | h)
      · exact hne h
      · omega), hres]
    simp only [hmm, Bool.false_eq_true, if_false]
    rw [if_neg (fun h => by
      obtain ⟨c, hc, hcn⟩ := (any_name_eq _ _).mp h
      exact hfresh c hc hcn), hfind]
    simp only
    rw [insertEntries_eq _ _ _ _ _ hposle (by omega) (by
      simp only [List.map_cons, List.map_nil, List.flatten_cons, List.flatten_nil,
        List.append_nil, List.length_append,
        serialize_length ⟨0, 0, encodeName (name ++ sSTART)⟩ (encodeName_length _),
        serialize_length ⟨0, 0, encodeName (name ++ sEND)⟩ (encodeName_length _)]
      omega)]
    rfl
  obtain ⟨-, b, hnew⟩ := resolve_after_insert w.root pre name addr parent
      { name := name, isDir := true, offset := 0, length := 0, children := [],
        descIndex := pos }
      pos 2 hslash hne rfl hres hfresh
  have hs0 : (0 : Nat) ∉ name ++ sSTART := by
    simp only [List.mem_append, not_or]
    exact ⟨hnul, by decide⟩
  have he0 : (0 : Nat) ∉ name ++ sEND := by
    simp only [List.mem_append, not_or]
    exact ⟨hnul, by decide⟩
  have hsl : (name ++ sSTART).length = name.length + 6 := by simp [sSTART]
  have hel : (name ++ sEND).length = name.length + 4 := by simp [sEND]
  refine ⟨_, pos, hcall, ?_, hpos1, hpos2, ?_, rfl, ?_, ?_⟩
  · simp only [spliceAt, encodeName_of_no_nul _ hs0 (by omega),
      encodeName_of_no_nul _ he0 (by omega), hsl, hel]
  · exact Nat.mod_eq_of_lt hcount
  · simp only [isDirectory, hnorm, resolve_norm]
    rw [if_neg (by simp), hnew]
  · simp only [getDirectory, hnorm, resolve_norm]
    rw [if_neg (by simp), hnew]
    rfl

theorem createDirectory_success_witness :
    ∃ w1 pos,
      createDirectory (loaded s1Image) (ofString "/F1" ++ SLASH :: ofString "ab") = some w1 ∧
      w1.descriptors = (loaded s1Image).descriptors.take pos ++
        [{ offset := 0, length := 0,
           name := ofString "ab" ++ sSTART ++
             List.replicate (8 - ((ofString "ab").length + 6)) 0 },
         { offset := 0, length := 0,
           name := ofString "ab" ++ sEND ++
             List.replicate (8 - ((ofString "ab").length + 4)) 0 }] ++
        (loaded s1Image).descriptors.drop pos ∧
      (([0] : List Nat) = [] → pos = (loaded s1Image).descriptors.length) ∧
      (([0] : List Nat) ≠ [] → s1Dir.descIndex < pos ∧
        (∃ d, (loaded s1Image).descriptors[pos]? = some d ∧ descName d = s1Dir.name ++ sEND) ∧
        ∀ j d, s1Dir.descIndex < j → j < pos → (loaded s1Image).descriptors[j]? = some d →
          descName d ≠ s1Dir.name ++ sEND) ∧
      w1.header.count = (loaded s1Image).header.count + 2 ∧
      w1.header.offset = (loaded s1Image).header.offset ∧
      isDirectory w1 (ofString "/F1" ++ SLASH :: ofString "ab") = true ∧
      getDirectory w1 (ofString "/F1" ++ SLASH :: ofString "ab") (some [[1]]) =
        (0, some []) :=
  createDirectory_success (loaded s1Image) (ofString "/F1") (ofString "ab") [0] s1Dir [[1]]
    (by decide) (by decide) (by decide) (by decide) (by decide) (by decide) (by decide)
    (by decide) (by decide)
    (Or.inr ⟨1, { offset := 0, length := 0, name := encodeName (ofString "F1_END") },
      by decide, by decide, by decide⟩)

/-- C5 (counterexample). On the empty archive, `createDirectory` of the path
whose final component is the single byte NUL (root parent, 1 byte, not yet a
child) splices in two descriptors whose name fields are eight NUL bytes each,
not `<name>_START` and `<name>_END` padded with NUL: `strncpy` stops at the
first NUL. -/
theorem createDirectory_success_counterexample :
    Coherent emptyWad ∧
    resolve emptyWad.root [SLASH] = some ([], emptyWad.root) ∧
    isMapMarker emptyWad.root.name = false ∧ emptyWad.root.children = [] ∧
    (createDirectory emptyWad ([] ++ SLASH :: [0])).map (fun w => w.descriptors) =
      some [{ offset := 0, length := 0, name := [0, 0, 0, 0, 0, 0, 0, 0] },
            { offset := 0, length := 0, name := [0, 0, 0, 0, 0, 0, 0, 0] }] ∧
    ([0, 0, 0, 0, 0, 0, 0, 0] : List Nat) ≠ [0] ++ sSTART ++ List.replicate (8 - (1 + 6)) 0 := by
  decide

/-! ### Slices of spliced and overwritten vectors -/

theorem getElem?_slice (l : List Nat) (a k i : Nat) :
    (slice l a k)[i]? = if i < k then l[a + i]? else none :=
  getElem?_drop_take l a k i

theorem slice_length (l : List Nat) (a k : Nat) (h : a + k ≤ l.length) :
    (slice l a k).length = k := by
  simp only [slice, List.length_take, List.length_drop]
  omega

theorem slice_spliceAt_lt (l xs : List Nat) (pos a n : Nat) (hpos : pos ≤ l.length)
    (h : a + n ≤ pos) : slice (spliceAt l pos xs) a n = slice l a n := by
  apply List.ext_getElem?
  intro i
  rw [getElem?_slice, getElem?_slice]
  by_cases hi : i < n
  · rw [if_pos hi, if_pos hi, getElem?_spliceAt _ _ _ _ hpos, if_pos (by omega)]
  · rw [if_neg hi, if_neg hi]

theorem slice_spliceAt_ge (l xs : List Nat) (pos a n : Nat) (hpos : pos ≤ l.length)
    (h : pos + xs.length ≤ a) :
    slice (spliceAt l pos xs) a n = slice l (a - xs.length) n := by
  apply List.ext_getElem?
  intro i
  rw [getElem?_slice, getElem?_slice]
  by_cases hi : i < n
  · rw [if_pos hi, if_pos hi, getElem?_spliceAt _ _ _ _ hpos, if_neg (by omega),
      if_neg (by omega)]
    congr 1
    omega
  · rw [if_neg hi, if_neg hi]

theorem slice_spliceAt_mid (l xs : List Nat) (pos a n : Nat) (hpos : pos ≤ l.length)
    (h1 : pos ≤ a) (h2 : a + n ≤ pos + xs.length) :
    slice (spliceAt l pos xs) a n = slice xs (a - pos) n := by
  apply List.ext_getElem?
  intro i
  rw [getElem?_slice, getElem?_slice]
  by_cases hi : i < n
  · rw [if_pos hi, if_pos hi, getElem?_spliceAt _ _ _ _ hpos, if_neg (by omega),
      if_pos (by omega)]
    congr 1
    omega
  · rw [if_neg hi, if_neg hi]

theorem slice_overwriteAt_disj (l bs : List Nat) (pos a n : Nat)
    (hpos : pos + bs.length ≤ l.length) (h : a + n ≤ pos ∨ pos + bs.length ≤ a) :
    slice (overwriteAt l pos bs) a n = slice l a n := by
  apply List.ext_getElem?
  intro i
  rw [getElem?_slice, getElem?_slice]
  by_cases hi : i < n
  · rw [if_pos hi, if_pos hi, getElem?_overwriteAt _ _ _ _ hpos, if_neg (by omega)]
  · rw [if_neg hi, if_neg hi]

theorem slice_overwriteAt_self (l bs : List Nat) (pos : Nat)
    (hpos : pos + bs.length ≤ l.length) :
    slice (overwriteAt l pos bs) pos bs.length = bs := by
  apply List.ext_getElem?
  intro i
  rw [getElem?_slice]
  by_cases hi : i < bs.length
  · rw [if_pos hi, getElem?_overwriteAt _ _ _ _ hpos, if_pos (by omega)]
    congr 1
    omega
  · rw [if_neg hi, List.getElem?_eq_none (by omega)]

/-- The sixteen bytes of entry `t` in the concatenation of serialized
descriptors. -/
theorem slice_flatten_serialize (ds : List Descriptor) (hn : ∀ d ∈ ds, d.name.length = 8)
    (t : Nat) (d : Descriptor) (hd : ds[t]? = some d) :
    slice (ds.map serialize).flatten (16 * t) 16 = serialize d := by
  induction ds generalizing t with
  | nil => simp at hd
  | cons e es ih =>
    have hel : (serialize e).length = 16 := serialize_length e (hn e (by simp))
    cases t with
    | zero =>
      simp only [List.getElem?_cons_zero, Option.some.injEq] at hd
      subst hd
      simp only [List.map_cons, List.flatten_cons, slice, Nat.mul_zero, List.drop_zero]
      rw [List.take_append_of_le_length (by omega), List.take_of_length_le (by omega)]
    | succ t =>
      simp only [List.getElem?_cons_succ] at hd
      have := ih (fun x hx => hn x (by simp [hx])) t hd
      simp only [List.map_cons, List.flatten_cons, slice] at this ⊢
      rw [show 16 * (t + 1) = (serialize e).length + 16 * t by omega, List.drop_append]
      exact this

theorem flatten_serialize_length (ds : List Descriptor) (hn : ∀ d ∈ ds, d.name.length = 8) :
    (ds.map serialize).flatten.length = 16 * ds.length := by
  induction ds with
  | nil => rfl
  | cons e es ih =>
    simp only [List.map_cons, List.flatten_cons, List.length_append, List.length_cons,
      serialize_length e (hn e (by simp)), ih (fun x hx => hn x (by simp [hx]))]
    omega

theorem getElem?_spliceAt_desc (l ds : List Descriptor) (pos i : Nat) (hpos : pos ≤ l.length) :
    (spliceAt l pos ds)[i]? =
      if i < pos then l[i]? else if i < pos + ds.length then ds[i - pos]?
      else l[i - ds.length]? :=
  getElem?_spliceAt l pos ds i hpos

/-! ### Coherence is kept by the three mutations -/

theorem tableMirrored_slice (image : List Nat) (offset : Nat) (ds : List Descriptor)
    (h : TableMirrored image offset ds) (i : Nat) (d : Descriptor) (hd : ds[i]? = some d) :
    slice image (offset + 16 * i) 16 = serialize d := by
  have hi : i < ds.length := by
    by_contra hc
    rw [List.getElem?_eq_none (by omega)] at hd
    exact absurd hd (by simp)
  have := h i hi
  rw [hd] at this
  simpa using this

theorem coherent_insertEntries (w w1 : Wad) (addr : List Nat) (pos : Nat)
    (ds : List Descriptor) (new : Node) (hcoh : Coherent w) (h12 : 12 ≤ w.header.offset)
    (hds : ∀ d ∈ ds, d.name.length = 8)
    (hfit : w.fileData.length + 16 * ds.length < 4294967296)
    (h : insertEntries w addr pos ds new = some w1) :
    Coherent w1 ∧ w1.header.offset = w.header.offset ∧
      w1.fileData.length = w.fileData.length + 16 * ds.length := by
  obtain ⟨hcount, htab, hb4, hb8, hnames, hmir⟩ := hcoh
  obtain ⟨hpos, hbyte, h8⟩ := insertEntries_some w w1 addr pos ds new h
  rw [insertEntries_eq w addr pos ds new hpos hbyte h8] at h
  simp only [Option.some.injEq] at h
  subst h
  have hfl := flatten_serialize_length ds hds
  have hsl : (spliceAt w.fileData (w.header.offset + pos * 16)
      (ds.map serialize).flatten).length = w.fileData.length + 16 * ds.length := by
    rw [length_spliceAt, hfl]
  have hov : 4 + (le32 ((w.header.count + ds.length) % 4294967296)).length ≤
      (spliceAt w.fileData (w.header.offset + pos * 16) (ds.map serialize).flatten).length := by
    rw [hsl, le32_length]; omega
  have hmod : (w.header.count + ds.length) % 4294967296 = w.header.count + ds.length :=
    Nat.mod_eq_of_lt (by omega)
  refine ⟨⟨?_, ?_, ?_, ?_, ?_, ?_⟩, rfl, ?_⟩
  · simp only [length_spliceAt]
    rw [hmod, hcount]
  · simp only [length_overwriteAt _ _ _ hov, hsl, length_spliceAt]
    omega
  · have := slice_overwriteAt_self _ _ 4 hov
    rw [le32_length] at this
    exact this
  · simp only
    rw [slice_overwriteAt_disj _ _ _ _ _ hov (Or.inr (by rw [le32_length])),
      slice_spliceAt_lt _ _ _ _ _ hbyte (by omega)]
    exact hb8
  · intro d hd
    simp only [spliceAt, List.append_assoc, List.mem_append] at hd
    rcases hd with hd | hd | hd
    · exact hnames d (List.mem_of_mem_take hd)
    · exact hds d hd
    · exact hnames d (List.mem_of_mem_drop hd)
  · intro i hi
    simp only [length_spliceAt] at hi
    simp only
    rw [slice_overwriteAt_disj _ _ _ _ _ hov (Or.inr (by rw [le32_length]; omega)),
      getElem?_spliceAt_desc _ _ _ _ hpos]
    by_cases h1 : i < pos
    · rw [if_pos h1, slice_spliceAt_lt _ _ _ _ _ hbyte (by omega)]
      exact hmir i (by omega)
    · rw [if_neg h1]
      by_cases h2 : i < pos + ds.length
      · rw [if_pos h2, slice_spliceAt_mid _ _ _ _ _ hbyte (by omega) (by rw [hfl]; omega)]
        have hlt : i - pos < ds.length := by omega
        rw [List.getElem?_eq_getElem hlt, Option.map_some',
          show w.header.offset + 16 * i - (w.header.offset + pos * 16) = 16 * (i - pos) by omega,
          slice_flatten_serialize ds hds (i - pos) _ (List.getElem?_eq_getElem hlt)]
      · rw [if_neg h2, slice_spliceAt_ge _ _ _ _ _ hbyte (by rw [hfl]; omega), hfl,
          show w.header.offset + 16 * i - 16 * ds.length =
            w.header.offset + 16 * (i - ds.length) by omega]
        exact hmir (i - ds.length) (by omega)
  · simp only [length_overwriteAt _ _ _ hov, hsl]

/-- The outcome of `writeToFile` in full: a rejection, or the engine after a
successful write of `n` bytes at offset `m`. -/
theorem writeToFile_inv (w w1 : Wad) (path : List Nat) (buffer : Option (List Nat))
    (length offset r : Int) (h : writeToFile w path buffer length offset = some (r, w1)) :
    (r = -1 ∧ w1 = w) ∨
    ∃ (addr : List Nat) (node : Node) (buf : List Nat) (d0 : Descriptor) (n m : Nat),
      buffer = some buf ∧ length = (n : Int) ∧ offset = (m : Int) ∧ r = (n : Int) ∧ 0 < n ∧
      m + n < 2147483648 ∧ n ≤ buf.length ∧
      resolve w.root path = some (addr, node) ∧ node.isDir = false ∧ node.length = 0 ∧
      w.header.offset ≤ w.fileData.length ∧ 12 ≤ w.fileData.length + (m + n) ∧
      w.descriptors[node.descIndex]? = some d0 ∧
      (w.header.offset + (m + n)) % 4294967296 + node.descIndex * 16 + 16 ≤
        w.fileData.length + (m + n) ∧
      w1 =
        { header := { w.header with offset := (w.header.offset + (m + n)) % 4294967296 },
          fileData :=
            overwriteAt
              (overwriteAt (spliceAt w.fileData w.header.offset
                (List.replicate m 0 ++ buf.take n)) 8
                (le32 ((w.header.offset + (m + n)) % 4294967296)))
              ((w.header.offset + (m + n)) % 4294967296 + node.descIndex * 16)
              (serialize { d0 with offset := w.header.offset % 4294967296, length := m + n }),
          descriptors := w.descriptors.set node.descIndex
            { d0 with offset := w.header.offset % 4294967296, length := m + n },
          root := w.root.modifyAt
            (fun x => { x with offset := w.header.offset % 4294967296, length := m + n })
            addr } := by
  by_cases hrej : r = -1 ∧ w1 = w
  · exact Or.inl hrej
  · right
    cases buffer with
    | none =>
      simp only [writeToFile, Option.some.injEq, Prod.mk.injEq] at h
      exact absurd ⟨h.1.symm, h.2.symm⟩ hrej
    | some buf =>
      have hcases := writeToFile_cases w w1 path (some buf) length offset r h
      rcases hcases with hc | ⟨hr, hl, ho, hs, addr, node, hres, hfile, hlen0, -⟩
      · exact absurd hc hrej
      · obtain ⟨n, rfl⟩ : ∃ n : Nat, length = (n : Int) := ⟨length.toNat, by omega⟩
        obtain ⟨m, rfl⟩ : ∃ m : Nat, offset = (m : Int) := ⟨offset.toNat, by omega⟩
        have hn : 0 < n := by omega
        have hsum : m + n < 2147483648 := by omega
        have h3 : toU32 ((m : Int) + (n : Int)) = m + n := by
          have := toU32_natCast (m + n) (by omega)
          simpa using this
        have hl1 : ∀ buf1 : List Nat, (spliceAt w.fileData w.header.offset
            (List.replicate m 0 ++ buf1.take n)).length =
            w.fileData.length + (m + min n buf1.length) := by
          intro buf1
          rw [length_spliceAt]
          simp only [List.length_append, List.length_replicate, List.length_take]
        unfold writeToFile at h
        simp only [hres, hfile, hlen0, ne_eq, not_true_eq_false, Bool.false_eq_true, if_false,
          h3, Int.toNat_ofNat] at h
        rw [if_neg (by omega), if_neg (by omega)] at h
        by_cases hb : buf.length < n
        · rw [if_pos hb] at h; exact absurd h (by simp)
        · rw [if_neg hb] at h
          by_cases ho2 : w.fileData.length < w.header.offset
          · rw [if_pos ho2] at h; exact absurd h (by simp)
          · rw [if_neg ho2] at h
            have hmin : min n buf.length = n := by omega
            by_cases h12 : (spliceAt w.fileData w.header.offset
                (List.replicate m 0 ++ buf.take n)).length < 12
            · rw [if_pos h12] at h; exact absurd h (by simp)
            · rw [if_neg h12] at h
              rw [hl1, hmin] at h12
              cases hd : w.descriptors.get? node.descIndex with
              | none => rw [hd] at h; exact absurd h (by simp)
              | some d0 =>
                rw [hd] at h
                simp only at h
                rw [List.get?_eq_getElem?] at hd
                have hl2 : (overwriteAt (spliceAt w.fileData w.header.offset
                    (List.replicate m 0 ++ buf.take n)) 8
                    (le32 ((w.header.offset + (m + n)) % 4294967296))).length =
                    w.fileData.length + (m + n) := by
                  rw [length_overwriteAt _ _ _ (by rw [hl1, hmin, le32_length]; omega), hl1,
                    hmin]
                by_cases hdb : (overwriteAt (spliceAt w.fileData w.header.offset
                    (List.replicate m 0 ++ buf.take n)) 8
                    (le32 ((w.header.offset + (m + n)) % 4294967296))).length <
                    (w.header.offset + (m + n)) % 4294967296 + node.descIndex * 16 + 16
                · rw [if_pos hdb] at h; exact absurd h (by simp)
                · rw [if_neg hdb] at h
                  rw [hl2] at hdb
                  simp only [Option.some.injEq, Prod.mk.injEq] at h
                  exact ⟨addr, node, buf, d0, n, m, rfl, rfl, rfl, hr, hn, hsum, by omega,
                    hres, hfile, hlen0, by omega, by omega, hd, by omega, h.2.symm⟩

theorem coherent_writeToFile (w w1 : Wad) (path : List Nat) (buffer : Option (List Nat))
    (length offset r : Int) (hcoh : Coherent w) (h12 : 12 ≤ w.header.offset)
    (h : writeToFile w path buffer length offset = some (r, w1))
    (hfit : w1.fileData.length < 4294967296) :
    Coherent w1 ∧ 12 ≤ w1.header.offset ∧ w.fileData.length ≤ w1.fileData.length := by
  rcases writeToFile_inv w w1 path buffer length offset r h with ⟨-, rfl⟩ |
    ⟨addr, node, buf, d0, n, m, -, -, -, -, hn, hsum, hbuf, -, -, -, hoff, hl12, hd, hdesc, rfl⟩
  · exact ⟨hcoh, h12, le_refl _⟩
  · obtain ⟨hcount, htab, hb4, hb8, hnames, hmir⟩ := hcoh
    have hd0 : d0.name.length = 8 := hnames d0 (List.getElem?_mem hd)
    have hidx : node.descIndex < w.descriptors.length := by
      by_contra hc
      rw [List.getElem?_eq_none (by omega)] at hd
      exact absurd hd (by simp)
    have hlump : (List.replicate m 0 ++ buf.take n).length = m + n := by
      simp only [List.length_append, List.length_replicate, List.length_take]
      omega
    have hser : (serialize (Descriptor.mk (w.header.offset % 4294967296) (m + n)
        d0.name)).length = 16 := serialize_length _ hd0
    have hlen := writtenImage_length w.fileData (List.replicate m 0 ++ buf.take n)
      (le32 ((w.header.offset + (m + n)) % 4294967296))
      (serialize (Descriptor.mk (w.header.offset % 4294967296) (m + n) d0.name))
      w.header.offset ((w.header.offset + (m + n)) % 4294967296 + node.descIndex * 16)
      (le32_length _) hser (by rw [hlump]; omega) (by rw [hlump]; omega)
    rw [hlump] at hlen
    simp only at hfit
    rw [hlen] at hfit
    have hmod : (w.header.offset + (m + n)) % 4294967296 = w.header.offset + (m + n) :=
      Nat.mod_eq_of_lt (by omega)
    simp only [hmod] at hlen hdesc hser ⊢
    have hl1 : (spliceAt w.fileData w.header.offset (List.replicate m 0 ++ buf.take n)).length =
        w.fileData.length + (m + n) := by rw [length_spliceAt, hlump]
    have ho1 : 8 + (le32 (w.header.offset + (m + n))).length ≤
        (spliceAt w.fileData w.header.offset (List.replicate m 0 ++ buf.take n)).length := by
      rw [hl1, le32_length]; omega
    have hl2 := length_overwriteAt _ _ _ ho1
    have ho2 : w.header.offset + (m + n) + node.descIndex * 16 +
        (serialize (Descriptor.mk (w.header.offset % 4294967296) (m + n)
          d0.name)).length ≤
        (overwriteAt (spliceAt w.fileData w.header.offset (List.replicate m 0 ++ buf.take n)) 8
          (le32 (w.header.offset + (m + n)))).length := by
      rw [hl2, hl1, hser]; omega
    refine ⟨⟨?_, ?_, ?_, ?_, ?_, ?_⟩, (by show 12 ≤ w.header.offset + (m + n); omega),
      by rw [hlen]; omega⟩
    · simp only [List.length_set]
      exact hcount
    · simp only [List.length_set, hlen]
      omega
    · simp only
      rw [slice_overwriteAt_disj _ _ _ _ _ ho2 (Or.inl (by omega)),
        slice_overwriteAt_disj _ _ _ _ _ ho1 (Or.inl (by omega)),
        slice_spliceAt_lt _ _ _ _ _ hoff (by omega)]
      exact hb4
    · simp only
      rw [slice_overwriteAt_disj _ _ _ _ _ ho2 (Or.inl (by omega))]
      have := slice_overwriteAt_self _ _ 8 ho1
      rw [le32_length] at this
      exact this
    · intro d hdm
      simp only at hdm
      rcases List.mem_or_eq_of_mem_set hdm with hdm | rfl
      · exact hnames d hdm
      · exact hd0
    · intro i hi
      simp only [List.length_set] at hi
      simp only [List.getElem?_set]
      by_cases hii : node.descIndex = i
      · subst hii
        rw [if_pos rfl, if_pos hidx, Option.map_some']
        have := slice_overwriteAt_self _ _ _ ho2
        rw [hser] at this
        rw [show w.header.offset + (m + n) + 16 * node.descIndex =
          w.header.offset + (m + n) + node.descIndex * 16 by omega]
        exact congrArg some this
      · rw [if_neg hii, slice_overwriteAt_disj _ _ _ _ _ ho2 (by rw [hser]; omega),
          slice_overwriteAt_disj _ _ _ _ _ ho1 (Or.inr (by rw [le32_length]; omega)),
          slice_spliceAt_ge _ _ _ _ _ hoff (by rw [hlump]; omega), hlump,
          show w.header.offset + (m + n) + 16 * i - (m + n) = w.header.offset + 16 * i by omega]
        exact hmir i hi

/-- The outcome of `createDirectory`: nothing changed, or the two entries
`<name>_START`, `<name>_END` inserted. -/
theorem createDirectory_cases (w w1 : Wad) (path : List Nat)
    (h : createDirectory w path = some w1) :
    w1 = w ∨ ∃ addr pos name new, insertEntries w addr pos
      [{ offset := 0, length := 0, name := encodeName (name ++ sSTART) },
       { offset := 0, length := 0, name := encodeName (name ++ sEND) }] new = some w1 := by
  unfold createDirectory at h
  simp only at h
  split at h
  · left; simpa using h.symm
  · split at h
    · left; simpa using h.symm
    · split at h
      · left; simpa using h.symm
      · split at h
        · exact absurd h (by simp)
        · split at h
          · left; simpa using h.symm
          · split at h
            · left; simpa using h.symm
            · split at h
              · left; simpa using h.symm
              · right
                exact ⟨_, _, _, _, h⟩

/-- The outcome of `createFile`: nothing changed, or one entry inserted. -/
theorem createFile_cases (w w1 : Wad) (path : List Nat)
    (h : createFile w path = some w1) :
    w1 = w ∨ ∃ addr pos name new, insertEntries w addr pos
      [{ offset := 0, length := 0, name := encodeName name }] new = some w1 := by
  unfold createFile at h
  simp only at h
  split at h
  · left; simpa using h.symm
  · split at h
    · left; simpa using h.symm
    · split at h
      · left; simpa using h.symm
      · split at h
        · left; simpa using h.symm
        · split at h
          · left; simpa using h.symm
          · split at h
            · left; simpa using h.symm
            · split at h
              · left; simpa using h.symm
              · split at h
                · left; simpa using h.symm
                · right
                  exact ⟨_, _, _, _, h⟩

theorem insertEntries_length (w w1 : Wad) (addr : List Nat) (pos : Nat)
    (ds : List Descriptor) (new : Node) (hds : ∀ d ∈ ds, d.name.length = 8)
    (h : insertEntries w addr pos ds new = some w1) :
    w1.fileData.length = w.fileData.length + 16 * ds.length := by
  obtain ⟨hpos, hbyte, h8⟩ := insertEntries_some w w1 addr pos ds new h
  rw [insertEntries_eq w addr pos ds new hpos hbyte h8] at h
  simp only [Option.some.injEq] at h
  subst h
  simp only
  rw [length_overwriteAt, length_spliceAt, flatten_serialize_length ds hds]
  rw [length_spliceAt, le32_length]
  omega

/-- One call keeps the image coherent, as long as the image afterwards is
shorter than `2 ^ 32` bytes; the image never shrinks. -/
theorem coherent_step (w w1 : Wad) (op : Op) (hcoh : Coherent w) (h12 : 12 ≤ w.header.offset)
    (h : step w op = some w1) (hfit : w1.fileData.length < 4294967296) :
    Coherent w1 ∧ 12 ≤ w1.header.offset := by
  have hins : ∀ addr pos ds new, (∀ d ∈ ds, d.name.length = 8) →
      insertEntries w addr pos ds new = some w1 → Coherent w1 ∧ 12 ≤ w1.header.offset := by
    intro addr pos ds new hds hi
    have hl := insertEntries_length w w1 addr pos ds new hds hi
    obtain ⟨h1, h2, -⟩ := coherent_insertEntries w w1 addr pos ds new hcoh h12 hds (by omega) hi
    exact ⟨h1, by omega⟩
  cases op with
  | mkdir p =>
    rcases createDirectory_cases w w1 p h with rfl | ⟨addr, pos, name, new, hi⟩
    · exact ⟨hcoh, h12⟩
    · refine hins addr pos _ new ?_ hi
      intro d hd
      simp only [List.mem_cons, List.mem_singleton, List.not_mem_nil, or_false] at hd
      rcases hd with rfl | rfl <;> exact encodeName_length _
  | mkfile p =>
    rcases createFile_cases w w1 p h with rfl | ⟨addr, pos, name, new, hi⟩
    · exact ⟨hcoh, h12⟩
    · refine hins addr pos _ new ?_ hi
      intro d hd
      simp only [List.mem_singleton] at hd
      subst hd
      exact encodeName_length _
  | write p buffer length offset =>
    simp only [step, Option.map_eq_some'] at h
    obtain ⟨⟨r, w2⟩, h1, h2⟩ := h
    simp only at h2
    subst h2
    obtain ⟨ha, hb, -⟩ := coherent_writeToFile w w2 p buffer length offset r hcoh h12 h1 hfit
    exact ⟨ha, hb⟩

theorem length_overwriteAt_ge {α : Type} (l : List α) (pos : Nat) (bs : List α)
    (h : pos ≤ l.length) : l.length ≤ (overwriteAt l pos bs).length := by
  simp only [overwriteAt, List.length_append, List.length_take, List.length_drop]
  omega

theorem step_length_mono (w w1 : Wad) (op : Op) (h : step w op = some w1) :
    w.fileData.length ≤ w1.fileData.length := by
  cases op with
  | mkdir p =>
    rcases createDirectory_cases w w1 p h with rfl | ⟨addr, pos, name, new, hi⟩
    · exact le_refl _
    · rw [insertEntries_length w w1 addr pos _ new (by
        intro d hd
        simp only [List.mem_cons, List.mem_singleton, List.not_mem_nil, or_false] at hd
        rcases hd with rfl | rfl <;> exact encodeName_length _) hi]
      omega
  | mkfile p =>
    rcases createFile_cases w w1 p h with rfl | ⟨addr, pos, name, new, hi⟩
    · exact le_refl _
    · rw [insertEntries_length w w1 addr pos _ new (by
        intro d hd
        simp only [List.mem_singleton] at hd
        subst hd
        exact encodeName_length _) hi]
      omega
  | write p buffer length offset =>
    simp only [step, Option.map_eq_some'] at h
    obtain ⟨⟨r, w2⟩, h1, h2⟩ := h
    simp only at h2
    subst h2
    rcases writeToFile_inv w w2 p buffer length offset r h1 with ⟨-, rfl⟩ |
      ⟨addr, node, buf, d0, n, m, -, -, -, -, hn, hsum, hbuf, -, -, -, hoff, hl12, hd, hdesc,
        rfl⟩
    · exact le_refl _
    · have hl1 : (spliceAt w.fileData w.header.offset
          (List.replicate m 0 ++ buf.take n)).length = w.fileData.length + (m + n) := by
        rw [length_spliceAt]
        simp only [List.length_append, List.length_replicate, List.length_take]
        omega
      have hl2 := length_overwriteAt (spliceAt w.fileData w.header.offset
          (List.replicate m 0 ++ buf.take n)) 8
          (le32 ((w.header.offset + (m + n)) % 4294967296)) (by rw [hl1, le32_length]; omega)
      have hl3 := length_overwriteAt_ge
          (overwriteAt (spliceAt w.fileData w.header.offset
            (List.replicate m 0 ++ buf.take n)) 8
            (le32 ((w.header.offset + (m + n)) % 4294967296)))
          ((w.header.offset + (m + n)) % 4294967296 + node.descIndex * 16)
          (serialize (Descriptor.mk (w.header.offset % 4294967296) (m + n) d0.name))
          (by rw [hl2, hl1]; omega)
      rw [hl2, hl1] at hl3
      exact le_trans (by omega) hl3

theorem run_length_mono (w w1 : Wad) (ops : List Op) (h : run w ops = some w1) :
    w.fileData.length ≤ w1.fileData.length := by
  induction ops generalizing w with
  | nil =>
    simp only [run, Option.some.injEq] at h
    subst h
    exact le_refl _
  | cons op ops ih =>
    simp only [run] at h
    cases hs : step w op with
    | none => simp [hs] at h
    | some w2 =>
      simp only [hs] at h
      exact le_trans (step_length_mono w w2 op hs) (ih w2 h)

theorem coherent_run (w w1 : Wad) (ops : List Op) (hcoh : Coherent w)
    (h12 : 12 ≤ w.header.offset) (h : run w ops = some w1)
    (hfit : w1.fileData.length < 4294967296) : Coherent w1 ∧ 12 ≤ w1.header.offset := by
  induction ops generalizing w with
  | nil =>
    simp only [run, Option.some.injEq] at h
    subst h
    exact ⟨hcoh, h12⟩
  | cons op ops ih =>
    simp only [run] at h
    cases hs : step w op with
    | none => simp [hs] at h
    | some w2 =>
      simp only [hs] at h
      have hm := run_length_mono w2 w1 ops h
      obtain ⟨hc2, h122⟩ := coherent_step w w2 op hcoh h12 hs (by omega)
      exact ih w2 hc2 h122 h

/-! ### The loaded state is coherent -/

theorem le32_ofLe32 (bs : List Nat) (hlen : 4 ≤ bs.length) (hb : ∀ b ∈ bs, b < 256) :
    le32 (ofLe32 bs) = bs.take 4 := by
  match bs, hlen, hb with
  | b0 :: b1 :: b2 :: b3 :: rest, _, hb =>
    have h0 : b0 < 256 := hb b0 (by simp)
    have h1 : b1 < 256 := hb b1 (by simp)
    have h2 : b2 < 256 := hb b2 (by simp)
    have h3 : b3 < 256 := hb b3 (by simp)
    simp only [le32, ofLe32, List.getD_cons_zero, List.getD_cons_succ, List.take_succ_cons,
      List.take_zero, List.cons.injEq, and_true]
    refine ⟨by omega, by omega, by omega, by omega⟩

theorem take_16_split (bs : List Nat) :
    bs.take 4 ++ ((bs.drop 4).take 4 ++ (bs.drop 8).take 8) = bs.take 16 := by
  have h1 : bs.take 16 = bs.take 4 ++ (bs.drop 4).take 12 := by
    rw [show (16 : Nat) = 4 + 12 by rfl, List.take_add]
  have h2 : (bs.drop 4).take 12 = (bs.drop 4).take 4 ++ ((bs.drop 4).drop 4).take 8 := by
    rw [show (12 : Nat) = 4 + 8 by rfl, List.take_add]
  rw [h1, h2, List.drop_drop]

theorem serialize_parseDescriptor (bs : List Nat) (hlen : 16 ≤ bs.length)
    (hb : ∀ b ∈ bs, b < 256) : serialize (parseDescriptor bs) = bs.take 16 := by
  simp only [serialize, parseDescriptor]
  rw [le32_ofLe32 bs (by omega) hb,
    le32_ofLe32 (bs.drop 4) (by rw [List.length_drop]; omega)
      (fun b hbm => hb b (List.mem_of_mem_drop hbm)),
    List.append_assoc, take_16_split]

theorem readDescriptors_getElem? (data : List Nat) (offset count i : Nat) (hi : i < count) :
    (readDescriptors data offset count)[i]? =
      some (parseDescriptor (data.drop (offset + 16 * i))) := by
  simp only [readDescriptors, List.getElem?_map, List.getElem?_range hi, Option.map_some']

theorem readDescriptors_length (data : List Nat) (offset count : Nat) :
    (readDescriptors data offset count).length = count := by
  simp [readDescriptors]

/-- The state `loadWad` returns for a file of bytes is coherent, and its image
is the file. -/
theorem coherent_loadWad (data : List Nat) (w : Wad) (hb : ∀ b ∈ data, b < 256)
    (h : loadWad (some data) = some (some w)) :
    Coherent w ∧ w.fileData = data ∧ w.header.offset = ofLe32 (data.drop 8) ∧
      w.header.count = ofLe32 (data.drop 4) := by
  simp only [loadWad] at h
  by_cases h12 : data.length < 12
  · rw [if_pos h12] at h; exact absurd h (by simp)
  · rw [if_neg h12] at h
    by_cases htab : data.length < ofLe32 (data.drop 8) + ofLe32 (data.drop 4) * 16
    · rw [if_pos htab] at h; exact absurd h (by simp)
    · rw [if_neg htab] at h
      cases hbt : buildTree (readDescriptors data (ofLe32 (data.drop 8))
          (ofLe32 (data.drop 4))) with
      | none => rw [hbt] at h; exact absurd h (by simp)
      | some root =>
        rw [hbt] at h
        simp only [Option.some.injEq] at h
        subst h
        refine ⟨⟨?_, ?_, ?_, ?_, ?_, ?_⟩, rfl, rfl, rfl⟩
        · simp only [readDescriptors_length]
        · simp only [readDescriptors_length]
          omega
        · simp only [slice]
          exact (le32_ofLe32 _ (by rw [List.length_drop]; omega)
            (fun b hbm => hb b (List.mem_of_mem_drop hbm))).symm
        · simp only [slice]
          exact (le32_ofLe32 _ (by rw [List.length_drop]; omega)
            (fun b hbm => hb b (List.mem_of_mem_drop hbm))).symm
        · intro d hd
          simp only [readDescriptors, List.mem_map, List.mem_range] at hd
          obtain ⟨i, hi, rfl⟩ := hd
          simp only [parseDescriptor, List.length_take, List.length_drop]
          omega
        · intro i hi
          simp only [readDescriptors_length] at hi
          simp only [readDescriptors_getElem? _ _ _ _ hi, Option.map_some', Option.some.injEq,
            slice]
          exact (serialize_parseDescriptor _ (by rw [List.length_drop]; omega)
            (fun b hbm => hb b (List.mem_of_mem_drop hbm))).symm

/-- The engine after a successful `writeToFile`, field by field. -/
theorem writeToFile_success_facts (w : Wad) (path addr : List Nat) (node : Node)
    (buf : List Nat) (n m : Nat) (d0 : Descriptor)
    (hres : resolve w.root path = some (addr, node)) (hfile : node.isDir = false)
    (hlen0 : node.length = 0) (hn : 0 < n) (hsum : m + n < 2147483648)
    (hbuf : n ≤ buf.length) (hoff : w.header.offset ≤ w.fileData.length)
    (h12 : 12 ≤ w.fileData.length + (m + n))
    (hd : w.descriptors[node.descIndex]? = some d0) (hd0 : d0.name.length = 8)
    (hdesc : (w.header.offset + (m + n)) % 4294967296 + node.descIndex * 16 + 16 ≤
      w.fileData.length + (m + n)) :
    ∃ w1, writeToFile w path (some buf) (n : Int) (m : Int) = some ((n : Int), w1) ∧
      w1.header.offset = (w.header.offset + (m + n)) % 4294967296 ∧
      w1.header.count = w.header.count ∧
      w1.fileData.length = w.fileData.length + (m + n) ∧
      w1.descriptors = w.descriptors.set node.descIndex
        (Descriptor.mk (w.header.offset % 4294967296) (m + n) d0.name) ∧
      w1.root = w.root.modifyAt
        (fun x => { x with offset := w.header.offset % 4294967296, length := m + n }) addr ∧
      ∀ i, w1.fileData[i]? =
        if (w.header.offset + (m + n)) % 4294967296 + node.descIndex * 16 ≤ i ∧
            i < (w.header.offset + (m + n)) % 4294967296 + node.descIndex * 16 + 16 then
          (serialize (Descriptor.mk (w.header.offset % 4294967296) (m + n) d0.name))[i -
            ((w.header.offset + (m + n)) % 4294967296 + node.descIndex * 16)]?
        else if 8 ≤ i ∧ i < 12 then
          (le32 ((w.header.offset + (m + n)) % 4294967296))[i - 8]?
        else if i < w.header.offset then w.fileData[i]?
        else if i < w.header.offset + (m + n) then
          (List.replicate m 0 ++ buf.take n)[i - w.header.offset]?
        else w.fileData[i - (m + n)]? := by
  have hw := writeToFile_success w path addr node buf n m d0 hres hfile hlen0 hn hsum hbuf hoff
    h12 hd hdesc
  have hlump : (List.replicate m 0 ++ buf.take n).length = m + n := by
    simp only [List.length_append, List.length_replicate, List.length_take]
    omega
  have hser : (serialize (Descriptor.mk (w.header.offset % 4294967296) (m + n)
      d0.name)).length = 16 := serialize_length _ hd0
  refine ⟨_, hw, rfl, rfl, ?_, rfl, rfl, ?_⟩
  · have := writtenImage_length w.fileData (List.replicate m 0 ++ buf.take n)
      (le32 ((w.header.offset + (m + n)) % 4294967296))
      (serialize (Descriptor.mk (w.header.offset % 4294967296) (m + n) d0.name))
      w.header.offset ((w.header.offset + (m + n)) % 4294967296 + node.descIndex * 16)
      (le32_length _) hser (by rw [hlump]; omega) (by rw [hlump]; omega)
    rw [hlump] at this
    exact this
  · intro i
    have := writtenImage_getElem? w.fileData (List.replicate m 0 ++ buf.take n)
      (le32 ((w.header.offset + (m + n)) % 4294967296))
      (serialize (Descriptor.mk (w.header.offset % 4294967296) (m + n) d0.name))
      w.header.offset ((w.header.offset + (m + n)) % 4294967296 + node.descIndex * 16) i
      (le32_length _) hser hoff (by rw [hlump]; omega) (by rw [hlump]; omega)
    rw [hlump] at this
    exact this

/-! ### Image/mirror coherence along runs -/

/-- C8 (amended). Image/mirror coherence is an invariant of the three
mutations as long as the image stays below `2 ^ 32` bytes: for every state
reached from loading an archive of bytes with `header.offset >= 12` (the
loader has checked that the file holds `header.offset + 16 * count` bytes) by
any sequence of `createDirectory`, `createFile` and `writeToFile` calls, if
the image is shorter than `2 ^ 32` bytes, then image bytes 4..8 are the
little-endian `header.count`, bytes 8..12 the little-endian `header.offset`,
`header.count` is the length of the descriptor vector, and for every
`i < count` the 16 image bytes at `header.offset + 16 * i` are the
serialization of `descriptors[i]`. -/
theorem coherence_invariant (data : List Nat) (w0 w : Wad) (ops : List Op)
    (hb : ∀ b ∈ data, b < 256) (hload : loadWad (some data) = some (some w0))
    (h12 : 12 ≤ w0.header.offset) (hrun : run w0 ops = some w)
    (hfit : w.fileData.length < 4294967296) :
    slice w.fileData 4 4 = le32 w.header.count ∧
    slice w.fileData 8 4 = le32 w.header.offset ∧
    w.header.count = w.descriptors.length ∧
    ∀ i, i < w.header.count → ∃ d, w.descriptors[i]? = some d ∧
      slice w.fileData (w.header.offset + 16 * i) 16 = serialize d := by
  obtain ⟨hc0, -, -, -⟩ := coherent_loadWad data w0 hb hload
  obtain ⟨⟨hcount, -, hb4, hb8, -, hmir⟩, -⟩ := coherent_run w0 w ops hc0 h12 hrun hfit
  refine ⟨hb4, hb8, hcount, ?_⟩
  intro i hi
  rw [hcount] at hi
  exact ⟨w.descriptors[i], List.getElem?_eq_getElem hi,
    tableMirrored_slice _ _ _ hmir i _ (List.getElem?_eq_getElem hi)⟩

theorem coherence_invariant_witness :
    slice e1Later.fileData 4 4 = le32 e1Later.header.count ∧
    slice e1Later.fileData 8 4 = le32 e1Later.header.offset ∧
    e1Later.header.count = e1Later.descriptors.length ∧
    ∀ i, i < e1Later.header.count → ∃ d, e1Later.descriptors[i]? = some d ∧
      slice e1Later.fileData (e1Later.header.offset + 16 * i) 16 = serialize d :=
  coherence_invariant e1Image (loaded e1Image) e1Later
    [Op.write (ofString "/a") (some (ofString "AB")) 2 0, Op.mkfile (ofString "/b"),
     Op.mkdir (ofString "/d")]
    (by decide) (by decide) (by decide) (by decide) (by decide)

theorem run_cons (w w1 : Wad) (op : Op) (ops : List Op) (h : step w op = some w1) :
    run w (op :: ops) = run w1 ops := by
  rw [run, h]

theorem step_write (w w1 : Wad) (path : List Nat) (buffer : Option (List Nat))
    (length offset r : Int) (h : writeToFile w path buffer length offset = some (r, w1)) :
    step w (Op.write path buffer length offset) = some w1 := by
  rw [step, h]
  rfl

/-- C8 (counterexample). Loading `wrapImage` (44 bytes, two empty lumps,
`header.offset = 12`) and writing one byte at offset `2 ^ 31 - 2` to each lump
grows the image by `2 ^ 32 - 2` bytes; the 32-bit `header.offset` wraps to
`12 + 2 ^ 32 - 2 - 2 ^ 32 = 10`. In the state reached, `header.count` is 2
and `descriptors[0]` is the entry of `a` (offset 12, length `2 ^ 31 - 1`),
whose serialization begins with the byte 12, but the image byte at
`header.offset + 16 * 0 = 10` is 0 (the third byte of the little-endian
`header.offset`): the 16 bytes at `header.offset` are not the serialization
of `descriptors[0]`. -/
theorem coherence_counterexample :
    (∀ b ∈ wrapImage, b < 256) ∧
    loadWad (some wrapImage) = some (some (loaded wrapImage)) ∧
    12 ≤ (loaded wrapImage).header.offset ∧
    (run (loaded wrapImage) wrapOps).map
        (fun w => (w.header.offset, w.header.count, w.descriptors[0]?, w.fileData[10]?)) =
      some (10, 2, some (Descriptor.mk 12 2147483647 (encodeName (ofString "a"))), some 0) ∧
    (serialize (Descriptor.mk 12 2147483647 (encodeName (ofString "a"))))[0]? = some 12 := by
  obtain ⟨w1, hw1, ho1, hc1, hl1, hd1, hr1, -⟩ := writeToFile_success_facts (loaded wrapImage)
    (ofString "/a") [0] (emptyLump 0) [1] 1 2147483646
    (Descriptor.mk 0 0 (encodeName (ofString "a")))
    (by decide) (by decide) (by decide) (by decide) (by decide) (by decide) (by decide)
    (by decide) (by decide) (by decide) (by decide)
  have ho1v : w1.header.offset = 2147483659 := by rw [ho1]; decide
  have hl1v : w1.fileData.length = 2147483691 := by rw [hl1]; decide
  obtain ⟨w2, hw2, ho2, hc2, hl2, hd2, hr2, hb2⟩ := writeToFile_success_facts w1
    (ofString "/b") [1] wrapLumpB [1] 1 2147483646
    (Descriptor.mk 0 0 (encodeName (ofString "b")))
    (by rw [hr1]; decide) (by decide) (by decide) (by decide) (by decide) (by decide)
    (by rw [ho1v, hl1v]; decide) (by rw [hl1v]; decide)
    (by rw [hd1]; decide) (by decide) (by rw [ho1v, hl1v]; decide)
  have ho2v : w2.header.offset = 10 := by rw [ho2, ho1v]
  have hrun : run (loaded wrapImage) wrapOps = some w2 := by
    have hw1a : writeToFile (loaded wrapImage) (ofString "/a") (some [1]) 1 2147483646 =
        some (1, w1) := hw1
    have hw2a : writeToFile w1 (ofString "/b") (some [1]) 1 2147483646 = some (1, w2) := hw2
    unfold wrapOps
    rw [run_cons _ _ _ _ (step_write _ _ _ _ _ _ _ hw1a),
      run_cons _ _ _ _ (step_write _ _ _ _ _ _ _ hw2a)]
    rfl
  have hcv : w2.header.count = 2 := by rw [hc2, hc1]; decide
  have hdv : w2.descriptors[0]? =
      some (Descriptor.mk 12 2147483647 (encodeName (ofString "a"))) := by
    rw [hd2, hd1, ho1v]; decide
  have hbv : w2.fileData[10]? = some 0 := by
    rw [hb2 10, ho1v, if_neg (by decide), if_pos (by decide)]
    decide
  refine ⟨by decide, by decide, by decide, ?_, by decide⟩
  rw [hrun, Option.map_some', ho2v, hcv, hdv, hbv]

/-! ### Addresses under `push_back` -/

theorem get?_append (root : Node) (t u : List Nat) :
    root.get? (t ++ u) = (root.get? t).bind (fun p => p.get? u) := by
  induction t generalizing root with
  | nil => rfl
  | cons k ks ih =>
    simp only [List.cons_append, Node.get?]
    cases root.children.get? k with
    | none => rfl
    | some c => exact ih c

theorem get?_modifyAt_self (f : Node → Node) (t : List Nat) (root p : Node)
    (h : root.get? t = some p) : (root.modifyAt f t).get? t = some (f p) := by
  induction t generalizing root with
  | nil =>
    simp only [Node.get?, Option.some.injEq] at h
    subst h
    rfl
  | cons k ks ih =>
    simp only [Node.get?, List.get?_eq_getElem?] at h
    cases hc : root.children[k]? with
    | none => rw [hc] at h; exact absurd h (by simp)
    | some c =>
      rw [hc] at h
      simp only [Node.modifyAt, Node.get?, List.get?_eq_getElem?, List.getElem?_modify, hc,
        Option.map_some', if_true]
      exact ih c h

/-- A `push_back` at address `t` leaves the subtree at `a` as it is, unless
`a` is `t` or an ancestor-or-self position below which `t` lies. -/
theorem get?_modifyAt_pushChild (c : Node) (t a : List Nat) (root m : Node)
    (hpre : ¬ a <+: t) (h : root.get? a = some m) :
    (root.modifyAt (Node.pushChild c) t).get? a = some m := by
  induction t generalizing root a with
  | nil =>
    cases a with
    | nil => exact absurd (List.prefix_refl _) hpre
    | cons j as =>
      simp only [Node.get?, List.get?_eq_getElem?] at h ⊢
      simp only [Node.modifyAt, Node.pushChild]
      cases hc : root.children[j]? with
      | none => rw [hc] at h; exact absurd h (by simp)
      | some x =>
        rw [hc] at h
        have hj : j < root.children.length := by
          by_contra hcon
          rw [List.getElem?_eq_none (by omega)] at hc
          exact absurd hc (by simp)
        rw [List.getElem?_append_left hj, hc]
        exact h
  | cons k ks ih =>
    cases a with
    | nil => exact absurd (List.nil_prefix) hpre
    | cons j as =>
      simp only [Node.get?, List.get?_eq_getElem?] at h ⊢
      simp only [Node.modifyAt, List.getElem?_modify]
      cases hc : root.children[j]? with
      | none => rw [hc] at h; exact absurd h (by simp)
      | some x =>
        rw [hc] at h
        simp only [hc, Option.map_eq_map, Option.map_some']
        by_cases hkj : k = j
        · subst hkj
          simp only [if_true]
          refine ih as x ?_ h
          intro hp
          exact hpre (by simpa using hp)
        · simp only [hkj, if_false]
          exact h

/-- A `push_back` keeps every valid address valid. -/
theorem get?_isSome_modifyAt_pushChild (c : Node) (t s : List Nat) (root : Node)
    (h : (root.get? s).isSome = true) :
    ((root.modifyAt (Node.pushChild c) t).get? s).isSome = true := by
  induction t generalizing root s with
  | nil =>
    cases s with
    | nil => rfl
    | cons j ss =>
      simp only [Node.get?, List.get?_eq_getElem?] at h ⊢
      simp only [Node.modifyAt, Node.pushChild]
      cases hc : root.children[j]? with
      | none => rw [hc] at h; exact absurd h (by simp)
      | some x =>
        rw [hc] at h
        have hj : j < root.children.length := by
          by_contra hcon
          rw [List.getElem?_eq_none (by omega)] at hc
          exact absurd hc (by simp)
        rw [List.getElem?_append_left hj, hc]
        exact h
  | cons k ks ih =>
    cases s with
    | nil => rfl
    | cons j ss =>
      simp only [Node.get?, List.get?_eq_getElem?] at h ⊢
      simp only [Node.modifyAt, List.getElem?_modify]
      cases hc : root.children[j]? with
      | none => rw [hc] at h; exact absurd h (by simp)
      | some x =>
        rw [hc] at h
        simp only [hc, Option.map_eq_map, Option.map_some']
        by_cases hkj : k = j
        · subst hkj
          simp only [if_true]
          exact ih ss x h
        · simp only [hkj, if_false]
          exact h

theorem get?_prefix_isSome (root : Node) (a s : List Nat) (hpre : a <+: s)
    (h : (root.get? s).isSome = true) : (root.get? a).isSome = true := by
  obtain ⟨u, rfl⟩ := hpre
  rw [get?_append] at h
  cases hg : root.get? a with
  | none => rw [hg] at h; exact absurd h (by simp)
  | some p => rfl

/-! ### Properties of all nodes below the root -/

theorem allBelow_eq (P : Node → Bool) (n : Node) :
    n.allBelow P = Node.allBelow.allList P n.children := by
  cases n; rfl

theorem allList_cons (P : Node → Bool) (c : Node) (cs : List Node) :
    Node.allBelow.allList P (c :: cs) =
      (P c && c.allBelow P && Node.allBelow.allList P cs) := rfl

theorem allList_append (P : Node → Bool) (l1 l2 : List Node) :
    Node.allBelow.allList P (l1 ++ l2) =
      (Node.allBelow.allList P l1 && Node.allBelow.allList P l2) := by
  induction l1 with
  | nil => simp [Node.allBelow.allList]
  | cons c cs ih => simp [allList_cons, ih, Bool.and_assoc]

theorem allList_iff (P : Node → Bool) (l : List Node) :
    Node.allBelow.allList P l = true ↔ ∀ c ∈ l, P c = true ∧ c.allBelow P = true := by
  induction l with
  | nil => simp [Node.allBelow.allList]
  | cons c cs ih => simp [allList_cons, ih, and_assoc]

/-- A property of all nodes below the root holds at every address but the
root's. -/
theorem allBelow_get? (P : Node → Bool) (addr : List Nat) (root n : Node)
    (h : root.allBelow P = true) (hne : addr ≠ []) (hget : root.get? addr = some n) :
    P n = true := by
  induction addr generalizing root with
  | nil => exact absurd rfl hne
  | cons k ks ih =>
    simp only [Node.get?, List.get?_eq_getElem?] at hget
    cases hc : root.children[k]? with
    | none => rw [hc] at hget; exact absurd hget (by simp)
    | some c =>
      rw [hc] at hget
      rw [allBelow_eq, allList_iff] at h
      obtain ⟨h1, h2⟩ := h c (List.getElem?_mem hc)
      cases ks with
      | nil =>
        simp only [Node.get?, Option.some.injEq] at hget
        subst hget
        exact h1
      | cons j js => exact ih c h2 (by simp) hget

/-- Appending a child that satisfies `P`, with all nodes below it, keeps `P`
for all nodes below the root, when `P` does not look at the children. -/
theorem allBelow_pushChild (P : Node → Bool)
    (hP : ∀ (n : Node) (cs : List Node), P { n with children := cs } = P n)
    (c : Node) (hc : P c = true) (hcb : c.allBelow P = true) (t : List Nat) (root : Node)
    (h : root.allBelow P = true) :
    (root.modifyAt (Node.pushChild c) t).allBelow P = true := by
  induction t generalizing root with
  | nil =>
    simp only [Node.modifyAt, Node.pushChild, allBelow_eq, allList_append, allList_cons,
      Node.allBelow.allList, Bool.and_true, Bool.and_eq_true]
    rw [allBelow_eq] at h hcb
    exact ⟨h, hc, hcb⟩
  | cons k ks ih =>
    rw [allBelow_eq, allList_iff] at h ⊢
    intro x hx
    simp only [Node.modifyAt] at hx
    obtain ⟨i, hi⟩ := List.mem_iff_getElem?.mp hx
    rw [List.getElem?_modify] at hi
    cases hy : root.children[i]? with
    | none => rw [hy] at hi; exact absurd hi (by simp)
    | some y =>
      rw [hy] at hi
      simp only [Option.map_eq_map, Option.map_some', Option.some.injEq] at hi
      obtain ⟨h1, h2⟩ := h y (List.getElem?_mem hy)
      by_cases hk : k = i
      · rw [if_pos hk] at hi
        subst hi
        refine ⟨?_, ih y h2⟩
        cases ks with
        | nil => exact (hP y _).trans h1
        | cons j js => exact (hP y _).trans h1
      · rw [if_neg hk] at hi
        subst hi
        exact ⟨h1, h2⟩

/-! ### The loader, step by step -/

theorem endsWith_iff (str suffix : List Nat) :
    endsWith str suffix = true ↔
      suffix.length ≤ str.length ∧ str.drop (str.length - suffix.length) = suffix := by
  simp [endsWith]

theorem endsWith_END_of_marker (name : List Nat) (h : isMapMarker name = true) :
    endsWith name sEND = false := by
  match name, h with
  | [a, b, c, d], h =>
    simp only [isMapMarker, Bool.and_eq_true, beq_iff_eq] at h
    obtain ⟨⟨⟨ha, -⟩, -⟩, -⟩ := h
    subst ha
    simp [endsWith, sEND]

theorem endsWith_END_of_START (name : List Nat) (h : endsWith name sSTART = true) :
    endsWith name sEND = false := by
  rw [endsWith_iff] at h
  obtain ⟨hlen, hdrop⟩ := h
  have h6 : sSTART.length = 6 := rfl
  have h4 : sEND.length = 4 := rfl
  rw [h6] at hlen hdrop
  rw [Bool.eq_false_iff]
  intro hc
  rw [endsWith_iff, h4] at hc
  have : name.drop (name.length - 4) = (name.drop (name.length - 6)).drop 2 := by
    rw [List.drop_drop]
    congr 1
    omega
  rw [this, hdrop] at hc
  exact absurd hc.2 (by decide)

/-- What one iteration of the loader does to the tree: nothing (an `_END`
descriptor), or a `push_back` of a childless node made from the descriptor by
the marker rules, with `descIndex = i` and the descriptor's offset and
length. -/
theorem loadStep_root (i : Nat) (d : Descriptor) (st st1 : LoadState)
    (h : loadStep i d st = some st1) :
    (st1.root = st.root ∧ endsWith (descName d) sEND = true) ∨
    ∃ c t, st1.root = st.root.modifyAt (Node.pushChild c) t ∧ c.children = [] ∧
      c.descIndex = i ∧ c.offset = d.offset ∧ c.length = d.length ∧
      interpretName (descName d) = some (c.name, c.isDir) ∧
      endsWith (descName d) sEND = false := by
  have hatt : ∀ (c : Node) (r : Node × List Nat), attachToTop st c = some r →
      ∃ t, r.1 = st.root.modifyAt (Node.pushChild c) t := by
    intro c r hr
    unfold attachToTop at hr
    cases hs : st.dirStack with
    | nil => rw [hs] at hr; exact absurd hr (by simp)
    | cons t rest =>
      rw [hs] at hr
      simp only at hr
      cases hg : st.root.get? t with
      | none => rw [hg] at hr; exact absurd hr (by simp)
      | some p =>
        rw [hg] at hr
        simp only [Option.some.injEq] at hr
        exact ⟨t, by rw [← hr]⟩
  unfold loadStep at h
  simp only at h
  by_cases hm : isMapMarker (descName d) = true
  · rw [if_pos hm] at h
    right
    cases ha : attachToTop st { name := descName d, isDir := true, offset := d.offset,
                                length := d.length, children := [], descIndex := i } with
    | none => rw [ha] at h; exact absurd h (by simp)
    | some r =>
      rw [ha] at h
      simp only [Option.some.injEq] at h
      obtain ⟨t, ht⟩ := hatt _ r ha
      refine ⟨_, t, by rw [← h]; exact ht, rfl, rfl, rfl, rfl, ?_, endsWith_END_of_marker _ hm⟩
      simp [interpretName, hm]
  · rw [if_neg hm] at h
    by_cases hs : endsWith (descName d) sSTART = true
    · rw [if_pos hs] at h
      right
      cases ha : attachToTop st { name := (descName d).take ((descName d).length - 6),
                                  isDir := true, offset := d.offset, length := d.length,
                                  children := [], descIndex := i } with
      | none => rw [ha] at h; exact absurd h (by simp)
      | some r =>
        rw [ha] at h
        simp only [Option.some.injEq] at h
        obtain ⟨t, ht⟩ := hatt _ r ha
        refine ⟨_, t, by rw [← h]; exact ht, rfl, rfl, rfl, rfl, ?_,
          endsWith_END_of_START _ hs⟩
        simp [interpretName, hm, hs]
    · rw [if_neg hs] at h
      by_cases he : endsWith (descName d) sEND = true
      · rw [if_pos he] at h
        left
        unfold popDir at h
        cases hst : st.dirStack with
        | nil => rw [hst] at h; exact absurd h (by simp)
        | cons t rest =>
          rw [hst] at h
          simp only [Option.some.injEq] at h
          exact ⟨by rw [← h], he⟩
      · rw [if_neg he] at h
        right
        cases ha : attachToTop st { name := descName d, isDir := false, offset := d.offset,
                                    length := d.length, children := [], descIndex := i } with
        | none => rw [ha] at h; exact absurd h (by simp)
        | some r =>
          rw [ha] at h
          obtain ⟨t, ht⟩ := hatt _ r ha
          have hroot : st1.root = r.1 := by
            simp only at h
            split at h
            · split at h
              · unfold popDir at h
                simp only at h
                split at h
                · exact absurd h (by simp)
                · simp only [Option.some.injEq] at h
                  rw [← h]
              · simp only [Option.some.injEq] at h
                rw [← h]
            · simp only [Option.some.injEq] at h
              rw [← h]
          refine ⟨_, t, by rw [hroot]; exact ht, rfl, rfl, rfl, rfl, ?_, by simpa using he⟩
          simp [interpretName, hm, hs, he]

theorem agreesWith_children (descs : List Descriptor) (n : Node) (cs : List Node) :
    agreesWith descs { n with children := cs } = agreesWith descs n := rfl

theorem loadLoop_agrees (descs ds : List Descriptor) (i : Nat) (st st1 : LoadState)
    (hds : descs.drop i = ds) (h0 : st.root.allBelow (agreesWith descs) = true)
    (h : loadLoop ds i st = some st1) : st1.root.allBelow (agreesWith descs) = true := by
  induction ds generalizing i st with
  | nil =>
    simp only [loadLoop, Option.some.injEq] at h
    subst h
    exact h0
  | cons d ds ih =>
    simp only [loadLoop] at h
    cases hs : loadStep i d st with
    | none => rw [hs] at h; exact absurd h (by simp)
    | some st2 =>
      rw [hs] at h
      have hdi : descs[i]? = some d := by
        have := congrArg (fun l => l[0]?) hds
        simpa using this
      have hds2 : descs.drop (i + 1) = ds := by
        have := congrArg (fun l => l.drop 1) hds
        simpa [Nat.add_comm] using this
      refine ih (i + 1) st2 hds2 ?_ h
      rcases loadStep_root i d st st2 hs with ⟨hr, -⟩ |
        ⟨c, t, hr, hc1, hc2, hc3, hc4, hc5, hc6⟩
      · rw [hr]; exact h0
      · rw [hr]
        refine allBelow_pushChild _ (agreesWith_children descs) c ?_ ?_ t st.root h0
        · simp only [agreesWith, hc2, hdi, hc5, hc6, hc3, hc4, beq_self_eq_true,
            Bool.not_false, Bool.and_self]
        · rw [allBelow_eq, hc1]
          rfl

/-- C7. Loader node/descriptor agreement: after `loadWad` has built the tree
of an archive, for every non-root node `n`, the descriptor at `n.descIndex`
exists, the marker rules applied to its name give the kind and name of `n` (a
map-marker name: a directory of that name; a name ending in `_START`: a
directory named by the part before `_START`; any other name not ending in
`_END`: a file of that name), the descriptor is not an `_END` descriptor, and
`n.offset` and `n.length` are the descriptor's offset and length. -/
theorem loader_node_descriptor_agreement (data : List Nat) (w : Wad)
    (hload : loadWad (some data) = some (some w)) (addr : List Nat) (n : Node)
    (hne : addr ≠ []) (hget : w.root.get? addr = some n) :
    ∃ d, w.descriptors[n.descIndex]? = some d ∧
      interpretName (descName d) = some (n.name, n.isDir) ∧
      endsWith (descName d) sEND = false ∧
      n.offset = d.offset ∧ n.length = d.length := by
  simp only [loadWad] at hload
  by_cases h12 : data.length < 12
  · rw [if_pos h12] at hload; exact absurd hload (by simp)
  · rw [if_neg h12] at hload
    by_cases htab : data.length < ofLe32 (data.drop 8) + ofLe32 (data.drop 4) * 16
    · rw [if_pos htab] at hload; exact absurd hload (by simp)
    · rw [if_neg htab] at hload
      cases hbt : buildTree (readDescriptors data (ofLe32 (data.drop 8))
          (ofLe32 (data.drop 4))) with
      | none => rw [hbt] at hload; exact absurd hload (by simp)
      | some root =>
        rw [hbt] at hload
        simp only [Option.some.injEq] at hload
        subst hload
        simp only at hget ⊢
        unfold buildTree at hbt
        cases hl : loadLoop (readDescriptors data (ofLe32 (data.drop 8))
            (ofLe32 (data.drop 4))) 0
            { root := rootNode, dirStack := [[]], mapCounter := 0 } with
        | none => rw [hl] at hbt; exact absurd hbt (by simp)
        | some st =>
          rw [hl] at hbt
          simp only [Option.some.injEq] at hbt
          subst hbt
          have hall := loadLoop_agrees (readDescriptors data (ofLe32 (data.drop 8))
            (ofLe32 (data.drop 4))) _ 0 { root := rootNode, dirStack := [[]], mapCounter := 0 }
            st (List.drop_zero _) (by rfl) hl
          have hn := allBelow_get? _ addr st.root n hall hne hget
          unfold agreesWith at hn
          cases hd : (readDescriptors data (ofLe32 (data.drop 8))
              (ofLe32 (data.drop 4)))[n.descIndex]? with
          | none => rw [hd] at hn; exact absurd hn (by simp)
          | some d =>
            rw [hd] at hn
            simp only [Bool.and_eq_true, beq_iff_eq, Bool.not_eq_true'] at hn
            exact ⟨d, rfl, hn.1.1.1, hn.1.1.2, hn.1.2, hn.2⟩

theorem loader_node_descriptor_agreement_witness :
    ∃ d, (loaded s1Image).descriptors[s1Dir.descIndex]? = some d ∧
      interpretName (descName d) = some (s1Dir.name, s1Dir.isDir) ∧
      endsWith (descName d) sEND = false ∧
      s1Dir.offset = d.offset ∧ s1Dir.length = d.length :=
  loader_node_descriptor_agreement s1Image (loaded s1Image) (by decide) [0] s1Dir
    (by decide) (by decide)

/-! ### The loader on a segment of descriptors -/

theorem loadLoop_append (xs ys : List Descriptor) (i : Nat) (st : LoadState) :
    loadLoop (xs ++ ys) i st = (loadLoop xs i st).bind (loadLoop ys (i + xs.length)) := by
  induction xs generalizing i st with
  | nil => simp [loadLoop]
  | cons d ds ih =>
    rw [List.cons_append, loadLoop, loadLoop]
    cases loadStep i d st with
    | none => rfl
    | some st1 =>
      simp only [Option.some_bind, List.length_cons]
      rw [ih (i + 1) st1, show i + 1 + ds.length = i + (ds.length + 1) by omega]

theorem attachToTop_eq (st : LoadState) (c : Node) (t : List Nat) (rest : List (List Nat))
    (p : Node) (hs : st.dirStack = t :: rest) (hp : st.root.get? t = some p) :
    attachToTop st c = some (st.root.modifyAt (Node.pushChild c) t, t ++ [p.children.length]) := by
  simp only [attachToTop, hs, hp]

theorem attachToTop_some (st : LoadState) (c : Node) (r : Node × List Nat)
    (h : attachToTop st c = some r) :
    ∃ t rest p, st.dirStack = t :: rest ∧ st.root.get? t = some p := by
  unfold attachToTop at h
  cases hs : st.dirStack with
  | nil => rw [hs] at h; exact absurd h (by simp)
  | cons t rest =>
    rw [hs] at h
    simp only at h
    cases hg : st.root.get? t with
    | none => rw [hg] at h; exact absurd h (by simp)
    | some p => exact ⟨t, rest, p, rfl, hg⟩

/-- The loader on a map marker. -/
theorem loadStep_marker (i : Nat) (d : Descriptor) (st : LoadState) (t : List Nat)
    (rest : List (List Nat)) (p : Node) (hm : isMapMarker (descName d) = true)
    (hs : st.dirStack = t :: rest) (hp : st.root.get? t = some p) :
    loadStep i d st =
      some { root := st.root.modifyAt (Node.pushChild (mapNode i d [])) t,
             dirStack := (t ++ [p.children.length]) :: t :: rest, mapCounter := 10 } := by
  simp only [loadStep, hm, if_true, mapNode]
  rw [attachToTop_eq st _ t rest p hs hp]
  simp only [hs]

/-- The loader on a plain lump. -/
theorem loadStep_lump (i : Nat) (d : Descriptor) (st : LoadState) (t : List Nat)
    (rest : List (List Nat)) (p : Node) (hpl : isPlain (descName d) = true)
    (hs : st.dirStack = t :: rest) (hp : st.root.get? t = some p) :
    loadStep i d st =
      some { root := st.root.modifyAt (Node.pushChild (fileNode i d)) t,
             dirStack := if st.mapCounter = 1 then rest else t :: rest,
             mapCounter := st.mapCounter - 1 } := by
  simp only [isPlain, Bool.and_eq_true, Bool.not_eq_true'] at hpl
  obtain ⟨⟨h1, h2⟩, h3⟩ := hpl
  simp only [loadStep, h1, h2, h3, Bool.false_eq_true, if_false, fileNode]
  rw [attachToTop_eq st _ t rest p hs hp]
  simp only
  by_cases hc : 0 < st.mapCounter
  · rw [if_pos hc]
    by_cases hc1 : st.mapCounter - 1 = 0
    · have : st.mapCounter = 1 := by omega
      rw [if_pos hc1, if_pos this]
      simp only [popDir, hs, this]
    · have : ¬ st.mapCounter = 1 := by omega
      rw [if_neg hc1, if_neg this, hs]
  · have h0 : st.mapCounter = 0 := by omega
    rw [if_neg hc, if_neg (by omega), hs, h0]

theorem modifyAt_comp (f g : Node → Node) (t : List Nat) (root : Node) :
    (root.modifyAt f t).modifyAt g t = root.modifyAt (fun x => g (f x)) t := by
  induction t generalizing root with
  | nil => rfl
  | cons k ks ih =>
    simp only [Node.modifyAt]
    congr 1
    apply List.ext_getElem?
    intro j
    simp only [List.getElem?_modify]
    cases root.children[j]? with
    | none => rfl
    | some c =>
      simp only [Option.map_eq_map, Option.map_some', Option.some.injEq]
      by_cases hk : k = j
      · simp only [hk, if_true]
        exact ih c
      · simp only [hk, if_false]

/-- The loader on the ten (here: `mapCounter`) plain lumps after a map marker:
they become children of the top directory, which is then popped. -/
theorem loadLoop_lumps (lumps : List Descriptor) (i : Nat) (st : LoadState) (a : List Nat)
    (rest : List (List Nat)) (m : Node) (hpl : ∀ l ∈ lumps, isPlain (descName l) = true)
    (hlen : lumps.length = st.mapCounter) (hpos : 0 < st.mapCounter)
    (hs : st.dirStack = a :: rest) (hm : st.root.get? a = some m) :
    loadLoop lumps i st =
      some { root := st.root.modifyAt (appendChildren (fileNodes i lumps)) a,
             dirStack := rest, mapCounter := 0 } := by
  induction lumps generalizing i st m with
  | nil => simp only [List.length_nil] at hlen; omega
  | cons l ls ih =>
    simp only [loadLoop]
    rw [loadStep_lump i l st a rest m (hpl l (by simp)) hs hm]
    simp only
    by_cases h1 : st.mapCounter = 1
    · have hls : ls = [] := by
        simp only [List.length_cons] at hlen
        exact List.length_eq_zero.mp (by omega)
      subst hls
      simp only [h1, if_true, loadLoop, fileNodes, Nat.sub_self]
      rfl
    · rw [if_neg h1]
      have hm1 := get?_modifyAt_self (Node.pushChild (fileNode i l)) a st.root m hm
      rw [ih (i + 1) _ _ (fun x hx => hpl x (by simp [hx]))
        (by simp only [List.length_cons] at hlen ⊢; omega) (by simp only; omega) rfl hm1]
      simp only [modifyAt_comp, fileNodes]
      have hfun : (fun x => appendChildren (fileNodes (i + 1) ls)
          ((fileNode i l).pushChild x)) =
          appendChildren (fileNode i l :: fileNodes (i + 1) ls) := by
        funext x
        simp [appendChildren, Node.pushChild]
      rw [hfun]

/-- The shape of one loader iteration: a pop, or a `push_back` under the top
directory after which the stack is the old one, the old one with the new
node pushed, or the old one popped. -/
theorem loadStep_shape (i : Nat) (d : Descriptor) (st st1 : LoadState)
    (h : loadStep i d st = some st1) :
    ∃ t rest, st.dirStack = t :: rest ∧
      ((st1.root = st.root ∧ st1.dirStack = rest) ∨
       ∃ c p, st.root.get? t = some p ∧ st1.root = st.root.modifyAt (Node.pushChild c) t ∧
         (st1.dirStack = (t ++ [p.children.length]) :: t :: rest ∨
          st1.dirStack = t :: rest ∨ st1.dirStack = rest)) := by
  unfold loadStep at h
  simp only at h
  by_cases hm : isMapMarker (descName d) = true
  · rw [if_pos hm] at h
    cases ha : attachToTop st { name := descName d, isDir := true, offset := d.offset,
                                length := d.length, children := [], descIndex := i } with
    | none => rw [ha] at h; exact absurd h (by simp)
    | some r =>
      obtain ⟨t, rest, p, hs, hp⟩ := attachToTop_some st _ r ha
      rw [attachToTop_eq st _ t rest p hs hp] at ha
      simp only [Option.some.injEq] at ha
      rw [attachToTop_eq st _ t rest p hs hp] at h
      simp only [Option.some.injEq] at h
      refine ⟨t, rest, hs, Or.inr ⟨_, p, hp, by rw [← h], Or.inl (by rw [← h, hs])⟩⟩
  · rw [if_neg hm] at h
    by_cases hst : endsWith (descName d) sSTART = true
    · rw [if_pos hst] at h
      cases ha : attachToTop st { name := (descName d).take ((descName d).length - 6),
                                  isDir := true, offset := d.offset, length := d.length,
                                  children := [], descIndex := i } with
      | none => rw [ha] at h; exact absurd h (by simp)
      | some r =>
        obtain ⟨t, rest, p, hs, hp⟩ := attachToTop_some st _ r ha
        rw [attachToTop_eq st _ t rest p hs hp] at h
        simp only [Option.some.injEq] at h
        refine ⟨t, rest, hs, Or.inr ⟨_, p, hp, by rw [← h], Or.inl (by rw [← h, hs])⟩⟩
    · rw [if_neg hst] at h
      by_cases he : endsWith (descName d) sEND = true
      · rw [if_pos he] at h
        unfold popDir at h
        cases hs : st.dirStack with
        | nil => rw [hs] at h; exact absurd h (by simp)
        | cons t rest =>
          rw [hs] at h
          simp only [Option.some.injEq] at h
          exact ⟨t, rest, rfl, Or.inl ⟨by rw [← h], by rw [← h]⟩⟩
      · have hpl : isPlain (descName d) = true := by
          simp only [isPlain, Bool.and_eq_true, Bool.not_eq_true']
          exact ⟨⟨by simpa using hm, by simpa using hst⟩, by simpa using he⟩
        rw [if_neg he] at h
        cases ha : attachToTop st { name := descName d, isDir := false, offset := d.offset,
                                    length := d.length, children := [], descIndex := i } with
        | none => rw [ha] at h; exact absurd h (by simp)
        | some r =>
          obtain ⟨t, rest, p, hs, hp⟩ := attachToTop_some st _ r ha
          have h2 : loadStep i d st = some st1 := by
            unfold loadStep
            simp only
            rw [if_neg hm, if_neg hst, if_neg he]
            exact h
          rw [loadStep_lump i d st t rest p hpl hs hp] at h2
          simp only [Option.some.injEq] at h2
          refine ⟨t, rest, hs, Or.inr ⟨_, p, hp, by rw [← h2], ?_⟩⟩
          by_cases hc : st.mapCounter = 1
          · right; right
            rw [← h2, if_pos hc]
          · right; left
            rw [← h2, if_neg hc]

theorem get?_fresh (root p : Node) (t : List Nat) (hp : root.get? t = some p) :
    root.get? (t ++ [p.children.length]) = none := by
  rw [get?_append, hp]
  simp only [Option.some_bind, Node.get?, List.get?_eq_getElem?]
  rw [List.getElem?_eq_none (le_refl _)]

/-- Every address on the loader's stack leads to a node of the tree. -/
theorem loadStep_valid (i : Nat) (d : Descriptor) (st st1 : LoadState)
    (hv : ∀ s ∈ st.dirStack, (st.root.get? s).isSome = true)
    (h : loadStep i d st = some st1) :
    ∀ s ∈ st1.dirStack, (st1.root.get? s).isSome = true := by
  obtain ⟨t, rest, hs, hcase⟩ := loadStep_shape i d st st1 h
  rw [hs] at hv
  rcases hcase with ⟨hr, hst⟩ | ⟨c, p, hp, hr, hst⟩
  · intro s hsm
    rw [hr]
    rw [hst] at hsm
    exact hv s (by simp [hsm])
  · have hold : ∀ s ∈ t :: rest, ((st.root.modifyAt (Node.pushChild c) t).get? s).isSome = true :=
      fun s hsm => get?_isSome_modifyAt_pushChild c t s st.root (hv s hsm)
    have hnew : ((st.root.modifyAt (Node.pushChild c) t).get? (t ++ [p.children.length])).isSome
        = true := by
      rw [get?_append, get?_modifyAt_self _ t st.root p hp]
      simp [Node.get?, Node.pushChild]
    intro s hsm
    rw [hr]
    rcases hst with hst | hst | hst
    · rw [hst] at hsm
      rcases List.mem_cons.mp hsm with rfl | hsm
      · exact hnew
      · exact hold s hsm
    · rw [hst] at hsm
      exact hold s hsm
    · rw [hst] at hsm
      exact hold s (by simp [hsm])

theorem loadLoop_valid (ds : List Descriptor) (i : Nat) (st st1 : LoadState)
    (hv : ∀ s ∈ st.dirStack, (st.root.get? s).isSome = true)
    (h : loadLoop ds i st = some st1) :
    ∀ s ∈ st1.dirStack, (st1.root.get? s).isSome = true := by
  induction ds generalizing i st with
  | nil =>
    simp only [loadLoop, Option.some.injEq] at h
    subst h
    exact hv
  | cons d ds ih =>
    simp only [loadLoop] at h
    cases hs : loadStep i d st with
    | none => rw [hs] at h; exact absurd h (by simp)
    | some st2 =>
      rw [hs] at h
      exact ih (i + 1) st2 (loadStep_valid i d st st2 hv hs) h

/-- A subtree whose address is not on the stack, nor above a stack entry, is
never touched again by the loader. -/
theorem loadStep_stable (a : List Nat) (m : Node) (i : Nat) (d : Descriptor)
    (st st1 : LoadState) (hj : ∀ s ∈ st.dirStack, ¬ a <+: s) (hm : st.root.get? a = some m)
    (h : loadStep i d st = some st1) :
    (∀ s ∈ st1.dirStack, ¬ a <+: s) ∧ st1.root.get? a = some m := by
  obtain ⟨t, rest, hs, hcase⟩ := loadStep_shape i d st st1 h
  rw [hs] at hj
  rcases hcase with ⟨hr, hst⟩ | ⟨c, p, hp, hr, hst⟩
  · refine ⟨?_, by rw [hr]; exact hm⟩
    intro s hsm
    rw [hst] at hsm
    exact hj s (by simp [hsm])
  · have hat : ¬ a <+: t := hj t (by simp)
    refine ⟨?_, by rw [hr]; exact get?_modifyAt_pushChild c t a st.root m hat hm⟩
    have hnew : ¬ a <+: t ++ [p.children.length] := by
      intro hpre
      rcases List.prefix_concat_iff.mp hpre with heq | hpre2
      · rw [heq, get?_fresh st.root p t hp] at hm
        exact absurd hm (by simp)
      · exact hat hpre2
    intro s hsm
    rcases hst with hst | hst | hst
    · rw [hst] at hsm
      rcases List.mem_cons.mp hsm with rfl | hsm
      · exact hnew
      · exact hj s hsm
    · rw [hst] at hsm
      exact hj s hsm
    · rw [hst] at hsm
      exact hj s (by simp [hsm])

theorem loadLoop_stable (a : List Nat) (m : Node) (ds : List Descriptor) (i : Nat)
    (st st1 : LoadState) (hj : ∀ s ∈ st.dirStack, ¬ a <+: s) (hm : st.root.get? a = some m)
    (h : loadLoop ds i st = some st1) : st1.root.get? a = some m := by
  induction ds generalizing i st with
  | nil =>
    simp only [loadLoop, Option.some.injEq] at h
    subst h
    exact hm
  | cons d ds ih =>
    simp only [loadLoop] at h
    cases hs : loadStep i d st with
    | none => rw [hs] at h; exact absurd h (by simp)
    | some st2 =>
      rw [hs] at h
      obtain ⟨h1, h2⟩ := loadStep_stable a m i d st st2 hj hm hs
      exact ih (i + 1) st2 h1 h2 h

theorem get?_pushed (c : Node) (t : List Nat) (root p : Node) (hp : root.get? t = some p) :
    (root.modifyAt (Node.pushChild c) t).get? (t ++ [p.children.length]) = some c := by
  rw [get?_append, get?_modifyAt_self _ t root p hp]
  simp [Node.get?, Node.pushChild]

theorem fileNodes_length (i : Nat) (ds : List Descriptor) :
    (fileNodes i ds).length = ds.length := by
  induction ds generalizing i with
  | nil => rfl
  | cons d ds ih => simp [fileNodes, ih]

theorem fileNodes_names (i : Nat) (ds : List Descriptor) :
    (fileNodes i ds).map (fun c => c.name) = ds.map descName := by
  induction ds generalizing i with
  | nil => rfl
  | cons d ds ih => simp [fileNodes, fileNode, ih]

theorem loadLoop_bind_some (xs ys : List Descriptor) (i : Nat) (st st2 : LoadState)
    (h : loadLoop (xs ++ ys) i st = some st2) :
    ∃ st1, loadLoop xs i st = some st1 ∧ loadLoop ys (i + xs.length) st1 = some st2 := by
  rw [loadLoop_append] at h
  cases h1 : loadLoop xs i st with
  | none => rw [h1] at h; exact absurd h (by simp)
  | some st1 =>
    rw [h1] at h
    exact ⟨st1, rfl, h⟩

/-- C6. Map-marker rule of the loader: when the descriptor at index `i` (here
`i` is the length of `pre`) is a map marker and the ten descriptors after it
are plain lumps, then, in the tree the loader builds, the directory that was
current at index `i` (the top `e` of the stack) has as its next child a
directory named after the marker whose children are exactly those ten lumps
in descriptor order, so `isDirectory` is true and `getDirectory` returns 10
for a path resolving to it; and after the tenth lump the stack is again the
stack of index `i`, so the descriptor at index `i + 11` is processed relative
to the marker's enclosing directory. -/
theorem map_marker_rule (pre lumps post : List Descriptor) (d : Descriptor) (root : Node)
    (hm : isMapMarker (descName d) = true) (hlen : lumps.length = 10)
    (hpl : ∀ l ∈ lumps, isPlain (descName l) = true)
    (hbuild : buildTree (pre ++ d :: lumps ++ post) = some root) :
    ∃ st e rest p,
      loadLoop pre 0 initState = some st ∧ st.dirStack = e :: rest ∧
      st.root.get? e = some p ∧
      root.get? (e ++ [p.children.length]) =
        some (mapNode pre.length d (fileNodes (pre.length + 1) lumps)) ∧
      (∃ root1, loadLoop (pre ++ d :: lumps) 0 initState =
        some { root := root1, dirStack := e :: rest, mapCounter := 0 }) ∧
      ∀ (w : Wad) (path : List Nat) (node : Node) (sink : List (List Nat)), w.root = root →
        resolve w.root path = some (e ++ [p.children.length], node) →
        isDirectory w path = true ∧
        getDirectory w path (some sink) = (10, some (lumps.map descName)) := by
  unfold buildTree at hbuild
  cases hl : loadLoop (pre ++ d :: lumps ++ post) 0
      { root := rootNode, dirStack := [[]], mapCounter := 0 } with
  | none => rw [hl] at hbuild; exact absurd hbuild (by simp)
  | some stF =>
    rw [hl] at hbuild
    simp only [Option.some.injEq] at hbuild
    obtain ⟨st2, h12, hpost⟩ := loadLoop_bind_some (pre ++ d :: lumps) post 0 _ stF hl
    obtain ⟨st, hpre, hseg⟩ := loadLoop_bind_some pre (d :: lumps) 0 _ st2 h12
    simp only [Nat.zero_add] at hseg hpost
    -- the marker
    rw [loadLoop] at hseg
    cases hstep : loadStep pre.length d st with
    | none => rw [hstep] at hseg; exact absurd hseg (by simp)
    | some stm =>
      rw [hstep] at hseg
      simp only at hseg
      obtain ⟨e, rest, hs, hcase⟩ := loadStep_shape pre.length d st stm hstep
      obtain ⟨p, hp⟩ : ∃ p, st.root.get? e = some p := by
        have hv := loadLoop_valid pre 0 initState st (by decide) hpre e (by rw [hs]; simp)
        cases hg : st.root.get? e with
        | none => rw [hg] at hv; exact absurd hv (by simp)
        | some p => exact ⟨p, rfl⟩
      rw [loadStep_marker pre.length d st e rest p hm hs hp] at hstep
      simp only [Option.some.injEq] at hstep
      subst hstep
      -- the ten lumps
      have hmap0 := get?_pushed (mapNode pre.length d []) e st.root p hp
      rw [loadLoop_lumps lumps (pre.length + 1) _ (e ++ [p.children.length]) (e :: rest)
        (mapNode pre.length d []) hpl (by simp only [hlen]) (by simp only; omega) rfl hmap0]
        at hseg
      simp only [Option.some.injEq] at hseg
      have hmap2 : st2.root.get? (e ++ [p.children.length]) =
          some (mapNode pre.length d (fileNodes (pre.length + 1) lumps)) := by
        rw [← hseg]
        simp only
        rw [get?_modifyAt_self _ _ _ _ hmap0]
        simp [appendChildren, mapNode]
      -- the rest of the descriptors
      have hvalid := loadLoop_valid pre 0 initState st (by decide) hpre
      have hj : ∀ s ∈ st2.dirStack, ¬ (e ++ [p.children.length]) <+: s := by
        intro s hsm hpre2
        rw [← hseg] at hsm
        simp only at hsm
        have h1 := hvalid s (by rw [hs]; exact hsm)
        have h2 := get?_prefix_isSome st.root _ s hpre2 h1
        rw [get?_fresh st.root p e hp] at h2
        exact absurd h2 (by simp)
      have hfinal := loadLoop_stable _ _ post _ st2 stF hj hmap2 hpost
      rw [hbuild] at hfinal
      refine ⟨st, e, rest, p, hpre, hs, hp, hfinal, ⟨st2.root, ?_⟩, ?_⟩
      · show loadLoop (pre ++ d :: lumps) 0
            { root := rootNode, dirStack := [[]], mapCounter := 0 } = _
        rw [h12, ← hseg]
      · intro w path node sink hw hres
        have hnode := resolve_get? _ _ _ _ hres
        rw [hw, hfinal] at hnode
        simp only [Option.some.injEq] at hnode
        have hpne : norm path ≠ [] := by
          rw [Ne, norm_eq_nil_iff]
          rintro rfl
          simp [resolve] at hres
        refine ⟨?_, ?_⟩
        · simp only [isDirectory, hpne, if_false, resolve_norm, hres, ← hnode, mapNode]
        · simp only [getDirectory, hpne, if_false, resolve_norm, hres, ← hnode, mapNode,
            Bool.not_true, Bool.false_eq_true, fileNodes_names, List.length_map, hlen]
          rfl

theorem map_marker_rule_witness :
    ∃ st e rest p,
      loadLoop [] 0 initState = some st ∧ st.dirStack = e :: rest ∧
      st.root.get? e = some p ∧
      (loaded s4Image).root.get? (e ++ [p.children.length]) =
        some (mapNode ([] : List Descriptor).length s4Marker
          (fileNodes (([] : List Descriptor).length + 1) s4Lumps)) ∧
      (∃ root1, loadLoop ([] ++ s4Marker :: s4Lumps) 0 initState =
        some { root := root1, dirStack := e :: rest, mapCounter := 0 }) ∧
      ∀ (w : Wad) (path : List Nat) (node : Node) (sink : List (List Nat)),
        w.root = (loaded s4Image).root →
        resolve w.root path = some (e ++ [p.children.length], node) →
        isDirectory w path = true ∧
        getDirectory w path (some sink) = (10, some (s4Lumps.map descName)) :=
  map_marker_rule [] s4Lumps [] s4Marker (loaded s4Image).root (by decide) (by decide)
    (by decide) (by decide!)
/-! ### The marker serialization -/

theorem flatList_nil : flatNode.flatList [] = [] := by
  rw [flatNode.flatList]

theorem flatList_cons (c : Node) (cs : List Node) :
    flatNode.flatList (c :: cs) = flatNode c ++ flatNode.flatList cs := by
  rw [flatNode.flatList]

theorem flatList_append (xs ys : List Node) :
    flatNode.flatList (xs ++ ys) = flatNode.flatList xs ++ flatNode.flatList ys := by
  induction xs with
  | nil => simp [flatList_nil]
  | cons x xs ih => simp [flatList_cons, ih]

theorem flatNode_file (n : Node) (h : n.isDir = false) :
    flatNode n = [⟨n.name, some (n.offset, n.length)⟩] := by
  obtain ⟨name, isDir, offset, length, children, idx⟩ := n
  simp only at h
  subst h
  rw [flatNode]
  simp

theorem flatNode_map (n : Node) (h : n.isDir = true) (hm : isMapMarker n.name = true) :
    flatNode n = ⟨n.name, some (n.offset, n.length)⟩ :: flatNode.flatList n.children := by
  obtain ⟨name, isDir, offset, length, children, idx⟩ := n
  simp only at h hm
  subst h
  rw [flatNode]
  simp [hm]

theorem flatNode_ns (n : Node) (h : n.isDir = true) (hm : isMapMarker n.name = false) :
    flatNode n = ⟨n.name ++ sSTART, some (n.offset, n.length)⟩ ::
      (flatNode.flatList n.children ++ [⟨n.name ++ sEND, none⟩]) := by
  obtain ⟨name, isDir, offset, length, children, idx⟩ := n
  simp only at h hm
  subst h
  rw [flatNode]
  simp [hm]

theorem wfList_nil : wfNode.wfList [] = true := by
  rw [wfNode.wfList]

theorem wfList_cons (c : Node) (cs : List Node) :
    wfNode.wfList (c :: cs) = (wfNode c && wfNode.wfList cs) := by
  rw [wfNode.wfList]

theorem wfList_append (xs ys : List Node) :
    wfNode.wfList (xs ++ ys) = (wfNode.wfList xs && wfNode.wfList ys) := by
  induction xs with
  | nil => simp [wfList_nil]
  | cons x xs ih => simp [wfList_cons, ih, Bool.and_assoc]

theorem wfNode_file (n : Node) (h : n.isDir = false) :
    wfNode n = isLump n := by
  obtain ⟨name, isDir, offset, length, children, idx⟩ := n
  simp only at h
  subst h
  rw [wfNode]
  simp [isLump]

theorem wfNode_map (n : Node) (h : n.isDir = true) (hm : isMapMarker n.name = true) :
    wfNode n = (decide (n.children.length = 10) && n.children.all isLump) := by
  obtain ⟨name, isDir, offset, length, children, idx⟩ := n
  simp only at h hm
  subst h
  rw [wfNode]
  simp [hm]

theorem wfNode_ns (n : Node) (h : n.isDir = true) (hm : isMapMarker n.name = false) :
    wfNode n = (decide (n.name.length ≤ 2) && !n.name.contains 0 && wfNode.wfList n.children &&
      !((flatNode.flatList n.children).map (fun it => it.name)).contains (n.name ++ sEND)) := by
  obtain ⟨name, isDir, offset, length, children, idx⟩ := n
  simp only at h hm
  subst h
  rw [wfNode]
  simp [hm]

theorem idxNode_eq (i : Nat) (n : Node) :
    idxNode i n = ((n.descIndex == i) && idxNode.idxList (i + 1) n.children) := by
  obtain ⟨name, isDir, offset, length, children, idx⟩ := n
  rw [idxNode]

theorem idxList_nil (i : Nat) : idxNode.idxList i [] = true := by
  rw [idxNode.idxList]

theorem idxList_cons (i : Nat) (c : Node) (cs : List Node) :
    idxNode.idxList i (c :: cs) =
      (idxNode i c && idxNode.idxList (i + (flatNode c).length) cs) := by
  rw [idxNode.idxList]

theorem idxList_append (i : Nat) (xs ys : List Node) :
    idxNode.idxList i (xs ++ ys) =
      (idxNode.idxList i xs && idxNode.idxList (i + (flatNode.flatList xs).length) ys) := by
  induction xs generalizing i with
  | nil => simp [idxList_nil, flatList_nil]
  | cons x xs ih =>
    simp [idxList_cons, flatList_cons, ih, Bool.and_assoc, Nat.add_assoc]

theorem matchItems_cons (it : Item) (its : List Item) (d : Descriptor) (ds : List Descriptor) :
    matchItems (it :: its) (d :: ds) = (itemMatches it d && matchItems its ds) := by
  rw [matchItems]

theorem matchItems_length (its : List Item) (ds : List Descriptor)
    (h : matchItems its ds = true) : ds.length = its.length := by
  induction its generalizing ds with
  | nil => cases ds with
    | nil => rfl
    | cons d ds => simp [matchItems] at h
  | cons it its ih => cases ds with
    | nil => simp [matchItems] at h
    | cons d ds =>
      rw [matchItems_cons, Bool.and_eq_true] at h
      simp [ih ds h.2]

theorem matchItems_append (xs ys : List Item) (ds1 ds2 : List Descriptor)
    (h1 : matchItems xs ds1 = true) (h2 : matchItems ys ds2 = true) :
    matchItems (xs ++ ys) (ds1 ++ ds2) = true := by
  induction xs generalizing ds1 with
  | nil => cases ds1 with
    | nil => simpa using h2
    | cons d ds => simp [matchItems] at h1
  | cons it its ih => cases ds1 with
    | nil => simp [matchItems] at h1
    | cons d ds =>
      rw [matchItems_cons, Bool.and_eq_true] at h1
      rw [List.cons_append, List.cons_append, matchItems_cons, Bool.and_eq_true]
      exact ⟨h1.1, ih ds h1.2⟩

theorem matchItems_split (xs ys : List Item) (ds : List Descriptor)
    (h : matchItems (xs ++ ys) ds = true) :
    ∃ ds1 ds2, ds = ds1 ++ ds2 ∧ matchItems xs ds1 = true ∧ matchItems ys ds2 = true := by
  induction xs generalizing ds with
  | nil => exact ⟨[], ds, rfl, by simp [matchItems], by simpa using h⟩
  | cons it its ih => cases ds with
    | nil => simp [matchItems] at h
    | cons d ds =>
      rw [List.cons_append, matchItems_cons, Bool.and_eq_true] at h
      obtain ⟨ds1, ds2, he, h1, h2⟩ := ih ds h.2
      exact ⟨d :: ds1, ds2, by rw [he]; rfl, by rw [matchItems_cons, h.1, h1]; rfl, h2⟩

theorem matchItems_names (its : List Item) (ds : List Descriptor)
    (h : matchItems its ds = true) : ds.map descName = its.map (fun it => it.name) := by
  induction its generalizing ds with
  | nil => cases ds with
    | nil => rfl
    | cons d ds => simp [matchItems] at h
  | cons it its ih => cases ds with
    | nil => simp [matchItems] at h
    | cons d ds =>
      rw [matchItems_cons, Bool.and_eq_true] at h
      have h1 := h.1
      simp only [itemMatches, Bool.and_eq_true, beq_iff_eq] at h1
      simp [ih ds h.2, h1.1]
/-! ### The loader on a serialization -/

theorem isLump_iff (n : Node) :
    isLump n = true ↔ n.isDir = false ∧ n.children = [] ∧ isPlain n.name = true ∧
      n.name.length ≤ 8 ∧ 0 ∉ n.name := by
  simp [isLump, List.isEmpty_iff, and_assoc]

theorem isMapMarker_length (name : List Nat) (h : isMapMarker name = true) :
    name.length = 4 := by
  match name, h with
  | [_, _, _, _], _ => rfl

theorem isMapMarker_append_START (x : List Nat) : isMapMarker (x ++ sSTART) = false := by
  cases h : isMapMarker (x ++ sSTART) with
  | false => rfl
  | true =>
    have := isMapMarker_length _ h
    simp [sSTART] at this

theorem isMapMarker_append_END (x : List Nat) : isMapMarker (x ++ sEND) = false := by
  cases h : isMapMarker (x ++ sEND) with
  | false => rfl
  | true =>
    have hl := isMapMarker_length _ h
    have hx : x = [] := by simpa [sEND] using hl
    subst hx
    revert h
    decide

theorem endsWith_append (x s : List Nat) : endsWith (x ++ s) s = true := by
  rw [endsWith_iff]
  simp

theorem endsWith_START_append_END (x : List Nat) : endsWith (x ++ sEND) sSTART = false := by
  cases h : endsWith (x ++ sEND) sSTART with
  | false => rfl
  | true =>
    have := endsWith_END_of_START _ h
    rw [endsWith_append] at this
    exact absurd this (by simp)

theorem lumps_eq_fileNodes (cs : List Node) (i : Nat) (ds : List Descriptor)
    (hl : cs.all isLump = true) (hi : idxNode.idxList i cs = true)
    (hm : matchItems (flatNode.flatList cs) ds = true) :
    cs = fileNodes i ds ∧ ∀ l ∈ ds, isPlain (descName l) = true := by
  induction cs generalizing i ds with
  | nil =>
    rw [flatList_nil] at hm
    have := matchItems_length _ _ hm
    have hds : ds = [] := List.length_eq_zero.mp (by simpa using this)
    subst hds
    exact ⟨rfl, by simp⟩
  | cons c cs ih =>
    rw [List.all_cons, Bool.and_eq_true] at hl
    obtain ⟨hd, hch, hpl, -, -⟩ := (isLump_iff c).mp hl.1
    rw [idxList_cons, Bool.and_eq_true, idxNode_eq, Bool.and_eq_true, beq_iff_eq,
      flatNode_file c hd] at hi
    rw [flatList_cons, flatNode_file c hd] at hm
    cases ds with
    | nil => simp [matchItems] at hm
    | cons d ds =>
      rw [List.singleton_append, matchItems_cons, Bool.and_eq_true] at hm
      obtain ⟨h1, h2⟩ := hm
      simp only [itemMatches, Bool.and_eq_true, beq_iff_eq] at h1
      obtain ⟨ihc, ihp⟩ := ih (i + 1) ds hl.2 (by simpa using hi.2) h2
      constructor
      · obtain ⟨name, isDir, offset, length, children, idx⟩ := c
        simp only at hd hch h1 hi
        simp only [fileNodes, fileNode, ← ihc, List.cons.injEq, Node.mk.injEq, and_true]
        exact ⟨h1.1.symm, hd, h1.2.1.symm, h1.2.2.symm, hch, hi.1.1⟩
      · intro l hlm
        rcases List.mem_cons.mp hlm with rfl | hlm
        · rw [h1.1]; exact hpl
        · exact ihp l hlm

theorem loadStep_start (i : Nat) (d : Descriptor) (st : LoadState) (t : List Nat)
    (rest : List (List Nat)) (p : Node) (x : List Nat) (hname : descName d = x ++ sSTART)
    (hs : st.dirStack = t :: rest) (hp : st.root.get? t = some p) :
    loadStep i d st =
      some { root := st.root.modifyAt (Node.pushChild
               { name := x, isDir := true, offset := d.offset, length := d.length,
                 children := [], descIndex := i }) t,
             dirStack := (t ++ [p.children.length]) :: t :: rest,
             mapCounter := st.mapCounter } := by
  have hx : (x ++ sSTART).take ((x ++ sSTART).length - 6) = x := by simp [sSTART]
  simp only [loadStep, hname, isMapMarker_append_START, Bool.false_eq_true, if_false,
    endsWith_append, if_true, hx]
  rw [attachToTop_eq st _ t rest p hs hp, hs]

theorem loadStep_end (i : Nat) (d : Descriptor) (st : LoadState) (x : List Nat)
    (hname : descName d = x ++ sEND) : loadStep i d st = popDir st := by
  simp only [loadStep, hname, isMapMarker_append_END, Bool.false_eq_true, if_false,
    endsWith_START_append_END, endsWith_append, if_true]

theorem modify_append_length {α : Type} (l : List α) (c : α) (f : α → α) :
    (l ++ [c]).modify f l.length = l ++ [f c] := by
  induction l with
  | nil => rfl
  | cons x xs ih =>
    rw [List.cons_append, List.length_cons, List.modify_succ_cons, ih, List.cons_append]

theorem modifyAt_pushed (g : Node → Node) (c : Node) (t : List Nat) (root p : Node)
    (hp : root.get? t = some p) :
    (root.modifyAt (Node.pushChild c) t).modifyAt g (t ++ [p.children.length]) =
      root.modifyAt (Node.pushChild (g c)) t := by
  induction t generalizing root with
  | nil =>
    simp only [Node.get?, Option.some.injEq] at hp
    subst hp
    simp only [Node.modifyAt, Node.pushChild, List.nil_append, modify_append_length]
  | cons k ks ih =>
    simp only [Node.get?, List.get?_eq_getElem?] at hp
    cases hc : root.children[k]? with
    | none => rw [hc] at hp; exact absurd hp (by simp)
    | some ch =>
      rw [hc] at hp
      simp only [Node.modifyAt, List.cons_append]
      congr 1
      apply List.ext_getElem?
      intro j
      simp only [List.getElem?_modify]
      by_cases hk : k = j
      · subst hk
        simp only [hc, if_true, Option.map_eq_map, Option.map_some', Option.some.injEq]
        exact ih ch hp
      · cases root.children[j]? with
        | none => rfl
        | some c2 => simp only [hk, if_false, Option.map_eq_map, Option.map_some']
theorem appendChildren_nil (p : Node) : appendChildren [] p = p := by
  cases p
  simp [appendChildren]

theorem modifyAt_appendChildren_nil (t : List Nat) (root : Node) :
    root.modifyAt (appendChildren []) t = root := by
  induction t generalizing root with
  | nil => exact appendChildren_nil root
  | cons k ks ih =>
    obtain ⟨name, isDir, offset, length, children, idx⟩ := root
    simp only [Node.modifyAt]
    have : children.modify (Node.modifyAt (appendChildren []) ks) k = children := by
      apply List.ext_getElem?
      intro j
      simp only [List.getElem?_modify]
      cases children[j]? with
      | none => rfl
      | some c =>
        by_cases hk : k = j
        · simp only [hk, if_true, Option.map_eq_map, Option.map_some', ih c]
        · simp only [hk, if_false, Option.map_eq_map, Option.map_some']
    rw [this]

theorem matchItems_singleton (it : Item) (ds : List Descriptor)
    (h : matchItems [it] ds = true) : ∃ d, ds = [d] ∧ itemMatches it d = true := by
  match ds, h with
  | [d], h =>
    rw [matchItems_cons, Bool.and_eq_true] at h
    exact ⟨d, rfl, h.1⟩
  | [], h => simp [matchItems] at h
  | _ :: _ :: _, h => simp [matchItems] at h

mutual
theorem loadLoop_flatNode : ∀ (n : Node) (i : Nat) (ds : List Descriptor) (root : Node)
    (t : List Nat) (rest : List (List Nat)) (p : Node), wfNode n = true → idxNode i n = true →
    matchItems (flatNode n) ds = true → root.get? t = some p →
    loadLoop ds i { root := root, dirStack := t :: rest, mapCounter := 0 } =
      some { root := root.modifyAt (Node.pushChild n) t, dirStack := t :: rest, mapCounter := 0 }
  | ⟨name, isDir, offset, length, children, idx⟩, i, ds, root, t, rest, p, hwf, hidx, hm, hp => by
    have ih := loadLoop_flatList children
    rw [idxNode_eq, Bool.and_eq_true, beq_iff_eq] at hidx
    simp only at hidx
    obtain ⟨hi1, hi2⟩ := hidx
    subst hi1
    cases isDir with
    | false =>
      rw [wfNode_file _ rfl] at hwf
      have hl := lumps_eq_fileNodes [⟨name, false, offset, length, children, idx⟩] idx ds
        (by simp [hwf])
        (by simp [idxList_cons, idxList_nil, idxNode_eq, hi2])
        (by simpa [flatList_cons, flatList_nil] using hm)
      obtain ⟨h1, h2⟩ := hl
      match ds, h1, h2 with
      | [d], h1, h2 =>
        simp only [fileNodes, List.cons.injEq, and_true] at h1
        simp only [loadLoop]
        rw [loadStep_lump idx d _ t rest p (h2 d (by simp)) rfl hp, h1]
        simp
    | true =>
      cases hmk : isMapMarker name with
      | true =>
        rw [wfNode_map _ rfl hmk, Bool.and_eq_true, decide_eq_true_eq] at hwf
        rw [flatNode_map _ rfl hmk] at hm
        simp only at hwf hm
        cases ds with
        | nil => simp [matchItems] at hm
        | cons d lumps =>
          rw [matchItems_cons, Bool.and_eq_true] at hm
          obtain ⟨hd, hm2⟩ := hm
          simp only [itemMatches, Bool.and_eq_true, beq_iff_eq] at hd
          obtain ⟨hc, hpl⟩ := lumps_eq_fileNodes children (idx + 1) lumps hwf.2 hi2 hm2
          have hlen : lumps.length = 10 := by
            rw [← fileNodes_length (idx + 1) lumps, ← hc]; exact hwf.1
          have hdm : isMapMarker (descName d) = true := by rw [hd.1]; exact hmk
          simp only [loadLoop]
          rw [loadStep_marker idx d _ t rest p hdm rfl hp]
          simp only
          rw [loadLoop_lumps lumps (idx + 1) _ (t ++ [p.children.length]) (t :: rest)
            (mapNode idx d []) hpl (by simpa using hlen) (by simp) rfl
            (get?_pushed _ t root p hp)]
          simp only
          rw [modifyAt_pushed _ _ t root p hp]
          simp only [mapNode, appendChildren, List.nil_append, hd.1, hd.2.1, hd.2.2, ← hc]
      | false =>
        rw [wfNode_ns _ rfl hmk] at hwf
        simp only [Bool.and_eq_true] at hwf
        obtain ⟨⟨⟨-, -⟩, hwc⟩, -⟩ := hwf
        rw [flatNode_ns _ rfl hmk] at hm
        simp only at hm
        cases ds with
        | nil => simp [matchItems] at hm
        | cons d ds1 =>
          rw [matchItems_cons, Bool.and_eq_true] at hm
          obtain ⟨hd, hm2⟩ := hm
          simp only [itemMatches, Bool.and_eq_true, beq_iff_eq] at hd
          obtain ⟨mid, e, hsplit, hmid, he⟩ := matchItems_split _ _ _ hm2
          obtain ⟨dE, hdE, hE⟩ := matchItems_singleton _ _ he
          simp only [itemMatches, Bool.and_true, beq_iff_eq] at hE
          subst hsplit hdE
          simp only [loadLoop]
          rw [loadStep_start idx d _ t rest p name hd.1 rfl hp]
          simp only
          rw [loadLoop_append, ih (idx + 1) mid _ (t ++ [p.children.length]) (t :: rest) _
            hwc hi2 hmid (get?_pushed _ t root p hp)]
          simp only [Option.some_bind, loadLoop]
          rw [loadStep_end _ dE _ name hE, modifyAt_pushed _ _ t root p hp]
          simp only [popDir, appendChildren, List.nil_append, hd.2.1, hd.2.2]
theorem loadLoop_flatList : ∀ (f : List Node) (i : Nat) (ds : List Descriptor) (root : Node)
    (t : List Nat) (rest : List (List Nat)) (p : Node), wfNode.wfList f = true →
    idxNode.idxList i f = true → matchItems (flatNode.flatList f) ds = true →
    root.get? t = some p →
    loadLoop ds i { root := root, dirStack := t :: rest, mapCounter := 0 } =
      some { root := root.modifyAt (appendChildren f) t, dirStack := t :: rest,
             mapCounter := 0 }
  | [], i, ds, root, t, rest, p, _, _, hm, _ => by
    rw [flatList_nil] at hm
    have hds : ds = [] := List.length_eq_zero.mp (by simpa using matchItems_length _ _ hm)
    subst hds
    simp only [loadLoop, modifyAt_appendChildren_nil]
  | c :: cs, i, ds, root, t, rest, p, hwf, hidx, hm, hp => by
    rw [wfList_cons, Bool.and_eq_true] at hwf
    rw [idxList_cons, Bool.and_eq_true] at hidx
    rw [flatList_cons] at hm
    obtain ⟨ds1, ds2, hsplit, h1, h2⟩ := matchItems_split _ _ _ hm
    subst hsplit
    rw [loadLoop_append, loadLoop_flatNode c i ds1 root t rest p hwf.1 hidx.1 h1 hp]
    simp only [Option.some_bind]
    rw [matchItems_length _ _ h1,
      loadLoop_flatList cs _ ds2 _ t rest _ hwf.2 hidx.2 h2
        (get?_modifyAt_self _ t root p hp), modifyAt_comp]
    have hfun : (fun x => appendChildren cs (Node.pushChild c x)) = appendChildren (c :: cs) := by
      funext x
      simp [appendChildren, Node.pushChild]
    rw [hfun]
end

theorem buildTree_of_flat (f : List Node) (ds : List Descriptor)
    (hwf : wfNode.wfList f = true) (hidx : idxNode.idxList 0 f = true)
    (hm : matchItems (flatNode.flatList f) ds = true) :
    buildTree ds = some { rootNode with children := f } := by
  have h := loadLoop_flatList f 0 ds rootNode [] [] rootNode hwf hidx hm rfl
  simp only [buildTree, h]
  rfl
/-! ### Index shifting and the serialization -/

mutual
theorem flatNode_shift : ∀ (n : Node) (pos k : Nat), flatNode (n.shift pos k) = flatNode n
  | ⟨name, isDir, offset, length, children, idx⟩, pos, k => by
    have ih := flatList_shift children pos k
    rw [Node.shift, flatNode, flatNode, ih]
theorem flatList_shift : ∀ (l : List Node) (pos k : Nat),
    flatNode.flatList (Node.shift.shiftList pos k l) = flatNode.flatList l
  | [], _, _ => by rw [Node.shift.shiftList]
  | c :: cs, pos, k => by
    rw [Node.shift.shiftList, flatList_cons, flatList_cons, flatNode_shift c pos k,
      flatList_shift cs pos k]
end

theorem isLump_shift (n : Node) (pos k : Nat) : isLump (n.shift pos k) = isLump n := by
  simp only [isLump, shift_isDir, shift_name, shift_children]
  cases n.children <;> rfl

theorem all_isLump_shift (l : List Node) (pos k : Nat) :
    (Node.shift.shiftList pos k l).all isLump = l.all isLump := by
  rw [shiftList_eq_map, List.all_map]
  congr 1
  funext c
  exact isLump_shift c pos k

theorem shiftList_length (l : List Node) (pos k : Nat) :
    (Node.shift.shiftList pos k l).length = l.length := by
  rw [shiftList_eq_map, List.length_map]

mutual
theorem wfNode_shift : ∀ (n : Node) (pos k : Nat), wfNode (n.shift pos k) = wfNode n
  | ⟨name, isDir, offset, length, children, idx⟩, pos, k => by
    have ih := wfList_shift children pos k
    rw [Node.shift, wfNode, wfNode, ih, flatList_shift, all_isLump_shift, shiftList_length]
    cases children <;> rfl
theorem wfList_shift : ∀ (l : List Node) (pos k : Nat),
    wfNode.wfList (Node.shift.shiftList pos k l) = wfNode.wfList l
  | [], _, _ => by rw [Node.shift.shiftList]
  | c :: cs, pos, k => by
    rw [Node.shift.shiftList, wfList_cons, wfList_cons, wfNode_shift c pos k,
      wfList_shift cs pos k]
end

theorem flatNode_length_pos (n : Node) : 1 ≤ (flatNode n).length := by
  obtain ⟨name, isDir, offset, length, children, idx⟩ := n
  rw [flatNode]
  split
  · simp
  · split <;> simp

theorem flatNode_length_children (n : Node) (hwf : wfNode n = true) :
    1 + (flatNode.flatList n.children).length ≤ (flatNode n).length := by
  cases hd : n.isDir with
  | false =>
    rw [wfNode_file n hd] at hwf
    rw [((isLump_iff n).mp hwf).2.1, flatList_nil, flatNode_file n hd]
    simp
  | true =>
    cases hm : isMapMarker n.name with
    | true => rw [flatNode_map n hd hm]; simp; omega
    | false => rw [flatNode_ns n hd hm]; simp; omega

mutual
theorem shift_of_before : ∀ (n : Node) (i pos k : Nat), idxNode i n = true →
    wfNode n = true → i + (flatNode n).length ≤ pos → n.shift pos k = n
  | ⟨name, isDir, offset, length, children, idx⟩, i, pos, k, hidx, hwf, hle => by
    have ih := shiftList_of_before children (i + 1) pos k
    have hlen := flatNode_length_children _ hwf
    have hwc : wfNode.wfList children = true ∨ children = [] ∨ children.all isLump = true := by
      cases isDir with
      | false =>
        rw [wfNode_file _ rfl] at hwf
        exact Or.inr (Or.inl ((isLump_iff _).mp hwf).2.1)
      | true =>
        cases hm : isMapMarker name with
        | true =>
          rw [wfNode_map _ rfl hm, Bool.and_eq_true] at hwf
          exact Or.inr (Or.inr hwf.2)
        | false =>
          rw [wfNode_ns _ rfl hm] at hwf
          simp only [Bool.and_eq_true] at hwf
          exact Or.inl hwf.1.2
    rw [idxNode_eq, Bool.and_eq_true, beq_iff_eq] at hidx
    simp only at hidx hlen
    rw [Node.shift, ih hidx.2 hwc (by omega), if_neg (by omega)]
theorem shiftList_of_before : ∀ (l : List Node) (i pos k : Nat), idxNode.idxList i l = true →
    (wfNode.wfList l = true ∨ l = [] ∨ l.all isLump = true) →
    i + (flatNode.flatList l).length ≤ pos → Node.shift.shiftList pos k l = l
  | [], _, _, _, _, _, _ => by rw [Node.shift.shiftList]
  | c :: cs, i, pos, k, hidx, hwf, hle => by
    rw [idxList_cons, Bool.and_eq_true] at hidx
    rw [flatList_cons, List.length_append] at hle
    have hwc : wfNode c = true ∧
        (wfNode.wfList cs = true ∨ cs = [] ∨ cs.all isLump = true) := by
      rcases hwf with h | h | h
      · rw [wfList_cons, Bool.and_eq_true] at h
        exact ⟨h.1, Or.inl h.2⟩
      · exact absurd h (by simp)
      · rw [List.all_cons, Bool.and_eq_true] at h
        refine ⟨?_, Or.inr (Or.inr h.2)⟩
        rw [wfNode_file c ((isLump_iff c).mp h.1).1]
        exact h.1
    rw [Node.shift.shiftList, shift_of_before c i pos k hidx.1 hwc.1 (by omega),
      shiftList_of_before cs _ pos k hidx.2 hwc.2 (by omega)]
end
theorem wfList_of_lumps (l : List Node) (h : l.all isLump = true) : wfNode.wfList l = true := by
  induction l with
  | nil => exact wfList_nil
  | cons c cs ih =>
    rw [List.all_cons, Bool.and_eq_true] at h
    rw [wfList_cons, wfNode_file c ((isLump_iff c).mp h.1).1, h.1, ih h.2]
    rfl

theorem wfList_children (n : Node) (hwf : wfNode n = true) :
    wfNode.wfList n.children = true := by
  cases hd : n.isDir with
  | false =>
    rw [wfNode_file n hd] at hwf
    rw [((isLump_iff n).mp hwf).2.1]
    exact wfList_nil
  | true =>
    cases hm : isMapMarker n.name with
    | true =>
      rw [wfNode_map n hd hm, Bool.and_eq_true] at hwf
      exact wfList_of_lumps _ hwf.2
    | false =>
      rw [wfNode_ns n hd hm] at hwf
      simp only [Bool.and_eq_true] at hwf
      exact hwf.1.2

mutual
theorem idxNode_shift_after : ∀ (n : Node) (i pos k : Nat), idxNode i n = true → pos ≤ i →
    idxNode (i + k) (n.shift pos k) = true
  | ⟨name, isDir, offset, length, children, idx⟩, i, pos, k, hidx, hle => by
    have ih := idxList_shift_after children (i + 1) pos k
    rw [idxNode_eq, Bool.and_eq_true, beq_iff_eq] at hidx
    simp only at hidx
    rw [Node.shift, idxNode_eq, Bool.and_eq_true, beq_iff_eq]
    simp only
    refine ⟨?_, ?_⟩
    · rw [if_pos (by omega)]; omega
    · have := ih hidx.2 (by omega)
      rw [Nat.add_right_comm] at this
      exact this
theorem idxList_shift_after : ∀ (l : List Node) (i pos k : Nat), idxNode.idxList i l = true →
    pos ≤ i → idxNode.idxList (i + k) (Node.shift.shiftList pos k l) = true
  | [], _, _, _, _, _ => by rw [Node.shift.shiftList]; exact idxList_nil _
  | c :: cs, i, pos, k, hidx, hle => by
    rw [idxList_cons, Bool.and_eq_true] at hidx
    rw [Node.shift.shiftList, idxList_cons, Bool.and_eq_true, flatNode_shift]
    refine ⟨idxNode_shift_after c i pos k hidx.1 hle, ?_⟩
    have := idxList_shift_after cs _ pos k hidx.2 (by omega)
    rw [Nat.add_right_comm] at this
    exact this
end

theorem idxList_descIndex_lt (l : List Node) (i : Nat) (h : idxNode.idxList i l = true) :
    ∀ c ∈ l, c.descIndex < i + (flatNode.flatList l).length := by
  induction l generalizing i with
  | nil => simp
  | cons x xs ih =>
    rw [idxList_cons, Bool.and_eq_true, idxNode_eq, Bool.and_eq_true, beq_iff_eq] at h
    have hx := flatNode_length_pos x
    intro c hc
    rw [flatList_cons, List.length_append]
    rcases List.mem_cons.mp hc with rfl | hc
    · omega
    · have := ih _ h.2 c hc
      omega

theorem insertByIndex_append (new : Node) (l : List Node)
    (h : ∀ c ∈ l, c.descIndex < new.descIndex) : insertByIndex new l = l ++ [new] := by
  induction l with
  | nil => rfl
  | cons x xs ih =>
    rw [insertByIndex, if_pos (h x (by simp)), ih (fun c hc => h c (by simp [hc]))]
    rfl

theorem spliceAt_append_left {α : Type} (xs ys new : List α) (k : Nat) (hk : k ≤ xs.length) :
    spliceAt (xs ++ ys) k new = spliceAt xs k new ++ ys := by
  simp only [spliceAt, List.take_append_eq_append_take, List.drop_append_eq_append_drop]
  have h0 : k - xs.length = 0 := by omega
  simp [h0]

theorem spliceAt_append_right {α : Type} (xs ys new : List α) (k : Nat) (hk : xs.length ≤ k) :
    spliceAt (xs ++ ys) k new = xs ++ spliceAt ys (k - xs.length) new := by
  simp only [spliceAt, List.take_append_eq_append_take, List.drop_append_eq_append_drop]
  rw [List.take_of_length_le hk, List.drop_of_length_le hk]
  simp

theorem spliceAt_cons_succ {α : Type} (x : α) (xs new : List α) (k : Nat) :
    spliceAt (x :: xs) (k + 1) new = x :: spliceAt xs k new := by
  simp [spliceAt]

theorem spliceAt_length_self {α : Type} (xs new : List α) :
    spliceAt xs xs.length new = xs ++ new := by
  simp [spliceAt]

theorem matchItems_take (its : List Item) (ds : List Descriptor) (k : Nat)
    (h : matchItems its ds = true) : matchItems (its.take k) (ds.take k) = true := by
  induction its generalizing ds k with
  | nil => cases ds with
    | nil => simp [matchItems]
    | cons d ds => simp [matchItems] at h
  | cons it its ih => cases ds with
    | nil => simp [matchItems] at h
    | cons d ds =>
      rw [matchItems_cons, Bool.and_eq_true] at h
      cases k with
      | zero => simp [matchItems]
      | succ k =>
        rw [List.take_succ_cons, List.take_succ_cons, matchItems_cons, h.1, ih ds k h.2]
        rfl

theorem matchItems_drop (its : List Item) (ds : List Descriptor) (k : Nat)
    (h : matchItems its ds = true) : matchItems (its.drop k) (ds.drop k) = true := by
  induction its generalizing ds k with
  | nil => cases ds with
    | nil => simp [matchItems]
    | cons d ds => simp [matchItems] at h
  | cons it its ih => cases ds with
    | nil => simp [matchItems] at h
    | cons d ds =>
      cases k with
      | zero => simpa using h
      | succ k =>
        rw [matchItems_cons, Bool.and_eq_true] at h
        rw [List.drop_succ_cons, List.drop_succ_cons]
        exact ih ds k h.2

theorem matchItems_spliceAt (its new : List Item) (ds dnew : List Descriptor) (k : Nat)
    (h : matchItems its ds = true) (hn : matchItems new dnew = true) :
    matchItems (spliceAt its k new) (spliceAt ds k dnew) = true := by
  simp only [spliceAt]
  exact matchItems_append _ _ _ _
    (matchItems_append _ _ _ _ (matchItems_take _ _ k h) hn) (matchItems_drop _ _ k h)
/-! ### Inserting a subtree before the `_END` of its parent -/

theorem mem_spliceAt {α : Type} (l new : List α) (k : Nat) (x : α)
    (h : x ∈ spliceAt l k new) : x ∈ l ∨ x ∈ new := by
  simp only [spliceAt, List.mem_append] at h
  rcases h with (h | h) | h
  · exact Or.inl (List.mem_of_mem_take h)
  · exact Or.inr h
  · exact Or.inl (List.mem_of_mem_drop h)

theorem insert_forest (new : Node) (pos : Nat) (G : Node → Node) (c : Node)
    (hc : ∀ j0, idxNode j0 c = true →
      flatNode (G (c.shift pos (flatNode new).length)) =
          spliceAt (flatNode c) (pos - j0) (flatNode new) ∧
        wfNode (G (c.shift pos (flatNode new).length)) = true ∧
        idxNode j0 (G (c.shift pos (flatNode new).length)) = true ∧
        j0 < pos ∧ pos + 1 ≤ j0 + (flatNode c).length) :
    ∀ (f : List Node) (j k : Nat), wfNode.wfList f = true → idxNode.idxList j f = true →
      f[k]? = some c →
      flatNode.flatList ((Node.shift.shiftList pos (flatNode new).length f).modify G k) =
          spliceAt (flatNode.flatList f) (pos - j) (flatNode new) ∧
        wfNode.wfList ((Node.shift.shiftList pos (flatNode new).length f).modify G k) = true ∧
        idxNode.idxList j ((Node.shift.shiftList pos (flatNode new).length f).modify G k)
          = true ∧
        j < pos ∧ pos + 1 ≤ j + (flatNode.flatList f).length := by
  intro f
  induction f with
  | nil => intro j k _ _ h; simp at h
  | cons b bs ih =>
    intro j k hwf hidx hk
    rw [wfList_cons, Bool.and_eq_true] at hwf
    rw [idxList_cons, Bool.and_eq_true] at hidx
    rw [Node.shift.shiftList, flatList_cons, List.length_append]
    cases k with
    | zero =>
      simp only [List.getElem?_cons_zero, Option.some.injEq] at hk
      subst hk
      obtain ⟨h1, h2, h3, h4, h5⟩ := hc j hidx.1
      rw [List.modify_zero_cons, flatList_cons, wfList_cons, idxList_cons, h1, h2, h3,
        flatList_shift, wfList_shift, hwf.2, length_spliceAt]
      refine ⟨?_, rfl, ?_, h4, by omega⟩
      · rw [spliceAt_append_left _ _ _ _ (by omega)]
      · have := idxList_shift_after bs _ pos (flatNode new).length hidx.2 (by omega)
        rw [Nat.add_assoc] at this
        exact this
    | succ k =>
      simp only [List.getElem?_cons_succ] at hk
      obtain ⟨h1, h2, h3, h4, h5⟩ := ih (j + (flatNode b).length) k hwf.2 hidx.2 hk
      rw [List.modify_succ_cons, flatList_cons, wfList_cons, idxList_cons,
        shift_of_before b j pos _ hidx.1 hwf.1 (by omega), h1, h2, h3, hwf.1, hidx.1]
      refine ⟨?_, rfl, rfl, by omega, by omega⟩
      rw [spliceAt_append_right _ _ _ _ (by omega), Nat.sub_add_eq]
theorem wfList_mem (l : List Node) (h : wfNode.wfList l = true) :
    ∀ c ∈ l, wfNode c = true := by
  induction l with
  | nil => simp
  | cons x xs ih =>
    rw [wfList_cons, Bool.and_eq_true] at h
    intro c hc
    rcases List.mem_cons.mp hc with rfl | hc
    · exact h.1
    · exact ih h.2 c hc

theorem namespace_of_child (n c P : Node) (k : Nat) (ks : List Nat) (hwf : wfNode n = true)
    (hc : n.children[k]? = some c) (hget : c.get? ks = some P) (hPd : P.isDir = true) :
    n.isDir = true ∧ isMapMarker n.name = false := by
  cases hd : n.isDir with
  | false =>
    rw [wfNode_file n hd] at hwf
    rw [((isLump_iff n).mp hwf).2.1] at hc
    simp at hc
  | true =>
    refine ⟨rfl, ?_⟩
    cases hm : isMapMarker n.name with
    | false => rfl
    | true =>
      rw [wfNode_map n hd hm, Bool.and_eq_true, List.all_eq_true] at hwf
      have hl := (isLump_iff c).mp (hwf.2 c (List.getElem?_mem hc))
      cases ks with
      | nil =>
        simp only [Node.get?, Option.some.injEq] at hget
        rw [← hget, hl.1] at hPd
        exact absurd hPd (by simp)
      | cons j js =>
        simp only [Node.get?, hl.2.1, List.get?_eq_getElem?, List.getElem?_nil] at hget
        exact absurd hget (by simp)

theorem insert_node (new P : Node) (pos : Nat) (hPd : P.isDir = true)
    (hPm : isMapMarker P.name = false)
    (hpos : pos = P.descIndex + 1 + (flatNode.flatList P.children).length)
    (hnw : wfNode new = true) (hni : idxNode pos new = true) :
    ∀ (ks : List Nat) (n : Node) (i : Nat), wfNode n = true → idxNode i n = true →
      n.get? ks = some P →
      (∀ A ∈ n.name :: namesBelow n ks,
        A ++ sEND ∉ (flatNode new).map (fun it => it.name)) →
      flatNode ((n.shift pos (flatNode new).length).modifyAt (addChild new) ks) =
          spliceAt (flatNode n) (pos - i) (flatNode new) ∧
        wfNode ((n.shift pos (flatNode new).length).modifyAt (addChild new) ks) = true ∧
        idxNode i ((n.shift pos (flatNode new).length).modifyAt (addChild new) ks) = true ∧
        i < pos ∧ pos + 1 ≤ i + (flatNode n).length := by
  have hnidx : new.descIndex = pos := by
    rw [idxNode_eq, Bool.and_eq_true, beq_iff_eq] at hni
    exact hni.1
  intro ks
  induction ks with
  | nil =>
    intro n i hwf hidx hget hfresh
    simp only [Node.get?, Option.some.injEq] at hget
    subst hget
    obtain ⟨name, isDir, offset, length, children, idx⟩ := n
    simp only at hPd hPm hpos
    subst hPd
    rw [idxNode_eq, Bool.and_eq_true, beq_iff_eq] at hidx
    simp only at hidx
    obtain ⟨hi1, hi2⟩ := hidx
    subst hi1
    have hwf0 := hwf
    rw [wfNode_ns _ rfl hPm] at hwf
    simp only [Bool.and_eq_true, decide_eq_true_eq, Bool.not_eq_true'] at hwf
    obtain ⟨⟨⟨hw1, hw2⟩, hw3⟩, hw4⟩ := hwf
    have hsh : Node.shift.shiftList pos (flatNode new).length children = children :=
      shiftList_of_before children (idx + 1) pos _ hi2 (Or.inl hw3) (by omega)
    have hins : insertByIndex new children = children ++ [new] :=
      insertByIndex_append new children (fun c hc => by
        have := idxList_descIndex_lt children (idx + 1) hi2 c hc
        omega)
    have hn : (Node.shift pos (flatNode new).length
        ⟨name, true, offset, length, children, idx⟩).modifyAt (addChild new) [] =
        ⟨name, true, offset, length, children ++ [new], idx⟩ := by
      simp only [Node.modifyAt, Node.shift, addChild, hsh, hins]
      rw [if_neg (by omega)]
    rw [hn]
    have hfr := hfresh name (by simp)
    refine ⟨?_, ?_, ?_, by omega, ?_⟩
    · rw [flatNode_ns _ rfl hPm, flatNode_ns _ rfl hPm]
      simp only
      rw [flatList_append, flatList_cons, flatList_nil, List.append_nil]
      have : pos - idx = (flatNode.flatList children).length + 1 := by omega
      rw [this, spliceAt_cons_succ, spliceAt_append_left _ _ _ _ (le_refl _),
        spliceAt_length_self]
    · rw [wfNode_ns _ rfl hPm]
      simp only [Bool.and_eq_true, decide_eq_true_eq, Bool.not_eq_true', wfList_append,
        wfList_cons, wfList_nil, flatList_append, flatList_cons, flatList_nil,
        List.append_nil, Bool.and_true]
      refine ⟨⟨⟨hw1, hw2⟩, hw3, hnw⟩, ?_⟩
      rw [List.contains_eq_any_beq, List.any_eq_false] at hw4 ⊢
      intro x hx
      rw [List.map_append, List.mem_append] at hx
      rcases hx with hx | hx
      · exact hw4 x hx
      · intro he
        exact hfr (by rw [beq_iff_eq] at he; rw [he]; exact hx)
    · rw [idxNode_eq, Bool.and_eq_true, beq_iff_eq]
      refine ⟨rfl, ?_⟩
      simp only
      rw [idxList_append, hi2, idxList_cons, idxList_nil, Bool.true_and, Bool.and_true,
        ← hni]
      congr 1
      omega
    · rw [flatNode_ns _ rfl hPm]
      simp only [List.length_cons, List.length_append, List.length_nil]
      omega
  | cons k ks ih =>
    intro n i hwf hidx hget hfresh
    simp only [Node.get?, List.get?_eq_getElem?] at hget
    cases hc : n.children[k]? with
    | none => rw [hc] at hget; exact absurd hget (by simp)
    | some c =>
      rw [hc] at hget
      simp only at hget
      obtain ⟨hd, hm⟩ := namespace_of_child n c P k ks hwf hc hget hPd
      obtain ⟨name, isDir, offset, length, children, idx⟩ := n
      simp only at hd hm hc
      subst hd
      rw [idxNode_eq, Bool.and_eq_true, beq_iff_eq] at hidx
      simp only at hidx
      obtain ⟨hi1, hi2⟩ := hidx
      subst hi1
      rw [wfNode_ns _ rfl hm] at hwf
      simp only [Bool.and_eq_true, decide_eq_true_eq, Bool.not_eq_true'] at hwf
      obtain ⟨⟨⟨hw1, hw2⟩, hw3⟩, hw4⟩ := hwf
      have hnb : namesBelow ⟨name, true, offset, length, children, idx⟩ (k :: ks) =
          c.name :: namesBelow c ks := by
        simp only [namesBelow, List.get?_eq_getElem?, hc]
      have hforest := insert_forest new pos (Node.modifyAt (addChild new) ks) c
        (fun j0 hj0 => ih c j0 (wfList_mem _ hw3 c (List.getElem?_mem hc)) hj0 hget
          (fun A hA => hfresh A (by rw [hnb]; exact List.mem_cons_of_mem _ hA)))
        children (idx + 1) k hw3 hi2 hc
      obtain ⟨h1, h2, h3, h4, h5⟩ := hforest
      have hn : (Node.shift pos (flatNode new).length
          ⟨name, true, offset, length, children, idx⟩).modifyAt (addChild new) (k :: ks) =
          ⟨name, true, offset, length,
            (Node.shift.shiftList pos (flatNode new).length children).modify
              (Node.modifyAt (addChild new) ks) k, idx⟩ := by
        simp only [Node.modifyAt, Node.shift]
        rw [if_neg (by omega)]
      rw [hn]
      have hfr := hfresh name (by simp)
      refine ⟨?_, ?_, ?_, by omega, ?_⟩
      · rw [flatNode_ns _ rfl hm, flatNode_ns ⟨name, true, offset, length, children, idx⟩ rfl hm]
        simp only
        rw [h1]
        have : pos - idx = (pos - (idx + 1)) + 1 := by omega
        rw [this, spliceAt_cons_succ, spliceAt_append_left _ _ _ _ (by omega)]
      · rw [wfNode_ns _ rfl hm]
        simp only [Bool.and_eq_true, decide_eq_true_eq, Bool.not_eq_true']
        refine ⟨⟨⟨hw1, hw2⟩, h2⟩, ?_⟩
        rw [List.contains_eq_any_beq, List.any_eq_false] at hw4 ⊢
        intro x hx
        rw [h1] at hx
        obtain ⟨it, hit, rfl⟩ := List.mem_map.mp hx
        rcases mem_spliceAt _ _ _ _ hit with hx | hx
        · exact hw4 _ (List.mem_map_of_mem _ hx)
        · intro he
          rw [beq_iff_eq] at he
          exact hfr (by rw [he]; exact List.mem_map_of_mem _ hx)
      · rw [idxNode_eq, Bool.and_eq_true, beq_iff_eq]
        exact ⟨rfl, h3⟩
      · rw [flatNode_ns _ rfl hm]
        simp only [List.length_cons, List.length_append, List.length_nil]
        omega
/-! ### The two creating calls, case by case -/

theorem createFile_facts (w w1 : Wad) (path : List Nat)
    (h : createFile w path = some w1) :
    w1 = w ∨ ∃ addr parent pos,
      (splitPath (norm path)).2 ≠ [] ∧ (splitPath (norm path)).2.length ≤ 8 ∧
      isMapMarker (splitPath (norm path)).2 = false ∧
      resolve w.root (splitPath (norm path)).1 = some (addr, parent) ∧
      parent.isDir = true ∧
      findInsertPos w.descriptors addr parent = some pos ∧
      insertEntries w addr pos
        [{ offset := 0, length := 0, name := encodeName (splitPath (norm path)).2 }]
        { name := (splitPath (norm path)).2, isDir := false, offset := 0, length := 0,
          children := [], descIndex := pos } = some w1 := by
  unfold createFile at h
  simp only at h
  split at h
  · left; simpa using h.symm
  · split at h
    · left; simpa using h.symm
    · next hname =>
      split at h
      · left; simpa using h.symm
      · next hmk =>
        split at h
        · left; simpa using h.symm
        · next addr parent hres =>
          split at h
          · left; simpa using h.symm
          · next hdir =>
            split at h
            · left; simpa using h.symm
            · split at h
              · left; simpa using h.symm
              · split at h
                · left; simpa using h.symm
                · next pos hpos =>
                  right
                  refine ⟨addr, parent, pos, ?_, ?_, ?_, hres, ?_, hpos, h⟩
                  · exact fun he => hname (Or.inl he)
                  · have := fun hl => hname (Or.inr hl)
                    omega
                  · simpa using hmk
                  · simpa using hdir

theorem createDirectory_facts (w w1 : Wad) (path : List Nat)
    (h : createDirectory w path = some w1) :
    w1 = w ∨ ∃ addr parent pos,
      (splitPath (norm path)).2 ≠ [] ∧ (splitPath (norm path)).2.length ≤ 2 ∧
      resolve w.root (norm (splitPath (norm path)).1) = some (addr, parent) ∧
      isMapMarker parent.name = false ∧
      findInsertPos w.descriptors addr parent = some pos ∧
      insertEntries w addr pos
        [{ offset := 0, length := 0,
           name := encodeName ((splitPath (norm path)).2 ++ sSTART) },
         { offset := 0, length := 0,
           name := encodeName ((splitPath (norm path)).2 ++ sEND) }]
        { name := (splitPath (norm path)).2, isDir := true, offset := 0, length := 0,
          children := [], descIndex := pos } = some w1 := by
  unfold createDirectory at h
  simp only at h
  split at h
  · left; simpa using h.symm
  · split at h
    · left; simpa using h.symm
    · next hname =>
      split at h
      · left; simpa using h.symm
      · split at h
        · exact absurd h (by simp)
        · next addr parent hres =>
          split at h
          · left; simpa using h.symm
          · next hmk =>
            split at h
            · left; simpa using h.symm
            · split at h
              · left; simpa using h.symm
              · next pos hpos =>
                right
                refine ⟨addr, parent, pos, ?_, ?_, hres, ?_, hpos, h⟩
                · exact fun he => hname (Or.inl he)
                · have := fun hl => hname (Or.inr hl)
                  omega
                · simpa using hmk
/-! ### Where a node sits in the serialization -/

theorem flatNode_form (n : Node) (hwf : wfNode n = true) :
    ∃ h tl, flatNode n = h :: (flatNode.flatList n.children ++ tl) := by
  cases hd : n.isDir with
  | false =>
    rw [wfNode_file n hd] at hwf
    rw [((isLump_iff n).mp hwf).2.1, flatList_nil, flatNode_file n hd]
    exact ⟨_, [], rfl⟩
  | true =>
    cases hm : isMapMarker n.name with
    | true => exact ⟨_, [], by rw [flatNode_map n hd hm, List.append_nil]⟩
    | false => exact ⟨_, _, flatNode_ns n hd hm⟩

theorem locate_forest (P c : Node)
    (hc : ∀ j0, idxNode j0 c = true →
      ∃ pre post, flatNode c = pre ++ flatNode P ++ post ∧ j0 + pre.length = P.descIndex) :
    ∀ (f : List Node) (j k : Nat), idxNode.idxList j f = true → f[k]? = some c →
      ∃ pre post, flatNode.flatList f = pre ++ flatNode P ++ post ∧
        j + pre.length = P.descIndex := by
  intro f
  induction f with
  | nil => intro j k _ h; simp at h
  | cons b bs ih =>
    intro j k hidx hk
    rw [idxList_cons, Bool.and_eq_true] at hidx
    rw [flatList_cons]
    cases k with
    | zero =>
      simp only [List.getElem?_cons_zero, Option.some.injEq] at hk
      subst hk
      obtain ⟨pre, post, h1, h2⟩ := hc j hidx.1
      exact ⟨pre, post ++ flatNode.flatList bs, by rw [h1]; simp, h2⟩
    | succ k =>
      simp only [List.getElem?_cons_succ] at hk
      obtain ⟨pre, post, h1, h2⟩ := ih _ k hidx.2 hk
      exact ⟨flatNode b ++ pre, post, by rw [h1]; simp,
        by rw [List.length_append]; omega⟩

theorem locate_node (P : Node) :
    ∀ (ks : List Nat) (n : Node) (i : Nat), wfNode n = true → idxNode i n = true →
      n.get? ks = some P →
      ∃ pre post, flatNode n = pre ++ flatNode P ++ post ∧ i + pre.length = P.descIndex := by
  intro ks
  induction ks with
  | nil =>
    intro n i _ hidx hget
    simp only [Node.get?, Option.some.injEq] at hget
    subst hget
    rw [idxNode_eq, Bool.and_eq_true, beq_iff_eq] at hidx
    exact ⟨[], [], by simp, by simp [hidx.1]⟩
  | cons k ks ih =>
    intro n i hwf hidx hget
    simp only [Node.get?, List.get?_eq_getElem?] at hget
    cases hc : n.children[k]? with
    | none => rw [hc] at hget; exact absurd hget (by simp)
    | some c =>
      rw [hc] at hget
      simp only at hget
      rw [idxNode_eq, Bool.and_eq_true, beq_iff_eq] at hidx
      obtain ⟨hd, tl, hform⟩ := flatNode_form n hwf
      obtain ⟨pre, post, h1, h2⟩ := locate_forest P c
        (fun j0 hj0 => ih c j0
          (wfList_mem _ (wfList_children n hwf) c (List.getElem?_mem hc)) hj0 hget)
        n.children (i + 1) k hidx.2 hc
      exact ⟨hd :: pre, post ++ tl, by rw [hform, h1]; simp,
        by rw [List.length_cons]; omega⟩

theorem scanEnd_hit (tag : List Nat) (xs ys : List Descriptor) (e : Descriptor) (s : Nat)
    (hxs : ∀ d ∈ xs, descName d ≠ tag) (he : descName e = tag) :
    scanEnd tag (xs ++ e :: ys) s = s + xs.length := by
  induction xs generalizing s with
  | nil => simp [scanEnd, he]
  | cons x xs ih =>
    rw [List.cons_append, scanEnd, if_neg (hxs x (by simp)),
      ih (s + 1) (fun d hd => hxs d (by simp [hd]))]
    simp only [List.length_cons]
    omega

theorem scanEnd_miss (tag : List Nat) (xs : List Descriptor) (s : Nat)
    (hxs : ∀ d ∈ xs, descName d ≠ tag) : scanEnd tag xs s = s + xs.length := by
  induction xs generalizing s with
  | nil => simp [scanEnd]
  | cons x xs ih =>
    rw [scanEnd, if_neg (hxs x (by simp)), ih (s + 1) (fun d hd => hxs d (by simp [hd]))]
    simp only [List.length_cons]
    omega

mutual
theorem flatNode_END_short : ∀ (n : Node), wfNode n = true →
    ∀ it ∈ flatNode n, endsWith it.name sEND = true → it.name.length ≤ 6
  | ⟨name, isDir, offset, length, children, idx⟩, hwf, it, hit, he => by
    have ih := flatList_END_short children
    cases isDir with
    | false =>
      rw [wfNode_file _ rfl] at hwf
      have hl := (isLump_iff _).mp hwf
      rw [flatNode_file _ rfl, List.mem_singleton] at hit
      subst hit
      have hp := hl.2.2.1
      simp only [isPlain, Bool.and_eq_true, Bool.not_eq_true'] at hp
      rw [hp.2] at he
      exact absurd he (by simp)
    | true =>
      cases hm : isMapMarker name with
      | true =>
        have hwc := wfList_children _ hwf
        rw [flatNode_map _ rfl hm, List.mem_cons] at hit
        rcases hit with rfl | hit
        · rw [endsWith_END_of_marker _ hm] at he
          exact absurd he (by simp)
        · exact ih hwc it hit he
      | false =>
        have hwc := wfList_children _ hwf
        rw [wfNode_ns _ rfl hm] at hwf
        simp only [Bool.and_eq_true, decide_eq_true_eq] at hwf
        rw [flatNode_ns _ rfl hm, List.mem_cons, List.mem_append, List.mem_singleton] at hit
        rcases hit with rfl | hit | rfl
        · rw [endsWith_END_of_START _ (endsWith_append _ _)] at he
          exact absurd he (by simp)
        · exact ih hwc it hit he
        · simp only [List.length_append, sEND, List.length_cons, List.length_nil]
          have := hwf.1.1.1
          omega
theorem flatList_END_short : ∀ (l : List Node), wfNode.wfList l = true →
    ∀ it ∈ flatNode.flatList l, endsWith it.name sEND = true → it.name.length ≤ 6
  | [], _, it, hit, _ => by rw [flatList_nil] at hit; exact absurd hit (by simp)
  | c :: cs, hwf, it, hit, he => by
    rw [wfList_cons, Bool.and_eq_true] at hwf
    rw [flatList_cons, List.mem_append] at hit
    rcases hit with hit | hit
    · exact flatNode_END_short c hwf.1 it hit he
    · exact flatList_END_short cs hwf.2 it hit he
end
theorem wfNode_get? (ks : List Nat) (n P : Node) (hwf : wfNode n = true)
    (hget : n.get? ks = some P) : wfNode P = true := by
  induction ks generalizing n with
  | nil =>
    simp only [Node.get?, Option.some.injEq] at hget
    rw [← hget]; exact hwf
  | cons k ks ih =>
    simp only [Node.get?, List.get?_eq_getElem?] at hget
    cases hc : n.children[k]? with
    | none => rw [hc] at hget; exact absurd hget (by simp)
    | some c =>
      rw [hc] at hget
      exact ih c (wfList_mem _ (wfList_children n hwf) c (List.getElem?_mem hc)) hget

theorem get?_cons (n P : Node) (k : Nat) (ks : List Nat) (hget : n.get? (k :: ks) = some P) :
    ∃ c, n.children[k]? = some c ∧ c.get? ks = some P := by
  simp only [Node.get?, List.get?_eq_getElem?] at hget
  cases hc : n.children[k]? with
  | none => rw [hc] at hget; exact absurd hget (by simp)
  | some c =>
    rw [hc] at hget
    exact ⟨c, rfl, hget⟩

theorem good_locate (w : Wad) (addr : List Nat) (P : Node) (hgood : Good w)
    (hne : addr ≠ []) (hget : w.root.get? addr = some P) :
    wfNode P = true ∧
    ∃ dpre dP dpost, w.descriptors = dpre ++ dP ++ dpost ∧ dpre.length = P.descIndex ∧
      matchItems (flatNode P) dP = true := by
  obtain ⟨hwf, hidx, hm⟩ := hgood
  cases addr with
  | nil => exact absurd rfl hne
  | cons k ks =>
    obtain ⟨c, hc, hcget⟩ := get?_cons _ _ _ _ hget
    have hwc := wfList_mem _ hwf c (List.getElem?_mem hc)
    refine ⟨wfNode_get? ks c P hwc hcget, ?_⟩
    obtain ⟨pre, post, h1, h2⟩ := locate_forest P c
      (fun j0 hj0 => locate_node P ks c j0 hwc hj0 hcget) w.root.children 0 k hidx hc
    rw [h1] at hm
    obtain ⟨d12, dpost, he1, hm12, -⟩ := matchItems_split _ _ _ hm
    obtain ⟨dpre, dP, he2, hmpre, hmP⟩ := matchItems_split _ _ _ hm12
    refine ⟨dpre, dP, dpost, by rw [he1, he2], ?_, hmP⟩
    rw [matchItems_length _ _ hmpre]
    omega

theorem good_findInsertPos (w : Wad) (addr : List Nat) (P : Node) (hgood : Good w)
    (hne : addr ≠ []) (hget : w.root.get? addr = some P) (hPd : P.isDir = true) :
    findInsertPos w.descriptors addr P =
      if isMapMarker P.name then none
      else some (P.descIndex + 1 + (flatNode.flatList P.children).length) := by
  obtain ⟨hwP, dpre, dP, dpost, hsplit, hlen, hmP⟩ := good_locate w addr P hgood hne hget
  simp only [findInsertPos, if_neg hne]
  cases hm : isMapMarker P.name with
  | true =>
    simp only [if_true]
    have hall : ∀ d ∈ w.descriptors, descName d ≠ P.name ++ sEND := by
      intro d hd he
      have hmem : descName d ∈ w.descriptors.map descName := List.mem_map_of_mem _ hd
      rw [matchItems_names _ _ hgood.2.2] at hmem
      obtain ⟨it, hit, hname⟩ := List.mem_map.mp hmem
      have := flatList_END_short _ hgood.1 it hit
        (by rw [hname, he]; exact endsWith_append _ _)
      rw [hname, he, List.length_append, isMapMarker_length _ hm] at this
      simp [sEND] at this
    rw [scanEnd_miss _ _ _ (fun d hd => hall d (List.mem_of_mem_drop hd))]
    have h1 := flatNode_length_pos P
    have h2 := matchItems_length _ _ hmP
    have h3 : w.descriptors.length = dpre.length + dP.length + dpost.length := by
      rw [hsplit]; simp; omega
    rw [List.length_drop, if_pos (by omega)]
  | false =>
    simp only [Bool.false_eq_true, if_false]
    rw [flatNode_ns P hPd hm] at hmP
    cases dP with
    | nil => simp [matchItems] at hmP
    | cons dS dP1 =>
      rw [matchItems_cons, Bool.and_eq_true] at hmP
      obtain ⟨dmid, e, hsp, hmid, he⟩ := matchItems_split _ _ _ hmP.2
      obtain ⟨dE, hdE, hE⟩ := matchItems_singleton _ _ he
      simp only [itemMatches, Bool.and_true, beq_iff_eq] at hE
      subst hsp hdE
      have hdrop : w.descriptors.drop (P.descIndex + 1) = dmid ++ dE :: dpost := by
        have : w.descriptors = (dpre ++ [dS]) ++ (dmid ++ dE :: dpost) := by
          rw [hsplit]; simp
        rw [this, ← hlen]
        exact List.drop_left' (by simp)
      have hfresh : ∀ d ∈ dmid, descName d ≠ P.name ++ sEND := by
        intro d hd he2
        have hmem : descName d ∈ dmid.map descName := List.mem_map_of_mem _ hd
        rw [matchItems_names _ _ hmid] at hmem
        rw [wfNode_ns P hPd hm] at hwP
        simp only [Bool.and_eq_true, Bool.not_eq_true'] at hwP
        have hu := hwP.2
        rw [List.contains_eq_any_beq, List.any_eq_false] at hu
        exact hu _ hmem (by rw [he2]; simp)
      rw [hdrop, scanEnd_hit _ _ _ _ _ hfresh hE, matchItems_length _ _ hmid]
      have h3 : w.descriptors.length =
          dpre.length + (1 + (dmid.length + 1)) + dpost.length := by
        rw [hsplit]; simp; omega
      have h4 := matchItems_length _ _ hmid
      rw [if_neg (by omega)]
/-! ### An insertion keeps tree and descriptor vector in agreement -/

theorem good_insert (w w1 : Wad) (addr : List Nat) (P new : Node) (dnew : List Descriptor)
    (pos : Nat) (hgood : Good w) (hget : w.root.get? addr = some P) (hPd : P.isDir = true)
    (hfind : findInsertPos w.descriptors addr P = some pos)
    (hnw : wfNode new = true) (hni : idxNode pos new = true)
    (hmatch : matchItems (flatNode new) dnew = true)
    (hfresh : ∀ A ∈ namesBelow w.root addr,
      A ++ sEND ∉ (flatNode new).map (fun it => it.name))
    (hroot : w1.root = (w.root.shift pos dnew.length).modifyAt (addChild new) addr)
    (hdesc : w1.descriptors = spliceAt w.descriptors pos dnew) : Good w1 := by
  have hlen : dnew.length = (flatNode new).length := matchItems_length _ _ hmatch
  have hnidx : new.descIndex = pos := by
    rw [idxNode_eq, Bool.and_eq_true, beq_iff_eq] at hni
    exact hni.1
  have hg := hgood
  obtain ⟨hwf, hidx, hm⟩ := hg
  have hdl := matchItems_length _ _ hm
  cases addr with
  | nil =>
    rw [findInsertPos_root] at hfind
    simp only [Option.some.injEq] at hfind
    have hsh : Node.shift.shiftList pos dnew.length w.root.children = w.root.children :=
      shiftList_of_before _ 0 pos _ hidx (Or.inl hwf) (by omega)
    have hch : w1.root.children = w.root.children ++ [new] := by
      rw [hroot]
      simp only [Node.modifyAt, addChild, shift_children, ← shiftList_eq_map, hsh]
      exact insertByIndex_append new _ (fun c hc => by
        have := idxList_descIndex_lt _ 0 hidx c hc
        omega)
    refine ⟨?_, ?_, ?_⟩
    · rw [hch, wfList_append, hwf, wfList_cons, hnw, wfList_nil]; rfl
    · rw [hch, idxList_append, hidx, idxList_cons, idxList_nil, Bool.true_and, Bool.and_true,
        ← hni]
      congr 1
      omega
    · rw [hch, hdesc, flatList_append, flatList_cons, flatList_nil, List.append_nil, ← hfind,
        spliceAt_length_self]
      exact matchItems_append _ _ _ _ hm hmatch
  | cons k ks =>
    obtain ⟨c, hc, hcget⟩ := get?_cons _ _ _ _ hget
    have hwc := wfList_mem _ hwf c (List.getElem?_mem hc)
    have hpos := good_findInsertPos w (k :: ks) P hgood (by simp) hget hPd
    rw [hfind] at hpos
    cases hmk : isMapMarker P.name with
    | true => rw [hmk] at hpos; exact absurd hpos (by simp)
    | false =>
      rw [hmk] at hpos
      simp only [Bool.false_eq_true, if_false, Option.some.injEq] at hpos
      have hnb : namesBelow w.root (k :: ks) = c.name :: namesBelow c ks := by
        simp only [namesBelow, List.get?_eq_getElem?, hc]
      rw [hnb] at hfresh
      have hforest := insert_forest new pos (Node.modifyAt (addChild new) ks) c
        (fun j0 hj0 => insert_node new P pos hPd hmk hpos hnw hni ks c j0 hwc hj0 hcget hfresh)
        w.root.children 0 k hwf hidx hc
      have hch : w1.root.children =
          (Node.shift.shiftList pos (flatNode new).length w.root.children).modify
            (Node.modifyAt (addChild new) ks) k := by
        rw [hroot, hlen]
        simp only [Node.modifyAt, shift_children, ← shiftList_eq_map]
      obtain ⟨h1, h2, h3, -, -⟩ := hforest
      refine ⟨by rw [hch]; exact h2, by rw [hch]; exact h3, ?_⟩
      rw [hch, h1, hdesc, Nat.sub_zero]
      exact matchItems_spliceAt _ _ _ _ pos hm hmatch
/-! ### The creating calls keep tree and descriptor vector in agreement -/

theorem takeWhile_append_zeros (s : List Nat) (k : Nat) (h0 : 0 ∉ s) :
    (s ++ List.replicate k 0).takeWhile (fun c => c != 0) = s := by
  induction s with
  | nil => cases k <;> simp [List.replicate, List.takeWhile]
  | cons c cs ih =>
    have hc : c ≠ 0 := fun he => h0 (by simp [he])
    have hcs : 0 ∉ cs := fun he => h0 (by simp [he])
    rw [List.cons_append, List.takeWhile_cons, if_pos (by simpa using hc), ih hcs]

theorem descName_encodeName (s : List Nat) (h0 : 0 ∉ s) (hlen : s.length ≤ 8) :
    descName { offset := 0, length := 0, name := encodeName s } = s := by
  rw [descName, encodeName_of_no_nul s h0 hlen]
  simp only
  rw [List.take_of_length_le (by simp; omega)]
  exact takeWhile_append_zeros s _ h0

theorem walk_namesBelow (cs : List (List Nat)) (a : List Nat) (n : Node) (b : List Nat)
    (m : Node) (h : walk (a, n) cs = some (b, m)) :
    ∃ rel, b = a ++ rel ∧ namesBelow n rel = cs := by
  induction cs generalizing a n with
  | nil =>
    simp only [walk, Option.some.injEq, Prod.mk.injEq] at h
    exact ⟨[], by simp [h.1], rfl⟩
  | cons c cs ih =>
    simp only [walk] at h
    cases hf : findChild c n.children 0 with
    | none => rw [hf] at h; exact absurd h (by simp)
    | some r =>
      obtain ⟨k, ch⟩ := r
      rw [hf] at h
      simp only at h
      obtain ⟨rel, h1, h2⟩ := ih _ _ h
      refine ⟨k :: rel, by rw [h1]; simp, ?_⟩
      simp only [namesBelow, List.get?_eq_getElem?, findChild_lt _ _ _ _ hf, h2,
        findChild_name _ _ _ _ _ hf]

theorem resolve_namesBelow (root : Node) (path addr : List Nat) (P : Node)
    (h : resolve root path = some (addr, P)) :
    namesBelow root addr = comps [] (path.drop 1) := by
  rw [resolve_eq_walk] at h
  split at h
  · obtain ⟨rel, h1, h2⟩ := walk_namesBelow _ _ _ _ _ h
    simp only [List.nil_append] at h1
    rw [h1]; exact h2
  · exact absurd h (by simp)
theorem insertEntries_descriptors (w w1 : Wad) (addr : List Nat) (pos : Nat)
    (ds : List Descriptor) (new : Node) (h : insertEntries w addr pos ds new = some w1) :
    w1.descriptors = spliceAt w.descriptors pos ds := by
  obtain ⟨hpos, hbyte, h8⟩ := insertEntries_some w w1 addr pos ds new h
  rw [insertEntries_eq w addr pos ds new hpos hbyte h8] at h
  simp only [Option.some.injEq] at h
  rw [← h]

theorem good_createFile (w w1 : Wad) (path : List Nat) (hgood : Good w)
    (hadm : admissibleCall w (.mkfile path) = true) (h : createFile w path = some w1) :
    Good w1 := by
  rcases createFile_facts w w1 path h with rfl | ⟨addr, parent, pos, hne, hlen, hmk, hres,
    hdir, hfind, hins⟩
  · exact hgood
  · simp only [admissibleCall, Bool.and_eq_true, Bool.not_eq_true',
      List.contains_eq_any_beq, List.any_eq_false, beq_iff_eq] at hadm
    obtain ⟨⟨h0, hS⟩, hE⟩ := hadm
    have h0 : 0 ∉ (splitPath (norm path)).2 := fun hm => h0 0 hm rfl
    have hflat : flatNode (⟨(splitPath (norm path)).2, false, 0, 0, [], pos⟩ : Node) =
        [⟨(splitPath (norm path)).2, some (0, 0)⟩] := flatNode_file _ rfl
    refine good_insert w w1 addr parent _ _ pos hgood (resolve_get? _ _ _ _ hres) hdir hfind
      ?_ ?_ ?_ ?_ (insertEntries_root _ _ _ _ _ _ hins)
      (insertEntries_descriptors _ _ _ _ _ _ hins)
    · rw [wfNode_file _ rfl, isLump_iff]
      refine ⟨rfl, rfl, ?_, hlen, h0⟩
      simp only [isPlain, hmk, hS, hE]
      rfl
    · rw [idxNode_eq]
      simp [idxList_nil]
    · rw [hflat, matchItems_cons]
      simp [itemMatches, matchItems, descName_encodeName _ h0 hlen]
    · intro A _ hA
      rw [hflat] at hA
      simp only [List.map_cons, List.map_nil, List.mem_singleton] at hA
      rw [← hA, endsWith_append] at hE
      exact absurd hE (by simp)

theorem good_createDirectory (w w1 : Wad) (path : List Nat) (hgood : Good w)
    (hadm : admissibleCall w (.mkdir path) = true) (h : createDirectory w path = some w1) :
    Good w1 := by
  rcases createDirectory_facts w w1 path h with rfl | ⟨addr, parent, pos, hne, hlen, hres,
    hpm, hfind, hins⟩
  · exact hgood
  · simp only [admissibleCall, Bool.and_eq_true, Bool.not_eq_true',
      List.contains_eq_any_beq, List.any_eq_false, beq_iff_eq] at hadm
    obtain ⟨⟨h0, hcont⟩, hfr⟩ := hadm
    have h0 : 0 ∉ (splitPath (norm path)).2 := fun hm => h0 0 hm rfl
    have hnm : isMapMarker (splitPath (norm path)).2 = false := by
      cases hm : isMapMarker (splitPath (norm path)).2 with
      | false => rfl
      | true =>
        have := isMapMarker_length _ hm
        omega
    have hdir : parent.isDir = true := by
      have hcp : norm (splitPath (norm path)).1 ≠ [] := by
        intro he
        rw [he] at hres
        simp [resolve] at hres
      simp only [isContent, if_neg hcp, hres, Bool.not_eq_false'] at hcont
      exact hcont
    have hflat : flatNode (⟨(splitPath (norm path)).2, true, 0, 0, [], pos⟩ : Node) =
        [⟨(splitPath (norm path)).2 ++ sSTART, some (0, 0)⟩,
         ⟨(splitPath (norm path)).2 ++ sEND, none⟩] := by
      rw [flatNode_ns _ rfl hnm, flatList_nil]
      rfl
    have h0S : 0 ∉ (splitPath (norm path)).2 ++ sSTART := by
      simp only [List.mem_append, not_or]
      exact ⟨h0, by decide⟩
    have h0E : 0 ∉ (splitPath (norm path)).2 ++ sEND := by
      simp only [List.mem_append, not_or]
      exact ⟨h0, by decide⟩
    refine good_insert w w1 addr parent _ _ pos hgood (resolve_get? _ _ _ _ hres) hdir hfind
      ?_ ?_ ?_ ?_ (insertEntries_root _ _ _ _ _ _ hins)
      (insertEntries_descriptors _ _ _ _ _ _ hins)
    · rw [wfNode_ns _ rfl hnm]
      simp only [Bool.and_eq_true, decide_eq_true_eq, Bool.not_eq_true',
        List.contains_eq_any_beq, List.any_eq_false, beq_iff_eq, flatList_nil, wfList_nil]
      exact ⟨⟨⟨hlen, fun x hx he => h0 (by rw [he]; exact hx)⟩, trivial⟩,
        fun x hx => absurd hx (by simp)⟩
    · rw [idxNode_eq]
      simp [idxList_nil]
    · rw [hflat, matchItems_cons, matchItems_cons]
      simp [itemMatches, matchItems,
        descName_encodeName _ h0S (by simp [sSTART]; omega),
        descName_encodeName _ h0E (by simp [sEND]; omega)]
    · intro A hA hmem
      rw [hflat] at hmem
      simp only [List.map_cons, List.map_nil, List.mem_cons, List.mem_singleton,
        List.not_mem_nil, or_false] at hmem
      rcases hmem with he | he
      · have h1 := endsWith_END_of_START _ (endsWith_append (splitPath (norm path)).2 sSTART)
        rw [← he, endsWith_append] at h1
        exact absurd h1 (by simp)
      · have hA2 := List.append_cancel_right he
        rw [resolve_namesBelow _ _ _ _ hres] at hA
        exact hfr A hA hA2.symm

theorem good_step (w w1 : Wad) (op : Op) (hgood : Good w)
    (hadm : admissibleCall w op = true) (h : step w op = some w1) : Good w1 := by
  cases op with
  | mkdir path => exact good_createDirectory w w1 path hgood hadm h
  | mkfile path => exact good_createFile w w1 path hgood hadm h
  | write path buffer length offset => simp [admissibleCall] at hadm

theorem good_run (ops : List Op) (w w1 : Wad) (hgood : Good w)
    (hadm : admissibleRun w ops = true) (h : run w ops = some w1) : Good w1 := by
  induction ops generalizing w with
  | nil =>
    simp only [run, Option.some.injEq] at h
    rw [← h]; exact hgood
  | cons op ops ih =>
    simp only [run] at h
    simp only [admissibleRun, Bool.and_eq_true] at hadm
    cases hs : step w op with
    | none => rw [hs] at h; exact absurd h (by simp)
    | some w2 =>
      rw [hs] at h hadm
      exact ih w2 (good_step w w2 op hgood hadm.1 hs) hadm.2 h
theorem good_rebuild (w : Wad) (hgood : Good w) :
    buildTree w.descriptors = some { rootNode with children := w.root.children } :=
  buildTree_of_flat _ _ hgood.1 hgood.2.1 hgood.2.2

/-! ### Mutations and the marker-reconstructed view -/

/-- C2 (amended). Mutations agree with the marker-reconstructed view. Start
from an engine state whose tree and descriptor vector agree under the marker
rules (`Good`: every namespace directory is `<name>_START`, its content,
`<name>_END`, with no entry named `<name>_END` in its content, every map
directory is a marker followed by its ten lumps, every lump has a plain name
without NUL and every `descIndex` is the position of the node's entry), such
as the empty archive. Run any sequence of `createDirectory` and `createFile`
calls without undefined behaviour in which every created file name has no NUL
byte and does not end in `_START` or `_END`, and every `createDirectory` has a
name without NUL byte that differs from every component of its parent path,
and a parent path that does not name a lump. Then rebuilding the tree from the
current descriptor vector with the loader's marker rules gives the root `/`
with exactly the children the engine maintains: same names, kinds, offsets,
lengths, structure, child order and descriptor index for every non-root node. -/
theorem mutations_agree_with_rebuild (w0 w : Wad) (ops : List Op) (hgood : Good w0)
    (hadm : admissibleRun w0 ops = true) (hrun : run w0 ops = some w) :
    buildTree w.descriptors = some { rootNode with children := w.root.children } :=
  good_rebuild w (good_run ops w0 w hgood hadm hrun)

theorem mutations_agree_with_rebuild_witness :
    loadWad (some s1Image) = some (some (loaded s1Image)) ∧ Good (loaded s1Image) ∧
    admissibleRun (loaded s1Image) nestOps = true ∧
    run (loaded s1Image) nestOps = some nestFinal ∧
    childKinds nestFinal.root =
      [(ofString "F1", true), (ofString "cd", true), (ofString "top", false)] ∧
    buildTree nestFinal.descriptors =
      some { rootNode with children := nestFinal.root.children } :=
  ⟨by decide, by decide, by decide!, by decide!, by decide!,
    mutations_agree_with_rebuild (loaded s1Image) nestFinal nestOps (by decide) (by decide!)
      (by decide!)⟩

/-- C2 (counterexample). On the empty archive, `createFile("/A_START")` adds
the descriptor `A_START` and, to the root, a file named `A_START`; the tree
rebuilt from the descriptor vector with the loader's marker rules has instead
a directory named `A` under the root. -/
theorem mutations_agree_counterexample :
    loadWad (some emptyWad.fileData) = some (some emptyWad) ∧
    (run emptyWad [Op.mkfile (ofString "/A_START")]).map
        (fun w => (w.descriptors.map descName, childKinds w.root)) =
      some ([ofString "A_START"], [(ofString "A_START", false)]) ∧
    ((run emptyWad [Op.mkfile (ofString "/A_START")]).bind
        (fun w => buildTree w.descriptors)).map childKinds =
      some [(ofString "A", true)] := by
  decide

/-- Further disagreements between the engine's tree and the tree rebuilt from
its descriptor vector, for calls and archives outside those covered by the
agreement: (1) a directory created below a namespace of the same name,
followed by a file created in the outer namespace, which is inserted before
the inner `a_END`; (2) a directory created under a lump `a` when a descriptor
`a_END` follows the lump; (3) a file created in the root of a loaded archive
whose namespace `a` is never closed. In each case the rebuilt children of the
root differ from the engine's. -/
theorem rebuild_disagreements :
    (run emptyWad
        [Op.mkdir (ofString "/a"), Op.mkdir (ofString "/a/a"), Op.mkfile (ofString "/a/x")]).bind
      (fun w => (buildTree w.descriptors).map (fun r => decide (r.children = w.root.children))) =
      some false ∧
    (run emptyWad
        [Op.mkfile (ofString "/a"), Op.mkdir (ofString "/b"), Op.mkdir (ofString "/b/a"),
         Op.mkdir (ofString "/a/c")]).bind
      (fun w => (buildTree w.descriptors).map (fun r => decide (r.children = w.root.children))) =
      some false ∧
    loadWad (some openImage) = some (some (loaded openImage)) ∧
    (run (loaded openImage) [Op.mkfile (ofString "/b")]).bind
      (fun w => (buildTree w.descriptors).map (fun r => decide (r.children = w.root.children))) =
      some false := by
  decide
/-! ### `createDirectory`: parent that does not resolve -/

theorem splitPath_parent_ne_nil (cleaned : List Nat) (h : cleaned ≠ []) :
    (splitPath cleaned).1 ≠ [] := by
  unfold splitPath
  cases findLastSlash cleaned with
  | none => exact h
  | some slash =>
    simp only
    by_cases hs : slash = 0
    · simp [hs]
    · rw [if_neg hs]
      intro he
      rw [List.take_eq_nil_iff] at he
      rcases he with he | he
      · exact hs he
      · exact h he

/-- C11 (code bug). `createDirectory` with a parent that does not resolve is
not a no-op: for every state and every path whose final component has 1 or 2
bytes and whose parent path does not resolve, the call dereferences the null
pointer returned by `resolve` (`parent->name`), a run with undefined behaviour;
no engine state is returned. -/
theorem createDirectory_unresolved_parent (w : Wad) (path : List Nat)
    (hlen1 : 1 ≤ (splitPath (norm path)).2.length)
    (hlen2 : (splitPath (norm path)).2.length ≤ 2)
    (hres : resolve w.root (norm (splitPath (norm path)).1) = none) :
    createDirectory w path = none := by
  have hne : norm path ≠ [] := by
    intro he
    rw [he] at hlen1
    exact absurd hlen1 (by decide)
  have hroot : norm path ≠ [SLASH] := by
    intro he
    rw [he] at hlen1
    exact absurd hlen1 (by decide)
  have hname : ¬ ((splitPath (norm path)).2 = [] ∨ 2 < (splitPath (norm path)).2.length) := by
    intro h
    rcases h with h | h
    · rw [h] at hlen1; exact absurd hlen1 (by decide)
    · omega
  have hpar : norm (splitPath (norm path)).1 ≠ [] := by
    rw [Ne, norm_eq_nil_iff]
    exact splitPath_parent_ne_nil _ hne
  unfold createDirectory
  simp only [hne, hroot, or_self, if_false, hname, hpar, hres]

theorem createDirectory_unresolved_parent_witness :
    createDirectory emptyWad (ofString "/zz/ab") = none ∧
    createDirectory (loaded s1Image) (ofString "ab") = none :=
  ⟨createDirectory_unresolved_parent emptyWad (ofString "/zz/ab") (by decide) (by decide)
      (by decide),
   createDirectory_unresolved_parent (loaded s1Image) (ofString "ab") (by decide) (by decide)
      (by decide)⟩
/-! ### Read-side sentinel -/

/-- C13 (code bug). For the empty path `getSize` and `getContents` do not
return -1: in every state `getSize("")` is 0 and `getContents("", buffer,
length, offset)` is 0 for every buffer, length and offset, the buffer left as
it was (both return `false` when the normalized path is empty). -/
theorem read_sentinel_empty_path (w : Wad) (buffer : Option (List Nat)) (length offset : Int) :
    getSize w [] = 0 ∧ getContents w [] buffer length offset = some (0, buffer) := by
  constructor
  · simp [getSize, norm]
  · simp [getContents, norm]

/-- The read-side sentinel on every non-empty path: when the path does not
resolve or resolves to a directory, `getSize` and `getContents` return -1;
`getContents` also returns -1 on a resolved lump when the buffer is absent or
`length <= 0`.  The buffer is left as it was. -/
theorem read_sentinel_nonempty (w : Wad) (path : List Nat) (hne : path ≠ []) :
    ((resolve w.root path = none ∨
        ∃ addr node, resolve w.root path = some (addr, node) ∧ node.isDir = true) →
      getSize w path = -1 ∧
      ∀ buffer length offset, getContents w path buffer length offset = some (-1, buffer)) ∧
    (∀ addr node length offset, resolve w.root path = some (addr, node) →
      getContents w path none length offset = some (-1, none)) ∧
    (∀ addr node buf length offset, resolve w.root path = some (addr, node) → length ≤ 0 →
      getContents w path (some buf) length offset = some (-1, some buf)) := by
  have hn : norm path ≠ [] := by rw [Ne, norm_eq_nil_iff]; exact hne
  refine ⟨?_, ?_, ?_⟩
  · rintro (h | ⟨addr, node, h, hd⟩)
    · refine ⟨by simp [getSize, hn, resolve_norm, h], ?_⟩
      intro buffer length offset
      simp [getContents, hn, resolve_norm, h]
    · refine ⟨by simp [getSize, hn, resolve_norm, h, hd], ?_⟩
      intro buffer length offset
      cases buffer <;> simp [getContents, hn, resolve_norm, h, hd]
  · intro addr node length offset h
    simp [getContents, hn, resolve_norm, h]
  · intro addr node buf length offset h hl
    simp [getContents, hn, resolve_norm, h, hl]
/-! ### Loading a short file -/

/-- C18 (amended). `loadWad` returns the not-found sentinel exactly when the
file cannot be opened. It checks no file length: for a file that can be
opened it never returns the sentinel, and when the file holds fewer than 12
bytes the copy of the 12 header bytes reads past the end of the image (a run
with undefined behaviour, here `none`). -/
theorem loadWad_sentinel (file : Option (List Nat)) :
    (loadWad file = some none ↔ file = none) ∧
    (∀ data, file = some data → data.length < 12 → loadWad file = none) := by
  constructor
  · constructor
    · intro h
      cases file with
      | none => rfl
      | some data =>
        exfalso
        unfold loadWad at h
        simp only at h
        split at h
        · exact absurd h (by simp)
        · split at h
          · exact absurd h (by simp)
          · split at h
            · exact absurd h (by simp)
            · simp at h
    · intro h
      subst h
      rfl
  · intro data h hlen
    subst h
    simp [loadWad, hlen]

/-- C18 (counterexample). The file holding the four bytes `PWAD` can be
opened and is shorter than 12 bytes; `loadWad` does not return the not-found
sentinel for it: the header copy reads 12 bytes from an image of 4. -/
theorem loadWad_short_file_counterexample :
    (ofString "PWAD").length < 12 ∧ loadWad (some (ofString "PWAD")) ≠ some none ∧
    loadWad (some (ofString "PWAD")) = none := by
  decide

theorem loadWad_sentinel_witness :
    loadWad none = some none ∧ loadWad (some (ofString "PWAD")) = none :=
  ⟨(loadWad_sentinel none).1.mpr rfl,
   (loadWad_sentinel (some (ofString "PWAD"))).2 (ofString "PWAD") rfl (by decide)⟩
/-! ### Whole-lump read -/

theorem getSize_lump (w : Wad) (path addr : List Nat) (node : Node)
    (hres : resolve w.root path = some (addr, node)) (hfile : node.isDir = false) :
    getSize w path = toInt32 node.length := by
  have hne : path ≠ [] := by
    intro he
    rw [he] at hres
    simp [resolve] at hres
  have hn : norm path ≠ [] := by rw [Ne, norm_eq_nil_iff]; exact hne
  simp [getSize, hn, resolve_norm, hres, hfile]

/-- C14 (amended). Whole-lump read: for every state and every lump node
reached by resolving a path, if the lump has fewer than `2 ^ 31` bytes, its
byte range lies inside the image and the buffer holds at least
`lump.length` bytes, then `getSize(path)` equals the lump's length; if the
length is at least 1, `getContents(path, buf, lump.length, 0)` returns
`lump.length` and fills `buf` with `image[lump.offset .. lump.offset +
lump.length)`; if the length is 0 (a freshly created file), the same call is
rejected by the `length <= 0` guard: it returns -1 and leaves `buf` as it
was. -/
theorem whole_lump_read (w : Wad) (path addr : List Nat) (node : Node) (buf : List Nat)
    (hres : resolve w.root path = some (addr, node)) (hfile : node.isDir = false)
    (hlen : node.length < 2147483648)
    (himg : node.offset + node.length ≤ w.fileData.length)
    (hcap : node.length ≤ buf.length) :
    getSize w path = (node.length : Int) ∧
    (0 < node.length →
      getContents w path (some buf) (node.length : Int) 0 =
        some ((node.length : Int),
          some (slice w.fileData node.offset node.length ++ buf.drop node.length))) ∧
    (node.length = 0 →
      getContents w path (some buf) (node.length : Int) 0 = some (-1, some buf)) := by
  refine ⟨?_, ?_, ?_⟩
  · rw [getSize_lump w path addr node hres hfile, toInt32_of_lt _ hlen]
  · intro hpos
    have h := getContents_lump w path addr node buf node.length 0 hres hfile hpos hlen
      (by decide)
    simp only [Nat.cast_zero, Nat.add_zero, Nat.sub_zero, Nat.min_self] at h
    rw [h, if_neg (by omega), if_neg (by omega)]
    rfl
  · intro h0
    have hne : path ≠ [] := by
      intro he
      rw [he] at hres
      simp [resolve] at hres
    have hn : norm path ≠ [] := by rw [Ne, norm_eq_nil_iff]; exact hne
    simp [getContents, hn, resolve_norm, hres, hfile, h0]

theorem whole_lump_read_witness :
    getSize exWad (ofString "/DATA") = ((exLump.length : Nat) : Int) ∧
    (0 < exLump.length →
      getContents exWad (ofString "/DATA") (some [0, 0, 0, 0, 0, 9]) (exLump.length : Int) 0 =
        some ((exLump.length : Int),
          some (slice exWad.fileData exLump.offset exLump.length ++
            ([0, 0, 0, 0, 0, 9] : List Nat).drop exLump.length))) ∧
    (exLump.length = 0 →
      getContents exWad (ofString "/DATA") (some [0, 0, 0, 0, 0, 9]) (exLump.length : Int) 0 =
        some (-1, some [0, 0, 0, 0, 0, 9])) :=
  whole_lump_read exWad (ofString "/DATA") [0] exLump [0, 0, 0, 0, 0, 9] (by decide) (by decide)
    (by decide) (by decide) (by decide)

/-- C14 (counterexample). On the empty archive, after `createFile("/f")` the
path `/f` is a lump of length 0 (`isContent` true, `getSize` 0), and
`getContents("/f", buf, 0, 0)` returns -1, not the lump's length 0. -/
theorem whole_lump_read_counterexample :
    (run emptyWad [Op.mkfile (ofString "/f")]).map (fun w => isContent w (ofString "/f")) =
      some true ∧
    (run emptyWad [Op.mkfile (ofString "/f")]).map (fun w => getSize w (ofString "/f")) =
      some 0 ∧
    (run emptyWad [Op.mkfile (ofString "/f")]).bind
        (fun w => getContents w (ofString "/f") (some [7, 7]) 0 0) =
      some (-1, some [7, 7]) := by
  decide
/-! ### Path normalization invariance -/

theorem comps_replicate_slash (k : Nat) (rest : List Nat) :
    comps [] (List.replicate k SLASH ++ rest) = comps [] rest := by
  induction k with
  | zero => simp
  | succ k ih =>
    rw [List.replicate_succ, List.cons_append, comps]
    simp [ih]

theorem comps_widenSlashes (cs : List Nat) (acc counts : List Nat) :
    comps acc (widenSlashes counts cs) = comps acc cs := by
  induction cs generalizing acc counts with
  | nil => simp [widenSlashes]
  | cons c cs ih =>
    by_cases hc : c = SLASH
    · subst hc
      simp only [widenSlashes, if_true]
      rw [show 1 + counts.headD 0 = counts.headD 0 + 1 by omega, List.replicate_succ,
        List.cons_append, comps, comps]
      simp only [if_true]
      rw [comps_replicate_slash, ih]
    · simp only [widenSlashes, if_neg hc, comps]
      exact ih _ _

theorem resolve_widenSlashes (root : Node) (p counts : List Nat) (t : Nat)
    (hp : p.head? = some SLASH) :
    resolve root (widenSlashes counts p ++ List.replicate t SLASH) = resolve root p := by
  cases p with
  | nil => simp at hp
  | cons c cs =>
    simp only [List.head?_cons, Option.some.injEq] at hp
    subst hp
    rw [resolve_eq_walk, resolve_eq_walk]
    simp only [widenSlashes, if_true]
    rw [show 1 + counts.headD 0 = counts.headD 0 + 1 by omega, List.replicate_succ]
    simp only [List.cons_append, List.head?_cons, if_true, List.drop_succ_cons, List.drop_zero]
    rw [List.append_assoc, comps_replicate_slash, comps_append_slashes, comps_widenSlashes]

theorem queries_of_resolve (w : Wad) (p q : List Nat) (hp : p ≠ []) (hq : q ≠ [])
    (h : resolve w.root q = resolve w.root p) :
    isDirectory w q = isDirectory w p ∧ isContent w q = isContent w p ∧
    getSize w q = getSize w p ∧
    ∀ directory, getDirectory w q directory = getDirectory w p directory := by
  have hnp : norm p ≠ [] := by rw [Ne, norm_eq_nil_iff]; exact hp
  have hnq : norm q ≠ [] := by rw [Ne, norm_eq_nil_iff]; exact hq
  refine ⟨?_, ?_, ?_, ?_⟩
  · simp only [isDirectory, hnp, hnq, if_false, resolve_norm, h]
  · simp only [isContent, hnp, hnq, if_false, resolve_norm, h]
  · simp only [getSize, hnp, hnq, if_false, resolve_norm, h]
  · intro directory
    cases directory with
    | none => rfl
    | some d => simp only [getDirectory, hnp, hnq, if_false, resolve_norm, h]

/-- C17. Path normalization invariance: for every state and every path `p`
that starts with `/`, the path obtained from `p` by replacing its slashes by
runs of one or more slashes (`widenSlashes`) and appending any number of
trailing slashes resolves to the same node as `p`, at the same place in the
tree, and `isDirectory`, `isContent`, `getSize` and `getDirectory` give the
same results on both. -/
theorem path_normalization_invariance (w : Wad) (p counts : List Nat) (t : Nat)
    (hp : p.head? = some SLASH) :
    resolve w.root (norm (widenSlashes counts p ++ List.replicate t SLASH)) =
      resolve w.root (norm p) ∧
    isDirectory w (widenSlashes counts p ++ List.replicate t SLASH) = isDirectory w p ∧
    isContent w (widenSlashes counts p ++ List.replicate t SLASH) = isContent w p ∧
    getSize w (widenSlashes counts p ++ List.replicate t SLASH) = getSize w p ∧
    ∀ directory, getDirectory w (widenSlashes counts p ++ List.replicate t SLASH) directory =
      getDirectory w p directory := by
  have h := resolve_widenSlashes w.root p counts t hp
  have hpne : p ≠ [] := by
    intro he
    rw [he] at hp
    simp at hp
  have hqne : widenSlashes counts p ++ List.replicate t SLASH ≠ [] := by
    cases p with
    | nil => exact absurd rfl hpne
    | cons c cs =>
      simp only [List.head?_cons, Option.some.injEq] at hp
      subst hp
      simp [widenSlashes, List.replicate_succ']
  exact ⟨by rw [resolve_norm, resolve_norm, h], queries_of_resolve w p _ hpne hqne h⟩

theorem path_normalization_invariance_witness :
    widenSlashes [1] (ofString "/F1") ++ List.replicate 0 SLASH = ofString "//F1" ∧
    widenSlashes [] (ofString "/F1") ++ List.replicate 1 SLASH = ofString "/F1/" ∧
    isDirectory (loaded s1Image) (ofString "/F1") = true ∧
    isDirectory (loaded s1Image) (widenSlashes [1] (ofString "/F1") ++ List.replicate 0 SLASH) =
      isDirectory (loaded s1Image) (ofString "/F1") ∧
    isDirectory (loaded s1Image) (widenSlashes [] (ofString "/F1") ++ List.replicate 1 SLASH) =
      isDirectory (loaded s1Image) (ofString "/F1") :=
  ⟨by decide, by decide, by decide,
   (path_normalization_invariance (loaded s1Image) (ofString "/F1") [1] 0 (by decide)).2.1,
   (path_normalization_invariance (loaded s1Image) (ofString "/F1") [] 1 (by decide)).2.1⟩
/-! ### `createFile`: the validation exits -/

/-- The validation exits of `createFile` that leave the engine unchanged: the
path is empty or normalises to the root; the final component has length 0 or
more than 8 bytes or is a map-marker name; the parent does not resolve or is
not a directory; the parent already has a child of that name. -/
theorem createFile_validation_noop (w : Wad) (path : List Nat) :
    (path = [] ∨ norm path = [SLASH] → createFile w path = some w) ∧
    (∀ pre name, norm path = pre ++ SLASH :: name → SLASH ∉ name →
      (name = [] ∨ 8 < name.length ∨ isMapMarker name = true) →
      createFile w path = some w) ∧
    (∀ pre name, norm path = pre ++ SLASH :: name → SLASH ∉ name →
      resolve w.root (if pre = [] then [SLASH] else pre) = none →
      createFile w path = some w) ∧
    (∀ pre name addr parent, norm path = pre ++ SLASH :: name → SLASH ∉ name →
      resolve w.root (if pre = [] then [SLASH] else pre) = some (addr, parent) →
      (parent.isDir = false ∨ ∃ c ∈ parent.children, c.name = name) →
      createFile w path = some w) := by
  refine ⟨?_, ?_, ?_, ?_⟩
  · rintro (h | h)
    · subst h
      simp [createFile, norm]
    · simp [createFile, h]
  · intro pre name hsplit hname hcase
    rw [createFile_of_split w path pre name hsplit hname]
    by_cases hroot : norm path = [SLASH]
    · rw [if_pos hroot]
    · rw [if_neg hroot]
      by_cases hnm : name = [] ∨ 8 < name.length
      · rw [if_pos hnm]
      · rw [if_neg hnm]
        rcases hcase with h | h | h
        · exact absurd (Or.inl h) hnm
        · exact absurd (Or.inr h) hnm
        · rw [if_pos h]
  · intro pre name hsplit hname hres
    rw [createFile_of_split w path pre name hsplit hname, hres]
    simp only
    repeat' split
    all_goals rfl
  · intro pre name addr parent hsplit hname hres hcase
    rw [createFile_of_split w path pre name hsplit hname, hres]
    simp only
    by_cases hroot : norm path = [SLASH]
    · rw [if_pos hroot]
    · rw [if_neg hroot]
      by_cases hnm : name = [] ∨ 8 < name.length
      · rw [if_pos hnm]
      · rw [if_neg hnm]
        by_cases hmk : isMapMarker name = true
        · rw [if_pos hmk]
        · rw [if_neg hmk]
          rcases hcase with hd | hd
          · simp [hd]
          · by_cases hdir : (!parent.isDir) = true
            · rw [if_pos hdir]
            · rw [if_neg hdir]
              by_cases hpm : isMapMarker (if pre = [] then [SLASH] else pre) = true
              · rw [if_pos hpm]
              · rw [if_neg hpm, if_pos ((any_name_eq _ _).mpr hd)]

/-- C12 (code bug). `createFile` adds an eleventh child to a map-marker
directory. Load scenario S4 (the marker `E1M1` and its ten lumps); the path
`/E1M1` resolves to a map-marker directory with ten children. After
`createFile("/E1M1_END")` (a lump in the root) and `createFile("/E1M1/x")`,
`/E1M1` lists eleven children and `/E1M1/x` is a lump: the test for a
map-marker parent looks at the path string `parentPath`, which starts with
`/` and so never has the form `E#M#`. -/
theorem createFile_map_parent_eleventh_child :
    loadWad (some s4Image) = some (some (loaded s4Image)) ∧
    (resolve (loaded s4Image).root (ofString "/E1M1")).map
      (fun r => isMapMarker r.2.name && r.2.isDir && decide (r.2.children.length = 10)) =
      some true ∧
    (run (loaded s4Image) [Op.mkfile (ofString "/E1M1_END"), Op.mkfile (ofString "/E1M1/x")]).map
      (fun w => (getDirectory w (ofString "/E1M1") (some [])).1) = some 11 ∧
    (run (loaded s4Image) [Op.mkfile (ofString "/E1M1_END"), Op.mkfile (ofString "/E1M1/x")]).map
      (fun w => isContent w (ofString "/E1M1/x")) = some true := by
  refine ⟨by decide!, by decide!, by decide!, by decide!⟩
/-! ### `createDirectory` twice -/

theorem mem_insertByIndex (new : Node) (l : List Node) : new ∈ insertByIndex new l := by
  induction l with
  | nil => simp [insertByIndex]
  | cons x xs ih =>
    rw [insertByIndex]
    split
    · exact List.mem_cons_of_mem _ ih
    · exact List.mem_cons_self _ _

theorem resolve_inserted_parent (root : Node) (path addr : List Nat) (parent new : Node)
    (pos k : Nat) (hres : resolve root path = some (addr, parent)) :
    resolve ((root.shift pos k).modifyAt (addChild new) addr) path =
      some (addr, addChild new (parent.shift pos k)) := by
  have hres1 : resolve (root.shift pos k) path = some (addr, parent.shift pos k) := by
    rw [resolve_shift, hres]; rfl
  exact resolve_modifyAt (addChild new) (addChild_name new) _ _ _ _ hres1

/-- C16. `createDirectory` is idempotent: for every state and every path on
which `createDirectory` completes, a second `createDirectory` of the same
path in the state reached completes and leaves that state (image, header,
descriptor vector and tree) as it is. -/
theorem createDirectory_idempotent (w w1 : Wad) (path : List Nat)
    (h : createDirectory w path = some w1) : createDirectory w1 path = some w1 := by
  rcases createDirectory_facts w w1 path h with rfl | ⟨addr, parent, pos, hnm, hlen, hres,
    -, -, hins⟩
  · exact h
  · have hne : norm path ≠ [] := by
      intro he
      rw [he] at hnm
      exact hnm (by decide)
    have hroot : norm path ≠ [SLASH] := by
      intro he
      rw [he] at hnm
      exact hnm (by decide)
    have hname : ¬ ((splitPath (norm path)).2 = [] ∨ 2 < (splitPath (norm path)).2.length) := by
      intro hc
      rcases hc with hc | hc
      · exact hnm hc
      · omega
    have hpar : norm (splitPath (norm path)).1 ≠ [] := by
      rw [Ne, norm_eq_nil_iff]
      exact splitPath_parent_ne_nil _ hne
    have hres1 := resolve_inserted_parent w.root _ addr parent
      { name := (splitPath (norm path)).2, isDir := true, offset := 0, length := 0,
        children := [], descIndex := pos } pos 2 hres
    have hroot1 := insertEntries_root _ _ _ _ _ _ hins
    simp only [List.length_cons, List.length_nil] at hroot1
    rw [← hroot1] at hres1
    unfold createDirectory
    simp only [hne, hroot, or_self, if_false, hname, hpar, hres1]
    split
    · rfl
    · rw [if_pos]
      rw [any_name_eq]
      exact ⟨_, mem_insertByIndex _ _, rfl⟩

theorem createDirectory_idempotent_witness :
    createDirectory emptyWad (ofString "/ab") = some abWad ∧
    abWad.descriptors.map descName = [ofString "ab_START", ofString "ab_END"] ∧
    createDirectory abWad (ofString "/ab") = some abWad :=
  ⟨by decide, by decide,
   createDirectory_idempotent emptyWad abWad (ofString "/ab") (by decide)⟩
/-! ### Eight-byte names -/

theorem createFile_root (w : Wad) (name : List Nat) (hslash : SLASH ∉ name) (hne : name ≠ [])
    (hlen8 : name.length ≤ 8) (hmm : isMapMarker name = false) (hdir : w.root.isDir = true)
    (hfresh : ∀ c ∈ w.root.children, c.name ≠ name)
    (hbyte : w.header.offset + w.descriptors.length * 16 ≤ w.fileData.length) :
    createFile w (SLASH :: name) =
      some { header := { w.header with count := (w.header.count + 1) % 4294967296 },
             fileData := overwriteAt
               (spliceAt w.fileData (w.header.offset + w.descriptors.length * 16)
                 (serialize { offset := 0, length := 0, name := encodeName name })) 4
               (le32 ((w.header.count + 1) % 4294967296)),
             descriptors := w.descriptors ++ [{ offset := 0, length := 0, name := encodeName name }],
             root := (w.root.shift w.descriptors.length 1).modifyAt
               (addChild { name := name, isDir := false, offset := 0, length := 0,
                           children := [], descIndex := w.descriptors.length }) [] } := by
  have hnorm := norm_path_name [] name hslash hne
  simp only [List.nil_append] at hnorm
  have hres : resolve w.root [SLASH] = some ([], w.root) := by simp [resolve]
  rw [createFile_of_split w _ [] name hnorm hslash, hnorm]
  rw [if_neg (by
    intro h
    have := congrArg List.length h
    simp at this
    exact hne this)]
  rw [if_neg (by
    rintro (h | h)
    · exact hne h
    · omega), hmm]
  simp only [if_true, hres, Bool.false_eq_true, if_false, hdir, Bool.not_true,
    isMapMarker_of_head [SLASH] rfl]
  rw [if_neg (fun h => by
    obtain ⟨c, hc, hcn⟩ := (any_name_eq _ _).mp h
    exact hfresh c hc hcn), findInsertPos_root]
  simp only
  rw [insertEntries_eq _ _ _ _ _ (le_refl _) hbyte (by
    simp only [List.map_cons, List.map_nil, List.flatten_cons, List.flatten_nil,
      List.append_nil, serialize_length ⟨0, 0, encodeName name⟩ (encodeName_length name)]
    omega)]
  simp [spliceAt]

theorem encodeName_full (name : List Nat) (hlen : name.length = 8) (h0 : 0 ∉ name) :
    encodeName name = name := by
  rw [encodeName_of_no_nul name h0 (by omega), hlen]
  simp

/-- C19. Eight-byte names round-trip: for every name of exactly 8 bytes with
no NUL and no `/` that is not yet a child of the root, in a state whose root
is a directory and whose image holds the descriptor table, `createFile("/" +
name)` appends a descriptor whose 8 name bytes are exactly the name, with no
terminator (in the descriptor vector and, when the table starts at byte 8 or
later, in the image); decoding those bytes the way the loader does gives back
the name; the path resolves to the new lump, whose descriptor index refers
to that descriptor; `isContent` is true. For every name of 1 to 8 bytes
without NUL, decoding the encoded name gives back the name. -/
theorem eight_byte_name_roundtrip (w : Wad) (name : List Nat) (hlen : name.length = 8)
    (h0 : 0 ∉ name) (hslash : SLASH ∉ name) (hdir : w.root.isDir = true)
    (hfresh : ∀ c ∈ w.root.children, c.name ≠ name)
    (hbyte : w.header.offset + w.descriptors.length * 16 ≤ w.fileData.length) :
    (∃ w1, createFile w (SLASH :: name) = some w1 ∧
      w1.descriptors = w.descriptors ++ [{ offset := 0, length := 0, name := name }] ∧
      (8 ≤ w.header.offset →
        slice w1.fileData (w.header.offset + w.descriptors.length * 16 + 8) 8 = name) ∧
      (∃ addr node, resolve w1.root (SLASH :: name) = some (addr, node) ∧ node.name = name ∧
        node.isDir = false ∧
        w1.descriptors[node.descIndex]? = some { offset := 0, length := 0, name := name }) ∧
      isContent w1 (SLASH :: name) = true) ∧
    descName { offset := 0, length := 0, name := name } = name ∧
    ∀ s : List Nat, 1 ≤ s.length → s.length ≤ 8 → 0 ∉ s →
      descName { offset := 0, length := 0, name := encodeName s } = s := by
  have hne : name ≠ [] := by
    intro he
    rw [he] at hlen
    simp at hlen
  have hmm : isMapMarker name = false := by
    cases hm : isMapMarker name with
    | false => rfl
    | true =>
      have := isMapMarker_length _ hm
      omega
  have henc := encodeName_full name hlen h0
  have hcall := createFile_root w name hslash hne (by omega) hmm hdir hfresh hbyte
  rw [henc] at hcall
  have hdec := descName_encodeName name h0 (by omega)
  rw [henc] at hdec
  refine ⟨⟨_, hcall, rfl, ?_, ?_, ?_⟩, hdec, fun s _ h8 hs => descName_encodeName s hs h8⟩
  · intro h8
    simp only
    have hsl : (serialize { offset := 0, length := 0, name := name }).length = 16 :=
      serialize_length _ hlen
    rw [slice_overwriteAt_disj _ _ _ _ _ (by rw [length_spliceAt, le32_length]; omega)
        (Or.inr (by rw [le32_length]; omega)),
      slice_spliceAt_mid _ _ _ _ _ hbyte (by omega) (by omega)]
    simp only [serialize, slice, Nat.add_sub_cancel_left, le32_length, List.drop_append_eq_append_drop,
      List.length_append]
    simp [le32, hlen]
  · have hres : resolve w.root (if ([] : List Nat) = [] then [SLASH] else []) =
        some ([], w.root) := by simp [resolve]
    obtain ⟨-, b, hb⟩ := resolve_after_insert w.root [] name [] w.root
      { name := name, isDir := false, offset := 0, length := 0, children := [],
        descIndex := w.descriptors.length } w.descriptors.length 1 hslash hne rfl hres hfresh
    refine ⟨b, _, hb, rfl, rfl, ?_⟩
    simp
  · have hres : resolve w.root (if ([] : List Nat) = [] then [SLASH] else []) =
        some ([], w.root) := by simp [resolve]
    obtain ⟨-, b, hb⟩ := resolve_after_insert w.root [] name [] w.root
      { name := name, isDir := false, offset := 0, length := 0, children := [],
        descIndex := w.descriptors.length } w.descriptors.length 1 hslash hne rfl hres hfresh
    have hn : norm (SLASH :: name) ≠ [] := by
      rw [Ne, norm_eq_nil_iff]; simp
    simp only [List.nil_append] at hb
    simp only [isContent, hn, if_false, resolve_norm, hb, Bool.not_false]

theorem eight_byte_name_roundtrip_witness :
    (∃ w1, createFile emptyWad (SLASH :: ofString "ABCDEFGH") = some w1 ∧
      w1.descriptors = emptyWad.descriptors ++
        [{ offset := 0, length := 0, name := ofString "ABCDEFGH" }] ∧
      (8 ≤ emptyWad.header.offset →
        slice w1.fileData (emptyWad.header.offset + emptyWad.descriptors.length * 16 + 8) 8 =
          ofString "ABCDEFGH") ∧
      (∃ addr node, resolve w1.root (SLASH :: ofString "ABCDEFGH") = some (addr, node) ∧
        node.name = ofString "ABCDEFGH" ∧ node.isDir = false ∧
        w1.descriptors[node.descIndex]? =
          some { offset := 0, length := 0, name := ofString "ABCDEFGH" }) ∧
      isContent w1 (SLASH :: ofString "ABCDEFGH") = true) ∧
    descName { offset := 0, length := 0, name := ofString "ABCDEFGH" } = ofString "ABCDEFGH" ∧
    ∀ s : List Nat, 1 ≤ s.length → s.length ≤ 8 → 0 ∉ s →
      descName { offset := 0, length := 0, name := encodeName s } = s :=
  eight_byte_name_roundtrip emptyWad (ofString "ABCDEFGH") (by decide) (by decide) (by decide)
    (by decide) (by decide) (by decide)
/-! ### The descriptor indices of the tree -/

theorem indices_eq (n : Node) : n.indices = Node.indices.indicesList n.children := by
  cases n; rw [Node.indices]

theorem indicesList_cons (c : Node) (cs : List Node) :
    Node.indices.indicesList (c :: cs) =
      c.descIndex :: (c.indices ++ Node.indices.indicesList cs) := by
  rw [Node.indices.indicesList]

theorem indicesList_append (l1 l2 : List Node) :
    Node.indices.indicesList (l1 ++ l2) =
      Node.indices.indicesList l1 ++ Node.indices.indicesList l2 := by
  induction l1 with
  | nil => simp [Node.indices.indicesList]
  | cons c cs ih => simp [indicesList_cons, ih]

theorem sorted_eq (n : Node) :
    n.sorted = (decide ((n.children.map (fun c => c.descIndex)).Pairwise (fun a b => a < b)) &&
      Node.sorted.sortedList n.children) := by
  cases n; rw [Node.sorted]

theorem sortedList_iff (l : List Node) :
    Node.sorted.sortedList l = true ↔ ∀ c ∈ l, c.sorted = true := by
  induction l with
  | nil => simp [Node.sorted.sortedList]
  | cons c cs ih => simp [Node.sorted.sortedList, ih]

theorem sorted_iff (n : Node) :
    n.sorted = true ↔
      (n.children.map (fun c => c.descIndex)).Pairwise (fun a b => a < b) ∧
      ∀ c ∈ n.children, c.sorted = true := by
  rw [sorted_eq, Bool.and_eq_true, decide_eq_true_eq, sortedList_iff]

theorem shiftIndex_lt (pos k a b : Nat) (h : a < b) : shiftIndex pos k a < shiftIndex pos k b := by
  unfold shiftIndex
  split <;> split <;> omega

theorem shiftIndex_lt_iff (pos k a b : Nat) :
    shiftIndex pos k a < shiftIndex pos k b ↔ a < b := by
  unfold shiftIndex
  split <;> split <;> omega

theorem shiftIndex_injective (pos k : Nat) : Function.Injective (shiftIndex pos k) := by
  intro a b h
  unfold shiftIndex at h
  split at h <;> split at h <;> omega

theorem shiftIndex_ne (pos k x : Nat) (hk : 0 < k) : shiftIndex pos k x ≠ pos := by
  unfold shiftIndex
  split <;> omega

theorem shiftIndex_le (pos k x : Nat) : shiftIndex pos k x ≤ x + k := by
  unfold shiftIndex
  split <;> omega

theorem shift_descIndex_eq (pos k : Nat) (n : Node) :
    (n.shift pos k).descIndex = shiftIndex pos k n.descIndex := by
  rw [shift_descIndex]; rfl

mutual
theorem indices_shift : ∀ (n : Node) (pos k : Nat),
    (n.shift pos k).indices = n.indices.map (shiftIndex pos k)
  | ⟨name, isDir, offset, length, children, idx⟩, pos, k => by
    have ih := indicesList_shift children pos k
    rw [Node.shift, Node.indices, Node.indices, ih]
theorem indicesList_shift : ∀ (l : List Node) (pos k : Nat),
    Node.indices.indicesList (Node.shift.shiftList pos k l) =
      (Node.indices.indicesList l).map (shiftIndex pos k)
  | [], _, _ => by rw [Node.shift.shiftList]; rfl
  | c :: cs, pos, k => by
    rw [Node.shift.shiftList, indicesList_cons, indicesList_cons, indices_shift c pos k,
      indicesList_shift cs pos k, shift_descIndex_eq]
    simp
end

theorem pairwise_shift (pos k : Nat) (l : List Node) :
    ((l.map (Node.shift pos k)).map (fun c => c.descIndex)).Pairwise (fun a b => a < b) ↔
      (l.map (fun c => c.descIndex)).Pairwise (fun a b => a < b) := by
  rw [List.map_map, List.pairwise_map, List.pairwise_map]
  simp only [Function.comp, shift_descIndex_eq, shiftIndex_lt_iff]

mutual
theorem sorted_shift : ∀ (n : Node) (pos k : Nat), (n.shift pos k).sorted = n.sorted
  | ⟨name, isDir, offset, length, children, idx⟩, pos, k => by
    have ih := sortedList_shift children pos k
    rw [Node.shift, Node.sorted, Node.sorted, ih, shiftList_eq_map]
    congr 1
    exact decide_eq_decide.mpr (pairwise_shift pos k children)
theorem sortedList_shift : ∀ (l : List Node) (pos k : Nat),
    Node.sorted.sortedList (Node.shift.shiftList pos k l) = Node.sorted.sortedList l
  | [], _, _ => by rw [Node.shift.shiftList]
  | c :: cs, pos, k => by
    rw [Node.shift.shiftList, Node.sorted.sortedList, Node.sorted.sortedList,
      sorted_shift c pos k, sortedList_shift cs pos k]
end
/-! ### Inserting a leaf and the descriptor indices -/

theorem modifyAt_descIndex (g : Node → Node) (hg : ∀ q, (g q).descIndex = q.descIndex)
    (addr : List Nat) (n : Node) : (n.modifyAt g addr).descIndex = n.descIndex := by
  cases addr with
  | nil => exact hg n
  | cons k ks => rfl

theorem modifyAt_invalid (g : Node → Node) (addr : List Nat) (n : Node)
    (h : n.get? addr = none) : n.modifyAt g addr = n := by
  induction addr generalizing n with
  | nil => simp [Node.get?] at h
  | cons k ks ih =>
    obtain ⟨name, isDir, offset, length, children, idx⟩ := n
    simp only [Node.get?, List.get?_eq_getElem?] at h
    simp only [Node.modifyAt]
    congr 1
    apply List.ext_getElem?
    intro j
    simp only [List.getElem?_modify]
    cases hc : children[j]? with
    | none => rfl
    | some c =>
      by_cases hk : k = j
      · subst hk
        rw [hc] at h
        simp only [if_true, Option.map_eq_map, Option.map_some', ih c h]
      · simp only [hk, if_false, Option.map_eq_map, Option.map_some']

theorem indicesList_modify (g : Node → Node) (x : Nat) (ch : Node)
    (hd : (g ch).descIndex = ch.descIndex) (hp : (g ch).indices.Perm (x :: ch.indices)) :
    ∀ (l : List Node) (k : Nat), l[k]? = some ch →
      (Node.indices.indicesList (l.modify g k)).Perm (x :: Node.indices.indicesList l) := by
  intro l
  induction l with
  | nil => intro k h; simp at h
  | cons b bs ih =>
    intro k h
    cases k with
    | zero =>
      simp only [List.getElem?_cons_zero, Option.some.injEq] at h
      subst h
      rw [List.modify_zero_cons, indicesList_cons, indicesList_cons, hd]
      have h1 : ((g b).indices ++ Node.indices.indicesList bs).Perm
          (x :: (b.indices ++ Node.indices.indicesList bs)) :=
        (hp.append_right _).trans (by simp)
      exact (h1.cons _).trans (List.Perm.swap _ _ _)
    | succ k =>
      simp only [List.getElem?_cons_succ] at h
      rw [List.modify_succ_cons, indicesList_cons, indicesList_cons]
      have h1 : (b.indices ++ Node.indices.indicesList (bs.modify g k)).Perm
          (x :: (b.indices ++ Node.indices.indicesList bs)) :=
        ((ih k h).append_left _).trans List.perm_middle
      exact (h1.cons _).trans (List.Perm.swap _ _ _)

theorem indices_modifyAt (g : Node → Node) (x : Nat)
    (hd : ∀ q, (g q).descIndex = q.descIndex)
    (hp : ∀ q, (g q).indices.Perm (x :: q.indices)) :
    ∀ (addr : List Nat) (n p : Node), n.get? addr = some p →
      (n.modifyAt g addr).indices.Perm (x :: n.indices) := by
  intro addr
  induction addr with
  | nil => intro n p _; exact hp n
  | cons k ks ih =>
    intro n p hget
    obtain ⟨c, hc, hcget⟩ := get?_cons _ _ _ _ hget
    obtain ⟨name, isDir, offset, length, children, idx⟩ := n
    simp only [Node.modifyAt, indices_eq]
    exact indicesList_modify _ x c (modifyAt_descIndex g hd ks c) (ih c p hcget) children k hc

theorem map_descIndex_modify (g : Node → Node) (hd : ∀ q, (g q).descIndex = q.descIndex)
    (l : List Node) (k : Nat) :
    (l.modify g k).map (fun c => c.descIndex) = l.map (fun c => c.descIndex) := by
  apply List.ext_getElem?
  intro j
  simp only [List.getElem?_map, List.getElem?_modify]
  cases l[j]? with
  | none => rfl
  | some c =>
    by_cases hk : k = j
    · simp [hk, hd]
    · simp [hk]

theorem sorted_modifyAt (g : Node → Node) (hd : ∀ q, (g q).descIndex = q.descIndex) :
    ∀ (addr : List Nat) (n p : Node), n.get? addr = some p → n.sorted = true →
      (g p).sorted = true → (n.modifyAt g addr).sorted = true := by
  intro addr
  induction addr with
  | nil =>
    intro n p hget _ hgp
    simp only [Node.get?, Option.some.injEq] at hget
    subst hget
    exact hgp
  | cons k ks ih =>
    intro n p hget hs hgp
    obtain ⟨c, hc, hcget⟩ := get?_cons _ _ _ _ hget
    obtain ⟨name, isDir, offset, length, children, idx⟩ := n
    rw [sorted_iff] at hs ⊢
    simp only [Node.modifyAt] at hs ⊢
    refine ⟨?_, ?_⟩
    · rw [map_descIndex_modify _ (modifyAt_descIndex g hd ks)]
      exact hs.1
    · intro y hy
      obtain ⟨j, hj⟩ := List.getElem?_of_mem hy
      rw [List.getElem?_modify] at hj
      cases hcj : children[j]? with
      | none => rw [hcj] at hj; exact absurd hj (by simp)
      | some cj =>
        rw [hcj] at hj
        simp only [Option.map_eq_map, Option.map_some', Option.some.injEq] at hj
        by_cases hk : k = j
        · subst hk
          rw [hc] at hcj
          simp only [Option.some.injEq] at hcj
          subst hcj
          simp only [if_true] at hj
          rw [← hj]
          exact ih c p hcget (hs.2 c (List.getElem?_mem hc)) hgp
        · simp only [hk, if_false] at hj
          rw [← hj]
          exact hs.2 cj (List.getElem?_mem hcj)

theorem mem_indices_of_child (n c : Node) (hc : c ∈ n.children) : c.descIndex ∈ n.indices := by
  rw [indices_eq]
  obtain ⟨l1, l2, hl⟩ := List.append_of_mem hc
  rw [hl, indicesList_append, indicesList_cons]
  simp

theorem indices_subset_of_child (n c : Node) (hc : c ∈ n.children) :
    ∀ x ∈ c.indices, x ∈ n.indices := by
  intro x hx
  rw [indices_eq n]
  obtain ⟨l1, l2, hl⟩ := List.append_of_mem hc
  rw [hl, indicesList_append, indicesList_cons]
  simp [hx]

theorem indices_subset_of_get? (addr : List Nat) (n p : Node) (hget : n.get? addr = some p) :
    ∀ x ∈ p.indices, x ∈ n.indices := by
  induction addr generalizing n with
  | nil =>
    simp only [Node.get?, Option.some.injEq] at hget
    subst hget
    exact fun x hx => hx
  | cons k ks ih =>
    obtain ⟨c, hc, hcget⟩ := get?_cons _ _ _ _ hget
    intro x hx
    exact indices_subset_of_child n c (List.getElem?_mem hc) x (ih c hcget x hx)
theorem leaf_indices (c : Node) (h : c.children = []) : c.indices = [] := by
  rw [indices_eq, h]; rfl

theorem leaf_sorted (c : Node) (h : c.children = []) : c.sorted = true := by
  rw [sorted_iff, h]
  simp

theorem pushChild_indices (c q : Node) (h : c.children = []) :
    (Node.pushChild c q).indices.Perm (c.descIndex :: q.indices) := by
  rw [indices_eq, indices_eq q]
  simp only [Node.pushChild]
  rw [indicesList_append, indicesList_cons, leaf_indices c h]
  simp only [Node.indices.indicesList, List.append_nil, List.nil_append]
  exact List.perm_append_singleton _ _

theorem pushChild_sorted (c p : Node) (h : c.children = []) (hp : p.sorted = true)
    (hlt : ∀ y ∈ p.children, y.descIndex < c.descIndex) :
    (Node.pushChild c p).sorted = true := by
  rw [sorted_iff] at hp ⊢
  simp only [Node.pushChild, List.map_append, List.map_cons, List.map_nil, List.mem_append,
    List.mem_singleton]
  refine ⟨?_, ?_⟩
  · rw [List.pairwise_append]
    refine ⟨hp.1, List.pairwise_singleton _ _, ?_⟩
    intro a ha b hb
    obtain ⟨y, hy, rfl⟩ := List.mem_map.mp ha
    rw [List.mem_singleton] at hb
    subst hb
    exact hlt y hy
  · rintro y (hy | rfl)
    · exact hp.2 y hy
    · exact leaf_sorted _ h

theorem addChild_indices (new q : Node) (h : new.children = []) :
    (addChild new q).indices.Perm (new.descIndex :: q.indices) := by
  obtain ⟨l1, l2, h1, h2, -, -⟩ := insertByIndex_names new q.children
  rw [indices_eq, indices_eq q]
  simp only [addChild]
  rw [h2, h1, indicesList_append, indicesList_append, indicesList_cons, leaf_indices new h]
  simp only [List.nil_append]
  exact List.perm_middle

theorem addChild_sorted (new p : Node) (h : new.children = []) (hp : p.sorted = true)
    (hne : ∀ y ∈ p.children, y.descIndex ≠ new.descIndex) : (addChild new p).sorted = true := by
  obtain ⟨l1, l2, h1, h2, h3, h4⟩ := insertByIndex_names new p.children
  rw [sorted_iff] at hp ⊢
  simp only [addChild]
  rw [h2]
  rw [h1, List.map_append, List.pairwise_append] at hp
  obtain ⟨⟨hp1, hp2, hp3⟩, hps⟩ := hp
  have hl2 : ∀ y ∈ l2, new.descIndex < y.descIndex := by
    intro y hy
    cases l2 with
    | nil => simp at hy
    | cons z zs =>
      have hz : new.descIndex < z.descIndex := by
        have h5 := h4 z rfl
        have h6 := hne z (by rw [h1]; simp)
        omega
      rcases List.mem_cons.mp hy with rfl | hy
      · exact hz
      · simp only [List.map_cons, List.pairwise_cons] at hp2
        have := hp2.1 y.descIndex (List.mem_map_of_mem _ hy)
        omega
  refine ⟨?_, ?_⟩
  · rw [List.map_append, List.map_cons, List.pairwise_append, List.pairwise_cons]
    refine ⟨hp1, ⟨?_, hp2⟩, ?_⟩
    · intro b hb
      obtain ⟨y, hy, rfl⟩ := List.mem_map.mp hb
      exact hl2 y hy
    · intro a ha b hb
      rcases List.mem_cons.mp hb with rfl | hb
      · obtain ⟨y, hy, rfl⟩ := List.mem_map.mp ha
        exact h3 y hy
      · exact hp3 a ha b hb
  · intro y hy
    rw [List.mem_append, List.mem_cons] at hy
    rcases hy with hy | rfl | hy
    · exact hps y (by simp [hy])
    · exact leaf_sorted _ h
    · exact hps y (by simp [hy])

theorem invariant_insert_leaf (g : Node → Node) (c : Node)
    (hd : ∀ q, (g q).descIndex = q.descIndex)
    (hperm : ∀ q, (g q).indices.Perm (c.descIndex :: q.indices))
    (root p : Node) (addr : List Nat) (hget : root.get? addr = some p) (len len1 : Nat)
    (hinv : IndexInvariant root len) (hfresh : c.descIndex ∉ root.indices)
    (hlt : c.descIndex < len1) (hle : len ≤ len1) (hsorted : (g p).sorted = true) :
    IndexInvariant (root.modifyAt g addr) len1 := by
  obtain ⟨h1, h2, h3⟩ := hinv
  have hp := indices_modifyAt g c.descIndex hd hperm addr root p hget
  refine ⟨?_, ?_, sorted_modifyAt g hd addr root p hget h3 hsorted⟩
  · rw [hp.nodup_iff, List.nodup_cons]
    exact ⟨hfresh, h1⟩
  · intro i hi
    rw [hp.mem_iff, List.mem_cons] at hi
    rcases hi with rfl | hi
    · exact hlt
    · exact Nat.lt_of_lt_of_le (h2 i hi) hle
/-! ### The descriptor-index invariant -/

theorem sorted_get? (addr : List Nat) (n p : Node) (hget : n.get? addr = some p)
    (hs : n.sorted = true) : p.sorted = true := by
  induction addr generalizing n with
  | nil =>
    simp only [Node.get?, Option.some.injEq] at hget
    rw [← hget]; exact hs
  | cons k ks ih =>
    obtain ⟨c, hc, hcget⟩ := get?_cons _ _ _ _ hget
    exact ih c hcget (((sorted_iff n).mp hs).2 c (List.getElem?_mem hc))

theorem child_index_mem (addr : List Nat) (root p y : Node) (hget : root.get? addr = some p)
    (hy : y ∈ p.children) : y.descIndex ∈ root.indices :=
  indices_subset_of_get? addr root p hget _ (mem_indices_of_child p y hy)

theorem indexInvariant_mono (root : Node) (len len1 : Nat) (h : IndexInvariant root len)
    (hle : len ≤ len1) : IndexInvariant root len1 :=
  ⟨h.1, fun i hi => Nat.lt_of_lt_of_le (h.2.1 i hi) hle, h.2.2⟩

theorem loadStep_invariant (i : Nat) (d : Descriptor) (st st1 : LoadState)
    (h : loadStep i d st = some st1) (hinv : IndexInvariant st.root i) :
    IndexInvariant st1.root (i + 1) := by
  rcases loadStep_root i d st st1 h with ⟨hr, -⟩ | ⟨c, t, hr, hleaf, hidx, -⟩
  · rw [hr]; exact indexInvariant_mono _ _ _ hinv (by omega)
  · rw [hr]
    cases hget : st.root.get? t with
    | none =>
      rw [modifyAt_invalid _ t _ hget]
      exact indexInvariant_mono _ _ _ hinv (by omega)
    | some p =>
      refine invariant_insert_leaf (Node.pushChild c) c (fun _ => rfl)
        (fun q => pushChild_indices c q hleaf) st.root p t hget i (i + 1) hinv ?_ (by omega)
        (by omega) ?_
      · intro hm
        have := hinv.2.1 _ hm
        omega
      · refine pushChild_sorted c p hleaf (sorted_get? t _ p hget hinv.2.2) ?_
        intro y hy
        have := hinv.2.1 _ (child_index_mem t st.root p y hget hy)
        omega

theorem loadLoop_invariant (ds : List Descriptor) (i : Nat) (st st1 : LoadState)
    (h : loadLoop ds i st = some st1) (hinv : IndexInvariant st.root i) :
    IndexInvariant st1.root (i + ds.length) := by
  induction ds generalizing i st with
  | nil =>
    simp only [loadLoop, Option.some.injEq] at h
    rw [← h]; exact hinv
  | cons d ds ih =>
    simp only [loadLoop] at h
    cases hs : loadStep i d st with
    | none => rw [hs] at h; exact absurd h (by simp)
    | some st2 =>
      rw [hs] at h
      have := ih (i + 1) st2 h (loadStep_invariant i d st st2 hs hinv)
      rw [List.length_cons]
      rw [show i + (ds.length + 1) = i + 1 + ds.length by omega]
      exact this

theorem buildTree_invariant (descs : List Descriptor) (root : Node)
    (h : buildTree descs = some root) : IndexInvariant root descs.length := by
  unfold buildTree at h
  cases hl : loadLoop descs 0 { root := rootNode, dirStack := [[]], mapCounter := 0 } with
  | none => rw [hl] at h; exact absurd h (by simp)
  | some st =>
    rw [hl] at h
    simp only [Option.some.injEq] at h
    have := loadLoop_invariant descs 0 _ st hl (by decide)
    rw [Nat.zero_add, h] at this
    exact this

theorem loadWad_buildTree (data : List Nat) (w : Wad)
    (hload : loadWad (some data) = some (some w)) : buildTree w.descriptors = some w.root := by
  simp only [loadWad] at hload
  split at hload
  · exact absurd hload (by simp)
  · split at hload
    · exact absurd hload (by simp)
    · split at hload
      · exact absurd hload (by simp)
      · next root hb =>
        simp only [Option.some.injEq] at hload
        rw [← hload]
        exact hb
theorem indexInvariant_shift (root : Node) (len pos k : Nat)
    (hinv : IndexInvariant root len) : IndexInvariant (root.shift pos k) (len + k) := by
  obtain ⟨h1, h2, h3⟩ := hinv
  refine ⟨?_, ?_, ?_⟩
  · rw [indices_shift]
    exact h1.map (shiftIndex_injective pos k)
  · intro i hi
    rw [indices_shift] at hi
    obtain ⟨x, hx, rfl⟩ := List.mem_map.mp hi
    have := h2 x hx
    have := shiftIndex_le pos k x
    omega
  · rw [sorted_shift]; exact h3

theorem insertEntries_invariant (w w1 : Wad) (addr : List Nat) (pos : Nat)
    (ds : List Descriptor) (new p : Node) (hins : insertEntries w addr pos ds new = some w1)
    (hget : w.root.get? addr = some p) (hleaf : new.children = [])
    (hidx : new.descIndex = pos) (hk : 0 < ds.length)
    (hinv : IndexInvariant w.root w.descriptors.length) :
    IndexInvariant w1.root w1.descriptors.length := by
  obtain ⟨hpos, -, -⟩ := insertEntries_some w w1 addr pos ds new hins
  rw [insertEntries_root _ _ _ _ _ _ hins, insertEntries_descriptors _ _ _ _ _ _ hins,
    length_spliceAt]
  have hsh := indexInvariant_shift w.root w.descriptors.length pos ds.length hinv
  have hget1 : (w.root.shift pos ds.length).get? addr = some (p.shift pos ds.length) := by
    rw [get?_shift, hget]; rfl
  have hnot : ∀ x ∈ (w.root.shift pos ds.length).indices, x ≠ new.descIndex := by
    intro x hx
    rw [indices_shift] at hx
    obtain ⟨y, -, rfl⟩ := List.mem_map.mp hx
    rw [hidx]
    exact shiftIndex_ne pos ds.length y hk
  refine invariant_insert_leaf (addChild new) new (fun _ => rfl)
    (fun q => addChild_indices new q hleaf) _ _ addr hget1 _ _ hsh ?_ (by omega) (le_refl _) ?_
  · exact fun hm => hnot _ hm rfl
  · refine addChild_sorted new _ hleaf (sorted_get? addr _ _ hget1 hsh.2.2) ?_
    intro y hy
    exact hnot _ (child_index_mem addr _ _ y hget1 hy)

theorem indicesList_modify_same (g : Node → Node) (hd : ∀ q, (g q).descIndex = q.descIndex)
    (hi : ∀ q, (g q).indices = q.indices) (l : List Node) (k : Nat) :
    Node.indices.indicesList (l.modify g k) = Node.indices.indicesList l := by
  induction l generalizing k with
  | nil => cases k <;> rfl
  | cons b bs ih =>
    cases k with
    | zero => rw [List.modify_zero_cons, indicesList_cons, indicesList_cons, hd, hi]
    | succ k => rw [List.modify_succ_cons, indicesList_cons, indicesList_cons, ih]

theorem indices_modifyAt_same (g : Node → Node) (hd : ∀ q, (g q).descIndex = q.descIndex)
    (hi : ∀ q, (g q).indices = q.indices) (addr : List Nat) (n : Node) :
    (n.modifyAt g addr).indices = n.indices := by
  induction addr generalizing n with
  | nil => exact hi n
  | cons k ks ih =>
    obtain ⟨name, isDir, offset, length, children, idx⟩ := n
    simp only [Node.modifyAt, indices_eq]
    exact indicesList_modify_same _ (modifyAt_descIndex g hd ks) ih children k

theorem indexInvariant_fields (g : Node → Node) (hd : ∀ q, (g q).descIndex = q.descIndex)
    (hc : ∀ q, (g q).children = q.children) (root : Node) (addr : List Nat) (len : Nat)
    (hinv : IndexInvariant root len) : IndexInvariant (root.modifyAt g addr) len := by
  have hi : ∀ q, (g q).indices = q.indices := fun q => by
    rw [indices_eq, indices_eq q, hc]
  obtain ⟨h1, h2, h3⟩ := hinv
  rw [IndexInvariant, indices_modifyAt_same g hd hi]
  refine ⟨h1, h2, ?_⟩
  cases hget : root.get? addr with
  | none => rw [modifyAt_invalid _ _ _ hget]; exact h3
  | some p =>
    refine sorted_modifyAt g hd addr root p hget h3 ?_
    have hp := sorted_get? addr root p hget h3
    rw [sorted_iff] at hp ⊢
    rw [hc]
    exact hp

theorem step_invariant (w w1 : Wad) (op : Op) (h : step w op = some w1)
    (hinv : IndexInvariant w.root w.descriptors.length) :
    IndexInvariant w1.root w1.descriptors.length := by
  cases op with
  | mkdir path =>
    rcases createDirectory_facts w w1 path h with rfl | ⟨addr, parent, pos, -, -, hres, -, -,
      hins⟩
    · exact hinv
    · exact insertEntries_invariant w w1 addr pos _ _ parent hins (resolve_get? _ _ _ _ hres)
        rfl rfl (by simp) hinv
  | mkfile path =>
    rcases createFile_facts w w1 path h with rfl | ⟨addr, parent, pos, -, -, -, hres, -, -,
      hins⟩
    · exact hinv
    · exact insertEntries_invariant w w1 addr pos _ _ parent hins (resolve_get? _ _ _ _ hres)
        rfl rfl (by simp) hinv
  | write path buffer length offset =>
    simp only [step] at h
    cases hw : writeToFile w path buffer length offset with
    | none => rw [hw] at h; exact absurd h (by simp)
    | some r =>
      obtain ⟨res, w2⟩ := r
      rw [hw] at h
      simp only [Option.map_some', Option.some.injEq] at h
      subst h
      rcases writeToFile_inv w w2 path buffer length offset res hw with ⟨-, rfl⟩ |
        ⟨addr, node, buf, d0, n, m, -, -, -, -, -, -, -, -, -, -, -, -, -, -, rfl⟩
      · exact hinv
      · simp only [List.length_set]
        exact indexInvariant_fields
          (fun x => { x with offset := w.header.offset % 4294967296, length := m + n })
          (fun _ => rfl) (fun _ => rfl) _ _ _ hinv

theorem run_invariant (ops : List Op) (w w1 : Wad) (h : run w ops = some w1)
    (hinv : IndexInvariant w.root w.descriptors.length) :
    IndexInvariant w1.root w1.descriptors.length := by
  induction ops generalizing w with
  | nil =>
    simp only [run, Option.some.injEq] at h
    rw [← h]; exact hinv
  | cons op ops ih =>
    simp only [run] at h
    cases hs : step w op with
    | none => rw [hs] at h; exact absurd h (by simp)
    | some w2 =>
      rw [hs] at h
      exact ih w2 h (step_invariant w w2 op hs hinv)
/-- C20. Descriptor-index invariant: for every state reached from a loaded
archive by any sequence of `createDirectory` and `createFile` calls (calls of
`writeToFile` may be mixed in), the descriptor indices stored in the non-root
nodes of the tree are pairwise distinct (`indices` lists every non-root node
once), each is smaller than the length of the descriptor vector, and the
children of every node, so of every directory, are in strictly ascending
order of descriptor index. -/
theorem descriptor_index_invariant (data : List Nat) (w0 w : Wad) (ops : List Op)
    (hload : loadWad (some data) = some (some w0)) (hrun : run w0 ops = some w) :
    w.root.indices.Nodup ∧ (∀ i ∈ w.root.indices, i < w.descriptors.length) ∧
    w.root.sorted = true :=
  run_invariant ops w0 w hrun
    (buildTree_invariant w0.descriptors w0.root (loadWad_buildTree data w0 hload))

theorem descriptor_index_invariant_witness :
    nestFinal.root.indices = [0, 1, 2, 3, 5, 7, 9] ∧ nestFinal.descriptors.length = 10 ∧
    nestFinal.root.indices.Nodup ∧
    (∀ i ∈ nestFinal.root.indices, i < nestFinal.descriptors.length) ∧
    nestFinal.root.sorted = true :=
  ⟨by decide!, by decide!,
   descriptor_index_invariant s1Image (loaded s1Image) nestFinal nestOps (by decide)
     (by decide!)⟩
/-! ### Mutations and the bytes below the descriptor table -/

theorem slice_overwriteAt_before (l bs : List Nat) (pos a n : Nat) (hpos : pos ≤ l.length)
    (h : a + n ≤ pos) : slice (overwriteAt l pos bs) a n = slice l a n := by
  apply List.ext_getElem?
  intro i
  rw [getElem?_slice, getElem?_slice]
  by_cases hi : i < n
  · rw [if_pos hi, if_pos hi]
    simp only [overwriteAt, List.append_assoc]
    rw [List.getElem?_append_left (by rw [List.length_take]; omega),
      List.getElem?_take_of_lt (by omega)]
  · rw [if_neg hi, if_neg hi]

theorem insertEntries_frame (w w1 : Wad) (addr : List Nat) (pos : Nat) (ds : List Descriptor)
    (new : Node) (h : insertEntries w addr pos ds new = some w1) :
    w1.header.offset = w.header.offset ∧ w.header.offset ≤ w.fileData.length ∧
    w.fileData.length ≤ w1.fileData.length ∧
    ∀ a n, 8 ≤ a → a + n ≤ w.header.offset → slice w1.fileData a n = slice w.fileData a n := by
  obtain ⟨hpos, hbyte, h8⟩ := insertEntries_some w w1 addr pos ds new h
  rw [insertEntries_eq w addr pos ds new hpos hbyte h8] at h
  simp only [Option.some.injEq] at h
  subst h
  simp only
  have hlen : 4 + (le32 ((w.header.count + ds.length) % 4294967296)).length ≤
      (spliceAt w.fileData (w.header.offset + pos * 16) (ds.map serialize).flatten).length := by
    rw [length_spliceAt, le32_length]; omega
  refine ⟨trivial, by omega, ?_, ?_⟩
  · rw [length_overwriteAt _ _ _ hlen, length_spliceAt]; omega
  · intro a n ha hn
    rw [slice_overwriteAt_disj _ _ _ _ _ hlen (Or.inr (by rw [le32_length]; omega)),
      slice_spliceAt_lt _ _ _ _ _ hbyte (by omega)]

theorem step_create_frame (w w1 : Wad) (op : Op) (hop : ∀ p b l o, op ≠ Op.write p b l o)
    (h : step w op = some w1) :
    w1.header.offset = w.header.offset ∧ w.fileData.length ≤ w1.fileData.length ∧
    ∀ a n, 8 ≤ a → a + n ≤ w.header.offset → slice w1.fileData a n = slice w.fileData a n := by
  cases op with
  | mkdir path =>
    rcases createDirectory_cases w w1 path h with rfl | ⟨addr, pos, name, new, hins⟩
    · exact ⟨rfl, le_refl _, fun _ _ _ _ => rfl⟩
    · obtain ⟨h1, -, h2, h3⟩ := insertEntries_frame _ _ _ _ _ _ hins
      exact ⟨h1, h2, h3⟩
  | mkfile path =>
    rcases createFile_cases w w1 path h with rfl | ⟨addr, pos, name, new, hins⟩
    · exact ⟨rfl, le_refl _, fun _ _ _ _ => rfl⟩
    · obtain ⟨h1, -, h2, h3⟩ := insertEntries_frame _ _ _ _ _ _ hins
      exact ⟨h1, h2, h3⟩
  | write path buffer length offset => exact absurd rfl (hop path buffer length offset)

theorem write_frame (data lump bs4 bsd : List Nat) (hoff descByte a n : Nat)
    (hoffle : hoff ≤ data.length) (h4 : bs4.length = 4)
    (h12 : 12 ≤ data.length + lump.length)
    (hdesc : descByte ≤ data.length + lump.length) (ha : 12 ≤ a) (hn : a + n ≤ hoff)
    (hd : hoff ≤ descByte) :
    slice (overwriteAt (overwriteAt (spliceAt data hoff lump) 8 bs4) descByte bsd) a n =
      slice data a n := by
  have hl1 : (spliceAt data hoff lump).length = data.length + lump.length := length_spliceAt _ _ _
  have hl2 : (overwriteAt (spliceAt data hoff lump) 8 bs4).length = data.length + lump.length := by
    rw [length_overwriteAt _ _ _ (by rw [hl1, h4]; omega), hl1]
  rw [slice_overwriteAt_before _ _ _ _ _ (by rw [hl2]; exact hdesc) (by omega),
    slice_overwriteAt_disj _ _ _ _ _ (by rw [hl1, h4]; omega) (Or.inr (by rw [h4]; omega)),
    slice_spliceAt_lt _ _ _ _ _ hoffle hn]
/-! ### Resolution after a change of the fields of one node -/

theorem walk_modified (f : Node → Node) (hname : ∀ x, (f x).name = x.name)
    (hch : ∀ x, (f x).children = x.children) (cs : List (List Nat)) :
    ∀ (n n1 : Node) (a0 b : List Nat) (m : Node), (n1 = n ∨ ∃ rel, n1 = n.modifyAt f rel) →
      walk (a0, n) cs = some (b, m) → ∃ m1, walk (a0, n1) cs = some (b, m1) := by
  induction cs with
  | nil =>
    intro n n1 a0 b m _ hw
    simp only [walk, Option.some.injEq, Prod.mk.injEq] at hw
    exact ⟨n1, by simp [walk, hw.1]⟩
  | cons c cs ih =>
    intro n n1 a0 b m hrel hw
    simp only [walk] at hw ⊢
    cases hfc : findChild c n.children 0 with
    | none => rw [hfc] at hw; exact absurd hw (by simp)
    | some r =>
      obtain ⟨k, ch⟩ := r
      rw [hfc] at hw
      simp only at hw
      have hstep : ∃ ch1, findChild c n1.children 0 = some (k, ch1) ∧
          (ch1 = ch ∨ ∃ rel, ch1 = ch.modifyAt f rel) := by
        rcases hrel with rfl | ⟨rel, rfl⟩
        · exact ⟨ch, hfc, Or.inl rfl⟩
        · cases rel with
          | nil =>
            simp only [Node.modifyAt, hch]
            exact ⟨ch, hfc, Or.inl rfl⟩
          | cons i ks =>
            simp only [Node.modifyAt]
            rw [findChild_modify c n.children _ i (modifyAt_name f hname ks), hfc]
            simp only [Option.map_some']
            by_cases hki : k = i
            · exact ⟨_, by rw [if_pos hki], Or.inr ⟨ks, rfl⟩⟩
            · exact ⟨_, by rw [if_neg hki], Or.inl rfl⟩
      obtain ⟨ch1, hf1, hr1⟩ := hstep
      rw [hf1]
      exact ih ch ch1 _ b m hr1 hw

theorem resolve_modified (f : Node → Node) (hname : ∀ x, (f x).name = x.name)
    (hch : ∀ x, (f x).children = x.children) (root : Node) (a path b : List Nat) (m : Node)
    (hres : resolve root path = some (b, m)) :
    ∃ m1, resolve (root.modifyAt f a) path = some (b, m1) := by
  rw [resolve_eq_walk] at hres ⊢
  by_cases hh : path.head? = some SLASH
  · rw [if_pos hh] at hres ⊢
    exact walk_modified f hname hch _ _ _ _ _ _ (Or.inr ⟨a, rfl⟩) hres
  · rw [if_neg hh] at hres
    exact absurd hres (by simp)

theorem get?_modifyAt_fields (f : Node → Node) (hch : ∀ x, (f x).children = x.children) :
    ∀ (a b : List Nat) (root m : Node), root.get? b = some m → b ≠ a →
      ∃ m1, (root.modifyAt f a).get? b = some m1 ∧ m1.name = m.name ∧ m1.isDir = m.isDir ∧
        m1.offset = m.offset ∧ m1.length = m.length := by
  intro a
  induction a with
  | nil =>
    intro b root m hget hne
    cases b with
    | nil => exact absurd rfl hne
    | cons k ks =>
      refine ⟨m, ?_, rfl, rfl, rfl, rfl⟩
      simp only [Node.modifyAt, Node.get?, hch] at hget ⊢
      exact hget
  | cons i as ih =>
    intro b root m hget hne
    cases b with
    | nil =>
      simp only [Node.get?, Option.some.injEq] at hget
      subst hget
      exact ⟨_, rfl, rfl, rfl, rfl, rfl⟩
    | cons k ks =>
      obtain ⟨c, hc, hcget⟩ := get?_cons _ _ _ _ hget
      simp only [Node.modifyAt, Node.get?, List.get?_eq_getElem?, List.getElem?_modify, hc,
        Option.map_eq_map, Option.map_some']
      by_cases hki : i = k
      · subst hki
        simp only [if_true]
        exact ih ks c m hcget (fun he => hne (by rw [he]))
      · simp only [hki, if_false]
        exact ⟨m, hcget, rfl, rfl, rfl, rfl⟩

theorem resolve_modified_other (f : Node → Node) (hname : ∀ x, (f x).name = x.name)
    (hch : ∀ x, (f x).children = x.children) (root : Node) (a path b : List Nat) (m : Node)
    (hres : resolve root path = some (b, m)) (hne : b ≠ a) :
    ∃ m1, resolve (root.modifyAt f a) path = some (b, m1) ∧ m1.name = m.name ∧
      m1.isDir = m.isDir ∧ m1.offset = m.offset ∧ m1.length = m.length := by
  obtain ⟨m1, h1⟩ := resolve_modified f hname hch root a path b m hres
  obtain ⟨m2, h2, h3⟩ := get?_modifyAt_fields f hch a b root m (resolve_get? _ _ _ _ hres) hne
  have := resolve_get? _ _ _ _ h1
  rw [h2] at this
  simp only [Option.some.injEq] at this
  subst this
  exact ⟨m2, h1, h3⟩
/-! ### Reads depend on the node fields and on the bytes of the lump -/

theorem take_drop_of_slice (l : List Nat) (a len k : Nat) (hk : k ≤ len) :
    (l.drop a).take k = (slice l a len).take k := by
  rw [slice, List.take_take, Nat.min_eq_left hk]

theorem reads_frame (w w1 : Wad) (q b b1 : List Nat) (m m1 : Node)
    (hres : resolve w.root q = some (b, m)) (hres1 : resolve w1.root q = some (b1, m1))
    (hd : m1.isDir = m.isDir) (ho : m1.offset = m.offset) (hl : m1.length = m.length)
    (hin : m.length = 0 ∨
      (m.offset + m.length ≤ w.fileData.length ∧ m.offset + m.length ≤ w1.fileData.length ∧
        slice w1.fileData m.offset m.length = slice w.fileData m.offset m.length)) :
    getSize w1 q = getSize w q ∧
    ∀ buffer length, getContents w1 q buffer length 0 = getContents w q buffer length 0 := by
  have hne : q ≠ [] := by
    intro he
    rw [he] at hres
    simp [resolve] at hres
  have hn : norm q ≠ [] := by rw [Ne, norm_eq_nil_iff]; exact hne
  refine ⟨?_, ?_⟩
  · simp only [getSize, hn, if_false, resolve_norm, hres, hres1, hd, hl]
  · intro buffer length
    cases buffer with
    | none => simp only [getContents, hn, if_false, resolve_norm, hres, hres1]
    | some buf =>
      simp only [getContents, hn, if_false, resolve_norm, hres, hres1, hd, hl, ho]
      by_cases hrej : m.isDir = true ∨ length ≤ 0
      · rw [if_pos hrej, if_pos hrej]
      · rw [if_neg hrej, if_neg hrej]
        have hz : toU32 0 = 0 := by decide
        rw [hz]
        by_cases hlen0 : m.length ≤ 0
        · rw [if_pos hlen0, if_pos hlen0]
        · rw [if_neg hlen0, if_neg hlen0]
          rcases hin with h0 | ⟨hin0, hin1, hs⟩
          · omega
          · simp only [Nat.sub_zero, Int.add_zero]
            generalize hnb : (if length < (m.length : Int) then length.toNat else m.length) = nb
            have hnble : nb ≤ m.length := by
              rw [← hnb]
              split
              · omega
              · exact le_refl _
            have hc1 : ¬ ((m.offset : Int) < 0 ∨
                (w1.fileData.length : Int) < (m.offset : Int) + (nb : Int)) := by omega
            have hc0 : ¬ ((m.offset : Int) < 0 ∨
                (w.fileData.length : Int) < (m.offset : Int) + (nb : Int)) := by omega
            by_cases hb : buf.length < nb
            · rw [if_pos (by simp only [hb, or_true]), if_pos (by simp only [hb, or_true])]
            · rw [if_neg (by
                rintro (h | h | h)
                · exact hc1 (Or.inl h)
                · exact hc1 (Or.inr h)
                · exact hb h), if_neg (by
                rintro (h | h | h)
                · exact hc0 (Or.inl h)
                · exact hc0 (Or.inr h)
                · exact hb h)]
              simp only [Int.toNat_ofNat]
              rw [take_drop_of_slice w1.fileData m.offset m.length nb hnble,
                take_drop_of_slice w.fileData m.offset m.length nb hnble, hs]
/-! ### Properties of all nodes under shifts and insertions -/

mutual
theorem allBelow_mono (P P1 : Node → Bool) (hmono : ∀ n, P n = true → P1 n = true) :
    ∀ (n : Node), n.allBelow P = true → n.allBelow P1 = true
  | ⟨name, isDir, offset, length, children, idx⟩, h => by
    have ih := allList_mono P P1 hmono children
    rw [Node.allBelow] at h ⊢
    exact ih h
theorem allList_mono (P P1 : Node → Bool) (hmono : ∀ n, P n = true → P1 n = true) :
    ∀ (l : List Node), Node.allBelow.allList P l = true → Node.allBelow.allList P1 l = true
  | [], _ => rfl
  | c :: cs, h => by
    rw [allList_cons, Bool.and_eq_true, Bool.and_eq_true] at h ⊢
    exact ⟨⟨hmono c h.1.1, allBelow_mono P P1 hmono c h.1.2⟩, allList_mono P P1 hmono cs h.2⟩
end

mutual
theorem allBelow_shift (P : Node → Bool) (hP : ∀ n pos k, P (Node.shift pos k n) = P n) :
    ∀ (n : Node) (pos k : Nat), (n.shift pos k).allBelow P = n.allBelow P
  | ⟨name, isDir, offset, length, children, idx⟩, pos, k => by
    have ih := allList_shift P hP children pos k
    rw [Node.shift, Node.allBelow, Node.allBelow, ih]
theorem allList_shift (P : Node → Bool) (hP : ∀ n pos k, P (Node.shift pos k n) = P n) :
    ∀ (l : List Node) (pos k : Nat),
      Node.allBelow.allList P (Node.shift.shiftList pos k l) = Node.allBelow.allList P l
  | [], _, _ => by rw [Node.shift.shiftList]
  | c :: cs, pos, k => by
    rw [Node.shift.shiftList, allList_cons, allList_cons, hP, allBelow_shift P hP c pos k,
      allList_shift P hP cs pos k]
end

theorem allBelow_modifyAt (P : Node → Bool) (g : Node → Node)
    (hP : ∀ (n : Node) (cs : List Node), P { n with children := cs } = P n)
    (hg : ∀ n, n.allBelow P = true → (g n).allBelow P = true)
    (hgP : ∀ n, P n = true → P (g n) = true) (t : List Nat) (root : Node)
    (h : root.allBelow P = true) : (root.modifyAt g t).allBelow P = true := by
  induction t generalizing root with
  | nil => exact hg root h
  | cons k ks ih =>
    rw [allBelow_eq, allList_iff] at h ⊢
    intro x hx
    simp only [Node.modifyAt] at hx
    obtain ⟨i, hi⟩ := List.mem_iff_getElem?.mp hx
    rw [List.getElem?_modify] at hi
    cases hy : root.children[i]? with
    | none => rw [hy] at hi; exact absurd hi (by simp)
    | some y =>
      rw [hy] at hi
      simp only [Option.map_eq_map, Option.map_some', Option.some.injEq] at hi
      obtain ⟨h1, h2⟩ := h y (List.getElem?_mem hy)
      by_cases hk : k = i
      · rw [if_pos hk] at hi
        subst hi
        refine ⟨?_, ih y h2⟩
        cases ks with
        | nil => exact hgP y h1
        | cons j js => exact (hP y _).trans h1
      · rw [if_neg hk] at hi
        subst hi
        exact ⟨h1, h2⟩

theorem modifyAt_P (P : Node → Bool) (g : Node → Node)
    (hP : ∀ (n : Node) (cs : List Node), P { n with children := cs } = P n)
    (hgP : ∀ n, P n = true → P (g n) = true) (t : List Nat) (root : Node)
    (h : P root = true) : P (root.modifyAt g t) = true := by
  cases t with
  | nil => exact hgP root h
  | cons k ks => exact (hP root _).trans h

theorem lumpInside_children (hoff : Nat) (n : Node) (cs : List Node) :
    lumpInside hoff { n with children := cs } = lumpInside hoff n := rfl

theorem lumpInside_shift (hoff : Nat) (n : Node) (pos k : Nat) :
    lumpInside hoff (n.shift pos k) = lumpInside hoff n := by
  simp only [lumpInside, shift_isDir, shift_offset, shift_length]

theorem lumpInside_mono (hoff hoff1 : Nat) (hle : hoff ≤ hoff1) (n : Node)
    (h : lumpInside hoff n = true) : lumpInside hoff1 n = true := by
  simp only [lumpInside, Bool.or_eq_true, Bool.and_eq_true, decide_eq_true_eq,
    beq_iff_eq] at h ⊢
  rcases h with (h | h) | h
  · exact Or.inl (Or.inl h)
  · exact Or.inl (Or.inr h)
  · exact Or.inr ⟨h.1, by omega⟩

theorem addChild_allBelow (P : Node → Bool) (new : Node) (hnew : P new = true)
    (hleaf : new.children = []) (n : Node) (h : n.allBelow P = true) :
    (addChild new n).allBelow P = true := by
  obtain ⟨l1, l2, h1, h2, -, -⟩ := insertByIndex_names new n.children
  rw [allBelow_eq] at h ⊢
  simp only [addChild]
  rw [h1, allList_append] at h
  rw [h2, allList_append, allList_cons, allBelow_eq P new, hleaf]
  simp only [Bool.and_eq_true] at h ⊢
  exact ⟨h.1, ⟨hnew, rfl⟩, h.2⟩
/-! ### The lumps stay inside the payload region -/

theorem insertEntries_inside (w w1 : Wad) (addr : List Nat) (pos : Nat)
    (ds : List Descriptor) (new : Node) (hins : insertEntries w addr pos ds new = some w1)
    (hnew : lumpInside w.header.offset new = true) (hleaf : new.children = [])
    (hin : LumpsInside w) : LumpsInside w1 := by
  obtain ⟨h12, hroot, hall⟩ := hin
  obtain ⟨ho, -, -, -⟩ := insertEntries_frame _ _ _ _ _ _ hins
  rw [LumpsInside, ho, insertEntries_root _ _ _ _ _ _ hins]
  refine ⟨h12, ?_, ?_⟩
  · exact modifyAt_P _ (addChild new) (lumpInside_children _) (fun n h => h) addr
      (w.root.shift pos ds.length) (by rw [lumpInside_shift]; exact hroot)
  · exact allBelow_modifyAt _ (addChild new) (lumpInside_children _)
      (fun n h => addChild_allBelow _ new hnew hleaf n h) (fun n h => h) addr
      (w.root.shift pos ds.length) (by rw [allBelow_shift _ (fun n pos k => lumpInside_shift _ n pos k)]; exact hall)

theorem written_length (data : List Nat) (hoff m n descByte : Nat) (buf bs4 bsd : List Nat)
    (hn : n ≤ buf.length) (h4 : bs4.length = 4) (h12 : 12 ≤ data.length + (m + n))
    (hdesc : descByte ≤ data.length + (m + n)) :
    data.length + (m + n) ≤
      (overwriteAt (overwriteAt (spliceAt data hoff (List.replicate m 0 ++ buf.take n)) 8 bs4)
        descByte bsd).length := by
  have hl : (List.replicate m 0 ++ buf.take n).length = m + n := by
    simp only [List.length_append, List.length_replicate, List.length_take]
    omega
  have hl1 : (spliceAt data hoff (List.replicate m 0 ++ buf.take n)).length =
      data.length + (m + n) := by rw [length_spliceAt, hl]
  have hl2 : (overwriteAt (spliceAt data hoff (List.replicate m 0 ++ buf.take n)) 8
      bs4).length = data.length + (m + n) := by
    rw [length_overwriteAt _ _ _ (by rw [hl1, h4]; omega), hl1]
  have := length_overwriteAt_ge (overwriteAt (spliceAt data hoff
    (List.replicate m 0 ++ buf.take n)) 8 bs4) descByte bsd (by rw [hl2]; exact hdesc)
  omega

theorem step_inside (w w1 : Wad) (op : Op) (h : step w op = some w1) (hin : LumpsInside w)
    (hfit : w1.fileData.length < 4294967296) : LumpsInside w1 := by
  cases op with
  | mkdir path =>
    rcases createDirectory_facts w w1 path h with rfl | ⟨addr, parent, pos, -, -, -, -, -,
      hins⟩
    · exact hin
    · exact insertEntries_inside w w1 addr pos _ _ hins rfl rfl hin
  | mkfile path =>
    rcases createFile_facts w w1 path h with rfl | ⟨addr, parent, pos, -, -, -, -, -, -,
      hins⟩
    · exact hin
    · exact insertEntries_inside w w1 addr pos _ _ hins rfl rfl hin
  | write path buffer length offset =>
    simp only [step] at h
    cases hw : writeToFile w path buffer length offset with
    | none => rw [hw] at h; exact absurd h (by simp)
    | some r =>
      obtain ⟨res, w2⟩ := r
      rw [hw] at h
      simp only [Option.map_some', Option.some.injEq] at h
      subst h
      rcases writeToFile_inv w w2 path buffer length offset res hw with ⟨-, rfl⟩ |
        ⟨addr, node, buf, d0, n, m, -, -, -, -, -, -, hbuf, -, -, -, hoff, hl12, -, hdesc, rfl⟩
      · exact hin
      · obtain ⟨h12, hroot, hall⟩ := hin
        simp only at hfit
        have hlen := written_length w.fileData w.header.offset m n
          ((w.header.offset + (m + n)) % 4294967296 + node.descIndex * 16) buf
          (le32 ((w.header.offset + (m + n)) % 4294967296))
          (serialize { d0 with offset := w.header.offset % 4294967296, length := m + n })
          hbuf (le32_length _) hl12 (by omega)
        have hnw : (w.header.offset + (m + n)) % 4294967296 = w.header.offset + (m + n) :=
          Nat.mod_eq_of_lt (by omega)
        have hno : w.header.offset % 4294967296 = w.header.offset :=
          Nat.mod_eq_of_lt (by omega)
        simp only [LumpsInside, hnw, hno]
        have hmono := lumpInside_mono w.header.offset (w.header.offset + (m + n)) (by omega)
        have hfP : ∀ x : Node, lumpInside (w.header.offset + (m + n))
            { x with offset := w.header.offset, length := m + n } = true := by
          intro x
          simp only [lumpInside, Bool.or_eq_true, Bool.and_eq_true, decide_eq_true_eq]
          exact Or.inr ⟨h12, le_refl _⟩
        refine ⟨by omega, ?_, ?_⟩
        · exact modifyAt_P _ _ (lumpInside_children _) (fun x _ => hfP x) addr _
            (hmono _ hroot)
        · refine allBelow_modifyAt _ _ (lumpInside_children _) ?_ (fun x _ => hfP x) addr _
            (allBelow_mono _ _ hmono _ hall)
          intro x hx
          rw [allBelow_eq] at hx ⊢
          exact hx

theorem run_inside (ops : List Op) (w w1 : Wad) (h : run w ops = some w1)
    (hin : LumpsInside w) (hfit : w1.fileData.length < 4294967296) : LumpsInside w1 := by
  induction ops generalizing w with
  | nil =>
    simp only [run, Option.some.injEq] at h
    rw [← h]; exact hin
  | cons op ops ih =>
    simp only [run] at h
    cases hs : step w op with
    | none => rw [hs] at h; exact absurd h (by simp)
    | some w2 =>
      rw [hs] at h
      have hmono := run_length_mono w2 w1 ops h
      exact ih w2 h (step_inside w w2 op hs hin (by omega))

theorem inside_of_get? (w : Wad) (addr : List Nat) (n : Node) (hin : LumpsInside w)
    (hget : w.root.get? addr = some n) : lumpInside w.header.offset n = true := by
  cases addr with
  | nil =>
    simp only [Node.get?, Option.some.injEq] at hget
    rw [← hget]; exact hin.2.1
  | cons k ks => exact allBelow_get? _ _ _ _ hin.2.2 (by simp) hget
/-! ### Mutations do not disturb existing lumps -/

theorem step_frame (w w1 : Wad) (op : Op) (q addr : List Nat) (Q : Node)
    (hin : LumpsInside w) (hstep : step w op = some w1)
    (hfit : w1.fileData.length < 4294967296)
    (hres : resolve w.root q = some (addr, Q)) (hfile : Q.isDir = false)
    (hother : writesTo w op addr = false) :
    ∃ addr1 Q1, resolve w1.root q = some (addr1, Q1) ∧ Q1.isDir = false ∧
      getSize w1 q = getSize w q ∧
      ∀ buffer length, getContents w1 q buffer length 0 = getContents w q buffer length 0 := by
  have hQ := inside_of_get? w addr Q hin (resolve_get? _ _ _ _ hres)
  simp only [lumpInside, hfile, Bool.false_or, Bool.or_eq_true, beq_iff_eq, Bool.and_eq_true,
    decide_eq_true_eq] at hQ
  have hsame : w1 = w → ∃ addr1 Q1, resolve w1.root q = some (addr1, Q1) ∧ Q1.isDir = false ∧
      getSize w1 q = getSize w q ∧
      ∀ buffer length, getContents w1 q buffer length 0 = getContents w q buffer length 0 := by
    intro he
    subst he
    exact ⟨addr, Q, hres, hfile, rfl, fun _ _ => rfl⟩
  have hcreate : ∀ addrP pos ds new, insertEntries w addrP pos ds new = some w1 →
      InsertedChild w.root w1.root →
      ∃ addr1 Q1, resolve w1.root q = some (addr1, Q1) ∧ Q1.isDir = false ∧
        getSize w1 q = getSize w q ∧
        ∀ buffer length, getContents w1 q buffer length 0 = getContents w q buffer length 0 := by
    intro addrP pos ds new hins hi
    obtain ⟨b1, m1, h1, -, h3, h4, h5⟩ := resolve_insertedChild _ _ hi q addr Q hres
    obtain ⟨-, hoffle, hmono, hsl⟩ := insertEntries_frame _ _ _ _ _ _ hins
    refine ⟨b1, m1, h1, by rw [h3, hfile], ?_⟩
    refine reads_frame w w1 q addr b1 Q m1 hres h1 h3 h4 h5 ?_
    rcases hQ with h0 | ⟨ha, hb⟩
    · exact Or.inl h0
    · exact Or.inr ⟨by omega, by omega, hsl _ _ (by omega) hb⟩
  cases op with
  | mkdir path =>
    rcases createDirectory_tree w w1 path hstep with he | hi
    · exact hsame he
    · rcases createDirectory_facts w w1 path hstep with he | ⟨addrP, parent, pos, -, -, -, -,
        -, hins⟩
      · exact hsame he
      · exact hcreate _ _ _ _ hins hi
  | mkfile path =>
    rcases createFile_tree w w1 path hstep with he | hi
    · exact hsame he
    · rcases createFile_facts w w1 path hstep with he | ⟨addrP, parent, pos, -, -, -, -, -,
        -, hins⟩
      · exact hsame he
      · exact hcreate _ _ _ _ hins hi
  | write path buffer length offset =>
    simp only [step] at hstep
    cases hw : writeToFile w path buffer length offset with
    | none => rw [hw] at hstep; exact absurd hstep (by simp)
    | some r =>
      obtain ⟨res, w2⟩ := r
      rw [hw] at hstep
      simp only [Option.map_some', Option.some.injEq] at hstep
      subst hstep
      rcases writeToFile_inv w w2 path buffer length offset res hw with ⟨-, he⟩ |
        ⟨addrP, node, buf, d0, n, m, -, -, -, -, -, -, hbuf, hresP, -, -, hoff, hl12, -, hdesc,
          rfl⟩
      · exact hsame he
      · simp only [writesTo, hresP, beq_eq_false_iff_ne, ne_eq] at hother
        simp only at hfit
        have hlen := written_length w.fileData w.header.offset m n
          ((w.header.offset + (m + n)) % 4294967296 + node.descIndex * 16) buf
          (le32 ((w.header.offset + (m + n)) % 4294967296))
          (serialize { d0 with offset := w.header.offset % 4294967296, length := m + n })
          hbuf (le32_length _) hl12 (by omega)
        have hnw : (w.header.offset + (m + n)) % 4294967296 = w.header.offset + (m + n) :=
          Nat.mod_eq_of_lt (by omega)
        obtain ⟨m1, h1, -, h3, h4, h5⟩ := resolve_modified_other
          (fun x => { x with offset := w.header.offset % 4294967296, length := m + n })
          (fun _ => rfl) (fun _ => rfl) w.root addrP q addr Q hres (fun he => hother he.symm)
        refine ⟨addr, m1, h1, by rw [h3, hfile], ?_⟩
        refine reads_frame w _ q addr addr Q m1 hres h1 h3 h4 h5 ?_
        rcases hQ with h0 | ⟨ha, hb⟩
        · exact Or.inl h0
        · refine Or.inr ⟨by omega, by simp only; omega, ?_⟩
          have hl : (List.replicate m 0 ++ buf.take n).length = m + n := by
            simp only [List.length_append, List.length_replicate, List.length_take]
            omega
          exact write_frame w.fileData _ _ _ w.header.offset _ Q.offset Q.length hoff
            (le32_length _) (by rw [hl]; exact hl12) (by rw [hl]; omega) ha hb
            (by rw [hnw]; omega)
/-- C15 (amended). Mutations do not disturb existing lumps. Let `w0` be a
state whose descriptor table starts at byte 12 or later and in which the byte
range of every lump lies inside `[12, header.offset)` (a loaded well-formed
archive), let `w` be reached from it by any sequence of mutations, and let a
call of `createDirectory`, `createFile` or `writeToFile` complete in `w`
with an image shorter than `2 ^ 32` bytes afterwards. For every path `q`
that resolves to a lump in `w`, the call not being a `writeToFile` on that
lump: `q` still resolves to a lump afterwards, `getSize(q)` is the same, and
`getContents(q, buffer, length, 0)` returns the same result and bytes for
every buffer and length. `createDirectory` and `createFile` moreover leave
`header.offset` and the image bytes `[12, header.offset)` unchanged. -/
theorem lumps_undisturbed (w0 w w1 : Wad) (ops : List Op) (op : Op) (q addr : List Nat)
    (Q : Node) (hwf : LumpsInside w0) (hrun : run w0 ops = some w)
    (hstep : step w op = some w1) (hfit : w1.fileData.length < 4294967296)
    (hres : resolve w.root q = some (addr, Q)) (hfile : Q.isDir = false)
    (hother : writesTo w op addr = false) :
    (∃ addr1 Q1, resolve w1.root q = some (addr1, Q1) ∧ Q1.isDir = false ∧
      getSize w1 q = getSize w q ∧
      ∀ buffer length, getContents w1 q buffer length 0 = getContents w q buffer length 0) ∧
    ((∀ p b l o, op ≠ Op.write p b l o) →
      w1.header.offset = w.header.offset ∧
      slice w1.fileData 12 (w.header.offset - 12) =
        slice w.fileData 12 (w.header.offset - 12)) := by
  have hmono := step_length_mono w w1 op hstep
  have hin := run_inside ops w0 w hrun hwf (by omega)
  refine ⟨step_frame w w1 op q addr Q hin hstep hfit hres hfile hother, ?_⟩
  intro hop
  obtain ⟨h1, -, h3⟩ := step_create_frame w w1 op hop hstep
  exact ⟨h1, h3 12 _ (by omega) (by have := hin.1; omega)⟩

theorem lumps_undisturbed_witness :
    loadWad (some exImage) = some (some exWad) ∧
    getContents exGrown (ofString "/DATA") (some [0, 0, 0, 0, 0]) 5 0 =
      some (5, some (ofString "HELLO")) ∧
    exGrownWritten.header.offset = 19 ∧
    ((∃ addr1 Q1, resolve exGrownWritten.root (ofString "/DATA") = some (addr1, Q1) ∧
        Q1.isDir = false ∧
        getSize exGrownWritten (ofString "/DATA") = getSize exGrown (ofString "/DATA") ∧
        ∀ buffer length, getContents exGrownWritten (ofString "/DATA") buffer length 0 =
          getContents exGrown (ofString "/DATA") buffer length 0) ∧
      ((∀ p b l o, Op.write (ofString "/n") (some (ofString "AB")) 2 0 ≠ Op.write p b l o) →
        exGrownWritten.header.offset = exGrown.header.offset ∧
        slice exGrownWritten.fileData 12 (exGrown.header.offset - 12) =
          slice exGrown.fileData 12 (exGrown.header.offset - 12))) :=
  ⟨by decide, by decide, by decide,
   lumps_undisturbed exWad exGrown exGrownWritten [Op.mkfile (ofString "/n")]
     (Op.write (ofString "/n") (some (ofString "AB")) 2 0) (ofString "/DATA") [0] exLump
     (by decide) (by decide) (by decide) (by decide) (by decide) (by decide) (by decide)⟩

/-- C15 (counterexample). Load `zeroImage`, an empty archive (no lump, so
every lump's range lies inside `[12, header.offset)`) whose header gives 0 as
the offset of the descriptor table. After `createFile("/f")` and a write of
the sixteen bytes `ABCDEFGHIJKLMNOP`, the path `/f` resolves to a lump of 16
bytes stored at image byte 0. A further `createFile("/g")` copies the new
`header.count` to the image bytes 4..8, inside that lump: the bytes
`getContents("/f", buf, 16, 0)` returns change from `ABCDEFGH`, 16, 0, 0, 0,
`MNOP` to `ABCD`, 2, 0, 0, 0, 16, 0, 0, 0, `MNOP`. -/
theorem lumps_undisturbed_counterexample :
    loadWad (some zeroImage) = some (some (loaded zeroImage)) ∧
    (loaded zeroImage).root.children = [] ∧
    (run (loaded zeroImage) zeroOps).map (fun w => isContent w (ofString "/f")) = some true ∧
    (run (loaded zeroImage) zeroOps).map (fun w => getSize w (ofString "/f")) = some 16 ∧
    (run (loaded zeroImage) zeroOps).bind
        (fun w => getContents w (ofString "/f") (some (List.replicate 16 0)) 16 0) =
      some (16, some (ofString "ABCDEFGH" ++ [16, 0, 0, 0] ++ ofString "MNOP")) ∧
    (run (loaded zeroImage) (zeroOps ++ [Op.mkfile (ofString "/g")])).map
        (fun w => getSize w (ofString "/f")) = some 16 ∧
    (run (loaded zeroImage) (zeroOps ++ [Op.mkfile (ofString "/g")])).bind
        (fun w => getContents w (ofString "/f") (some (List.replicate 16 0)) 16 0) =
      some (16, some (ofString "ABCD" ++ [2, 0, 0, 0, 16, 0, 0, 0] ++ ofString "MNOP")) := by
  refine ⟨by decide, by decide, by decide!, by decide!, by decide!, by decide!, by decide!⟩

/-! ### Layout effect of `writeToFile` -/

/-- C21 (amended). Layout effect of `writeToFile`: in a coherent state whose
descriptor table starts at or after byte 12 and with
`header.offset + offset + length` below `2 ^ 32`, for a path resolving to a
lump of length 0 whose descriptor index lies in the descriptor vector, a
buffer of at least `length` bytes, `length > 0`, `offset >= 0` and
`offset + length < 2 ^ 31`: the call returns `length`; the image has grown by
`offset + length` bytes; the bytes at the old `header.offset` are `offset`
zero bytes followed by the `length` input bytes; before them only bytes 8..12
have changed, and they hold the new `header.offset`; behind them the old bytes
follow, moved up by `offset + length`, except the sixteen bytes of the lump's
descriptor, which hold its new serialization; `header.offset` has advanced by
`offset + length`; the descriptor and the tree node of the lump have
`offset = old header.offset` and `length = offset + length`; and `getSize`
returns `offset + length`. -/
theorem writeToFile_layout (w : Wad) (path addr : List Nat) (node : Node) (buf : List Nat)
    (n m : Nat) (hcoh : Coherent w) (h12 : 12 ≤ w.header.offset)
    (hfit : w.header.offset + (m + n) < 4294967296)
    (hres : resolve w.root path = some (addr, node)) (hfile : node.isDir = false)
    (hlen0 : node.length = 0) (hidx : node.descIndex < w.descriptors.length)
    (hn : 0 < n) (hsum : m + n < 2147483648) (hbuf : n ≤ buf.length) :
    ∃ w1 d0, writeToFile w path (some buf) (n : Int) (m : Int) = some ((n : Int), w1) ∧
      w1.fileData.length = w.fileData.length + (m + n) ∧
      slice w1.fileData w.header.offset (m + n) = List.replicate m 0 ++ buf.take n ∧
      (∀ i, i < w.header.offset → ¬ (8 ≤ i ∧ i < 12) → w1.fileData[i]? = w.fileData[i]?) ∧
      slice w1.fileData 8 4 = le32 (w.header.offset + (m + n)) ∧
      (∀ i, w.header.offset ≤ i →
        ¬ (w.header.offset + 16 * node.descIndex ≤ i ∧
           i < w.header.offset + 16 * node.descIndex + 16) →
        w1.fileData[i + (m + n)]? = w.fileData[i]?) ∧
      slice w1.fileData (w.header.offset + (m + n) + 16 * node.descIndex) 16 =
        serialize (Descriptor.mk w.header.offset (m + n) d0.name) ∧
      w1.header.offset = w.header.offset + (m + n) ∧
      w.descriptors[node.descIndex]? = some d0 ∧
      w1.descriptors[node.descIndex]? =
        some (Descriptor.mk w.header.offset (m + n) d0.name) ∧
      resolve w1.root path =
        some (addr, { node with offset := w.header.offset, length := m + n }) ∧
      getSize w1 path = ((m + n : Nat) : Int) := by
  obtain ⟨hcount, htab, -, -, hnames, -⟩ := hcoh
  obtain ⟨d0, hd0⟩ : ∃ d0, w.descriptors[node.descIndex]? = some d0 :=
    ⟨w.descriptors[node.descIndex], List.getElem?_eq_getElem hidx⟩
  have hd0name : d0.name.length = 8 := hnames d0 (List.getElem?_mem hd0)
  have hmod : (w.header.offset + (m + n)) % 4294967296 = w.header.offset + (m + n) :=
    Nat.mod_eq_of_lt hfit
  have hmod2 : w.header.offset % 4294967296 = w.header.offset := Nat.mod_eq_of_lt (by omega)
  obtain ⟨w1, hw, ho, -, hl, hd, hr, hb⟩ := writeToFile_success_facts w path addr node buf n m
    d0 hres hfile hlen0 hn hsum hbuf (by omega) (by omega) hd0 hd0name
    (by rw [hmod]; omega)
  simp only [hmod, hmod2] at ho hd hr hb
  have hlump : (List.replicate m 0 ++ buf.take n).length = m + n := by
    simp only [List.length_append, List.length_replicate, List.length_take]
    omega
  have hser : (serialize (Descriptor.mk w.header.offset (m + n) d0.name)).length = 16 :=
    serialize_length _ hd0name
  have hres1 : resolve w1.root path =
      some (addr, { node with offset := w.header.offset, length := m + n }) := by
    rw [hr]
    exact resolve_modifyAt (fun x => { x with offset := w.header.offset, length := m + n })
      (fun _ => rfl) w.root path addr node hres
  refine ⟨w1, d0, hw, hl, ?_, ?_, ?_, ?_, ?_, ho, hd0, ?_, hres1, ?_⟩
  · apply List.ext_getElem?
    intro i
    rw [getElem?_slice]
    by_cases hi : i < m + n
    · rw [if_pos hi, hb, if_neg (by omega), if_neg (by omega), if_neg (by omega),
        if_pos (by omega)]
      congr 1
      omega
    · rw [if_neg hi, List.getElem?_eq_none (by omega)]
  · intro i hi h8
    rw [hb, if_neg (by omega), if_neg h8, if_pos hi]
  · apply List.ext_getElem?
    intro i
    rw [getElem?_slice]
    by_cases hi : i < 4
    · rw [if_pos hi, hb, if_neg (by omega), if_pos (by omega)]
      congr 1
      omega
    · rw [if_neg hi, List.getElem?_eq_none (by rw [le32_length]; omega)]
  · intro i hi hnd
    rw [hb, if_neg (by omega), if_neg (by omega), if_neg (by omega), if_neg (by omega)]
    congr 1
    omega
  · apply List.ext_getElem?
    intro i
    rw [getElem?_slice]
    by_cases hi : i < 16
    · rw [if_pos hi, hb, if_pos (by omega)]
      congr 1
      omega
    · rw [if_neg hi, List.getElem?_eq_none (by omega)]
  · rw [hd, List.getElem?_set_self hidx]
  · rw [getSize_lump w1 path addr _ hres1 hfile]
    exact toInt32_of_lt _ hsum

theorem writeToFile_layout_witness :
    ∃ w1 d0,
      writeToFile (loaded e1Image) (ofString "/a") (some (ofString "ABCDE")) ((2 : Nat) : Int)
        ((3 : Nat) : Int) = some (((2 : Nat) : Int), w1) ∧
      w1.fileData.length = (loaded e1Image).fileData.length + (3 + 2) ∧
      slice w1.fileData (loaded e1Image).header.offset (3 + 2) =
        List.replicate 3 0 ++ (ofString "ABCDE").take 2 ∧
      (∀ i, i < (loaded e1Image).header.offset → ¬ (8 ≤ i ∧ i < 12) →
        w1.fileData[i]? = (loaded e1Image).fileData[i]?) ∧
      slice w1.fileData 8 4 = le32 ((loaded e1Image).header.offset + (3 + 2)) ∧
      (∀ i, (loaded e1Image).header.offset ≤ i →
        ¬ ((loaded e1Image).header.offset + 16 * (emptyLump 0).descIndex ≤ i ∧
           i < (loaded e1Image).header.offset + 16 * (emptyLump 0).descIndex + 16) →
        w1.fileData[i + (3 + 2)]? = (loaded e1Image).fileData[i]?) ∧
      slice w1.fileData
          ((loaded e1Image).header.offset + (3 + 2) + 16 * (emptyLump 0).descIndex) 16 =
        serialize (Descriptor.mk (loaded e1Image).header.offset (3 + 2) d0.name) ∧
      w1.header.offset = (loaded e1Image).header.offset + (3 + 2) ∧
      (loaded e1Image).descriptors[(emptyLump 0).descIndex]? = some d0 ∧
      w1.descriptors[(emptyLump 0).descIndex]? =
        some (Descriptor.mk (loaded e1Image).header.offset (3 + 2) d0.name) ∧
      resolve w1.root (ofString "/a") =
        some ([0], { emptyLump 0 with offset := (loaded e1Image).header.offset,
                                      length := 3 + 2 }) ∧
      getSize w1 (ofString "/a") = ((3 + 2 : Nat) : Int) :=
  writeToFile_layout (loaded e1Image) (ofString "/a") [0] (emptyLump 0) (ofString "ABCDE") 2 3
    (by decide) (by decide) (by decide) (by decide) (by decide) (by decide) (by decide)
    (by decide) (by decide) (by decide)

/-- C21 (counterexample). Two coherent states on which the layout differs
from the claim. The archive `ovImage` has `header.offset = 8`; its path `/a`
resolves to a lump of length 0 and `writeToFile("/a", "A", 1, 0)` returns 1,
but the byte of the new image at the old `header.offset` is 9, not the input
byte 65: the copy of the new `header.offset` into bytes 8..12 has overwritten
it. The archive `wrapImage` after one write of a byte at offset `2 ^ 31 - 2`
to `/a` is coherent with `header.offset = 2 ^ 31 + 11`; the same write to the
empty lump `/b` returns 1 and leaves `header.offset = 10`, which is not the
old value advanced by `offset + length`. -/
theorem writeToFile_layout_counterexample :
    (Coherent (loaded ovImage) ∧
      (loaded ovImage).header.offset = 8 ∧
      resolve (loaded ovImage).root (ofString "/a") = some ([0], emptyLump 8) ∧
      (writeToFile (loaded ovImage) (ofString "/a") (some [65]) 1 0).map (fun r => r.1) =
        some 1 ∧
      (writeToFile (loaded ovImage) (ofString "/a") (some [65]) 1 0).map
        (fun r => slice r.2.fileData 8 1) = some [9]) ∧
    ∃ w1, writeToFile (loaded wrapImage) (ofString "/a") (some [1]) 1 2147483646 =
        some (1, w1) ∧
      Coherent w1 ∧ w1.header.offset = 2147483659 ∧
      resolve w1.root (ofString "/b") = some ([1], wrapLumpB) ∧
      (writeToFile w1 (ofString "/b") (some [1]) 1 2147483646).map
        (fun r => (r.1, r.2.header.offset)) = some (1, 10) := by
  refine ⟨by decide, ?_⟩
  obtain ⟨w1, hw1, ho1, -, hl1, hd1, hr1, -⟩ := writeToFile_success_facts (loaded wrapImage)
    (ofString "/a") [0] (emptyLump 0) [1] 1 2147483646
    (Descriptor.mk 0 0 (encodeName (ofString "a")))
    (by decide) (by decide) (by decide) (by decide) (by decide) (by decide) (by decide)
    (by decide) (by decide) (by decide) (by decide)
  have ho1v : w1.header.offset = 2147483659 := by rw [ho1]; decide
  have hl1v : w1.fileData.length = 2147483691 := by rw [hl1]; decide
  have hw1a : writeToFile (loaded wrapImage) (ofString "/a") (some [1]) 1 2147483646 =
      some (1, w1) := hw1
  have hcoh1 := (coherent_writeToFile (loaded wrapImage) w1 (ofString "/a") (some [1]) 1
    2147483646 1 (by decide) (by decide) hw1a (by rw [hl1v]; decide)).1
  have hres1 : resolve w1.root (ofString "/b") = some ([1], wrapLumpB) := by
    rw [hr1]; decide
  obtain ⟨w2, hw2, ho2, -⟩ := writeToFile_success_facts w1
    (ofString "/b") [1] wrapLumpB [1] 1 2147483646
    (Descriptor.mk 0 0 (encodeName (ofString "b")))
    hres1 (by decide) (by decide) (by decide) (by decide) (by decide)
    (by rw [ho1v, hl1v]; decide) (by rw [hl1v]; decide)
    (by rw [hd1]; decide) (by decide) (by rw [ho1v, hl1v]; decide)
  have hw2a : writeToFile w1 (ofString "/b") (some [1]) 1 2147483646 = some (1, w2) := hw2
  have ho2v : w2.header.offset = 10 := by rw [ho2, ho1v]
  refine ⟨w1, hw1a, hcoh1, ho1v, hres1, ?_⟩
  rw [hw2a, Option.map_some', ho2v]

/-! ### `createDirectory` under a lump -/

/-- The engine after a `createDirectory` that passes its checks; whether the
parent is a directory plays no part. -/
theorem createDirectory_inserts (w : Wad) (pre name addr : List Nat) (parent : Node)
    (pos : Nat) (hslash : SLASH ∉ name) (hlen1 : 1 ≤ name.length) (hlen2 : name.length ≤ 2)
    (hres : resolve w.root (if pre = [] then [SLASH] else pre) = some (addr, parent))
    (hmm : isMapMarker parent.name = false)
    (hfresh : ∀ c ∈ parent.children, c.name ≠ name)
    (hfind : findInsertPos w.descriptors addr parent = some pos)
    (hposle : pos ≤ w.descriptors.length)
    (hbyte : w.header.offset + pos * 16 ≤ w.fileData.length) :
    createDirectory w (pre ++ SLASH :: name) =
      some { header := { w.header with count := (w.header.count + 2) % 4294967296 },
             fileData := overwriteAt
               (spliceAt w.fileData (w.header.offset + pos * 16)
                 ([({ offset := 0, length := 0, name := encodeName (name ++ sSTART) } :
                      Descriptor),
                   { offset := 0, length := 0, name := encodeName (name ++ sEND) }].map
                   serialize).flatten) 4
               (le32 ((w.header.count + 2) % 4294967296)),
             descriptors := spliceAt w.descriptors pos
               [{ offset := 0, length := 0, name := encodeName (name ++ sSTART) },
                { offset := 0, length := 0, name := encodeName (name ++ sEND) }],
             root := (w.root.shift pos 2).modifyAt
               (addChild { name := name, isDir := true, offset := 0, length := 0,
                           children := [], descIndex := pos }) addr } := by
  have hne : name ≠ [] := by
    intro h; rw [h] at hlen1; simp at hlen1
  have hnorm := norm_path_name pre name hslash hne
  rw [createDirectory_of_split w _ pre name hnorm hslash, hnorm]
  rw [if_neg (by
    intro h
    have := congrArg List.length h
    simp at this
    omega)]
  rw [if_neg (by
    rintro (h | h)
    · exact hne h
    · omega), hres]
  simp only [hmm, Bool.false_eq_true, if_false]
  rw [if_neg (fun h => by
    obtain ⟨c, hc, hcn⟩ := (any_name_eq _ _).mp h
    exact hfresh c hc hcn), hfind]
  simp only
  rw [insertEntries_eq _ _ _ _ _ hposle hbyte (by
    simp only [List.map_cons, List.map_nil, List.flatten_cons, List.flatten_nil,
      List.append_nil, List.length_append,
      serialize_length ⟨0, 0, encodeName (name ++ sSTART)⟩ (encodeName_length _),
      serialize_length ⟨0, 0, encodeName (name ++ sEND)⟩ (encodeName_length _)]
    omega)]
  rfl

/-- C22 (code bug). `createDirectory` gives a lump a child: in a coherent
state, for a path `pre/name` with `name` of 1 or 2 bytes whose parent `pre`
resolves to a lump (a node that is not a directory) that is not named like a
map marker, has no child called `name` and is followed in the table by a
descriptor named `<lump name>_END`, the call does not leave the state as it
is: the descriptor vector grows by two entries, and `pre` then resolves to a
node that is still not a directory and has the new directory `name` among its
children. -/
theorem createDirectory_lump_parent (w : Wad) (pre name addr : List Nat) (parent : Node)
    (i : Nat) (d : Descriptor) (hcoh : Coherent w)
    (hslash : SLASH ∉ name) (hlen1 : 1 ≤ name.length) (hlen2 : name.length ≤ 2)
    (hres : resolve w.root (if pre = [] then [SLASH] else pre) = some (addr, parent))
    (hlump : parent.isDir = false) (hmm : isMapMarker parent.name = false)
    (hfresh : ∀ c ∈ parent.children, c.name ≠ name)
    (hafter : parent.descIndex < i) (hd : w.descriptors[i]? = some d)
    (hend : descName d = parent.name ++ sEND) :
    ∃ w1 lump, createDirectory w (pre ++ SLASH :: name) = some w1 ∧ w1 ≠ w ∧
      w1.descriptors.length = w.descriptors.length + 2 ∧
      resolve w1.root (if pre = [] then [SLASH] else pre) = some (addr, lump) ∧
      lump.isDir = false ∧ ∃ c ∈ lump.children, c.name = name ∧ c.isDir = true := by
  obtain ⟨-, htab, -, -, -, -⟩ := hcoh
  obtain ⟨pos, hfind, hposle⟩ : ∃ pos,
      findInsertPos w.descriptors addr parent = some pos ∧ pos ≤ w.descriptors.length := by
    by_cases haddr : addr = []
    · subst haddr
      exact ⟨_, findInsertPos_root _ _, le_refl _⟩
    · obtain ⟨pos, h1, h2, h3, h4, h5⟩ := findInsertPos_end w.descriptors addr parent haddr
        ⟨i, d, hafter, hd, hend⟩
      exact ⟨pos, h1, by omega⟩
  have hcall := createDirectory_inserts w pre name addr parent pos hslash hlen1 hlen2 hres hmm
    hfresh hfind hposle (by omega)
  have hlen : (spliceAt w.descriptors pos
      [({ offset := 0, length := 0, name := encodeName (name ++ sSTART) } : Descriptor),
       { offset := 0, length := 0, name := encodeName (name ++ sEND) }]).length =
      w.descriptors.length + 2 := by
    rw [length_spliceAt]
    rfl
  refine ⟨_, _, hcall, ?_, hlen, resolve_inserted_parent w.root _ addr parent _ pos 2 hres, ?_,
    _, mem_insertByIndex _ _, rfl, rfl⟩
  · intro he
    have := congrArg (fun x => x.descriptors.length) he
    simp only [hlen] at this
    omega
  · simp [addChild, hlump]

theorem createDirectory_lump_parent_witness :
    (loadWad (some emptyWad.fileData) = some (some emptyWad) ∧
      run emptyWad [Op.mkdir (ofString "/b"), Op.mkfile (ofString "/b/b")] = some lumpDirWad ∧
      lumpDirWad.descriptors.map descName = [ofString "b_START", ofString "b", ofString "b_END"] ∧
      (createDirectory lumpDirWad (ofString "/b/b/c")).map
          (fun w => w.descriptors.map descName) =
        some [ofString "b_START", ofString "b", ofString "c_START", ofString "c_END",
          ofString "b_END"] ∧
      ((createDirectory lumpDirWad (ofString "/b/b/c")).bind
          (fun w => resolve w.root (ofString "/b/b"))).map
          (fun r => (r.2.isDir, childKinds r.2)) = some (false, [(ofString "c", true)]) ∧
      (createDirectory lumpDirWad (ofString "/b/b/c")).map
          (fun w => isDirectory w (ofString "/b/b/c")) = some true) ∧
    ∃ w1 lump, createDirectory lumpDirWad (ofString "/b/b" ++ SLASH :: ofString "c") = some w1 ∧
      w1 ≠ lumpDirWad ∧
      w1.descriptors.length = lumpDirWad.descriptors.length + 2 ∧
      resolve w1.root (if ofString "/b/b" = [] then [SLASH] else ofString "/b/b") =
        some ([0, 0], lump) ∧
      lump.isDir = false ∧ ∃ c ∈ lump.children, c.name = ofString "c" ∧ c.isDir = true :=
  ⟨by decide,
   createDirectory_lump_parent lumpDirWad (ofString "/b/b") (ofString "c") [0, 0] lumpDirNode 2
    (Descriptor.mk 0 0 (encodeName (ofString "b_END")))
    (by decide) (by decide) (by decide) (by decide) (by decide) (by decide) (by decide)
    (by decide) (by decide) (by decide) (by decide)⟩

/-! ### `getContents` with a negative offset -/

theorem toU32_neg (z : Int) (hneg : z < 0) (hmin : -2147483648 ≤ z) :
    ((toU32 z : Nat) : Int) = z + 4294967296 := by
  unfold toU32
  have h1 : z % 4294967296 = z + 4294967296 := by omega
  rw [h1, Int.toNat_of_nonneg (by omega)]

/-- A negative offset on a lump of at most `2 ^ 31` bytes: the comparison
`offset >= node->length`, made in `unsigned`, holds, and the call returns 0
without touching the buffer. -/
theorem getContents_negative_small (w : Wad) (path addr : List Nat) (node : Node)
    (buf : List Nat) (length offset : Int)
    (hres : resolve w.root path = some (addr, node)) (hfile : node.isDir = false)
    (hsmall : node.length ≤ 2147483648) (hlen : 0 < length) (hneg : offset < 0)
    (hmin : -2147483648 ≤ offset) :
    getContents w path (some buf) length offset = some (0, some buf) := by
  have hne : path ≠ [] := by
    intro he
    rw [he] at hres
    simp [resolve] at hres
  have hn : norm path ≠ [] := by rw [Ne, norm_eq_nil_iff]; exact hne
  have hu := toU32_neg offset hneg hmin
  have hle : node.length ≤ toU32 offset := by omega
  have hl : ¬ length ≤ 0 := by omega
  simp [getContents, hn, resolve_norm, hres, hfile, hl, hle]

/-- C23 (code bug). Reads with a negative offset can leave the lump: for a
path resolving to a lump (of `uint32_t` length), a present buffer,
`length > 0` and a negative `int` offset whose conversion to `unsigned` is
smaller than the lump's length (possible when the length exceeds `2 ^ 31`),
`getContents` does not return 0: either its `memcpy` leaves the image or the
buffer, or it returns a number `k >= 1` after copying into the buffer the `k`
image bytes that start at `lump.offset + offset`, a position before
`lump.offset`. -/
theorem getContents_negative_offset (w : Wad) (path addr : List Nat) (node : Node)
    (buf : List Nat) (length offset : Int)
    (hres : resolve w.root path = some (addr, node)) (hfile : node.isDir = false)
    (h32 : node.length < 4294967296) (hlen : 0 < length) (hneg : offset < 0)
    (hmin : -2147483648 ≤ offset) (hbig : toU32 offset < node.length) :
    getContents w path (some buf) length offset = none ∨
    ∃ k start, 0 < k ∧ k ≤ buf.length ∧ start + k ≤ w.fileData.length ∧
      (start : Int) = (node.offset : Int) + offset ∧ start < node.offset ∧
      getContents w path (some buf) length offset =
        some ((k : Int), some (slice w.fileData start k ++ buf.drop k)) := by
  have hne : path ≠ [] := by
    intro he
    rw [he] at hres
    simp [resolve] at hres
  have hn : norm path ≠ [] := by rw [Ne, norm_eq_nil_iff]; exact hne
  have hu := toU32_neg offset hneg hmin
  have hl : ¬ length ≤ 0 := by omega
  have hnle : ¬ node.length ≤ toU32 offset := by omega
  obtain ⟨k, hk⟩ : ∃ k : Nat, k = (if length < ((node.length - toU32 offset : Nat) : Int)
      then length.toNat else node.length - toU32 offset) := ⟨_, rfl⟩
  have hk0 : 0 < k := by
    rw [hk]
    split_ifs <;> omega
  have hk31 : k < 2147483648 := by
    rw [hk]
    split_ifs <;> omega
  by_cases hub : (node.offset : Int) + offset < 0 ∨
      (w.fileData.length : Int) < (node.offset : Int) + offset + k ∨ buf.length < k
  · left
    simp only [getContents, hn, if_false, resolve_norm, hres, hfile, Bool.false_eq_true,
      false_or, hl, hnle, ← hk]
    rw [if_pos hub]
  · right
    have h1 : ¬ ((node.offset : Int) + offset < 0) := fun h => hub (Or.inl h)
    have h2 : ¬ ((w.fileData.length : Int) < (node.offset : Int) + offset + k) :=
      fun h => hub (Or.inr (Or.inl h))
    have h3 : ¬ (buf.length < k) := fun h => hub (Or.inr (Or.inr h))
    refine ⟨k, ((node.offset : Int) + offset).toNat, hk0, by omega, by omega, by omega,
      by omega, ?_⟩
    simp only [getContents, hn, if_false, resolve_norm, hres, hfile, Bool.false_eq_true,
      false_or, hl, hnle, ← hk]
    rw [if_neg hub, toInt32_of_lt k hk31]
    rfl

theorem getContents_negative_offset_witness :
    (loadWad (some hugeImage) = some (some (loaded hugeImage)) ∧
      resolve (loaded hugeImage).root (ofString "/a") = some ([0], hugeLump) ∧
      getContents (loaded hugeImage) (ofString "/a") (some [1, 2, 3, 4, 5]) 4 (-12) =
        some (4, some (ofString "PWAD" ++ [5]))) ∧
    (getContents (loaded hugeImage) (ofString "/a") (some [1, 2, 3, 4, 5]) 4 (-12) = none ∨
      ∃ k start, 0 < k ∧ k ≤ [1, 2, 3, 4, 5].length ∧
        start + k ≤ (loaded hugeImage).fileData.length ∧
        (start : Int) = (hugeLump.offset : Int) + (-12) ∧ start < hugeLump.offset ∧
        getContents (loaded hugeImage) (ofString "/a") (some [1, 2, 3, 4, 5]) 4 (-12) =
          some ((k : Int), some (slice (loaded hugeImage).fileData start k ++
            [1, 2, 3, 4, 5].drop k))) :=
  ⟨by decide,
   getContents_negative_offset (loaded hugeImage) (ofString "/a") [0] hugeLump [1, 2, 3, 4, 5] 4
    (-12) (by decide) (by decide) (by decide) (by decide) (by decide) (by decide) (by decide)⟩
end Project3
